import Mathlib

/-!
# Fibonacci heap (`fhp::FHeap`, src/fheap/fheap.hpp)

Shallow embedding of the pointer program.  Nodes live in a memory `Mem`
(a list of cells indexed by address, a freed or never allocated cell is `none`);
a `Node*` is an `Option Nat` (`none` is `nullptr`).  Every dereference goes
through `Mem.rd` / `Mem.modify`, which report a `Fault` on a null or dangling
pointer, so that undefined behaviour of the C++ program is visible in the model.
Loops run on fuel; running out of fuel is the fault `outOfFuel`.

Machine integers: `int` keys and degrees are `Int` (the program performs no
arithmetic on keys, and degrees are bounded by the number of nodes); `size_t`
is `Nat` (`size_` counts allocated nodes and cannot reach `2^64`; `--size_` is
written as truncated subtraction, and `Hdr.size` shows that it is only executed
with `size_ > 0` on a heap that satisfies the invariant).  `std::log2` on the
`double` value of `size_` followed by `floor` is `Nat.log2`, which is exact for
the sizes a process can hold.
-/

set_option autoImplicit false

namespace fhp

/-- The record `FHeap::Node`. -/
structure Node where
  key : Int
  parent : Option Nat
  child : Option Nat
  left : Option Nat
  right : Option Nat
  degree : Int
  mark : Bool
deriving DecidableEq

/-- Undefined behaviour of the C++ program, made explicit. -/
inductive Fault where
  | nullDeref
  | dangling
  | outOfRange
  | badSize
  | outOfFuel
deriving DecidableEq

/-- The exceptions thrown by the public operations:
`std::runtime_error("Heap is empty")`, `std::invalid_argument("Invalid handle")`,
`std::invalid_argument("New key is greater than current key")`. -/
inductive Exn where
  | EmptyHeap
  | InvalidHandle
  | InvalidArgument
deriving DecidableEq

/-- Memory: cell `a` holds the node allocated at address `a`, or `none` once deleted. -/
abbrev Mem := List (Option Node)

/-- The fields `min_` and `size_` of an `FHeap` object. -/
structure FHeap where
  min_ : Option Nat
  size_ : Nat
deriving DecidableEq

/-- The class `FHeap::Handle`. -/
structure Handle where
  ptr_ : Option Nat
deriving DecidableEq

/-- Outcome of a public operation on a state `σ`: normal return, a thrown exception
(with the state at the throw), or undefined behaviour. -/
inductive Res (σ : Type) (α : Type) where
  | ok (s : σ) (v : α)
  | throw (s : σ) (e : Exn)
  | fault (f : Fault)
deriving DecidableEq

/-- The constant `INT_MIN` of a 32-bit `int`. -/
def INT_MIN : Int := -2147483648

/-- The constant `INT_MAX` of a 32-bit `int`. -/
def INT_MAX : Int := 2147483647

/-- Read through a pointer (`p->...`). -/
def Mem.rd (m : Mem) (p : Option Nat) : Except Fault Node :=
  match p with
  | none => .error .nullDeref
  | some a =>
    match m.getD a none with
    | some n => .ok n
    | none => .error .dangling

/-- Write through a pointer (`p->field = ...`). -/
def Mem.modify (m : Mem) (p : Option Nat) (f : Node → Node) : Except Fault Mem :=
  match p with
  | none => .error .nullDeref
  | some a =>
    match m.getD a none with
    | some n => .ok (m.set a (some (f n)))
    | none => .error .dangling

/-- The call `delete p`. -/
def Mem.free (m : Mem) (p : Option Nat) : Except Fault Mem :=
  match p with
  | none => .ok m
  | some a =>
    match m.getD a none with
    | some _ => .ok (m.set a none)
    | none => .error .dangling

/-- The call `new Node(k)`: the new node sits at the first unused address.  Allocation
always succeeds (`std::bad_alloc` is not modelled). -/
def Mem.alloc (m : Mem) (k : Int) : Mem × Option Nat :=
  (m ++ [some { key := k, parent := none, child := none, left := some m.length,
                right := some m.length, degree := 0, mark := false }], some m.length)

/-- The constructor `FHeap::FHeap()`. -/
def FHeap.empty : FHeap := { min_ := none, size_ := 0 }

/-- The method `FHeap::mergeRootLists`. -/
def mergeRootLists (m : Mem) (a b : Option Nat) : Except Fault Mem :=
  if a = none ∨ b = none then pure m
  else do
    let a_left := (← m.rd a).left
    let b_left := (← m.rd b).left
    let m ← m.modify a (fun n => { n with left := b_left })
    let m ← m.modify b_left (fun n => { n with right := a })
    let m ← m.modify b (fun n => { n with left := a_left })
    let m ← m.modify a_left (fun n => { n with right := b })
    pure m

/-- The method `FHeap::Insert`. -/
def Insert (m : Mem) (h : FHeap) (key : Int) : Res (Mem × FHeap) Handle :=
  let (m, node) := m.alloc key
  if h.min_ = none then
    .ok (m, { min_ := node, size_ := h.size_ + 1 }) ⟨node⟩
  else
    match (do
      let m ← mergeRootLists m h.min_ node
      let h := if (← m.rd node).key < (← m.rd h.min_).key then { h with min_ := node } else h
      pure (m, h)) with
    | .error f => .fault f
    | .ok (m, h) => .ok (m, { h with size_ := h.size_ + 1 }) ⟨node⟩

/-- The method `FHeap::GetMin`. -/
def GetMin (m : Mem) (h : FHeap) : Res (Mem × FHeap) Int :=
  if h.min_ = none then .throw (m, h) .EmptyHeap
  else
    match m.rd h.min_ with
    | .error f => .fault f
    | .ok n => .ok (m, h) n.key

/-- The method `FHeap::GetSize`. -/
def GetSize (h : FHeap) : Nat := h.size_

/-- The method `FHeap::Merge`; `h` is `*this`, the state is memory, `*this` and `other`. -/
def Merge (m : Mem) (h other : FHeap) : Res (Mem × FHeap × FHeap) Unit :=
  if other.min_ = none then .ok (m, h, other) ()
  else if h.min_ = none then
    .ok (m, { min_ := other.min_, size_ := other.size_ }, { min_ := none, size_ := 0 }) ()
  else
    match (do
      let m ← mergeRootLists m h.min_ other.min_
      let h := if (← m.rd other.min_).key < (← m.rd h.min_).key
               then { h with min_ := other.min_ } else h
      pure (m, { h with size_ := h.size_ + other.size_ })) with
    | .error f => .fault f
    | .ok (m, h) => .ok (m, h, { min_ := none, size_ := 0 }) ()

/-- The loop `do { x->parent = nullptr; x = x->right; } while (x != start)` of `ExtractMin`. -/
def clearParents (start : Option Nat) : Nat → Mem → Option Nat → Except Fault Mem
  | 0, _, _ => .error .outOfFuel
  | fuel + 1, m, x => do
    let m ← m.modify x (fun n => { n with parent := none })
    let x := (← m.rd x).right
    if x = start then pure m else clearParents start fuel m x

/-- The loop `do { roots.push_back(curr); curr = curr->right; } while (curr != start)`
of `consolidate`. -/
def collectRoots (m : Mem) (start : Option Nat) :
    Nat → Option Nat → List (Option Nat) → Except Fault (List (Option Nat))
  | 0, _, _ => .error .outOfFuel
  | fuel + 1, curr, roots => do
    let roots := roots ++ [curr]
    let curr := (← m.rd curr).right
    if curr = start then pure roots else collectRoots m start fuel curr roots

/-- The loop `for (Node* x : roots) { x->left = x; x->right = x; }` of `consolidate`. -/
def detachAll : Mem → List (Option Nat) → Except Fault Mem
  | m, [] => pure m
  | m, x :: xs => do
    let m ← m.modify x (fun n => { n with left := x })
    let m ← m.modify x (fun n => { n with right := x })
    detachAll m xs

/-- Read `tree_ptrs[d]`; an index outside the vector is undefined behaviour. -/
def tget (t : List (Option Nat)) (d : Int) : Except Fault (Option Nat) :=
  if 0 ≤ d ∧ d.toNat < t.length then .ok (t.getD d.toNat none) else .error .outOfRange

/-- Write `tree_ptrs[d] = v`; an index outside the vector is undefined behaviour. -/
def tset (t : List (Option Nat)) (d : Int) (v : Option Nat) : Except Fault (List (Option Nat)) :=
  if 0 ≤ d ∧ d.toNat < t.length then .ok (t.set d.toNat v) else .error .outOfRange

/-- The statements of the link step of `consolidate` that follow the swap,
from `y->parent = x` to `x->degree++`: `y` becomes a child of `x`. -/
def link (m : Mem) (x y : Option Nat) : Except Fault Mem := do
  let m ← m.modify y (fun n => { n with parent := x })
  let m ← m.modify y (fun n => { n with mark := false })
  let m ←
    if (← m.rd x).child = none then do
      let m ← m.modify x (fun n => { n with child := y })
      let m ← m.modify y (fun n => { n with left := y })
      m.modify y (fun n => { n with right := y })
    else do
      mergeRootLists m (← m.rd x).child y
  m.modify x (fun n => { n with degree := n.degree + 1 })

/-- The inner loop `while (tree_ptrs[d] != nullptr) { ... }` of `consolidate`;
returns memory, table, `x` and `d` at loop exit. -/
def linkLoop : Nat → Mem → List (Option Nat) → Option Nat → Int →
    Except Fault (Mem × List (Option Nat) × Option Nat × Int)
  | 0, _, _, _, _ => .error .outOfFuel
  | fuel + 1, m, t, x, d => do
    let y ← tget t d
    if y = none then pure (m, t, x, d)
    else do
      let (x, y) := if (← m.rd x).key > (← m.rd y).key then (y, x) else (x, y)
      let m ← link m x y
      let t ← tset t d none
      let d := d + 1
      let t := if d ≥ (t.length : Int) then t ++ List.replicate (d.toNat + 1 - t.length) none else t
      linkLoop fuel m t x d

/-- The loop `for (Node* x : roots) { int d = x->degree; while ...; tree_ptrs[d] = x; }`. -/
def processRoots : Mem → List (Option Nat) → List (Option Nat) →
    Except Fault (Mem × List (Option Nat))
  | m, t, [] => pure (m, t)
  | m, t, x :: xs => do
    let d := (← m.rd x).degree
    let (m, t, x, d) ← linkLoop (t.length + 1) m t x d
    let t ← tset t d x
    processRoots m t xs

/-- The loop `for (Node* node : tree_ptrs) { ... }` of `consolidate` that rebuilds the
root list and `min_`. -/
def rebuild : Mem → Option Nat → List (Option Nat) → Except Fault (Mem × Option Nat)
  | m, mn, [] => pure (m, mn)
  | m, mn, node :: rest =>
    if node ≠ none then do
      let m ← m.modify node (fun n => { n with left := node })
      let m ← m.modify node (fun n => { n with right := node })
      let m ← m.modify node (fun n => { n with parent := none })
      let m ← m.modify node (fun n => { n with mark := false })
      if mn = none then rebuild m node rest
      else do
        let m ← mergeRootLists m mn node
        let mn := if (← m.rd node).key < (← m.rd mn).key then node else mn
        rebuild m mn rest
    else rebuild m mn rest

/-- The method `FHeap::consolidate`.  `max_degree` is `floor(log2(size_) + 1)`; for `size_ = 0`
the conversion of `-inf` to `size_t` is undefined. -/
def consolidate (m : Mem) (h : FHeap) : Except Fault (Mem × FHeap) :=
  if h.min_ = none then pure (m, h)
  else do
    if h.size_ = 0 then throw Fault.badSize
    let max_degree := Nat.log2 h.size_ + 1
    let tree_ptrs : List (Option Nat) := List.replicate (max_degree + 1) none
    let start := h.min_
    let roots ← collectRoots m start m.length start []
    let m ← detachAll m roots
    let (m, tree_ptrs) ← processRoots m tree_ptrs roots
    let (m, mn) ← rebuild m none tree_ptrs
    pure (m, { h with min_ := mn })

/-- The block `if (z->child != nullptr) { ... }` of `ExtractMin`: the children of `z`
lose their parent pointer and their list is spliced into the root list. -/
def promoteChildren (m : Mem) (h : FHeap) (z : Option Nat) : Except Fault Mem := do
  if (← m.rd z).child ≠ none then do
    let start := (← m.rd z).child
    let m ← clearParents start m.length m start
    mergeRootLists m h.min_ (← m.rd z).child
  else pure m

/-- The statements `z->left->right = z->right; z->right->left = z->left;` of `ExtractMin`. -/
def unlinkMin (m : Mem) (z : Option Nat) : Except Fault Mem := do
  let zr := (← m.rd z).right
  let m ← m.modify (← m.rd z).left (fun n => { n with right := zr })
  let zl := (← m.rd z).left
  m.modify (← m.rd z).right (fun n => { n with left := zl })

/-- The body of `FHeap::ExtractMin` after the emptiness check. -/
def extractMinBody (m : Mem) (h : FHeap) : Except Fault (Mem × FHeap × Int) := do
  let z := h.min_
  let key := (← m.rd z).key
  let m ← promoteChildren m h z
  let m ← unlinkMin m z
  let (m, h) ←
    if z = (← m.rd z).right then pure (m, { h with min_ := none })
    else consolidate m { h with min_ := (← m.rd z).right }
  let m ← m.free z
  pure (m, { h with size_ := h.size_ - 1 }, key)

/-- The method `FHeap::ExtractMin`. -/
def ExtractMin (m : Mem) (h : FHeap) : Res (Mem × FHeap) Int :=
  if h.min_ = none then .throw (m, h) .EmptyHeap
  else
    match extractMinBody m h with
    | .error f => .fault f
    | .ok (m, h, key) => .ok (m, h) key

/-- The method `FHeap::cut`. -/
def cut (m : Mem) (h : FHeap) (x y : Option Nat) : Except Fault (Mem × FHeap) := do
  let m ←
    if (← m.rd x).right = x then
      m.modify y (fun n => { n with child := none })
    else do
      let m ←
        if (← m.rd y).child = x then do
          let xr := (← m.rd x).right
          m.modify y (fun n => { n with child := xr })
        else pure m
      let xr := (← m.rd x).right
      let m ← m.modify (← m.rd x).left (fun n => { n with right := xr })
      let xl := (← m.rd x).left
      m.modify (← m.rd x).right (fun n => { n with left := xl })
  let m ← m.modify y (fun n => { n with degree := n.degree - 1 })
  let m ← m.modify x (fun n => { n with parent := none })
  let m ← m.modify x (fun n => { n with mark := false })
  let m ← m.modify x (fun n => { n with left := x })
  let m ← m.modify x (fun n => { n with right := x })
  if h.min_ = none then pure (m, { h with min_ := x })
  else do
    let m ← mergeRootLists m h.min_ x
    if (← m.rd x).key < (← m.rd h.min_).key then pure (m, { h with min_ := x })
    else pure (m, h)

/-- The method `FHeap::cascadingCut`; the recursion runs on fuel. -/
def cascadingCut : Nat → Mem → FHeap → Option Nat → Except Fault (Mem × FHeap)
  | 0, _, _, _ => .error .outOfFuel
  | fuel + 1, m, h, y => do
    let z := (← m.rd y).parent
    if z ≠ none then do
      if !(← m.rd y).mark then do
        let m ← m.modify y (fun n => { n with mark := true })
        pure (m, h)
      else do
        let (m, h) ← cut m h y z
        cascadingCut fuel m h z
    else pure (m, h)

/-- The body of `FHeap::DecreaseKey` after the two checks. -/
def decreaseKeyBody (m : Mem) (h : FHeap) (x : Option Nat) (newKey : Int) :
    Except Fault (Mem × FHeap) := do
  let m ← m.modify x (fun n => { n with key := newKey })
  let y := (← m.rd x).parent
  let (m, h) ←
    if y ≠ none then do
      if (← m.rd x).key < (← m.rd y).key then do
        let (m, h) ← cut m h x y
        cascadingCut m.length m h y
      else pure (m, h)
    else pure (m, h)
  if h.min_ = none then pure (m, { h with min_ := x })
  else do
    if (← m.rd x).key < (← m.rd h.min_).key then pure (m, { h with min_ := x })
    else pure (m, h)

/-- The method `FHeap::DecreaseKey`. -/
def DecreaseKey (m : Mem) (h : FHeap) (hd : Handle) (newKey : Int) : Res (Mem × FHeap) Unit :=
  if hd.ptr_ = none then .throw (m, h) .InvalidHandle
  else
    let x := hd.ptr_
    match m.rd x with
    | .error f => .fault f
    | .ok nx =>
      if newKey > nx.key then .throw (m, h) .InvalidArgument
      else
        match decreaseKeyBody m h x newKey with
        | .error f => .fault f
        | .ok (m, h) => .ok (m, h) ()

/-- The method `FHeap::Erase`: `DecreaseKey(h, INT_MIN); ExtractMin();`. -/
def Erase (m : Mem) (h : FHeap) (hd : Handle) : Res (Mem × FHeap) Unit :=
  match DecreaseKey m h hd INT_MIN with
  | .fault f => .fault f
  | .throw s e => .throw s e
  | .ok (m, h) _ =>
    match ExtractMin m h with
    | .fault f => .fault f
    | .throw s e => .throw s e
    | .ok s _ => .ok s ()

/-! ## Observations on memory used in specifications -/

/-- Contents of an unallocated cell, as seen by `Mem.get`. -/
def dflt : Node :=
  { key := 0, parent := none, child := none, left := none, right := none, degree := 0,
    mark := false }

/-- The node stored at address `a` (`dflt` when the cell is not allocated). -/
def Mem.get (m : Mem) (a : Nat) : Node := (m.getD a none).getD dflt

/-- Address `a` holds an allocated node. -/
def Mem.live (m : Mem) (a : Nat) : Prop := (m.getD a none).isSome = true

/-- Memory after a successful `Mem.modify` at `a`. -/
def Mem.upd (m : Mem) (a : Nat) (f : Node → Node) : Mem := m.set a ((m.getD a none).map f)

/-- Successor of `x` in the list `l` read cyclically. -/
def csucc (l : List Nat) (x : Nat) : Nat := l.nextOr x (l.headD x)

/-- The nodes of `l` form a circular doubly linked list in the order of `l`:
`right` leads to the cyclic successor and `left` leads back. -/
def Ring (m : Mem) (l : List Nat) : Prop :=
  l.Nodup ∧ ∀ x ∈ l, (m.get x).right = some (csucc l x) ∧ (m.get (csucc l x)).left = some x

/-- Nodes `n` and `n'` agree on every field but `left` and `right`. -/
def sameData (n n' : Node) : Prop :=
  n'.key = n.key ∧ n'.parent = n.parent ∧ n'.child = n.child ∧ n'.degree = n.degree ∧
    n'.mark = n.mark

/-! ## Representation invariant

The invariant is stated with specification-only data (`Ghost`): the order of the
root list, the order of every child list, a rank that decreases from parent to child,
and a flag recording that no `cut` has happened yet. -/

/-- Specification-only description of a forest. -/
structure Ghost where
  roots : List Nat
  kids : Nat → List Nat
  rk : Nat → Nat
  bound : Nat
  cutFree : Bool

/-- Pointer structure of the forest with node set `S` (everything except the root ring,
the marks of roots, heap order and sizes). -/
structure Shape (g : Ghost) (m : Mem) (S : List Nat) : Prop where
  nodup : S.Nodup
  live : ∀ x, x ∈ S → m.live x
  roots_nodup : g.roots.Nodup
  roots_iff : ∀ x, x ∈ g.roots ↔ x ∈ S ∧ (m.get x).parent = none
  kids_ring : ∀ x, x ∈ S → Ring m (g.kids x)
  kids_iff : ∀ x, x ∈ S → ∀ c, c ∈ g.kids x ↔ c ∈ S ∧ (m.get c).parent = some x
  parent_mem : ∀ c, c ∈ S → ∀ p, (m.get c).parent = some p → p ∈ S
  child_none : ∀ x, x ∈ S → (m.get x).child = none → g.kids x = []
  child_some : ∀ x, x ∈ S → ∀ c, (m.get x).child = some c → c ∈ g.kids x
  degree : ∀ x, x ∈ S → (m.get x).degree = ((g.kids x).length : Int)
  rk_lt : ∀ c, c ∈ S → ∀ p, (m.get c).parent = some p → g.rk c < g.rk p
  rk_le : ∀ x, x ∈ S → g.rk x ≤ g.bound

/-- Heap order: the key of a parent is at most the key of its child. -/
def Ordered (m : Mem) (S : List Nat) : Prop :=
  ∀ c, c ∈ S → ∀ p, (m.get c).parent = some p → (m.get p).key ≤ (m.get c).key

/-- Every tree is a binomial tree: a node with `d` children heads `2 ^ d` nodes. -/
def Binom (g : Ghost) (S : List Nat) : Prop :=
  (∀ x, x ∈ S →
    1 + ((g.kids x).map (fun c => 2 ^ (g.kids c).length)).sum = 2 ^ (g.kids x).length) ∧
  (g.roots.map (fun r => 2 ^ (g.kids r).length)).sum = S.length

/-- The children of every node can be listed in an order (the order in which they were
linked) such that the child at position `j` has at least `j` children, or `j - 1` when it
is marked; the node `e`, if any, has just lost a child and may miss one more. -/
def Thin (m : Mem) (S : List Nat) (e : Option Nat) : Prop :=
  ∀ x, x ∈ S → ∃ ord : List Nat, ord.Nodup ∧
    (∀ c, c ∈ ord ↔ c ∈ S ∧ (m.get c).parent = some x) ∧
    ∀ (j c : Nat), ord[j]? = some c →
      (j : Int) ≤ (m.get c).degree + (if (m.get c).mark = true then 1 else 0) +
        (if e = some c then 1 else 0)

/-- The forest without its root ring (the state inside `consolidate`). -/
structure Trees (g : Ghost) (m : Mem) (S : List Nat) : Prop where
  shape : Shape g m S
  order : Ordered m S
  binom : g.cutFree = true → Binom g S
  thin : Thin m S none

/-- The forest between two public calls: the roots form a ring and are unmarked. -/
structure Forest (g : Ghost) (m : Mem) (S : List Nat) : Prop where
  trees : Trees g m S
  ring : Ring m g.roots
  unmarked : ∀ x, x ∈ g.roots → (m.get x).mark = false

/-- The fields `min_` and `size_` describe the forest. -/
structure Hdr (g : Ghost) (m : Mem) (h : FHeap) (S : List Nat) : Prop where
  size : h.size_ = S.length
  min_none : h.min_ = none → g.roots = []
  min_some : ∀ r, h.min_ = some r →
    r ∈ g.roots ∧ ∀ x, x ∈ g.roots → (m.get r).key ≤ (m.get x).key

/-- Representation invariant of a heap `h` that owns the nodes `S` in memory `m`. -/
def Inv (m : Mem) (h : FHeap) (S : List Nat) : Prop :=
  ∃ g, Forest g m S ∧ Hdr g m h S

/-- Invariant of the bucket loop of `consolidate`: `t` is the table `tree_ptrs` and
`rest` the snapshot roots not yet placed in the table. -/
structure TabInv (g : Ghost) (m : Mem) (S : List Nat) (t : List (Option Nat))
    (rest : List Nat) : Prop where
  trees : Trees g m S
  detached : ∀ x, x ∈ g.roots → (m.get x).left = some x ∧ (m.get x).right = some x
  tab : ∀ d y, t.getD d none = some y → y ∈ g.roots ∧ y ∉ rest ∧ (g.kids y).length = d
  covered : ∀ x, x ∈ g.roots → x ∈ rest ∨ ∃ d, t.getD d none = some x
  rest_sub : ∀ x, x ∈ rest → x ∈ g.roots
  rest_nodup : rest.Nodup

/-- Invariant of the loop of `consolidate` that rebuilds the root list: `acc` is the ring
built so far, `mn` the running `min_`, and `E` the table entries still to be added. -/
structure RebInv (g : Ghost) (m : Mem) (S : List Nat) (acc : List Nat) (mn : Option Nat)
    (E : List Nat) : Prop where
  trees : Trees g m S
  ring : Ring m acc
  nodup : (acc ++ E).Nodup
  roots_iff : ∀ x, x ∈ g.roots ↔ x ∈ acc ∨ x ∈ E
  detached : ∀ x, x ∈ E → (m.get x).left = some x ∧ (m.get x).right = some x
  unmarked : ∀ x, x ∈ acc → (m.get x).mark = false
  min_none : mn = none → acc = []
  min_some : ∀ r, mn = some r → r ∈ acc ∧ ∀ x, x ∈ acc → (m.get r).key ≤ (m.get x).key

/-! ## Specification functions for the cascading cut -/

/-- The consecutively marked non-root nodes met when walking up from `y` along parent
pointers, `y` included; the walk stops at the first node that is a root or unmarked. -/
def markedRun (m : Mem) : Nat → Nat → List Nat
  | 0, _ => []
  | fuel + 1, y =>
    match (m.get y).parent with
    | none => []
    | some z => if (m.get y).mark = true then y :: markedRun m fuel z else []

/-- The node at which the walk of `markedRun` stops. -/
def runStop (m : Mem) : Nat → Nat → Nat
  | 0, y => y
  | fuel + 1, y =>
    match (m.get y).parent with
    | none => y
    | some z => if (m.get y).mark = true then runStop m fuel z else y

/-! ## Clients of the heap: handles, test loops, histories of calls -/

/-- The constructor `FHeap::Handle::Handle()`: the default-constructed handle holds `nullptr`. -/
def Handle.default : Handle := { ptr_ := none }

/-- The loop `for (int x : data) { heap.Insert(x); }` of the tests. -/
def insertAll : Mem → FHeap → List Int → Res (Mem × FHeap) Unit
  | m, h, [] => .ok (m, h) ()
  | m, h, k :: ks =>
    match Insert m h k with
    | .ok (m, h) _ => insertAll m h ks
    | .throw s e => .throw s e
    | .fault f => .fault f

/-- The loop `while (heap.GetSize() > 0) { extracted.push_back(heap.ExtractMin()); }`
of the tests (a full drain); the loop runs on fuel. -/
def drain : Nat → Mem → FHeap → Res (Mem × FHeap) (List Int)
  | 0, _, _ => .fault .outOfFuel
  | fuel + 1, m, h =>
    if GetSize h > 0 then
      match ExtractMin m h with
      | .ok (m, h) k =>
        match drain fuel m h with
        | .ok s ks => .ok s (k :: ks)
        | .throw s e => .throw s e
        | .fault f => .fault f
      | .throw s e => .throw s e
      | .fault f => .fault f
    else .ok (m, h) []

/-- A full drain that calls `GetMin` before each `ExtractMin` and records both values
(the loop of the test `InsertAndExtractAll` without its expectations). -/
def drainMin : Nat → Mem → FHeap → Res (Mem × FHeap) (List (Int × Int))
  | 0, _, _ => .fault .outOfFuel
  | fuel + 1, m, h =>
    if GetSize h > 0 then
      match GetMin m h with
      | .ok (m, h) a =>
        match ExtractMin m h with
        | .ok (m, h) b =>
          match drainMin fuel m h with
          | .ok s ks => .ok s ((a, b) :: ks)
          | .throw s e => .throw s e
          | .fault f => .fault f
        | .throw s e => .throw s e
        | .fault f => .fault f
      | .throw s e => .throw s e
      | .fault f => .fault f
    else .ok (m, h) []

/-- The nodes of the forest of `h`: those reached from `min_` through `right` and `child`
pointers. -/
inductive InForest (m : Mem) (h : FHeap) : Nat → Prop where
  | min {r : Nat} : h.min_ = some r → InForest m h r
  | right {x y : Nat} : InForest m h x → (m.get x).right = some y → InForest m h y
  | child {x y : Nat} : InForest m h x → (m.get x).child = some y → InForest m h y

/-- The list `S` enumerates the nodes of the forest of `h` without repetition. -/
def Owns (m : Mem) (h : FHeap) (S : List Nat) : Prop :=
  S.Nodup ∧ ∀ x, x ∈ S ↔ InForest m h x

/-- The multiset of the keys stored in the nodes `S`. -/
def keysOf (m : Mem) (S : List Nat) : Multiset Int :=
  Multiset.ofList (S.map (fun x => (m.get x).key))

/-- Several heap objects sharing one memory; a heap is named by its index in `heaps`. -/
structure World where
  mem : Mem
  heaps : List FHeap
deriving DecidableEq

/-- A public call that returned normally and may have changed the state.  Heaps are named
by index, a handle by the address of its node. -/
inductive Call where
  | newHeap
  | insert (i : Nat) (k : Int)
  | extractMin (i : Nat)
  | decreaseKey (i : Nat) (p : Nat) (k : Int)
  | erase (i : Nat) (p : Nat)
  | merge (i j : Nat)
deriving DecidableEq

/-- The value `k` is a 32-bit `int`. -/
def isInt (k : Int) : Prop := INT_MIN ≤ k ∧ k ≤ INT_MAX

instance (k : Int) : Decidable (isInt k) := by unfold isInt; infer_instance

/-- The world `w` is reached from the world without heaps by the calls `cs` (in order).
Every call returned normally; handles are valid: they refer to a node of the forest of the
heap they are used with; `Merge` is called on two different heaps; keys are `int`s. -/
inductive Reach : List Call → World → Prop where
  | init : Reach [] { mem := [], heaps := [] }
  | newHeap {cs : List Call} {w : World} : Reach cs w →
      Reach (cs ++ [.newHeap]) { mem := w.mem, heaps := w.heaps ++ [FHeap.empty] }
  | insert {cs : List Call} {w : World} {i : Nat} {h h' : FHeap} {k : Int} {m' : Mem}
      {hd : Handle} : Reach cs w → w.heaps[i]? = some h → isInt k →
      Insert w.mem h k = .ok (m', h') hd →
      Reach (cs ++ [.insert i k]) { mem := m', heaps := w.heaps.set i h' }
  | extractMin {cs : List Call} {w : World} {i : Nat} {h h' : FHeap} {k : Int} {m' : Mem} :
      Reach cs w → w.heaps[i]? = some h →
      ExtractMin w.mem h = .ok (m', h') k →
      Reach (cs ++ [.extractMin i]) { mem := m', heaps := w.heaps.set i h' }
  | decreaseKey {cs : List Call} {w : World} {i p : Nat} {h h' : FHeap} {k : Int} {m' : Mem} :
      Reach cs w → w.heaps[i]? = some h → InForest w.mem h p → isInt k →
      DecreaseKey w.mem h { ptr_ := some p } k = .ok (m', h') () →
      Reach (cs ++ [.decreaseKey i p k]) { mem := m', heaps := w.heaps.set i h' }
  | erase {cs : List Call} {w : World} {i p : Nat} {h h' : FHeap} {m' : Mem} :
      Reach cs w → w.heaps[i]? = some h → InForest w.mem h p →
      Erase w.mem h { ptr_ := some p } = .ok (m', h') () →
      Reach (cs ++ [.erase i p]) { mem := m', heaps := w.heaps.set i h' }
  | merge {cs : List Call} {w : World} {i j : Nat} {h o h' o' : FHeap} {m' : Mem} :
      Reach cs w → i ≠ j → w.heaps[i]? = some h → w.heaps[j]? = some o →
      Merge w.mem h o = .ok (m', h', o') () →
      Reach (cs ++ [.merge i j]) { mem := m', heaps := (w.heaps.set i h').set j o' }

/-- Number of `Insert` calls on heap `i` in a history. -/
def inserts (i : Nat) (cs : List Call) : Nat :=
  cs.countP (fun c => match c with
    | .insert j _ => j == i
    | _ => false)

/-- Number of `ExtractMin` and `Erase` calls on heap `i` in a history. -/
def removals (i : Nat) (cs : List Call) : Nat :=
  cs.countP (fun c => match c with
    | .extractMin j => j == i
    | .erase j _ => j == i
    | _ => false)

/-- The history contains no `Merge` call. -/
def mergeFree (cs : List Call) : Bool :=
  cs.all (fun c => match c with
    | .merge _ _ => false
    | _ => true)

/-- Depth-first traversal along `right` and `child` pointers from the addresses on the
stack; returns the addresses seen. -/
def visit (m : Mem) : Nat → List Nat → List Nat → List Nat
  | 0, _, seen => seen
  | _ + 1, [], seen => seen
  | fuel + 1, x :: stack, seen =>
    if x ∈ seen then visit m fuel stack seen
    else visit m fuel ((m.get x).right.toList ++ (m.get x).child.toList ++ stack) (x :: seen)

/-- Addresses found by a traversal of the forest of `h`. -/
def nodesOf (m : Mem) (h : FHeap) : List Nat := visit m (3 * m.length + 1) h.min_.toList []

/-- Execute one call of a history; `none` when the call is not admitted by `Reach`
(unknown heap, handle not in the forest, key out of range) or does not return normally. -/
def exec (w : World) : Call → Option World
  | .newHeap => some { mem := w.mem, heaps := w.heaps ++ [FHeap.empty] }
  | .insert i k =>
    match w.heaps[i]? with
    | none => none
    | some h =>
      if isInt k then
        match Insert w.mem h k with
        | .ok (m', h') _ => some { mem := m', heaps := w.heaps.set i h' }
        | _ => none
      else none
  | .extractMin i =>
    match w.heaps[i]? with
    | none => none
    | some h =>
      match ExtractMin w.mem h with
      | .ok (m', h') _ => some { mem := m', heaps := w.heaps.set i h' }
      | _ => none
  | .decreaseKey i p k =>
    match w.heaps[i]? with
    | none => none
    | some h =>
      if p ∈ nodesOf w.mem h ∧ isInt k then
        match DecreaseKey w.mem h { ptr_ := some p } k with
        | .ok (m', h') _ => some { mem := m', heaps := w.heaps.set i h' }
        | _ => none
      else none
  | .erase i p =>
    match w.heaps[i]? with
    | none => none
    | some h =>
      if p ∈ nodesOf w.mem h then
        match Erase w.mem h { ptr_ := some p } with
        | .ok (m', h') _ => some { mem := m', heaps := w.heaps.set i h' }
        | _ => none
      else none
  | .merge i j =>
    match w.heaps[i]?, w.heaps[j]? with
    | some h, some o =>
      if i ≠ j then
        match Merge w.mem h o with
        | .ok (m', h', o') _ => some { mem := m', heaps := (w.heaps.set i h').set j o' }
        | _ => none
      else none
    | _, _ => none

/-- Execute a history from the world `w`. -/
def run (w : World) : List Call → Option World
  | [] => some w
  | c :: cs =>
    match exec w c with
    | some w' => run w' cs
    | none => none

/-- The world without heaps. -/
def World.init : World := { mem := [], heaps := [] }

/-- Run the history `cs` from the world without heaps and test the world reached. -/
def check (cs : List Call) (f : World → Bool) : Bool :=
  match run World.init cs with
  | none => false
  | some w => f w

/-- History: 33 inserts of the keys 0..32 into one heap, one `ExtractMin`, and 17 `Erase`
calls that thin the remaining tree of degree 5 down to 13 nodes; 15 nodes are left. -/
def thinTree : List Call :=
  [Call.newHeap] ++ (List.range 33).map (fun k => Call.insert 0 (k : Int)) ++
    [Call.extractMin 0] ++
    ([4, 7, 13, 12, 25, 20, 23, 8, 14, 15, 16, 24, 26, 27, 28, 29, 30].map (Call.erase 0))

/-- A small history with two heaps: keys 5, 3, 8 in heap 0 and key 4 in heap 1. -/
def sampleCalls : List Call :=
  [Call.newHeap, Call.newHeap, Call.insert 0 5, Call.insert 0 3, Call.insert 1 4,
   Call.insert 0 8]

/-- The world reached by `sampleCalls`. -/
def sampleWorld : World := (run World.init sampleCalls).getD World.init

/-- Heap 0 of `sampleWorld`: three root nodes, `min_` is the node with key 3. -/
def sampleHeap : FHeap := { min_ := some 1, size_ := 3 }

/-- A history in which heap 0 receives a node through `Merge` without any `Insert`. -/
def mergeCalls : List Call :=
  [Call.newHeap, Call.newHeap, Call.insert 1 7, Call.merge 0 1]

/-- The keys found by a traversal of the forest of `h`. -/
def keyList (m : Mem) (h : FHeap) : List Int := (nodesOf m h).map (fun x => (m.get x).key)

/-- Invariant of a world: heap `i` owns the nodes `own i`, satisfies the representation
invariant, stores `int` keys, and different heaps own different nodes. -/
structure WInv (w : World) (own : Nat → List Nat) : Prop where
  inv : ∀ i h, w.heaps[i]? = some h → Inv w.mem h (own i)
  keys : ∀ i h, w.heaps[i]? = some h → ∀ x, x ∈ own i → isInt (w.mem.get x).key
  disj : ∀ i j hi hj, i ≠ j → w.heaps[i]? = some hi → w.heaps[j]? = some hj →
    ∀ x, x ∈ own i → x ∉ own j

/-- Bookkeeping of sizes along a history: an index that names no heap yet has no calls,
and without `Merge` the size of a heap is its inserts minus its removals. -/
def Tally (cs : List Call) (w : World) : Prop :=
  (∀ k, w.heaps.length ≤ k → inserts k cs = 0 ∧ removals k cs = 0) ∧
  (mergeFree cs = true → ∀ k hk, w.heaps[k]? = some hk →
    hk.size_ + removals k cs = inserts k cs)

/-! ## States used as examples -/

/-- History: three inserts and one `ExtractMin`, which links the two remaining nodes. -/
def linkedCalls : List Call :=
  [Call.newHeap, Call.insert 0 1, Call.insert 0 2, Call.insert 0 3, Call.extractMin 0]

/-- The world reached by `linkedCalls`: the node at address 1 (key 2) is the only root and
the node at address 2 (key 3) is its child. -/
def linkedWorld : World :=
  { mem := [
    none,
    some { key := 2, parent := none, child := some 2,
           left := some 1, right := some 1, degree := 1, mark := false },
    some { key := 3, parent := some 1, child := none,
           left := some 2, right := some 2, degree := 0, mark := false }],
    heaps := [{ min_ := some 1, size_ := 2 }] }

/-- The heap of `linkedWorld`. -/
def linkedHeap : FHeap := { min_ := some 1, size_ := 2 }

/-- The state returned by `ExtractMin` on heap 0 of `sampleWorld`: the node with key 3 is
deleted and the nodes with keys 5 and 8 are linked. -/
def sampleAfter : Mem × FHeap :=
  ([
     some { key := 5, parent := none, child := some 3,
            left := some 0, right := some 0, degree := 1, mark := false },
     none,
     some { key := 4, parent := none, child := none,
            left := some 2, right := some 2, degree := 0, mark := false },
     some { key := 8, parent := some 0, child := none,
            left := some 3, right := some 3, degree := 0, mark := false }],
   { min_ := some 0, size_ := 2 })

/-- The world reached by `thinTree`: the root at address 1 has degree 5 and heads 13 nodes;
the nodes at addresses 21 and 17 are marked and form a chain below the root. -/
def thinWorld : World :=
  { mem := [
    none,
    some { key := 1, parent := none, child := some 2,
           left := some 31, right := some 31, degree := 5, mark := false },
    some { key := 2, parent := some 1, child := none,
           left := some 17, right := some 3, degree := 0, mark := false },
    some { key := 3, parent := some 1, child := none,
           left := some 2, right := some 5, degree := 0, mark := true },
    none,
    some { key := 5, parent := some 1, child := some 6,
           left := some 3, right := some 9, degree := 1, mark := true },
    some { key := 6, parent := some 5, child := none,
           left := some 6, right := some 6, degree := 0, mark := false },
    none, none,
    some { key := 9, parent := some 1, child := some 10,
           left := some 5, right := some 17, degree := 2, mark := true },
    some { key := 10, parent := some 9, child := none,
           left := some 11, right := some 11, degree := 0, mark := false },
    some { key := 11, parent := some 9, child := none,
           left := some 10, right := some 10, degree := 0, mark := true },
    none, none, none, none, none,
    some { key := 17, parent := some 1, child := some 18,
           left := some 9, right := some 2, degree := 3, mark := true },
    some { key := 18, parent := some 17, child := none,
           left := some 21, right := some 19, degree := 0, mark := false },
    some { key := 19, parent := some 17, child := none,
           left := some 18, right := some 21, degree := 0, mark := true },
    none,
    some { key := 21, parent := some 17, child := some 22,
           left := some 19, right := some 18, degree := 1, mark := true },
    some { key := 22, parent := some 21, child := none,
           left := some 22, right := some 22, degree := 0, mark := false },
    none, none, none, none, none, none, none, none,
    some { key := 31, parent := none, child := some 32,
           left := some 1, right := some 1, degree := 1, mark := false },
    some { key := 32, parent := some 31, child := none,
           left := some 32, right := some 32, degree := 0, mark := false }],
    heaps := [{ min_ := some 1, size_ := 15 }] }

/-- The heap of `thinWorld`. -/
def thinHeap : FHeap := { min_ := some 1, size_ := 15 }

/-- The world reached by `thinTree` followed by `DecreaseKey(31, 0)`. -/
def thinWorldMin : World :=
  { mem := [
    none,
    some { key := 1, parent := none, child := some 2,
           left := some 31, right := some 31, degree := 5, mark := false },
    some { key := 2, parent := some 1, child := none,
           left := some 17, right := some 3, degree := 0, mark := false },
    some { key := 3, parent := some 1, child := none,
           left := some 2, right := some 5, degree := 0, mark := true },
    none,
    some { key := 5, parent := some 1, child := some 6,
           left := some 3, right := some 9, degree := 1, mark := true },
    some { key := 6, parent := some 5, child := none,
           left := some 6, right := some 6, degree := 0, mark := false },
    none, none,
    some { key := 9, parent := some 1, child := some 10,
           left := some 5, right := some 17, degree := 2, mark := true },
    some { key := 10, parent := some 9, child := none,
           left := some 11, right := some 11, degree := 0, mark := false },
    some { key := 11, parent := some 9, child := none,
           left := some 10, right := some 10, degree := 0, mark := true },
    none, none, none, none, none,
    some { key := 17, parent := some 1, child := some 18,
           left := some 9, right := some 2, degree := 3, mark := true },
    some { key := 18, parent := some 17, child := none,
           left := some 21, right := some 19, degree := 0, mark := false },
    some { key := 19, parent := some 17, child := none,
           left := some 18, right := some 21, degree := 0, mark := true },
    none,
    some { key := 21, parent := some 17, child := some 22,
           left := some 19, right := some 18, degree := 1, mark := true },
    some { key := 22, parent := some 21, child := none,
           left := some 22, right := some 22, degree := 0, mark := false },
    none, none, none, none, none, none, none, none,
    some { key := 0, parent := none, child := some 32,
           left := some 1, right := some 1, degree := 1, mark := false },
    some { key := 32, parent := some 31, child := none,
           left := some 32, right := some 32, degree := 0, mark := false }],
    heaps := [{ min_ := some 31, size_ := 15 }] }

/-- The heap of `thinWorldMin`: `min_` is the node at address 31. -/
def thinHeapMin : FHeap := { min_ := some 31, size_ := 15 }

/-- History: a heap that holds the key `INT_MIN` (address 0) and the key 5 (address 1). -/
def collisionCalls : List Call := [Call.newHeap, Call.insert 0 INT_MIN, Call.insert 0 5]

/-- The world reached by `collisionCalls`. -/
def collisionWorld : World :=
  { mem := [
    some { key := INT_MIN, parent := none, child := none,
           left := some 1, right := some 1, degree := 0, mark := false },
    some { key := 5, parent := none, child := none,
           left := some 0, right := some 0, degree := 0, mark := false }],
    heaps := [{ min_ := some 0, size_ := 2 }] }

/-- The heap of `collisionWorld`: `min_` is the node at address 0. -/
def collisionHeap : FHeap := { min_ := some 0, size_ := 2 }

/-- The state returned by `Erase` on `collisionWorld` through the handle of address 1. -/
def collisionAfter : Mem × FHeap :=
  ([
     none,
     some { key := INT_MIN, parent := none, child := none,
            left := some 1, right := some 1, degree := 0, mark := false }],
   { min_ := some 1, size_ := 1 })

/-! ## Specification functions for the bucket loop and for subtrees -/

/-- The pointer `p` refers to an allocated node. -/
def isLive (m : Mem) (p : Option Nat) : Bool :=
  match p with
  | none => false
  | some a => (m.getD a none).isSome

/-- The table `tree_ptrs` after `tree_ptrs[d] = nullptr; d++` and the conditional `resize`;
`d` is the incremented index. -/
def regrow (t : List (Option Nat)) (d : Int) : List (Option Nat) :=
  if d ≥ (t.length : Int) then t ++ List.replicate (d.toNat + 1 - t.length) none else t

/-- The node `y` lies in the subtree rooted at `x`: `x` is reached from `y` by following
parent pointers. -/
inductive Below (m : Mem) (x : Nat) : Nat → Prop where
  | refl : Below m x x
  | step {y p : Nat} : Below m x p → (m.get y).parent = some p → Below m x y

/-- A memory with two detached roots that hold the same key; the second one is marked. -/
def tieMem : Mem :=
  [some { key := 7, parent := none, child := none, left := some 0, right := some 0,
          degree := 0, mark := false },
   some { key := 7, parent := none, child := none, left := some 1, right := some 1,
          degree := 0, mark := true }]

/-- Specification-only description of `tieMem` as a forest of two roots without
children. -/
def tieGhost : Ghost :=
  { roots := [0, 1], kids := fun _ => [], rk := fun _ => 0, bound := 0, cutFree := false }

/-! ## Lemmas about memory, rings and the invariant -/

/-! ## Memory lemmas -/

theorem getD_upd (m : Mem) (a b : Nat) (f : Node → Node) :
    (m.upd a f).getD b none = if b = a then (m.getD a none).map f else m.getD b none := by
  unfold Mem.upd
  by_cases hba : b = a
  · subst hba
    by_cases hl : b < m.length
    · simp [List.getD_eq_getElem?_getD, List.getElem?_set, hl]
    · have : m.length ≤ b := Nat.le_of_not_lt hl
      simp [List.getD_eq_getElem?_getD, List.getElem?_set, hl, List.getElem?_eq_none this]
  · have : a ≠ b := fun h => hba h.symm
    simp [List.getD_eq_getElem?_getD, List.getElem?_set, hba, this]

@[simp]
theorem live_upd (m : Mem) (a b : Nat) (f : Node → Node) :
    (m.upd a f).live b ↔ m.live b := by
  unfold Mem.live
  rw [getD_upd]
  by_cases hba : b = a
  · subst hba; simp
  · simp [hba]

@[simp]
theorem length_upd (m : Mem) (a : Nat) (f : Node → Node) :
    (m.upd a f).length = m.length := by
  simp [Mem.upd]

theorem get_upd_ne (m : Mem) {a b : Nat} (f : Node → Node) (h : b ≠ a) :
    (m.upd a f).get b = m.get b := by
  unfold Mem.get; rw [getD_upd, if_neg h]

theorem get_upd_self (m : Mem) {a : Nat} (f : Node → Node) (h : m.live a) :
    (m.upd a f).get a = f (m.get a) := by
  unfold Mem.live at h
  obtain ⟨n, hn⟩ := Option.isSome_iff_exists.mp h
  unfold Mem.get; rw [getD_upd, if_pos rfl, hn]; rfl

theorem get_upd (m : Mem) {a : Nat} (b : Nat) (f : Node → Node) (h : m.live a) :
    (m.upd a f).get b = if b = a then f (m.get a) else m.get b := by
  by_cases hba : b = a
  · subst hba; simp [get_upd_self m f h]
  · simp [hba, get_upd_ne m f hba]

theorem live_lt {m : Mem} {a : Nat} (h : m.live a) : a < m.length := by
  unfold Mem.live at h
  by_contra hlt
  have : m.length ≤ a := Nat.le_of_not_lt hlt
  simp [List.getD_eq_getElem?_getD, List.getElem?_eq_none this] at h

theorem rd_live {m : Mem} {a : Nat} (h : m.live a) : m.rd (some a) = .ok (m.get a) := by
  unfold Mem.live at h
  obtain ⟨n, hn⟩ := Option.isSome_iff_exists.mp h
  unfold Mem.rd Mem.get; simp only [hn]; rfl

theorem modify_live {m : Mem} {a : Nat} (f : Node → Node) (h : m.live a) :
    m.modify (some a) f = .ok (m.upd a f) := by
  unfold Mem.live at h
  obtain ⟨n, hn⟩ := Option.isSome_iff_exists.mp h
  unfold Mem.modify Mem.upd; simp only [hn]; rfl

theorem free_live {m : Mem} {a : Nat} (h : m.live a) :
    m.free (some a) = .ok (m.set a none) := by
  unfold Mem.live at h
  obtain ⟨n, hn⟩ := Option.isSome_iff_exists.mp h
  unfold Mem.free; simp only [hn]

/-! ## Cyclic successor -/

theorem csucc_eq_next {l : List Nat} {x : Nat} (h : x ∈ l) : csucc l x = l.next x h := by
  cases l with
  | nil => cases h
  | cons y ys => rfl

theorem csucc_mem {l : List Nat} {x : Nat} (h : x ∈ l) : csucc l x ∈ l := by
  rw [csucc_eq_next h]; exact List.next_mem _ _ h

theorem csucc_inj {l : List Nat} (hn : l.Nodup) {x y : Nat} (hx : x ∈ l) (hy : y ∈ l)
    (h : csucc l x = csucc l y) : x = y := by
  rw [csucc_eq_next hx, csucc_eq_next hy] at h
  have h1 := List.prev_next l hn x hx
  have h2 := List.prev_next l hn y hy
  rw [← h1, ← h2]
  congr 1

theorem csucc_surj {l : List Nat} (hn : l.Nodup) {x : Nat} (hx : x ∈ l) :
    ∃ p, p ∈ l ∧ csucc l p = x := by
  refine ⟨l.prev x hx, List.prev_mem _ _ hx, ?_⟩
  rw [csucc_eq_next (List.prev_mem _ _ hx)]
  exact List.next_prev l hn x hx

theorem csucc_rotated {l l' : List Nat} (h : l ~r l') (hn : l.Nodup) {x : Nat} (hx : x ∈ l) :
    csucc l x = csucc l' x := by
  rw [csucc_eq_next hx, csucc_eq_next (h.mem_iff.mp hx)]
  exact List.isRotated_next_eq h hn hx

theorem nextOr_append_of_not_mem {A B : List Nat} {x d : Nat} (h : x ∉ A) :
    (A ++ B).nextOr x d = B.nextOr x d := by
  induction A with
  | nil => rfl
  | cons y ys ih =>
    have hy : x ≠ y := fun e => h (e ▸ List.mem_cons_self _ _)
    have hys : x ∉ ys := fun e => h (List.mem_cons_of_mem _ e)
    rw [List.cons_append, List.nextOr_cons_of_ne _ _ _ _ hy, ih hys]

theorem nextOr_cons_self (x d : Nat) (post : List Nat) :
    (x :: post).nextOr x d = post.headD d := by
  cases post <;> simp

/-- The successor of `x` in `pre ++ x :: post` is the head of `post ++ pre` (or `x` itself). -/
theorem csucc_decomp {pre post : List Nat} {x : Nat} (h : x ∉ pre) :
    csucc (pre ++ x :: post) x = (post ++ pre).headD x := by
  unfold csucc
  rw [nextOr_append_of_not_mem h, nextOr_cons_self]
  cases post <;> cases pre <;> simp

theorem csucc_singleton (x : Nat) : csucc [x] x = x := rfl

/-- Decomposition of a duplicate-free list at one of its members. -/
theorem nodup_split {l : List Nat} (hn : l.Nodup) {x : Nat} (hx : x ∈ l) :
    ∃ pre post, l = pre ++ x :: post ∧ x ∉ pre ∧ x ∉ post ∧ pre.Nodup ∧ post.Nodup ∧
      (∀ y, y ∈ pre → y ∉ post) := by
  obtain ⟨pre, post, rfl⟩ := List.append_of_mem hx
  rw [List.nodup_append] at hn
  obtain ⟨h1, h2, h3⟩ := hn
  rw [List.nodup_cons] at h2
  refine ⟨pre, post, rfl, ?_, h2.1, h1, h2.2, ?_⟩
  · intro hp; exact h3 hp (List.mem_cons_self _ _) 
  · intro y hy hy2; exact h3 hy (List.mem_cons_of_mem _ hy2)

theorem csucc_append_left {a b : Nat} {as bs : List Nat} (hn : (a :: as ++ b :: bs).Nodup)
    {x : Nat} (hx : x ∈ a :: as) :
    csucc (a :: as ++ b :: bs) x = if csucc (a :: as) x = a then b else csucc (a :: as) x := by
  have hnA : (a :: as).Nodup := (List.nodup_append.mp hn).1
  obtain ⟨pre, post, e, hpre, hpost, -, -, hpp⟩ := nodup_split hnA hx
  rw [e, csucc_decomp hpre, List.append_assoc, List.cons_append, csucc_decomp hpre]
  cases post with
  | nil =>
    have ha : pre.headD x = a := by
      cases pre with
      | nil => simp at e; simp [e.1]
      | cons p ps => simp at e; simp [e.1]
    simp at ha
    simp [ha]
  | cons p ps =>
    have hpa : p ≠ a := by
      intro hpa
      cases pre with
      | nil => simp at e; exact hpost (by rw [← e.1, ← hpa]; exact List.mem_cons_self _ _)
      | cons q qs =>
        simp at e
        exact hpp q (List.mem_cons_self _ _) (by rw [← e.1, ← hpa]; exact List.mem_cons_self _ _)
    simp [hpa]

theorem csucc_append_right {a b : Nat} {as bs : List Nat} (hn : (a :: as ++ b :: bs).Nodup)
    {x : Nat} (hx : x ∈ b :: bs) :
    csucc (a :: as ++ b :: bs) x = if csucc (b :: bs) x = b then a else csucc (b :: bs) x := by
  have hr : (a :: as ++ b :: bs) ~r (b :: bs ++ a :: as) := List.isRotated_append
  have hn' : (b :: bs ++ a :: as).Nodup := hr.nodup_iff.mp hn
  rw [csucc_rotated hr hn (List.mem_append_right _ hx)]
  exact csucc_append_left hn' hx

/-- Successor in a cyclic list after its head has been removed. -/
theorem csucc_tail {x : Nat} {t : List Nat} (hn : (x :: t).Nodup) {y : Nat} (hy : y ∈ t) :
    csucc t y = if csucc (x :: t) y = x then csucc (x :: t) x else csucc (x :: t) y := by
  have hnt : t.Nodup := (List.nodup_cons.mp hn).2
  have hxt : x ∉ t := (List.nodup_cons.mp hn).1
  obtain ⟨p, q, e, hp, hq, -, -, hpq⟩ := nodup_split hnt hy
  have hxy : y ≠ x := fun h => hxt (h ▸ hy)
  have hxp : y ∉ x :: p := by
    intro h; rcases List.mem_cons.mp h with h | h
    · exact hxy h
    · exact hp h
  have e2 : x :: t = (x :: p) ++ y :: q := by rw [e]; rfl
  have e3 : csucc (x :: t) x = t.headD x := by
    have := @csucc_decomp [] t x (by simp)
    simpa using this
  rw [e3, e2, csucc_decomp hxp, e, csucc_decomp hp]
  cases q with
  | nil => cases p <;> simp
  | cons q0 qs =>
    have : q0 ≠ x := by
      intro h; apply hxt; rw [e, ← h]; simp
    simp [this]

/-! ## Rings -/

theorem ring_nil (m : Mem) : Ring m [] := ⟨List.nodup_nil, fun _ h => by cases h⟩

theorem ring_singleton {m : Mem} {x : Nat} :
    Ring m [x] ↔ (m.get x).right = some x ∧ (m.get x).left = some x := by
  constructor
  · intro h; simpa [csucc_singleton] using h.2 x (List.mem_singleton.mpr rfl)
  · intro h; refine ⟨List.nodup_singleton _, ?_⟩
    intro y hy; rw [List.mem_singleton] at hy; subst hy; simpa [csucc_singleton] using h

theorem Ring.right {m : Mem} {l : List Nat} (h : Ring m l) {x : Nat} (hx : x ∈ l) :
    (m.get x).right = some (csucc l x) := (h.2 x hx).1

theorem Ring.left_succ {m : Mem} {l : List Nat} (h : Ring m l) {x : Nat} (hx : x ∈ l) :
    (m.get (csucc l x)).left = some x := (h.2 x hx).2

theorem Ring.left {m : Mem} {l : List Nat} (h : Ring m l) {x : Nat} (hx : x ∈ l) :
    ∃ p, p ∈ l ∧ csucc l p = x ∧ (m.get x).left = some p := by
  obtain ⟨p, hp, e⟩ := csucc_surj h.1 hx
  exact ⟨p, hp, e, e ▸ h.left_succ hp⟩

theorem Ring.rotated {m : Mem} {l l' : List Nat} (h : Ring m l) (hr : l ~r l') : Ring m l' := by
  refine ⟨hr.nodup_iff.mp h.1, fun x hx => ?_⟩
  have hx' : x ∈ l := hr.mem_iff.mpr hx
  rw [← csucc_rotated hr h.1 hx']
  exact h.2 x hx'

theorem Ring.congr {m m' : Mem} {l : List Nat} (h : Ring m l)
    (hc : ∀ x, x ∈ l → (m'.get x).right = (m.get x).right ∧ (m'.get x).left = (m.get x).left) :
    Ring m' l := by
  refine ⟨h.1, fun x hx => ?_⟩
  rw [(hc x hx).1, (hc _ (csucc_mem hx)).2]
  exact h.2 x hx

theorem rotate_to_head {l : List Nat} {x : Nat} (hx : x ∈ l) :
    ∃ t, l ~r (x :: t) := by
  obtain ⟨pre, post, rfl⟩ := List.append_of_mem hx
  exact ⟨post ++ pre, List.isRotated_append⟩

@[simp]
theorem ok_bind {ε α β : Type} (a : α) (f : α → Except ε β) :
    (Except.ok a >>= f) = f a := rfl

@[simp]
theorem pure_eq_ok {ε α : Type} (a : α) : (pure a : Except ε α) = Except.ok a := rfl

theorem mergeRootLists_none_right (m : Mem) (a : Option Nat) :
    mergeRootLists m a none = .ok m := by
  simp [mergeRootLists]

theorem mergeRootLists_spec {m : Mem} {a b al bl : Nat}
    (la : m.live a) (lb : m.live b) (hal : (m.get a).left = some al)
    (hbl : (m.get b).left = some bl) (lal : m.live al) (lbl : m.live bl)
    (hab : a ≠ b) (hlab : al ≠ bl) :
    ∃ m', mergeRootLists m (some a) (some b) = .ok m' ∧ m'.length = m.length ∧
      (∀ x, m'.live x ↔ m.live x) ∧
      (∀ x, m'.get x = { m.get x with
          left := if x = b then some al else if x = a then some bl else (m.get x).left,
          right := if x = al then some b else if x = bl then some a else (m.get x).right }) := by
  refine ⟨(((m.upd a (fun n => { n with left := some bl })).upd bl
      (fun n => { n with right := some a })).upd b
        (fun n => { n with left := some al })).upd al (fun n => { n with right := some b }),
    ?_, by simp, by simp, ?_⟩
  · simp only [mergeRootLists, rd_live la, rd_live lb, hal, hbl, ok_bind, pure_eq_ok]
    simp [modify_live, la, lb, lal, lbl]
  · intro x
    simp only [get_upd, live_upd, la, lb, lal, lbl]
    by_cases h1 : x = al <;> by_cases h2 : x = b <;> by_cases h3 : x = bl <;> by_cases h4 : x = a <;>
      simp_all
  

theorem sameData_refl (n : Node) : sameData n n := ⟨rfl, rfl, rfl, rfl, rfl⟩

theorem sameData_trans {a b c : Node} (h1 : sameData a b) (h2 : sameData b c) : sameData a c :=
  ⟨h2.1.trans h1.1, h2.2.1.trans h1.2.1, h2.2.2.1.trans h1.2.2.1, h2.2.2.2.1.trans h1.2.2.2.1,
    h2.2.2.2.2.trans h1.2.2.2.2⟩

/-- Joining two disjoint rings by the four pointer writes of `mergeRootLists`. -/
theorem ring_splice {m m' : Mem} {a b al bl : Nat} {as bs : List Nat}
    (hA : Ring m (a :: as)) (hB : Ring m (b :: bs)) (hd : ∀ x, x ∈ a :: as → x ∉ b :: bs)
    (hal : (m.get a).left = some al) (hbl : (m.get b).left = some bl)
    (hr : ∀ x, (m'.get x).right =
      if x = al then some b else if x = bl then some a else (m.get x).right)
    (hl : ∀ x, (m'.get x).left =
      if x = b then some al else if x = a then some bl else (m.get x).left) :
    Ring m' (a :: as ++ b :: bs) := by
  have hn : (a :: as ++ b :: bs).Nodup := List.nodup_append.mpr ⟨hA.1, hB.1, fun x h1 h2 => hd x h1 h2⟩
  have haA : a ∈ a :: as := List.mem_cons_self _ _
  have hbB : b ∈ b :: bs := List.mem_cons_self _ _
  obtain ⟨p, hpA, hpa, hpl⟩ := hA.left haA
  obtain ⟨q, hqB, hqb, hql⟩ := hB.left hbB
  have e1 : p = al := by rw [hpl] at hal; exact Option.some.inj hal
  have e2 : q = bl := by rw [hql] at hbl; exact Option.some.inj hbl
  subst e1; subst e2
  refine ⟨hn, fun x hx => ?_⟩
  rcases List.mem_append.mp hx with hxA | hxB
  · rw [csucc_append_left hn hxA]
    have hxq : x ≠ q := fun e => hd x hxA (e ▸ hqB)
    by_cases hy : csucc (a :: as) x = a
    · have hxp : x = p := csucc_inj hA.1 hxA hpA (hy.trans hpa.symm)
      subst hxp
      rw [if_pos hy, hr, hl]; simp
    · have hxp : x ≠ p := fun e => hy (e ▸ hpa)
      have hsA : csucc (a :: as) x ∈ a :: as := csucc_mem hxA
      have hsb : csucc (a :: as) x ≠ b := fun e => hd _ hsA (e ▸ hbB)
      rw [if_neg hy, hr, hl, if_neg hxp, if_neg hxq, if_neg hsb, if_neg hy]
      exact hA.2 x hxA
  · rw [csucc_append_right hn hxB]
    have hxp : x ≠ p := fun e => hd p hpA (e ▸ hxB)
    by_cases hy : csucc (b :: bs) x = b
    · have hxq : x = q := csucc_inj hB.1 hxB hqB (hy.trans hqb.symm)
      subst hxq
      have hab : a ≠ b := fun e => hd a haA (e ▸ hbB)
      rw [if_pos hy, hr, hl]; simp [hxp, hab]
    · have hxq : x ≠ q := fun e => hy (e ▸ hqb)
      have hsB : csucc (b :: bs) x ∈ b :: bs := csucc_mem hxB
      have hsa : csucc (b :: bs) x ≠ a := fun e => hd a haA (e ▸ hsB)
      rw [if_neg hy, hr, hl, if_neg hxp, if_neg hxq, if_neg hy, if_neg hsa]
      exact hB.2 x hxB

/-- Specification of `mergeRootLists` on two disjoint rings, given by their members `a` and `b`. -/
theorem splice_spec {m : Mem} {a b : Nat} {as bs : List Nat}
    (hA : Ring m (a :: as)) (hB : Ring m (b :: bs)) (hd : ∀ x, x ∈ a :: as → x ∉ b :: bs)
    (hlA : ∀ x, x ∈ a :: as → m.live x) (hlB : ∀ x, x ∈ b :: bs → m.live x) :
    ∃ m', mergeRootLists m (some a) (some b) = .ok m' ∧ m'.length = m.length ∧
      (∀ x, m'.live x ↔ m.live x) ∧ Ring m' (a :: as ++ b :: bs) ∧
      (∀ x, x ∉ a :: as → x ∉ b :: bs → m'.get x = m.get x) ∧
      (∀ x, sameData (m.get x) (m'.get x)) := by
  have haA : a ∈ a :: as := List.mem_cons_self _ _
  have hbB : b ∈ b :: bs := List.mem_cons_self _ _
  obtain ⟨p, hpA, hpa, hpl⟩ := hA.left haA
  obtain ⟨q, hqB, hqb, hql⟩ := hB.left hbB
  have hab : a ≠ b := fun e => hd a haA (e ▸ hbB)
  have hpq : p ≠ q := fun e => hd p hpA (e ▸ hqB)
  obtain ⟨m', h1, h2, h3, h4⟩ := mergeRootLists_spec (hlA a haA) (hlB b hbB) hpl hql
    (hlA p hpA) (hlB q hqB) hab hpq
  refine ⟨m', h1, h2, h3, ?_, ?_, ?_⟩
  · exact ring_splice hA hB hd hpl hql (fun x => by rw [h4]) (fun x => by rw [h4])
  · intro x hxA hxB
    have n1 : x ≠ a := fun e => hxA (e ▸ haA)
    have n2 : x ≠ b := fun e => hxB (e ▸ hbB)
    have n3 : x ≠ p := fun e => hxA (e ▸ hpA)
    have n4 : x ≠ q := fun e => hxB (e ▸ hqB)
    rw [h4]; simp [n1, n2, n3, n4]
  · intro x; rw [h4]; exact ⟨rfl, rfl, rfl, rfl, rfl⟩

theorem csucc_head (x : Nat) (t : List Nat) : csucc (x :: t) x = t.headD x := by
  have := @csucc_decomp [] t x (by simp)
  simpa using this

theorem csucc_head_mem {x : Nat} {t : List Nat} (ht : t ≠ []) : csucc (x :: t) x ∈ t := by
  rw [csucc_head]
  cases t with
  | nil => exact absurd rfl ht
  | cons a as => simp

/-- Removing the head `x` of a ring by `x->left->right = x->right; x->right->left = x->left`. -/
theorem ring_unlink {m m' : Mem} {x xl xr : Nat} {t : List Nat} (hR : Ring m (x :: t))
    (hxl : (m.get x).left = some xl) (hxr : (m.get x).right = some xr)
    (hr : ∀ z, z ∈ t → (m'.get z).right = if z = xl then some xr else (m.get z).right)
    (hl : ∀ z, z ∈ t → (m'.get z).left = if z = xr then some xl else (m.get z).left) :
    Ring m' t := by
  have hxm : x ∈ x :: t := List.mem_cons_self _ _
  obtain ⟨p, hp, hpx, hpl⟩ := hR.left hxm
  have e1 : p = xl := by rw [hpl] at hxl; exact Option.some.inj hxl
  subst e1
  have e2 : xr = csucc (x :: t) x := by
    have := hR.right hxm; rw [hxr] at this; exact Option.some.inj this
  have hnt : t.Nodup := (List.nodup_cons.mp hR.1).2
  have hxt : x ∉ t := (List.nodup_cons.mp hR.1).1
  refine ⟨hnt, fun y hy => ?_⟩
  have hy' : y ∈ x :: t := List.mem_cons_of_mem _ hy
  have hyx : y ≠ x := fun e => hxt (e ▸ hy)
  have htne : t ≠ [] := List.ne_nil_of_mem hy
  rw [csucc_tail hR.1 hy]
  by_cases hc : csucc (x :: t) y = x
  · have : y = p := csucc_inj hR.1 hy' hp (hc.trans hpx.symm)
    subst this
    rw [if_pos hc, hr y hy, hl _ (csucc_head_mem htne), ← e2]; simp
  · have hyp : y ≠ p := fun e => hc (e ▸ hpx)
    have hne : csucc (x :: t) y ≠ xr := by
      intro e; rw [e2] at e
      exact hyx (csucc_inj hR.1 hy' hxm e)
    have hin : csucc (x :: t) y ∈ t := by
      rcases List.mem_cons.mp (csucc_mem hy') with h | h
      · exact absurd h hc
      · exact h
    rw [if_neg hc, hr y hy, hl _ hin, if_neg hyp, if_neg hne]
    exact hR.2 y hy'

theorem node_ext {a b : Node} (h1 : a.key = b.key) (h2 : a.parent = b.parent)
    (h3 : a.child = b.child) (h4 : a.left = b.left) (h5 : a.right = b.right)
    (h6 : a.degree = b.degree) (h7 : a.mark = b.mark) : a = b := by
  cases a; cases b; simp_all

/-- A ring whose member is its own successor is a singleton. -/
theorem csucc_self {x : Nat} {t : List Nat} (hn : (x :: t).Nodup) (h : csucc (x :: t) x = x) :
    t = [] := by
  rw [csucc_head] at h
  cases t with
  | nil => rfl
  | cons a as =>
    simp at h
    rw [h] at hn
    simp at hn

/-! ## Transfer of the invariant along memory changes -/

theorem Shape.shape_congr' {g : Ghost} {m m' : Mem} {S : List Nat} (hs : Shape g m S)
    (hl : ∀ x, x ∈ S → m'.live x)
    (hd : ∀ x, x ∈ S → (m'.get x).parent = (m.get x).parent ∧
      (m'.get x).child = (m.get x).child ∧ (m'.get x).degree = (m.get x).degree)
    (hk : ∀ x, x ∈ S → (m.get x).parent ≠ none →
      (m'.get x).right = (m.get x).right ∧ (m'.get x).left = (m.get x).left) :
    Shape g m' S where
  nodup := hs.nodup
  live := hl
  roots_nodup := hs.roots_nodup
  roots_iff x := by
    rw [hs.roots_iff]
    constructor
    · rintro ⟨h1, h2⟩; exact ⟨h1, (hd x h1).1.trans h2⟩
    · rintro ⟨h1, h2⟩; exact ⟨h1, (hd x h1).1.symm.trans h2⟩
  kids_ring x hx := by
    refine (hs.kids_ring x hx).congr fun c hc => ?_
    have hc' := (hs.kids_iff x hx c).mp hc
    exact hk c hc'.1 (by rw [hc'.2]; simp)
  kids_iff x hx c := by
    rw [hs.kids_iff x hx]
    constructor
    · rintro ⟨h1, h2⟩; exact ⟨h1, (hd c h1).1.trans h2⟩
    · rintro ⟨h1, h2⟩; exact ⟨h1, (hd c h1).1.symm.trans h2⟩
  parent_mem c hc p hp := hs.parent_mem c hc p ((hd c hc).1.symm.trans hp)
  child_none x hx h := hs.child_none x hx ((hd x hx).2.1.symm.trans h)
  child_some x hx c h := hs.child_some x hx c ((hd x hx).2.1.symm.trans h)
  degree x hx := (hd x hx).2.2.trans (hs.degree x hx)
  rk_lt c hc p hp := hs.rk_lt c hc p ((hd c hc).1.symm.trans hp)
  rk_le := hs.rk_le

theorem Shape.shape_congr {g : Ghost} {m m' : Mem} {S : List Nat} (hs : Shape g m S)
    (hl : ∀ x, x ∈ S → m'.live x) (hd : ∀ x, x ∈ S → sameData (m.get x) (m'.get x))
    (hk : ∀ x, x ∈ S → (m.get x).parent ≠ none → m'.get x = m.get x) : Shape g m' S :=
  hs.shape_congr' hl (fun x hx => ⟨(hd x hx).2.1, (hd x hx).2.2.1, (hd x hx).2.2.2.1⟩)
    (fun x hx hp => by rw [hk x hx hp]; exact ⟨rfl, rfl⟩)

theorem Ordered.order_congr' {g : Ghost} {m m' : Mem} {S : List Nat} (hs : Shape g m S)
    (ho : Ordered m S)
    (hd : ∀ x, x ∈ S → (m'.get x).key = (m.get x).key ∧ (m'.get x).parent = (m.get x).parent) :
    Ordered m' S := by
  intro c hc p hp
  have hp' : (m.get c).parent = some p := (hd c hc).2.symm.trans hp
  have hpS := hs.parent_mem c hc p hp'
  rw [(hd c hc).1, (hd p hpS).1]
  exact ho c hc p hp'

theorem Ordered.order_congr {g : Ghost} {m m' : Mem} {S : List Nat} (hs : Shape g m S)
    (ho : Ordered m S) (hd : ∀ x, x ∈ S → sameData (m.get x) (m'.get x)) : Ordered m' S :=
  Ordered.order_congr' hs ho (fun x hx => ⟨(hd x hx).1, (hd x hx).2.1⟩)

/-- Roots are exactly the members without a parent; a member of a child list has one. -/
theorem Shape.kid_parent {g : Ghost} {m : Mem} {S : List Nat} (hs : Shape g m S) {x c : Nat}
    (hx : x ∈ S) (hc : c ∈ g.kids x) : c ∈ S ∧ (m.get c).parent = some x :=
  (hs.kids_iff x hx c).mp hc

theorem Shape.root_mem {g : Ghost} {m : Mem} {S : List Nat} (hs : Shape g m S) {x : Nat}
    (hx : x ∈ g.roots) : x ∈ S := ((hs.roots_iff x).mp hx).1

theorem Shape.root_parent {g : Ghost} {m : Mem} {S : List Nat} (hs : Shape g m S) {x : Nat}
    (hx : x ∈ g.roots) : (m.get x).parent = none := ((hs.roots_iff x).mp hx).2

/-- Adding a fresh singleton root. -/
theorem Shape.shape_add_root {g : Ghost} {m m' : Mem} {S : List Nat} {a : Nat} {roots' : List Nat}
    (hs : Shape g m S) (ha : a ∉ S) (hla : m'.live a)
    (hl : ∀ x, x ∈ S → m'.live x) (hd : ∀ x, x ∈ S → sameData (m.get x) (m'.get x))
    (hk : ∀ x, x ∈ S → (m.get x).parent ≠ none → m'.get x = m.get x)
    (hpa : (m'.get a).parent = none) (hca : (m'.get a).child = none)
    (hda : (m'.get a).degree = 0) (hr : roots'.Nodup)
    (hri : ∀ x, x ∈ roots' ↔ x = a ∨ x ∈ g.roots) :
    Shape { g with roots := roots', kids := fun x => if x = a then [] else g.kids x,
                   rk := fun x => if x = a then 0 else g.rk x } m' (a :: S) := by
  have hs' := hs.shape_congr hl hd hk
  have hne : ∀ x, x ∈ S → x ≠ a := fun x hx e => ha (e ▸ hx)
  have hpar : ∀ c, c ∈ S → (m'.get c).parent ≠ some a := by
    intro c hc h
    exact ha (hs'.parent_mem c hc a h)
  constructor
  · exact List.nodup_cons.mpr ⟨ha, hs.nodup⟩
  · intro x hx
    rcases List.mem_cons.mp hx with rfl | hx
    · exact hla
    · exact hl x hx
  · exact hr
  · intro x
    simp only [hri, List.mem_cons, hs'.roots_iff]
    constructor
    · rintro (rfl | ⟨h1, h2⟩)
      · exact ⟨Or.inl rfl, hpa⟩
      · exact ⟨Or.inr h1, h2⟩
    · rintro ⟨rfl | h1, h2⟩
      · exact Or.inl rfl
      · exact Or.inr ⟨h1, h2⟩
  · intro x hx
    rcases List.mem_cons.mp hx with rfl | hx
    · simp [ring_nil]
    · simp only [hne x hx, if_false]; exact hs'.kids_ring x hx
  · intro x hx c
    rcases List.mem_cons.mp hx with rfl | hx
    · simp only [if_true, List.not_mem_nil, List.mem_cons, false_iff, not_and]
      rintro (rfl | hc)
      · rw [hpa]; simp
      · exact hpar c hc
    · simp only [hne x hx, if_false, List.mem_cons, hs'.kids_iff x hx]
      constructor
      · rintro ⟨h1, h2⟩; exact ⟨Or.inr h1, h2⟩
      · rintro ⟨rfl | h1, h2⟩
        · rw [hpa] at h2; cases h2
        · exact ⟨h1, h2⟩
  · intro c hc p hp
    rcases List.mem_cons.mp hc with rfl | hc
    · rw [hpa] at hp; cases hp
    · exact List.mem_cons_of_mem _ (hs'.parent_mem c hc p hp)
  · intro x hx h
    rcases List.mem_cons.mp hx with rfl | hx
    · simp
    · simp only [hne x hx, if_false]; exact hs'.child_none x hx h
  · intro x hx c h
    rcases List.mem_cons.mp hx with rfl | hx
    · rw [hca] at h; cases h
    · simp only [hne x hx, if_false]; exact hs'.child_some x hx c h
  · intro x hx
    rcases List.mem_cons.mp hx with rfl | hx
    · simp [hda]
    · simp only [hne x hx, if_false]; exact hs'.degree x hx
  · intro c hc p hp
    rcases List.mem_cons.mp hc with rfl | hc
    · rw [hpa] at hp; cases hp
    · have hp' := hs'.parent_mem c hc p hp
      simp only [hne c hc, hne p hp', if_false]
      exact hs'.rk_lt c hc p hp
  · intro x hx
    rcases List.mem_cons.mp hx with rfl | hx
    · simp
    · simp only [hne x hx, if_false]; exact hs'.rk_le x hx

theorem Binom.binom_add_root {g : Ghost} {m : Mem} {S : List Nat} {a : Nat} {roots' : List Nat}
    (hs : Shape g m S) (hb : Binom g S) (ha : a ∉ S) (hp : roots'.Perm (a :: g.roots)) :
    Binom { g with roots := roots', kids := fun x => if x = a then [] else g.kids x,
                   rk := fun x => if x = a then 0 else g.rk x } (a :: S) := by
  have hne : ∀ x, x ∈ S → x ≠ a := fun x hx e => ha (e ▸ hx)
  constructor
  · intro x hx
    rcases List.mem_cons.mp hx with rfl | hx
    · simp
    · simp only [hne x hx, if_false]
      rw [← hb.1 x hx]
      congr 2
      apply List.map_congr_left
      intro c hc
      have := hne c (hs.kid_parent hx hc).1
      simp [this]
  · simp only
    rw [(hp.map _).sum_eq, List.map_cons, List.sum_cons, List.length_cons, ← hb.2]
    simp only [if_true, List.length_nil, pow_zero]
    rw [Nat.add_comm]
    congr 2
    apply List.map_congr_left
    intro c hc
    have := hne c (hs.root_mem hc)
    simp [this]

/-! ## Allocation -/

theorem get_alloc (m : Mem) (n : Node) (x : Nat) :
    Mem.get (m ++ [some n]) x = if x = m.length then n else m.get x := by
  unfold Mem.get
  by_cases h : x = m.length
  · subst h; simp [List.getD_eq_getElem?_getD]
  · rcases Nat.lt_or_gt_of_ne h with h1 | h1
    · simp [List.getD_eq_getElem?_getD, List.getElem?_append_left h1, h]
    · have h2 : (m ++ [some n]).length ≤ x := by simp; omega
      have h3 : m.length ≤ x := by omega
      simp [List.getD_eq_getElem?_getD, List.getElem?_eq_none h2, List.getElem?_eq_none h3, h]

theorem live_alloc (m : Mem) (n : Node) (x : Nat) :
    Mem.live (m ++ [some n]) x ↔ x = m.length ∨ m.live x := by
  unfold Mem.live
  by_cases h : x = m.length
  · subst h; simp [List.getD_eq_getElem?_getD]
  · rcases Nat.lt_or_gt_of_ne h with h1 | h1
    · simp [List.getD_eq_getElem?_getD, List.getElem?_append_left h1, h]
    · have h2 : (m ++ [some n]).length ≤ x := by simp; omega
      have h3 : m.length ≤ x := by omega
      simp [List.getD_eq_getElem?_getD, List.getElem?_eq_none h2, List.getElem?_eq_none h3, h]

/-- Reordering the list of roots. -/
theorem Shape.shape_reroot {g : Ghost} {m : Mem} {S : List Nat} (hs : Shape g m S)
    {roots' : List Nat} (hn : roots'.Nodup) (hi : ∀ x, x ∈ roots' ↔ x ∈ g.roots) :
    Shape { g with roots := roots' } m S where
  nodup := hs.nodup
  live := hs.live
  roots_nodup := hn
  roots_iff x := by rw [← hs.roots_iff]; exact hi x
  kids_ring := hs.kids_ring
  kids_iff := hs.kids_iff
  parent_mem := hs.parent_mem
  child_none := hs.child_none
  child_some := hs.child_some
  degree := hs.degree
  rk_lt := hs.rk_lt
  rk_le := hs.rk_le

theorem Shape.parent_ne {g : Ghost} {m : Mem} {S : List Nat} (hs : Shape g m S) {x y : Nat}
    (hx : x ∈ S) (hp : (m.get x).parent = some y) : x ≠ y := by
  intro e
  have := hs.rk_lt x hx y hp
  rw [e] at this
  exact Nat.lt_irrefl _ this

/-- Detaching the child `x` from its parent `y` (the first half of `cut`). -/
theorem Shape.detach {g : Ghost} {m m' : Mem} {S : List Nat} {x y : Nat} {t : List Nat}
    (hs : Shape g m S) (hx : x ∈ S) (hp : (m.get x).parent = some y)
    (hrot : g.kids y ~r (x :: t))
    (hl : ∀ z, z ∈ S → m'.live z)
    (hxp : (m'.get x).parent = none) (hxc : (m'.get x).child = (m.get x).child)
    (hxd : (m'.get x).degree = (m.get x).degree)
    (hyp : (m'.get y).parent = (m.get y).parent)
    (hyc0 : (m'.get y).child = none → t = [])
    (hyc1 : ∀ c, (m'.get y).child = some c → c ∈ t)
    (hyd : (m'.get y).degree = (m.get y).degree - 1)
    (hoth : ∀ z, z ∈ S → z ≠ x → z ≠ y → (m'.get z).parent = (m.get z).parent ∧
      (m'.get z).child = (m.get z).child ∧ (m'.get z).degree = (m.get z).degree)
    (hring : Ring m' t)
    (hlr : ∀ z, z ∈ S → z ∉ t → z ≠ x →
      (m'.get z).right = (m.get z).right ∧ (m'.get z).left = (m.get z).left) :
    Shape { g with roots := x :: g.roots, kids := fun z => if z = y then t else g.kids z,
                   cutFree := false } m' S := by
  have hy : y ∈ S := hs.parent_mem x hx y hp
  have hxy : x ≠ y := hs.parent_ne hx hp
  have hnK : (x :: t).Nodup := hrot.nodup_iff.mp (hs.kids_ring y hy).1
  have hxt : x ∉ t := (List.nodup_cons.mp hnK).1
  have htK : ∀ c, c ∈ t ↔ c ∈ g.kids y ∧ c ≠ x := by
    intro c
    rw [hrot.mem_iff, List.mem_cons]
    constructor
    · intro h; exact ⟨Or.inr h, fun e => hxt (e ▸ h)⟩
    · rintro ⟨h | h, h2⟩
      · exact absurd h h2
      · exact h
  have hpar : ∀ z, z ∈ S → z ≠ x → (m'.get z).parent = (m.get z).parent := by
    intro z hz hzx
    by_cases hzy : z = y
    · rw [hzy]; exact hyp
    · exact (hoth z hz hzx hzy).1
  have hparx : ∀ z p, z ∈ S → (m'.get z).parent = some p → z ≠ x ∧ (m.get z).parent = some p := by
    intro z p hz h
    have hzx : z ≠ x := by rintro rfl; rw [hxp] at h; cases h
    exact ⟨hzx, (hpar z hz hzx).symm.trans h⟩
  constructor
  · exact hs.nodup
  · exact hl
  · refine List.nodup_cons.mpr ⟨?_, hs.roots_nodup⟩
    intro h; have := hs.root_parent h; rw [hp] at this; cases this
  · intro z
    simp only [List.mem_cons, hs.roots_iff]
    constructor
    · rintro (rfl | ⟨h1, h2⟩)
      · exact ⟨hx, hxp⟩
      · refine ⟨h1, ?_⟩
        have hzx : z ≠ x := by rintro rfl; rw [hp] at h2; cases h2
        rw [hpar z h1 hzx]; exact h2
    · rintro ⟨h1, h2⟩
      by_cases hzx : z = x
      · exact Or.inl hzx
      · exact Or.inr ⟨h1, by rw [← hpar z h1 hzx]; exact h2⟩
  · intro w hw
    by_cases hwy : w = y
    · simp only [hwy, if_true]; exact hring
    · simp only [hwy, if_false]
      refine (hs.kids_ring w hw).congr fun c hc => ?_
      obtain ⟨hcS, hcp⟩ := hs.kid_parent hw hc
      have hcx : c ≠ x := by rintro rfl; rw [hp] at hcp; exact hwy (Option.some.inj hcp).symm
      have hct : c ∉ t := by
        intro h
        have := (hs.kid_parent hy ((htK c).mp h).1).2
        rw [hcp] at this; exact hwy (Option.some.inj this)
      exact hlr c hcS hct hcx
  · intro w hw c
    by_cases hwy : w = y
    · simp only [hwy, if_true, htK, hs.kids_iff y hy]
      constructor
      · rintro ⟨⟨h1, h2⟩, h3⟩; exact ⟨h1, by rw [hpar c h1 h3]; exact h2⟩
      · rintro ⟨h1, h2⟩
        obtain ⟨h3, h4⟩ := hparx c y h1 h2
        exact ⟨⟨h1, h4⟩, h3⟩
    · simp only [hwy, if_false, hs.kids_iff w hw]
      constructor
      · rintro ⟨h1, h2⟩
        have hcx : c ≠ x := by rintro rfl; rw [hp] at h2; exact hwy (Option.some.inj h2).symm
        exact ⟨h1, by rw [hpar c h1 hcx]; exact h2⟩
      · rintro ⟨h1, h2⟩
        exact ⟨h1, (hparx c w h1 h2).2⟩
  · intro c hc p h
    exact hs.parent_mem c hc p (hparx c p hc h).2
  · intro w hw h
    by_cases hwy : w = y
    · simp only [hwy, if_true]; rw [hwy] at h; exact hyc0 h
    · simp only [hwy, if_false]
      by_cases hwx : w = x
      · rw [hwx] at h ⊢; rw [hxc] at h; exact hs.child_none x hx h
      · rw [(hoth w hw hwx hwy).2.1] at h; exact hs.child_none w hw h
  · intro w hw c h
    by_cases hwy : w = y
    · simp only [hwy, if_true]; rw [hwy] at h; exact hyc1 c h
    · simp only [hwy, if_false]
      by_cases hwx : w = x
      · rw [hwx] at h ⊢; rw [hxc] at h; exact hs.child_some x hx c h
      · rw [(hoth w hw hwx hwy).2.1] at h; exact hs.child_some w hw c h
  · intro w hw
    by_cases hwy : w = y
    · simp only [hwy, if_true]
      rw [hyd, hs.degree y hy, hrot.perm.length_eq]
      simp
    · simp only [hwy, if_false]
      by_cases hwx : w = x
      · rw [hwx, hxd]; exact hs.degree x hx
      · rw [(hoth w hw hwx hwy).2.2]; exact hs.degree w hw
  · intro c hc p h
    exact hs.rk_lt c hc p (hparx c p hc h).2
  · exact hs.rk_le

/-! ## The thinness invariant (children in linking order) -/

theorem sublist_index {l₁ l₂ : List Nat} (h : l₁.Sublist l₂) :
    ∀ (j c : Nat), l₁[j]? = some c → ∃ j' : Nat, j ≤ j' ∧ l₂[j']? = some c := by
  induction h with
  | slnil => intro j c hj; simp at hj
  | cons a _ ih =>
    intro j c hj
    obtain ⟨j', h1, h2⟩ := ih j c hj
    exact ⟨j' + 1, by omega, by simpa using h2⟩
  | cons₂ a _ ih =>
    intro j c hj
    cases j with
    | zero => exact ⟨0, le_refl _, by simpa using hj⟩
    | succ j =>
      obtain ⟨j', h1, h2⟩ := ih j c (by simpa using hj)
      exact ⟨j' + 1, by omega, by simpa using h2⟩

/-- Thinness survives a change in which child lists only shrink and the allowance of
every remaining child does not shrink. -/
theorem Thin.weaken {m m' : Mem} {S S' : List Nat} {e e' : Option Nat} (hT : Thin m S e)
    (hsub : ∀ x, x ∈ S' → x ∈ S)
    (hch : ∀ x c, x ∈ S' → c ∈ S' → (m'.get c).parent = some x →
      c ∈ S ∧ (m.get c).parent = some x)
    (hval : ∀ x c, x ∈ S' → c ∈ S' → (m'.get c).parent = some x →
      (m.get c).degree + (if (m.get c).mark = true then 1 else 0) +
          (if e = some c then 1 else 0) ≤
        (m'.get c).degree + (if (m'.get c).mark = true then 1 else 0) +
          (if e' = some c then 1 else 0)) :
    Thin m' S' e' := by
  intro x hx
  obtain ⟨ord, hn, hmem, hidx⟩ := hT x (hsub x hx)
  refine ⟨ord.filter (fun c => decide (c ∈ S' ∧ (m'.get c).parent = some x)),
    hn.filter _, ?_, ?_⟩
  · intro c
    rw [List.mem_filter, decide_eq_true_eq, hmem]
    constructor
    · exact fun h => h.2
    · exact fun h => ⟨hch x c hx h.1 h.2, h⟩
  · intro j c hj
    obtain ⟨j', h1, h2⟩ := sublist_index (List.filter_sublist _) j c hj
    have hc : c ∈ ord.filter (fun c => decide (c ∈ S' ∧ (m'.get c).parent = some x)) :=
      List.getElem?_mem hj
    rw [List.mem_filter, decide_eq_true_eq] at hc
    have h3 := hidx j' c h2
    have h4 := hval x c hx hc.2.1 hc.2.2
    have h5 : (j : Int) ≤ (j' : Int) := by exact_mod_cast h1
    omega

/-- Thinness only depends on the parent, degree and mark fields of non-root nodes. -/
theorem Thin.thin_congr {m m' : Mem} {S : List Nat} {e : Option Nat} (hT : Thin m S e)
    (hp : ∀ c, c ∈ S → (m'.get c).parent = (m.get c).parent)
    (hd : ∀ c, c ∈ S → (m.get c).parent ≠ none →
      (m'.get c).degree = (m.get c).degree ∧ (m'.get c).mark = (m.get c).mark) :
    Thin m' S e := by
  refine hT.weaken (fun _ h => h) (fun x c _ hc h => ⟨hc, by rw [← hp c hc]; exact h⟩) ?_
  intro x c _ hc h
  have hpc : (m.get c).parent ≠ none := by rw [← hp c hc, h]; simp
  rw [(hd c hc hpc).1, (hd c hc hpc).2]

/-- The length of any enumeration of the children of `x` is the degree of `x`. -/
theorem Shape.ord_length {g : Ghost} {m : Mem} {S : List Nat} (hs : Shape g m S) {x : Nat}
    (hx : x ∈ S) {ord : List Nat} (hn : ord.Nodup)
    (hmem : ∀ c, c ∈ ord ↔ c ∈ S ∧ (m.get c).parent = some x) :
    ((ord.length : Nat) : Int) = (m.get x).degree := by
  rw [hs.degree x hx]
  have : ord.Perm (g.kids x) :=
    (List.perm_ext_iff_of_nodup hn (hs.kids_ring x hx).1).mpr
      (fun c => by rw [hmem, hs.kids_iff x hx])
  rw [this.length_eq]

/-- A root with an allowance is not constrained: the allowance can be dropped. -/
theorem Thin.drop_root {m : Mem} {S : List Nat} {y : Nat} (hT : Thin m S (some y))
    (hy : (m.get y).parent = none) : Thin m S none := by
  refine hT.weaken (fun _ h => h) (fun _ _ _ hc h => ⟨hc, h⟩) ?_
  intro x c _ _ h
  have hcy : c ≠ y := by
    intro e; rw [e, hy] at h; cases h
  have : ¬ (some y = some c) := fun e => hcy (Option.some.inj e).symm
  simp [this]

/-- Marking the node that has just lost a child restores thinness. -/
theorem Thin.set_mark {m m' : Mem} {S : List Nat} {y : Nat} (hT : Thin m S (some y))
    (hmk : (m.get y).mark = false)
    (hp : ∀ c, (m'.get c).parent = (m.get c).parent)
    (hd : ∀ c, (m'.get c).degree = (m.get c).degree)
    (hm : ∀ c, (m'.get c).mark = if c = y then true else (m.get c).mark) :
    Thin m' S none := by
  refine hT.weaken (fun _ h => h) (fun x c _ hc h => ⟨hc, by rw [← hp c]; exact h⟩) ?_
  intro x c _ _ _
  rw [hd, hm]
  by_cases hcy : c = y
  · subst hcy; simp [hmk]
  · have : ¬ (some y = some c) := fun e => hcy (Option.some.inj e).symm
    simp [hcy, this]

/-- After `cut(x, y)` the former parent `y` has lost a child. -/
theorem Thin.cut {m m' : Mem} {S : List Nat} {x y : Nat} {e : Option Nat}
    (hT : Thin m S e) (he : e = none ∨ e = some x)
    (hp : ∀ z, (m'.get z).parent = if z = x then none else (m.get z).parent)
    (hm : ∀ z, (m'.get z).mark = if z = x then false else (m.get z).mark)
    (hd : ∀ z, (m'.get z).degree = if z = y then (m.get y).degree - 1 else (m.get z).degree) :
    Thin m' S (some y) := by
  refine hT.weaken (fun _ h => h) ?_ ?_
  · intro p c _ hc h
    rw [hp] at h
    by_cases hcx : c = x
    · rw [if_pos hcx] at h; cases h
    · rw [if_neg hcx] at h; exact ⟨hc, h⟩
  · intro p c _ hc h
    rw [hp] at h
    by_cases hcx : c = x
    · rw [if_pos hcx] at h; cases h
    · have hec : ¬ (e = some c) := by
        rcases he with h0 | h0
        · rw [h0]; simp
        · rw [h0]; intro e'; exact hcx (Option.some.inj e').symm
      rw [hm, hd, if_neg hcx, if_neg hec]
      by_cases hcy : c = y
      · subst hcy
        simp only [if_true]
        omega
      · have : ¬ (some y = some c) := fun e => hcy (Option.some.inj e).symm
        simp [hcy, this]

/-- Linking the root `b` below the root `a` of the same degree keeps thinness. -/
theorem Thin.link {g : Ghost} {m m' : Mem} {S : List Nat} {a b : Nat}
    (hs : Shape g m S) (hT : Thin m S none) (ha : a ∈ g.roots) (hb : b ∈ g.roots)
    (hab : a ≠ b) (hdeg : (m.get a).degree = (m.get b).degree)
    (hp : ∀ z, (m'.get z).parent = if z = b then some a else (m.get z).parent)
    (hm : ∀ z, (m'.get z).mark = if z = b then false else (m.get z).mark)
    (hd : ∀ z, (m'.get z).degree = if z = a then (m.get a).degree + 1 else (m.get z).degree) :
    Thin m' S none := by
  have haS := hs.root_mem ha
  have hbS := hs.root_mem hb
  have hpa := hs.root_parent ha
  have hpb := hs.root_parent hb
  intro x hx
  obtain ⟨ord, hn, hmem, hidx⟩ := hT x hx
  have hbo : b ∉ ord := by
    intro h; have := ((hmem b).mp h).2; rw [hpb] at this; cases this
  have hold : ∀ (j c : Nat), ord[j]? = some c →
      (j : Int) ≤ (m'.get c).degree + (if (m'.get c).mark = true then 1 else 0) +
        (if (none : Option Nat) = some c then 1 else 0) := by
    intro j c hj
    have hc := (hmem c).mp (List.getElem?_mem hj)
    have hcb : c ≠ b := fun e => hbo (e ▸ List.getElem?_mem hj)
    have hca : c ≠ a := by
      intro e; rw [e, hpa] at hc; cases hc.2
    rw [hd, hm, if_neg hca, if_neg hcb]
    exact hidx j c hj
  by_cases hxa : x = a
  · subst hxa
    refine ⟨ord ++ [b], ?_, ?_, ?_⟩
    · exact List.nodup_append.mpr ⟨hn, List.nodup_singleton _,
        fun z h1 h2 => hbo (List.mem_singleton.mp h2 ▸ h1)⟩
    · intro c
      rw [List.mem_append, List.mem_singleton, hmem, hp]
      by_cases hcb : c = b
      · subst hcb; simp [hbS]
      · simp [hcb]
    · intro j c hj
      by_cases hlt : j < ord.length
      · rw [List.getElem?_append_left hlt] at hj
        exact hold j c hj
      · have hge : ord.length ≤ j := not_lt.mp hlt
        rw [List.getElem?_append_right hge] at hj
        have hj0 : j - ord.length = 0 := by
          by_contra hne
          rw [List.getElem?_eq_none (by simp; omega)] at hj
          cases hj
        rw [hj0] at hj
        simp only [List.getElem?_cons_zero, Option.some.injEq] at hj
        subst hj
        have hlen := hs.ord_length haS hn hmem
        rw [hd, hm, if_neg hab.symm, if_pos rfl, ← hdeg]
        have : j = ord.length := by omega
        rw [this]
        simp
        omega
  · refine ⟨ord, hn, ?_, hold⟩
    intro c
    rw [hmem, hp]
    by_cases hcb : c = b
    · subst hcb
      rw [if_pos rfl, hpb]
      constructor
      · intro h; cases h.2
      · intro h; exact absurd (Option.some.inj h.2).symm hxa
    · rw [if_neg hcb]

/-- A new root without children keeps thinness. -/
theorem Thin.add_node {m m' : Mem} {S : List Nat} {a : Nat} (hT : Thin m S none)
    (hpm : ∀ c, c ∈ S → ∀ p, (m.get c).parent = some p → p ∈ S) (haS : a ∉ S)
    (hpa : (m'.get a).parent = none)
    (hd : ∀ c, c ∈ S → (m'.get c).parent = (m.get c).parent ∧
      (m'.get c).degree = (m.get c).degree ∧ (m'.get c).mark = (m.get c).mark) :
    Thin m' (a :: S) none := by
  intro x hx
  rcases List.mem_cons.mp hx with hxa | hxS
  · subst hxa
    refine ⟨[], List.nodup_nil, ?_, fun j c hj => by simp at hj⟩
    intro c
    constructor
    · intro h; cases h
    · rintro ⟨hc, hpc⟩
      rcases List.mem_cons.mp hc with h | h
      · rw [h, hpa] at hpc; cases hpc
      · rw [(hd c h).1] at hpc
        exact absurd (hpm c h _ hpc) haS
  · obtain ⟨ord, hn, hmem, hidx⟩ := hT x hxS
    refine ⟨ord, hn, ?_, ?_⟩
    · intro c
      rw [hmem, List.mem_cons]
      constructor
      · exact fun h => ⟨Or.inr h.1, by rw [(hd c h.1).1]; exact h.2⟩
      · rintro ⟨h | h, hpc⟩
        · rw [h, hpa] at hpc; cases hpc
        · exact ⟨h, by rw [← (hd c h).1]; exact hpc⟩
    · intro j c hj
      have hc := ((hmem c).mp (List.getElem?_mem hj)).1
      rw [(hd c hc).2.1, (hd c hc).2.2]
      exact hidx j c hj

/-- Two thin forests on different nodes form a thin forest. -/
theorem Thin.thin_union {m : Mem} {SA SB : List Nat} (hA : Thin m SA none) (hB : Thin m SB none)
    (hpA : ∀ c, c ∈ SA → ∀ p, (m.get c).parent = some p → p ∈ SA)
    (hpB : ∀ c, c ∈ SB → ∀ p, (m.get c).parent = some p → p ∈ SB)
    (hd : ∀ x, x ∈ SA → x ∉ SB) : Thin m (SA ++ SB) none := by
  intro x hx
  rcases List.mem_append.mp hx with hxA | hxB
  · obtain ⟨ord, hn, hmem, hidx⟩ := hA x hxA
    refine ⟨ord, hn, ?_, hidx⟩
    intro c
    rw [hmem, List.mem_append]
    constructor
    · exact fun h => ⟨Or.inl h.1, h.2⟩
    · rintro ⟨h | h, hpc⟩
      · exact ⟨h, hpc⟩
      · exact absurd (hpB c h x hpc) (hd x hxA)
  · obtain ⟨ord, hn, hmem, hidx⟩ := hB x hxB
    refine ⟨ord, hn, ?_, hidx⟩
    intro c
    rw [hmem, List.mem_append]
    constructor
    · exact fun h => ⟨Or.inr h.1, h.2⟩
    · rintro ⟨h | h, hpc⟩
      · exact absurd hxB (hd x (hpA c h x hpc))
      · exact ⟨h, hpc⟩

theorem Thin.thin_nil (m : Mem) : Thin m [] none := by
  intro x hx; cases hx

theorem Ordered.order_add_root {g : Ghost} {m m' : Mem} {S : List Nat} {a : Nat} (hs : Shape g m S)
    (ho : Ordered m S) (hd : ∀ x, x ∈ S → sameData (m.get x) (m'.get x))
    (hpa : (m'.get a).parent = none) : Ordered m' (a :: S) := by
  intro c hc p hp
  rcases List.mem_cons.mp hc with rfl | hc
  · rw [hpa] at hp; cases hp
  · exact Ordered.order_congr hs ho hd c hc p hp

/-- Specification of `Insert`, with the fields of the new node. -/
theorem Insert_full {g : Ghost} {m : Mem} {h : FHeap} {S : List Nat}
    (hF : Forest g m S) (hH : Hdr g m h S) (key : Int) :
    ∃ m' h' g', Insert m h key = .ok (m', h') ⟨some m.length⟩ ∧
      Forest g' m' (m.length :: S) ∧ Hdr g' m' h' (m.length :: S) ∧
      g'.cutFree = g.cutFree ∧ m'.length = m.length + 1 ∧
      (m'.get m.length).key = key ∧
      (∀ x, x ∈ S → sameData (m.get x) (m'.get x)) ∧
      (∀ x, x ∉ S → m.live x → m'.get x = m.get x ∧ m'.live x) ∧
      (∃ r', h'.min_ = some r' ∧ (m'.get r').key =
          match h.min_ with
          | none => key
          | some r => if key < (m.get r).key then key else (m.get r).key) ∧
      ((m'.get m.length).parent = none ∧ (m'.get m.length).child = none ∧
        (m'.get m.length).degree = 0 ∧ (m'.get m.length).mark = false) ∧
      h'.size_ = h.size_ + 1 := by
  have hs := hF.trees.shape
  have haS : m.length ∉ S := fun h => Nat.lt_irrefl _ (live_lt (hs.live _ h))
  have hne : ∀ x, x ∈ S → x ≠ m.length := fun x hx e => haS (e ▸ hx)
  generalize hn0 : Node.mk key none none (some m.length) (some m.length) 0 false = n0
  have g0 : ∀ x, x ≠ m.length → (m ++ [some n0]).get x = m.get x := by
    intro x hx; rw [get_alloc]; simp [hx]
  have ga : (m ++ [some n0]).get m.length = n0 := by rw [get_alloc]; simp
  have l0 : ∀ x, m.live x → (m ++ [some n0]).live x := fun x hx => (live_alloc _ _ _).mpr (Or.inr hx)
  have la : (m ++ [some n0]).live m.length := (live_alloc _ _ _).mpr (Or.inl rfl)
  have hd0 : ∀ x, x ∈ S → sameData (m.get x) ((m ++ [some n0]).get x) := by
    intro x hx; rw [g0 x (hne x hx)]; exact sameData_refl _
  cases hmin : h.min_ with
  | none =>
    have hr0 : g.roots = [] := hH.min_none hmin
    refine ⟨m ++ [some n0], { min_ := some m.length, size_ := h.size_ + 1 },
      { g with roots := [m.length], kids := fun x => if x = m.length then [] else g.kids x,
               rk := fun x => if x = m.length then 0 else g.rk x }, ?_, ?_, ?_, rfl, by simp,
      by rw [ga, ← hn0], hd0, ?_, ⟨m.length, rfl, by rw [ga, ← hn0]⟩,
      by rw [ga, ← hn0]; exact ⟨rfl, rfl, rfl, rfl⟩, rfl⟩
    · simp [Insert, Mem.alloc, hmin, hn0]
    · refine ⟨⟨?_, ?_, ?_, hF.trees.thin.add_node hs.parent_mem haS (by rw [ga, ← hn0])
        (fun c hc => ⟨(hd0 c hc).2.1, (hd0 c hc).2.2.2.1, (hd0 c hc).2.2.2.2⟩)⟩, ?_, ?_⟩
      · exact hs.shape_add_root haS la (fun x hx => l0 x (hs.live x hx)) hd0
          (fun x hx _ => g0 x (hne x hx)) (by rw [ga, ← hn0]) (by rw [ga, ← hn0])
          (by rw [ga, ← hn0]) (List.nodup_singleton _) (by simp [hr0])
      · exact Ordered.order_add_root hs hF.trees.order hd0 (by rw [ga, ← hn0])
      · intro hc
        exact Binom.binom_add_root hs (hF.trees.binom hc) haS (by rw [hr0])
      · exact ring_singleton.mpr (by rw [ga, ← hn0]; exact ⟨rfl, rfl⟩)
      · intro x hx
        simp only [List.mem_singleton] at hx
        rw [hx, ga, ← hn0]
    · refine ⟨by simp [hH.size], by simp, ?_⟩
      intro r hr
      simp only [Option.some.injEq] at hr
      subst hr
      exact ⟨List.mem_singleton.mpr rfl, fun x hx => by rw [List.mem_singleton.mp hx]⟩
    · intro x hx hl
      exact ⟨g0 x (fun e => Nat.lt_irrefl _ (e ▸ live_lt hl)), l0 x hl⟩
  | some r =>
    obtain ⟨hrR, hmin_le⟩ := hH.min_some r hmin
    obtain ⟨t, hrot⟩ := rotate_to_head hrR
    have hR : Ring m (r :: t) := hF.ring.rotated hrot
    have hRS : ∀ x, x ∈ r :: t → x ∈ S := fun x hx => hs.root_mem (hrot.mem_iff.mpr hx)
    have hR0 : Ring (m ++ [some n0]) (r :: t) :=
      hR.congr (fun x hx => by rw [g0 x (hne x (hRS x hx))]; exact ⟨rfl, rfl⟩)
    have hA0 : Ring (m ++ [some n0]) [m.length] :=
      ring_singleton.mpr (by rw [ga, ← hn0]; exact ⟨rfl, rfl⟩)
    have hdj : ∀ x, x ∈ r :: t → x ∉ [m.length] := by
      intro x hx hx2
      exact hne x (hRS x hx) (List.mem_singleton.mp hx2)
    obtain ⟨m', e1, e2, e3, e4, e5, e6⟩ := splice_spec hR0 hA0 hdj
      (fun x hx => l0 x (hs.live x (hRS x hx)))
      (fun x hx => by rw [List.mem_singleton.mp hx]; exact la)
    have hrS : r ∈ S := hRS r (List.mem_cons_self _ _)
    have ka : (m'.get m.length).key = key := by rw [(e6 _).1, ga, ← hn0]
    have kr : ∀ x, x ∈ S → (m'.get x).key = (m.get x).key := by
      intro x hx; rw [(e6 _).1, g0 x (hne x hx)]
    have hd' : ∀ x, x ∈ S → sameData (m.get x) (m'.get x) :=
      fun x hx => sameData_trans (hd0 x hx) (e6 x)
    have hk' : ∀ x, x ∈ S → (m.get x).parent ≠ none → m'.get x = m.get x := by
      intro x hx hp
      rw [e5 x, g0 x (hne x hx)]
      · intro hx2; exact hp (hs.root_parent (hrot.mem_iff.mpr hx2))
      · intro hx2; exact hne x hx (List.mem_singleton.mp hx2)
    have la' : m'.live m.length := (e3 _).mpr la
    have ll' : ∀ x, m.live x → m'.live x := fun x hx => (e3 _).mpr (l0 x hx)
    have pa : (m'.get m.length).parent = none := by rw [(e6 _).2.1, ga, ← hn0]
    refine ⟨m', if key < (m.get r).key then { min_ := some m.length, size_ := h.size_ + 1 }
        else { min_ := some r, size_ := h.size_ + 1 },
      { g with roots := r :: t ++ [m.length],
               kids := fun x => if x = m.length then [] else g.kids x,
               rk := fun x => if x = m.length then 0 else g.rk x }, ?_, ?_, ?_, rfl,
      by rw [e2]; simp, ka, hd', ?_, ?_,
      ⟨pa, by rw [(e6 _).2.2.1, ga, ← hn0], by rw [(e6 _).2.2.2.1, ga, ← hn0],
        by rw [(e6 _).2.2.2.2, ga, ← hn0]⟩,
      by by_cases hlt : key < (m.get r).key <;> simp [hlt]⟩
    · simp only [Insert, Mem.alloc, hmin, hn0, e1, ok_bind, rd_live la', rd_live (ll' r (hs.live r hrS)),
        ka, kr r hrS]
      by_cases hlt : key < (m.get r).key <;> simp [hlt, hmin]
    · refine ⟨⟨?_, ?_, ?_, hF.trees.thin.add_node hs.parent_mem haS pa
        (fun c hc => ⟨(hd' c hc).2.1, (hd' c hc).2.2.2.1, (hd' c hc).2.2.2.2⟩)⟩, e4, ?_⟩
      · refine hs.shape_add_root haS la' (fun x hx => ll' x (hs.live x hx)) hd' hk' pa
          (by rw [(e6 _).2.2.1, ga, ← hn0]) (by rw [(e6 _).2.2.2.1, ga, ← hn0]) e4.1 ?_
        intro x
        simp only [List.mem_append, List.mem_singleton, hrot.mem_iff]
        exact or_comm
      · exact Ordered.order_add_root hs hF.trees.order hd' pa
      · intro hc
        refine Binom.binom_add_root hs (hF.trees.binom hc) haS ?_
        exact List.perm_append_comm.trans (List.Perm.cons _ hrot.perm.symm)
      · intro x hx
        rcases List.mem_append.mp hx with hx | hx
        · rw [(hd' x (hRS x hx)).2.2.2.2]
          exact hF.unmarked x (hrot.mem_iff.mpr hx)
        · rw [List.mem_singleton.mp hx, (e6 _).2.2.2.2, ga, ← hn0]
    · constructor
      · by_cases hlt : key < (m.get r).key <;> simp [hlt, hH.size]
      · by_cases hlt : key < (m.get r).key <;> simp [hlt]
      · intro r' hr'
        have hall : ∀ x, x ∈ r :: t ++ [m.length] → (x = m.length ∨ x ∈ S ∧ x ∈ g.roots) := by
          intro x hx
          rcases List.mem_append.mp hx with hx | hx
          · exact Or.inr ⟨hRS x hx, hrot.mem_iff.mpr hx⟩
          · exact Or.inl (List.mem_singleton.mp hx)
        by_cases hlt : key < (m.get r).key
        · simp only [hlt, if_true, Option.some.injEq] at hr'
          subst hr'
          refine ⟨by simp, fun x hx => ?_⟩
          rcases hall x hx with rfl | ⟨hxS, hxR⟩
          · exact le_refl _
          · rw [ka, kr x hxS]; exact le_of_lt (lt_of_lt_of_le hlt (hmin_le x hxR))
        · simp only [hlt, if_false, Option.some.injEq] at hr'
          subst hr'
          refine ⟨by simp, fun x hx => ?_⟩
          rcases hall x hx with rfl | ⟨hxS, hxR⟩
          · rw [ka, kr r hrS]; exact not_lt.mp hlt
          · rw [kr r hrS, kr x hxS]; exact hmin_le x hxR
    · intro x hx hl
      have hxa : x ≠ m.length := fun e => Nat.lt_irrefl _ (e ▸ live_lt hl)
      refine ⟨?_, ll' x hl⟩
      rw [e5 x, g0 x hxa]
      · intro hx2; exact hx (hRS x hx2)
      · intro hx2; exact hxa (List.mem_singleton.mp hx2)
    · by_cases hlt : key < (m.get r).key
      · exact ⟨m.length, by simp [hlt], by simp [hlt, ka]⟩
      · exact ⟨r, by simp [hlt], by simp [hlt, kr r hrS]⟩

theorem Insert_spec {g : Ghost} {m : Mem} {h : FHeap} {S : List Nat}
    (hF : Forest g m S) (hH : Hdr g m h S) (key : Int) :
    ∃ m' h' g', Insert m h key = .ok (m', h') ⟨some m.length⟩ ∧
      Forest g' m' (m.length :: S) ∧ Hdr g' m' h' (m.length :: S) ∧
      g'.cutFree = g.cutFree ∧ m'.length = m.length + 1 ∧
      (m'.get m.length).key = key ∧
      (∀ x, x ∈ S → sameData (m.get x) (m'.get x)) ∧
      (∀ x, x ∉ S → m.live x → m'.get x = m.get x ∧ m'.live x) ∧
      (∃ r', h'.min_ = some r' ∧ (m'.get r').key =
          match h.min_ with
          | none => key
          | some r => if key < (m.get r).key then key else (m.get r).key) := by
  obtain ⟨m', h', g', h1, h2, h3, h4, h5, h6, h7, h8, h9, -⟩ := Insert_full hF hH key
  exact ⟨m', h', g', h1, h2, h3, h4, h5, h6, h7, h8, h9⟩

/-- Splicing a detached root `x` into the root ring at `r` (`mergeRootLists(min_, x)`). -/
theorem root_splice {g : Ghost} {m : Mem} {S R : List Nat} {x r : Nat} (hs : Shape g m S)
    (hroots : ∀ z, z ∈ g.roots ↔ z = x ∨ z ∈ R) (hxR : x ∉ R) (hR : Ring m R)
    (hx1 : Ring m [x]) (hr : r ∈ R) :
    ∃ m' t, mergeRootLists m (some r) (some x) = .ok m' ∧ R ~r (r :: t) ∧
      Shape { g with roots := r :: t ++ [x] } m' S ∧ Ring m' (r :: t ++ [x]) ∧
      (∀ z, sameData (m.get z) (m'.get z)) ∧ (∀ z, z ∉ g.roots → m'.get z = m.get z) ∧
      (∀ z, m'.live z ↔ m.live z) ∧ m'.length = m.length := by
  obtain ⟨t, hrot⟩ := rotate_to_head hr
  have hRt : Ring m (r :: t) := hR.rotated hrot
  have hRS : ∀ z, z ∈ r :: t → z ∈ S := fun z hz =>
    hs.root_mem ((hroots z).mpr (Or.inr (hrot.mem_iff.mpr hz)))
  have hxS : x ∈ S := hs.root_mem ((hroots x).mpr (Or.inl rfl))
  have hdj : ∀ z, z ∈ r :: t → z ∉ [x] := by
    intro z hz hz2
    rw [List.mem_singleton] at hz2
    exact hxR (hz2 ▸ hrot.mem_iff.mpr hz)
  obtain ⟨m', e1, e2, e3, e4, e5, e6⟩ := splice_spec hRt hx1 hdj
    (fun z hz => hs.live z (hRS z hz))
    (fun z hz => by rw [List.mem_singleton.mp hz]; exact hs.live x hxS)
  have hfr : ∀ z, z ∉ g.roots → m'.get z = m.get z := by
    intro z hz
    apply e5
    · intro h; exact hz ((hroots z).mpr (Or.inr (hrot.mem_iff.mpr h)))
    · intro h; exact hz ((hroots z).mpr (Or.inl (List.mem_singleton.mp h)))
  refine ⟨m', t, e1, hrot, ?_, e4, e6, hfr, e3, e2⟩
  have hs' : Shape g m' S := hs.shape_congr (fun z hz => (e3 z).mpr (hs.live z hz)) (fun z _ => e6 z)
    (fun z hz hp => hfr z (fun h => hp (hs.root_parent h)))
  refine hs'.shape_reroot e4.1 ?_
  intro z
  rw [hroots, List.mem_append, List.mem_singleton, hrot.mem_iff]
  exact or_comm

/-- Memory after the pointer writes of `cut` that precede the root-list splice;
`single` says that `x` is the only child of `y`. -/
theorem detach_fields {m : Mem} {x y xl xr : Nat} (single : Prop) [Decidable single]
    (lx : m.live x) (ly : m.live y) (lxl : m.live xl) (lxr : m.live xr)
    (hxy : x ≠ y) (hly : xl ≠ y) (hry : xr ≠ y)
    (hs1 : single → xl = x ∧ xr = x) (hs2 : ¬ single → xl ≠ x ∧ xr ≠ x) :
    ∃ m1 m6 : Mem,
      m1 = (if single then m.upd y (fun n => { n with child := none })
        else ((if (m.get y).child = some x then m.upd y (fun n => { n with child := some xr })
          else m).upd xl (fun n => { n with right := some xr })).upd xr
            (fun n => { n with left := some xl })) ∧
      m6 = ((((m1.upd y (fun n => { n with degree := n.degree - 1 })).upd x
                (fun n => { n with parent := none })).upd x
                  (fun n => { n with mark := false })).upd x
                    (fun n => { n with left := some x })).upd x
                      (fun n => { n with right := some x }) ∧
      m6.length = m.length ∧ (∀ z, m6.live z ↔ m.live z) ∧
      (∀ z, (m6.get z).key = (m.get z).key) ∧
      (∀ z, (m6.get z).parent = if z = x then none else (m.get z).parent) ∧
      (∀ z, (m6.get z).mark = if z = x then false else (m.get z).mark) ∧
      (∀ z, (m6.get z).child = if z = y then
          (if single then none else if (m.get y).child = some x then some xr
            else (m.get y).child) else (m.get z).child) ∧
      (∀ z, (m6.get z).degree = if z = y then (m.get y).degree - 1 else (m.get z).degree) ∧
      (∀ z, (m6.get z).right = if z = x then some x else if z = xl then some xr
          else (m.get z).right) ∧
      (∀ z, (m6.get z).left = if z = x then some x else if z = xr then some xl
          else (m.get z).left) := by
  refine ⟨_, _, rfl, rfl, ?_, ?_, ?_, ?_, ?_, ?_, ?_, ?_, ?_⟩
  · by_cases hsg : single <;> by_cases hc : (m.get y).child = some x <;> simp [hsg, hc]
  · intro z
    by_cases hsg : single <;> by_cases hc : (m.get y).child = some x <;> simp [hsg, hc]
  all_goals
    intro z
    by_cases hsg : single
    · obtain ⟨e1, e2⟩ := hs1 hsg
      by_cases hzx : z = x <;> by_cases hzy : z = y <;>
        simp_all [get_upd, live_upd]
    · obtain ⟨e1, e2⟩ := hs2 hsg
      by_cases hc : (m.get y).child = some x <;>
      by_cases hzx : z = x <;> by_cases hzy : z = y <;> by_cases hzl : z = xl <;>
        by_cases hzr : z = xr <;> simp_all [get_upd, live_upd]

theorem cut_exec {m m1 m6 : Mem} {h : FHeap} {x y xl xr : Nat} {single : Prop} [Decidable single]
    (lx : m.live x) (ly : m.live y) (lxl : m.live xl) (lxr : m.live xr)
    (hxy : x ≠ y) (hly : xl ≠ y) (hry : xr ≠ y)
    (hleft : (m.get x).left = some xl) (hright : (m.get x).right = some xr)
    (hs1 : single → xl = x ∧ xr = x) (hs2 : ¬ single → xl ≠ x ∧ xr ≠ x)
    (em1 : m1 = (if single then m.upd y (fun n => { n with child := none })
        else ((if (m.get y).child = some x then m.upd y (fun n => { n with child := some xr })
          else m).upd xl (fun n => { n with right := some xr })).upd xr
            (fun n => { n with left := some xl })))
    (em6 : m6 = ((((m1.upd y (fun n => { n with degree := n.degree - 1 })).upd x
                (fun n => { n with parent := none })).upd x
                  (fun n => { n with mark := false })).upd x
                    (fun n => { n with left := some x })).upd x
                      (fun n => { n with right := some x })) :
    cut m h (some x) (some y) =
      if h.min_ = none then .ok (m6, { h with min_ := some x })
      else (mergeRootLists m6 h.min_ (some x)) >>= fun m7 =>
        (m7.rd (some x)) >>= fun nx => (m7.rd h.min_) >>= fun nm =>
          if nx.key < nm.key then .ok (m7, { h with min_ := some x }) else .ok (m7, h) := by
  subst em6; subst em1
  unfold cut
  by_cases hsg : single
  · obtain ⟨e1, e2⟩ := hs1 hsg
    rw [e2] at hright
    simp [rd_live, modify_live, get_upd, live_upd, lx, ly, hxy, hright, hsg]
  · obtain ⟨e1, e2⟩ := hs2 hsg
    by_cases hc : (m.get y).child = some x
    · simp [rd_live, modify_live, get_upd, live_upd, lx, ly, lxl, lxr, hxy, hright, hleft, hsg, hc,
        e1, e2, e1.symm, e2.symm, hly, hry, hly.symm, hry.symm, hxy.symm]
    · simp [rd_live, modify_live, get_upd, live_upd, lx, ly, lxl, lxr, hxy, hright, hleft, hsg, hc,
        e1, e2, e1.symm, e2.symm, hly, hry, hly.symm, hry.symm, hxy.symm]

/-- Specification of `cut(x, y)` for a child `x` of `y`: `x` becomes an unmarked root. -/
theorem cut_spec {g : Ghost} {m : Mem} {h : FHeap} {S : List Nat} {x y : Nat}
    (hs : Shape g m S) (hR : Ring m g.roots)
    (hum : ∀ z, z ∈ g.roots → (m.get z).mark = false) (hH : Hdr g m h S)
    (hx : x ∈ S) (hp : (m.get x).parent = some y) :
    ∃ m' h' g', cut m h (some x) (some y) = .ok (m', h') ∧ Shape g' m' S ∧ Ring m' g'.roots ∧
      (∀ z, z ∈ g'.roots → (m'.get z).mark = false) ∧ Hdr g' m' h' S ∧
      g'.cutFree = false ∧ g'.roots.length = g.roots.length + 1 ∧ g'.rk = g.rk ∧
      g'.bound = g.bound ∧ m'.length = m.length ∧ (∀ z, m'.live z ↔ m.live z) ∧
      (∀ z, z ∉ S → m'.get z = m.get z) ∧
      (∀ z, (m'.get z).key = (m.get z).key) ∧
      (∀ z, (m'.get z).parent = if z = x then none else (m.get z).parent) ∧
      (∀ z, (m'.get z).mark = if z = x then false else (m.get z).mark) ∧
      (∀ z, (m'.get z).degree = if z = y then (m.get y).degree - 1 else (m.get z).degree) ∧
      h'.size_ = h.size_ := by
  have hy : y ∈ S := hs.parent_mem x hx y hp
  have hxy : x ≠ y := hs.parent_ne hx hp
  have hxK : x ∈ g.kids y := (hs.kids_iff y hy x).mpr ⟨hx, hp⟩
  obtain ⟨t, hrot⟩ := rotate_to_head hxK
  have hK : Ring m (x :: t) := (hs.kids_ring y hy).rotated hrot
  have hKS : ∀ c, c ∈ x :: t → c ∈ S ∧ (m.get c).parent = some y :=
    fun c hc => hs.kid_parent hy (hrot.mem_iff.mpr hc)
  have hxm : x ∈ x :: t := List.mem_cons_self _ _
  obtain ⟨xl, hxl, hxlx, hleft⟩ := hK.left hxm
  have hright := hK.right hxm
  have hxr : csucc (x :: t) x ∈ x :: t := csucc_mem hxm
  generalize hxr_def : csucc (x :: t) x = xr at hright hxr
  have hs1 : t = [] → xl = x ∧ xr = x := by
    intro ht; subst ht
    exact ⟨List.mem_singleton.mp hxl, List.mem_singleton.mp hxr⟩
  have hs2 : ¬ t = [] → xl ≠ x ∧ xr ≠ x := by
    intro ht
    constructor
    · intro e; rw [e] at hxlx; exact ht (csucc_self hK.1 hxlx)
    · intro e; rw [e] at hxr_def; exact ht (csucc_self hK.1 hxr_def)
  have hly : xl ≠ y := hs.parent_ne (hKS xl hxl).1 (hKS xl hxl).2
  have hry : xr ≠ y := hs.parent_ne (hKS xr hxr).1 (hKS xr hxr).2
  have lx := hs.live x hx
  have ly := hs.live y hy
  obtain ⟨m1, m6, em1, em6, hlen, hlive, fk, fp, fm, fc, fd, fr, fl⟩ :=
    detach_fields (t = []) lx ly (hs.live xl (hKS xl hxl).1) (hs.live xr (hKS xr hxr).1)
      hxy hly hry hs1 hs2
  have hexec := @cut_exec m m1 m6 h x y xl xr (t = []) _ lx ly (hs.live xl (hKS xl hxl).1) (hs.live xr (hKS xr hxr).1)
      hxy hly hry hleft hright hs1 hs2 em1 em6
  have hxlt : ¬ t = [] → xl ∈ t := by
    intro ht
    rcases List.mem_cons.mp hxl with h | h
    · exact absurd h (hs2 ht).1
    · exact h
  have hxrt : ¬ t = [] → xr ∈ t := by
    intro ht
    rcases List.mem_cons.mp hxr with h | h
    · exact absurd h (hs2 ht).2
    · exact h
  have hlr : ∀ z, z ∉ t → z ≠ x →
      (m6.get z).right = (m.get z).right ∧ (m6.get z).left = (m.get z).left := by
    intro z hzt hzx
    have h1 : z ≠ xl := by
      intro e
      by_cases ht : t = []
      · exact hzx (e.trans (hs1 ht).1)
      · exact hzt (e ▸ hxlt ht)
    have h2 : z ≠ xr := by
      intro e
      by_cases ht : t = []
      · exact hzx (e.trans (hs1 ht).2)
      · exact hzt (e ▸ hxrt ht)
    rw [fr, fl, if_neg hzx, if_neg hzx, if_neg h1, if_neg h2]
    exact ⟨rfl, rfl⟩
  have hring : Ring m6 t := by
    by_cases ht : t = []
    · rw [ht]; exact ring_nil _
    · have hxt : x ∉ t := (List.nodup_cons.mp hK.1).1
      refine ring_unlink hK hleft hright ?_ ?_
      · intro z hz
        have : z ≠ x := fun e => hxt (e ▸ hz)
        rw [fr, if_neg this]
      · intro z hz
        have : z ≠ x := fun e => hxt (e ▸ hz)
        rw [fl, if_neg this]
  have hs6 := @Shape.detach g m m6 S x y t hs hx hp hrot
    (fun z hz => (hlive z).mpr (hs.live z hz))
    (by rw [fp, if_pos rfl]) (by rw [fc, if_neg hxy]) (by rw [fd, if_neg hxy])
    (by rw [fp, if_neg hxy.symm])
    (by
      intro hc
      by_contra ht
      rw [fc, if_pos rfl, if_neg ht] at hc
      by_cases hcx : (m.get y).child = some x
      · rw [if_pos hcx] at hc; cases hc
      · rw [if_neg hcx] at hc
        have := hs.child_none y hy hc
        rw [this] at hxK; cases hxK)
    (by
      intro c hc
      rw [fc, if_pos rfl] at hc
      by_cases ht : t = []
      · rw [if_pos ht] at hc; cases hc
      · rw [if_neg ht] at hc
        by_cases hcx : (m.get y).child = some x
        · rw [if_pos hcx] at hc
          rw [← Option.some.inj hc]; exact hxrt ht
        · rw [if_neg hcx] at hc
          have h1 := hrot.mem_iff.mp (hs.child_some y hy c hc)
          rcases List.mem_cons.mp h1 with h2 | h2
          · rw [h2] at hc; exact absurd hc hcx
          · exact h2)
    (by rw [fd, if_pos rfl])
    (fun z _ hzx hzy => ⟨by rw [fp, if_neg hzx], by rw [fc, if_neg hzy], by rw [fd, if_neg hzy]⟩)
    hring (fun z _ hzt hzx => hlr z hzt hzx)
  have hrootx : ∀ z, z ∈ g.roots → z ≠ x ∧ z ∉ t := by
    intro z hz
    have hpz := hs.root_parent hz
    constructor
    · rintro rfl; rw [hp] at hpz; cases hpz
    · intro hzt
      have := (hKS z (List.mem_cons_of_mem _ hzt)).2
      rw [hpz] at this; cases this
  have hR6 : Ring m6 g.roots :=
    hR.congr (fun z hz => hlr z (hrootx z hz).2 (hrootx z hz).1)
  have hx6 : Ring m6 [x] := ring_singleton.mpr ⟨by rw [fr, if_pos rfl], by rw [fl, if_pos rfl]⟩
  have hfr6 : ∀ z, z ∉ S → m6.get z = m.get z := by
    intro z hz
    have hzx : z ≠ x := fun e => hz (e ▸ hx)
    have hzy : z ≠ y := fun e => hz (e ▸ hy)
    have hzt : z ∉ t := fun e => hz (hKS z (List.mem_cons_of_mem _ e)).1
    exact node_ext (fk z) (by rw [fp, if_neg hzx]) (by rw [fc, if_neg hzy]) (hlr z hzt hzx).2
      (hlr z hzt hzx).1 (by rw [fd, if_neg hzy]) (by rw [fm, if_neg hzx])
  cases hmin : h.min_ with
  | none =>
    have hr0 : g.roots = [] := hH.min_none hmin
    refine ⟨m6, { h with min_ := some x }, _, ?_, hs6, ?_, ?_, ?_, rfl, ?_, rfl, rfl, hlen, hlive,
      hfr6, fk, fp, fm, fd, rfl⟩
    · rw [hexec, hmin]; simp
    · simp only [hr0]; exact hx6
    · intro z hz
      simp only [hr0, List.mem_singleton] at hz
      rw [hz, fm, if_pos rfl]
    · refine ⟨hH.size, by simp, ?_⟩
      intro r hr
      simp only [Option.some.injEq] at hr
      subst hr
      refine ⟨List.mem_cons_self _ _, fun z hz => ?_⟩
      simp only [hr0, List.mem_singleton] at hz
      rw [hz]
    · simp
  | some r =>
    obtain ⟨hrR, hmin_le⟩ := hH.min_some r hmin
    have hxR : x ∉ g.roots := fun e => (hrootx x e).1 rfl
    obtain ⟨m7, t', e1, hrot', hs7, hR7, hsd, hfr7, hlive7, hlen7⟩ :=
      root_splice hs6 (fun z => List.mem_cons) hxR hR6 hx6 hrR
    have hrS : r ∈ S := hs.root_mem hrR
    have lx7 : m7.live x := (hlive7 x).mpr ((hlive x).mpr lx)
    have lr7 : m7.live r := (hlive7 r).mpr ((hlive r).mpr (hs.live r hrS))
    have k7 : ∀ z, (m7.get z).key = (m.get z).key := fun z => (hsd z).1.trans (fk z)
    have hmem : ∀ z, z ∈ r :: t' ++ [x] → z = x ∨ z ∈ g.roots := by
      intro z hz
      rcases List.mem_append.mp hz with h | h
      · exact Or.inr (hrot'.mem_iff.mpr h)
      · exact Or.inl (List.mem_singleton.mp h)
    refine ⟨m7, if (m.get x).key < (m.get r).key then { h with min_ := some x } else h, _, ?_,
      hs7, hR7, ?_, ?_, rfl, ?_, rfl, rfl, hlen7.trans hlen,
      fun z => (hlive7 z).trans (hlive z), ?_, k7,
      fun z => (hsd z).2.1.trans (fp z), fun z => (hsd z).2.2.2.2.trans (fm z),
      fun z => (hsd z).2.2.2.1.trans (fd z), ?_⟩
    · rw [hexec, hmin]
      simp only [e1, ok_bind, rd_live lx7, rd_live lr7, k7]
      by_cases hlt : (m.get x).key < (m.get r).key <;> simp [hlt]
    · intro z hz
      rw [(hsd z).2.2.2.2, fm]
      rcases hmem z hz with h | h
      · rw [if_pos h]
      · rw [if_neg (hrootx z h).1]; exact hum z h
    · constructor
      · by_cases hlt : (m.get x).key < (m.get r).key <;> simp [hlt, hH.size]
      · by_cases hlt : (m.get x).key < (m.get r).key <;> simp [hlt, hmin]
      · intro r' hr'
        by_cases hlt : (m.get x).key < (m.get r).key
        · simp only [hlt, if_true, Option.some.injEq] at hr'
          subst hr'
          refine ⟨by simp, fun z hz => ?_⟩
          rw [k7, k7]
          rcases hmem z hz with h | h
          · rw [h]
          · exact le_of_lt (lt_of_lt_of_le hlt (hmin_le z h))
        · simp only [hlt, if_false, hmin, Option.some.injEq] at hr'
          subst hr'
          refine ⟨by simp, fun z hz => ?_⟩
          rw [k7, k7]
          rcases hmem z hz with h | h
          · rw [h]; exact not_lt.mp hlt
          · exact hmin_le z h
    · show (r :: t' ++ [x]).length = g.roots.length + 1
      rw [hrot'.perm.length_eq]; simp
    · intro z hz
      rw [hfr7 z, hfr6 z hz]
      intro h
      rcases List.mem_cons.mp h with h | h
      · exact hz (h ▸ hx)
      · exact hz (hs.root_mem h)
    · by_cases hlt : (m.get x).key < (m.get r).key <;> simp [hlt]

theorem Shape.roots_length_le {g : Ghost} {m : Mem} {S : List Nat} (hs : Shape g m S) :
    g.roots.length ≤ S.length :=
  (List.subperm_of_subset hs.roots_nodup (fun _ hx => hs.root_mem hx)).length_le

theorem Shape.length_le {g : Ghost} {m : Mem} {S : List Nat} (hs : Shape g m S) :
    S.length ≤ m.length := by
  have h : S ⊆ List.range m.length := fun x hx => List.mem_range.mpr (live_lt (hs.live x hx))
  have := (List.subperm_of_subset hs.nodup h).length_le
  simpa using this

/-- Every node is dominated by a root: some root has a key at most the node's key. -/
theorem Shape.dominated {g : Ghost} {m : Mem} {S : List Nat} (hs : Shape g m S)
    (ho : Ordered m S) : ∀ n x, x ∈ S → g.bound - g.rk x ≤ n →
      ∃ z, z ∈ g.roots ∧ (m.get z).key ≤ (m.get x).key ∧ ((m.get x).parent = none → z = x) := by
  intro n
  induction n with
  | zero =>
    intro x hx hn
    cases hp : (m.get x).parent with
    | none => exact ⟨x, (hs.roots_iff x).mpr ⟨hx, hp⟩, le_refl _, fun _ => rfl⟩
    | some p =>
      have h1 := hs.rk_lt x hx p hp
      have h2 := hs.rk_le p (hs.parent_mem x hx p hp)
      omega
  | succ n ih =>
    intro x hx hn
    cases hp : (m.get x).parent with
    | none => exact ⟨x, (hs.roots_iff x).mpr ⟨hx, hp⟩, le_refl _, fun _ => rfl⟩
    | some p =>
      have hpS := hs.parent_mem x hx p hp
      have h1 := hs.rk_lt x hx p hp
      obtain ⟨z, hz, hzk, -⟩ := ih p hpS (by omega)
      exact ⟨z, hz, le_trans hzk (ho x hx p hp), fun h => by cases h⟩

/-- The call `cascadingCut(y)` terminates within the fuel and keeps the invariant. -/
theorem cascadingCut_spec : ∀ (fuel : Nat) {g : Ghost} {m : Mem} {h : FHeap} {S : List Nat}
    {y : Nat}, Shape g m S → Ring m g.roots →
    (∀ z, z ∈ g.roots → (m.get z).mark = false) → Hdr g m h S → y ∈ S →
    S.length < fuel + g.roots.length →
    ∃ m' h' g', cascadingCut fuel m h (some y) = .ok (m', h') ∧ Shape g' m' S ∧
      Ring m' g'.roots ∧ (∀ z, z ∈ g'.roots → (m'.get z).mark = false) ∧ Hdr g' m' h' S ∧
      (g.cutFree = false → g'.cutFree = false) ∧
      m'.length = m.length ∧ (∀ z, m'.live z ↔ m.live z) ∧
      (∀ z, z ∉ S → m'.get z = m.get z) ∧
      (∀ z, (m'.get z).key = (m.get z).key) ∧
      (∀ z p, (m'.get z).parent = some p → (m.get z).parent = some p) ∧
      (∀ z, (m.get z).parent = none → (m'.get z).parent = none) ∧
      h'.size_ = h.size_ := by
  intro fuel
  induction fuel with
  | zero =>
    intro g m h S y hs _ _ _ _ hf
    have := hs.roots_length_le
    omega
  | succ fuel ih =>
    intro g m h S y hs hR hum hH hy hf
    have ly := hs.live y hy
    cases hp : (m.get y).parent with
    | none =>
      refine ⟨m, h, g, ?_, hs, hR, hum, hH, id, rfl, fun _ => Iff.rfl, fun _ _ => rfl,
        fun _ => rfl, fun _ _ hz => hz, fun _ hz => hz, rfl⟩
      simp [cascadingCut, rd_live ly, hp]
    | some z =>
      by_cases hmk : (m.get y).mark = true
      · obtain ⟨m1, h1, g1, e1, hs1, hR1, hum1, hH1, hcf1, hrl1, -, -, hlen1, hlive1, hfr1, hk1,
          hp1, -, -, hsz1⟩ := cut_spec hs hR hum hH hy hp
        have hz : z ∈ S := hs.parent_mem y hy z hp
        obtain ⟨m2, h2, g2, e2, hs2, hR2, hum2, hH2, hcf2, hlen2, hlive2, hfr2, hk2, hp2, hpn2,
          hsz2⟩ := ih hs1 hR1 hum1 hH1 hz (by omega)
        refine ⟨m2, h2, g2, ?_, hs2, hR2, hum2, hH2, fun _ => hcf2 hcf1, hlen2.trans hlen1,
          fun w => (hlive2 w).trans (hlive1 w), fun w hw => (hfr2 w hw).trans (hfr1 w hw),
          fun w => (hk2 w).trans (hk1 w), ?_, ?_, hsz2.trans hsz1⟩
        · simp [cascadingCut, rd_live ly, hp, hmk, e1, e2]
        · intro w p hw
          have := hp2 w p hw
          rw [hp1] at this
          by_cases hwy : w = y
          · rw [if_pos hwy] at this; cases this
          · rw [if_neg hwy] at this; exact this
        · intro w hw
          apply hpn2
          rw [hp1, hw]; simp
      · have hmk' : (m.get y).mark = false := by simpa using hmk
        have hg : ∀ w, (m.upd y (fun n => { n with mark := true })).get w =
            if w = y then { m.get y with mark := true } else m.get w := fun w => get_upd m w _ ly
        have hsd : ∀ w, (m.upd y (fun n => { n with mark := true })).get w =
            { m.get w with mark := (m.upd y (fun n => { n with mark := true })).get w |>.mark } := by
          intro w; rw [hg]; by_cases hwy : w = y <;> simp [hwy]
        have hroot : ∀ w, w ∈ g.roots → w ≠ y := by
          rintro w hw rfl
          have := hs.root_parent hw; rw [hp] at this; cases this
        refine ⟨m.upd y (fun n => { n with mark := true }), h, g, ?_, ?_, ?_, ?_, ?_, id, by simp,
          fun w => live_upd _ _ _ _, ?_, ?_, ?_, ?_, rfl⟩
        · simp [cascadingCut, rd_live ly, hp, hmk', modify_live _ ly]
        · exact hs.shape_congr' (fun w hw => (live_upd _ _ _ _).mpr (hs.live w hw))
            (fun w _ => by rw [hsd]; exact ⟨rfl, rfl, rfl⟩)
            (fun w _ _ => by rw [hsd]; exact ⟨rfl, rfl⟩)
        · exact hR.congr (fun w _ => by rw [hsd]; exact ⟨rfl, rfl⟩)
        · intro w hw
          rw [hg, if_neg (hroot w hw)]; exact hum w hw
        · refine ⟨hH.size, hH.min_none, fun r hr => ⟨(hH.min_some r hr).1, fun w hw => ?_⟩⟩
          rw [hsd r, hsd w]; exact (hH.min_some r hr).2 w hw
        · intro w hw
          have hwy : w ≠ y := fun e => hw (e ▸ hy)
          rw [hg, if_neg hwy]
        · intro w; rw [hsd]
        · intro w p hw; rw [hsd] at hw; exact hw
        · intro w hw; rw [hsd]; exact hw

/-- The nodes of the marked run above `y` are marked non-root nodes of the forest that
are not below `y`, and so is the node where the walk stops. -/
theorem markedRun_facts {g : Ghost} {m : Mem} {S : List Nat} (hs : Shape g m S) :
    ∀ (fuel y : Nat), y ∈ S →
      (∀ c, c ∈ markedRun m fuel y → c ∈ S ∧ g.rk y ≤ g.rk c ∧ (m.get c).mark = true ∧
        (m.get c).parent ≠ none) ∧
      (runStop m fuel y ∈ S ∧ g.rk y ≤ g.rk (runStop m fuel y)) := by
  intro fuel
  induction fuel with
  | zero =>
    intro y hy
    simp only [markedRun, runStop]
    exact ⟨fun c hc => absurd hc (List.not_mem_nil _), hy, le_refl _⟩
  | succ fuel ih =>
    intro y hy
    cases hp : (m.get y).parent with
    | none =>
      simp only [markedRun, runStop, hp]
      exact ⟨fun c hc => absurd hc (List.not_mem_nil _), hy, le_refl _⟩
    | some z =>
      have hz := hs.parent_mem y hy z hp
      have hrk := hs.rk_lt y hy z hp
      obtain ⟨h1, h2, h3⟩ := ih z hz
      by_cases hmk : (m.get y).mark = true
      · simp only [markedRun, runStop, hp, hmk, if_true]
        refine ⟨fun c hc => ?_, h2, by omega⟩
        rcases List.mem_cons.mp hc with hc | hc
        · rw [hc]; exact ⟨hy, le_refl _, hmk, by rw [hp]; simp⟩
        · obtain ⟨a1, a2, a3, a4⟩ := h1 c hc
          exact ⟨a1, by omega, a3, a4⟩
      · simp only [markedRun, runStop, hp, hmk, if_false]
        exact ⟨fun c hc => absurd hc (List.not_mem_nil _), hy, le_refl _⟩

/-- The walk only reads the parent and mark fields of the nodes it passes. -/
theorem markedRun_agree {g : Ghost} {m m1 : Mem} {S : List Nat} (hs : Shape g m S) {r0 : Nat}
    (hag : ∀ w, w ∈ S → r0 ≤ g.rk w →
      (m1.get w).parent = (m.get w).parent ∧ (m1.get w).mark = (m.get w).mark) :
    ∀ (fuel y : Nat), y ∈ S → r0 ≤ g.rk y →
      markedRun m1 fuel y = markedRun m fuel y ∧ runStop m1 fuel y = runStop m fuel y := by
  intro fuel
  induction fuel with
  | zero => intro y _ _; exact ⟨rfl, rfl⟩
  | succ fuel ih =>
    intro y hy hr
    obtain ⟨e1, e2⟩ := hag y hy hr
    cases hp : (m.get y).parent with
    | none => simp only [markedRun, runStop, e1, hp]; exact ⟨trivial, trivial⟩
    | some z =>
      have hz := hs.parent_mem y hy z hp
      have hrk := hs.rk_lt y hy z hp
      obtain ⟨i1, i2⟩ := ih z hz (by omega)
      simp only [markedRun, runStop, e1, e2, hp, i1, i2]
      exact ⟨trivial, trivial⟩

/-- The effect of `cut(x, y)` followed by `cascadingCut(y)` on parents, marks and degrees:
`x` and the marked run above `y` become unmarked roots, each of their former parents
loses one child, and the node where the walk stops is marked unless it is a root. -/
theorem cut_cascade_detail : ∀ (fuel : Nat) {g : Ghost} {m : Mem} {h : FHeap} {S : List Nat}
    {x y : Nat} {e0 : Option Nat} {m1 m' : Mem} {h1 h' : FHeap},
    Shape g m S → Ring m g.roots → (∀ z, z ∈ g.roots → (m.get z).mark = false) →
    Hdr g m h S → x ∈ S → (m.get x).parent = some y → Thin m S e0 →
    (e0 = none ∨ e0 = some x) →
    cut m h (some x) (some y) = .ok (m1, h1) →
    cascadingCut fuel m1 h1 (some y) = .ok (m', h') →
    Thin m' S none ∧
    (∀ z, (m'.get z).parent = if z ∈ x :: markedRun m fuel y then none else (m.get z).parent) ∧
    (∀ z, (m'.get z).mark = if z ∈ x :: markedRun m fuel y then false
      else if z = runStop m fuel y ∧ (m.get z).parent ≠ none then true else (m.get z).mark) ∧
    (∀ z c, c ∈ x :: markedRun m fuel y → (m.get c).parent = some z →
      (m'.get z).degree = (m.get z).degree - 1) ∧
    (∀ z, (∀ c, c ∈ x :: markedRun m fuel y → (m.get c).parent ≠ some z) →
      (m'.get z).degree = (m.get z).degree) ∧
    ((m.get (runStop m fuel y)).parent ≠ none → (m.get (runStop m fuel y)).mark = false) := by
  intro fuel
  induction fuel with
  | zero =>
    intro g m h S x y e0 m1 m' h1 h' _ _ _ _ _ _ _ _ _ hc
    simp [cascadingCut] at hc
  | succ fuel ih =>
    intro g m h S x y e0 m1 m' h1 h' hs hR hum hH hx hxy hT he hcut hc
    obtain ⟨m1', h1', g1, e1, hs1, hR1, hum1, hH1, -, -, hrk1, -, -, hlive1, -, -,
      hp1, hm1, hd1, -⟩ := cut_spec hs hR hum hH hx hxy
    have heq := e1.symm.trans hcut
    simp only [Except.ok.injEq, Prod.mk.injEq] at heq
    obtain ⟨rfl, rfl⟩ := heq
    have hy : y ∈ S := hs.parent_mem x hx y hxy
    have hxne : x ≠ y := hs.parent_ne hx hxy
    have hrkxy := hs.rk_lt x hx y hxy
    have hT1 : Thin m1' S (some y) := hT.cut he hp1 hm1 hd1
    have ly1 : m1'.live y := (hlive1 y).mpr (hs.live y hy)
    have hpy1 : (m1'.get y).parent = (m.get y).parent := by rw [hp1, if_neg hxne.symm]
    have hmy1 : (m1'.get y).mark = (m.get y).mark := by rw [hm1, if_neg hxne.symm]
    cases hp : (m.get y).parent with
    | none =>
      have hc' : m' = m1' := by
        simp [cascadingCut, rd_live ly1, hpy1, hp] at hc
        exact hc.1.symm
      subst hc'
      simp only [markedRun, runStop, hp]
      refine ⟨hT1.drop_root (hpy1.trans hp), ?_, ?_, ?_, ?_, fun hne => absurd rfl hne⟩
      · intro z; rw [hp1]; simp
      · intro z; rw [hm1]
        by_cases hzx : z = x
        · simp [hzx]
        · by_cases hzy : z = y
          · simp [hzx, hzy, hp]
          · simp [hzx, hzy]
      · intro z c hc hcz
        simp only [List.mem_singleton] at hc
        subst hc
        rw [hxy] at hcz
        have := Option.some.inj hcz
        subst this
        rw [hd1, if_pos rfl]
      · intro z hz
        have hzy : z ≠ y := by
          intro e'; exact hz x (List.mem_singleton.mpr rfl) (by rw [hxy, e'])
        rw [hd1, if_neg hzy]
    | some z =>
      have hz : z ∈ S := hs.parent_mem y hy z hp
      have hrkyz := hs.rk_lt y hy z hp
      by_cases hmk : (m.get y).mark = true
      · -- `y` is marked: it is cut and the walk continues at `z`
        obtain ⟨m2, h2, g2, e2, -⟩ := cut_spec hs1 hR1 hum1 hH1 hy (hpy1.trans hp)
        have hc2 : cascadingCut fuel m2 h2 (some z) = .ok (m', h') := by
          simp [cascadingCut, rd_live ly1, hpy1, hp, hmy1, hmk, e2] at hc
          exact hc
        obtain ⟨iT, iP, iM, iD1, iD2, iS⟩ := ih hs1 hR1 hum1 hH1 hy (hpy1.trans hp) hT1
          (Or.inr rfl) e2 hc2
        have hag : ∀ w, w ∈ S → g.rk z ≤ g.rk w →
            (m1'.get w).parent = (m.get w).parent ∧ (m1'.get w).mark = (m.get w).mark := by
          intro w _ hw
          have hwx : w ≠ x := by intro e'; rw [e'] at hw; omega
          rw [hp1, hm1, if_neg hwx, if_neg hwx]; exact ⟨rfl, rfl⟩
        obtain ⟨ag1, ag2⟩ := markedRun_agree hs hag fuel z hz (le_refl _)
        obtain ⟨hf1, hf2, hf3⟩ := markedRun_facts hs fuel z hz
        rw [ag1] at iP iM iD1 iD2
        rw [ag2] at iM iS
        have hxR : x ∉ markedRun m fuel z := by
          intro hmem; have := (hf1 x hmem).2.1; omega
        have hyR : y ∉ markedRun m fuel z := by
          intro hmem; have := (hf1 y hmem).2.1; omega
        have hxe : runStop m fuel z ≠ x := by intro e'; rw [e'] at hf3; omega
        have hye : runStop m fuel z ≠ y := by intro e'; rw [e'] at hf3; omega
        have hpe : (m1'.get (runStop m fuel z)).parent = (m.get (runStop m fuel z)).parent := by
          rw [hp1, if_neg hxe]
        have hme : (m1'.get (runStop m fuel z)).mark = (m.get (runStop m fuel z)).mark := by
          rw [hm1, if_neg hxe]
        simp only [markedRun, runStop, hp, hmk, if_true]
        refine ⟨iT, ?_, ?_, ?_, ?_, ?_⟩
        · intro w
          rw [iP, hp1]
          by_cases hwx : w = x
          · subst hwx
            simp [hxne, hxR]
          · by_cases hwy : w = y
            · subst hwy; simp
            · simp [hwx, hwy]
        · intro w
          rw [iM, hm1]
          by_cases hwx : w = x
          · subst hwx
            have : ¬ (w = runStop m fuel z) := fun e' => hxe e'.symm
            simp [hxne, hxR, this]
          · by_cases hwy : w = y
            · subst hwy; simp
            · by_cases hwe : w = runStop m fuel z
              · subst hwe
                rw [hp1, if_neg hwx]
                simp [hwx, hwy]
              · simp [hwx, hwy, hwe]
        · intro w c hc hcw
          rcases List.mem_cons.mp hc with hcx | hc
          · -- `c = x`, so `w = y`
            rw [hcx, hxy] at hcw
            have hwy : w = y := (Option.some.inj hcw).symm
            rw [hwy, iD2 y (fun c' hc' hcp => ?_), hd1, if_pos rfl]
            rcases List.mem_cons.mp hc' with h0 | h0
            · rw [h0, hpy1, hp] at hcp
              have hzy : z = y := Option.some.inj hcp
              rw [hzy] at hrkyz
              omega
            · have h1 := (hf1 c' h0).2.1
              have hc'x : c' ≠ x := by
                intro e'; rw [e'] at h1; omega
              rw [hp1, if_neg hc'x] at hcp
              have := hs.rk_lt c' (hf1 c' h0).1 y hcp
              omega
          · have hcx : c ≠ x := by
              intro e'; rw [e'] at hc
              rcases List.mem_cons.mp hc with h0 | h0
              · exact hxne h0
              · exact hxR h0
            have hwy : w ≠ y := by
              intro e'; rw [e'] at hcw
              rcases List.mem_cons.mp hc with h0 | h0
              · rw [h0] at hcw
                have := hs.rk_lt y hy y hcw; omega
              · have h1 := (hf1 c h0).2.1
                have := hs.rk_lt c (hf1 c h0).1 y hcw
                omega
            rw [iD1 w c hc (by rw [hp1, if_neg hcx]; exact hcw), hd1, if_neg hwy]
        · intro w hw
          have hwy : w ≠ y := by
            intro e'; exact hw x (List.mem_cons_self _ _) (by rw [hxy, e'])
          rw [iD2 w (fun c' hc' hcp => ?_), hd1, if_neg hwy]
          have hc'x : c' ≠ x := by
            intro e'; rw [e'] at hc'
            rcases List.mem_cons.mp hc' with h0 | h0
            · exact hxne h0
            · exact hxR h0
          rw [hp1, if_neg hc'x] at hcp
          exact hw c' (List.mem_cons_of_mem _ hc') hcp
        · intro hne
          have := iS (by rw [hpe]; exact hne)
          rw [hme] at this
          exact this
      · -- `y` is unmarked: it is marked and the walk stops
        have hmk' : (m.get y).mark = false := by simpa using hmk
        have hg : ∀ w, (m1'.upd y (fun n => { n with mark := true })).get w =
            if w = y then { m1'.get y with mark := true } else m1'.get w :=
          fun w => get_upd m1' w _ ly1
        have hc' : m' = m1'.upd y (fun n => { n with mark := true }) := by
          simp [cascadingCut, rd_live ly1, hpy1, hp, hmy1, hmk', modify_live _ ly1] at hc
          exact hc.1.symm
        subst hc'
        have gp : ∀ w, ((m1'.upd y (fun n => { n with mark := true })).get w).parent =
            (m1'.get w).parent := by
          intro w; rw [hg]; by_cases hwy : w = y <;> simp [hwy]
        have gd : ∀ w, ((m1'.upd y (fun n => { n with mark := true })).get w).degree =
            (m1'.get w).degree := by
          intro w; rw [hg]; by_cases hwy : w = y <;> simp [hwy]
        have gm : ∀ w, ((m1'.upd y (fun n => { n with mark := true })).get w).mark =
            if w = y then true else (m1'.get w).mark := by
          intro w; rw [hg]; by_cases hwy : w = y <;> simp [hwy]
        simp only [markedRun, runStop, hp, hmk', Bool.false_eq_true, if_false]
        refine ⟨hT1.set_mark (hmy1.trans hmk') gp gd gm, ?_, ?_, ?_, ?_, fun _ => trivial⟩
        · intro w; rw [gp, hp1]; simp
        · intro w
          rw [gm, hm1]
          by_cases hwx : w = x
          · subst hwx; simp [hxne]
          · by_cases hwy : w = y
            · subst hwy; simp [hwx, hp]
            · simp [hwx, hwy]
        · intro w c hc hcw
          simp only [List.mem_singleton] at hc
          subst hc
          rw [hxy] at hcw
          have := Option.some.inj hcw
          subst this
          rw [gd, hd1, if_pos rfl]
        · intro w hw
          have hwy : w ≠ y := by
            intro e'; exact hw x (List.mem_singleton.mpr rfl) (by rw [hxy, e'])
          rw [gd, hd1, if_neg hwy]

/-- The final `min_` update of `DecreaseKey`. -/
theorem min_update {g : Ghost} {m : Mem} {h : FHeap} {S : List Nat} {x r : Nat}
    (hs : Shape g m S) (ho : Ordered m S) (hx : x ∈ S) (hsz : h.size_ = S.length)
    (hmin : h.min_ = some r) (hr : r ∈ g.roots)
    (hle : ∀ z, z ∈ g.roots → z ≠ x → (m.get r).key ≤ (m.get z).key) :
    Hdr g m (if (m.get x).key < (m.get r).key then { h with min_ := some x } else h) S := by
  by_cases hlt : (m.get x).key < (m.get r).key
  · rw [if_pos hlt]
    obtain ⟨z, hz, hzk, -⟩ := hs.dominated ho _ x hx (le_refl _)
    have hzx : z = x := by
      by_contra hne
      have := hle z hz hne
      omega
    subst hzx
    refine ⟨hsz, by simp, fun r' hr' => ?_⟩
    simp only [Option.some.injEq] at hr'
    subst hr'
    refine ⟨hz, fun w hw => ?_⟩
    by_cases hwz : w = z
    · rw [hwz]
    · have := hle w hw hwz; omega
  · rw [if_neg hlt]
    refine ⟨hsz, by simp [hmin], fun r' hr' => ?_⟩
    rw [hmin] at hr'
    simp only [Option.some.injEq] at hr'
    subst hr'
    refine ⟨hr, fun w hw => ?_⟩
    by_cases hwx : w = x
    · rw [hwx]; omega
    · exact hle w hw hwx

/-- Specification of `DecreaseKey` on a node of the heap with a key that is not greater:
the invariant is kept; when the new key is below the key of the parent, the node and the
marked run above the parent are cut; otherwise only the key changes. -/
theorem DecreaseKey_full {g : Ghost} {m : Mem} {h : FHeap} {S : List Nat} {x : Nat}
    {newKey : Int} (hF : Forest g m S) (hH : Hdr g m h S) (hx : x ∈ S)
    (hle : newKey ≤ (m.get x).key) :
    ∃ m' h' g', DecreaseKey m h ⟨some x⟩ newKey = .ok (m', h') () ∧ Forest g' m' S ∧
      Hdr g' m' h' S ∧ (m'.get x).key = newKey ∧
      (∀ z, z ≠ x → (m'.get z).key = (m.get z).key) ∧ h'.size_ = h.size_ ∧
      m'.length = m.length ∧ (∀ z, m'.live z ↔ m.live z) ∧
      (∀ z, z ∉ S → m'.get z = m.get z) ∧
      (∀ y, (m.get x).parent = some y → newKey < (m.get y).key →
        (∀ z, (m'.get z).parent =
          if z ∈ x :: markedRun m m.length y then none else (m.get z).parent) ∧
        (∀ z, (m'.get z).mark = if z ∈ x :: markedRun m m.length y then false
          else if z = runStop m m.length y ∧ (m.get z).parent ≠ none then true
          else (m.get z).mark) ∧
        (∀ z c, c ∈ x :: markedRun m m.length y → (m.get c).parent = some z →
          (m'.get z).degree = (m.get z).degree - 1) ∧
        (∀ z, (∀ c, c ∈ x :: markedRun m m.length y → (m.get c).parent ≠ some z) →
          (m'.get z).degree = (m.get z).degree) ∧
        ((m.get (runStop m m.length y)).parent ≠ none →
          (m.get (runStop m m.length y)).mark = false)) ∧
      (((m.get x).parent = none ∨
          ∃ y, (m.get x).parent = some y ∧ (m.get y).key ≤ newKey) →
        ∀ z, m'.get z = if z = x then { m.get x with key := newKey } else m.get z) := by
  have hs := hF.trees.shape
  have ho := hF.trees.order
  have lx := hs.live x hx
  have hg : ∀ w, (m.upd x (fun n => { n with key := newKey })).get w =
      if w = x then { m.get x with key := newKey } else m.get w := fun w => get_upd m w _ lx
  have hsd : ∀ w, (m.upd x (fun n => { n with key := newKey })).get w =
      { m.get w with key := (m.upd x (fun n => { n with key := newKey })).get w |>.key } := by
    intro w; rw [hg]; by_cases hwx : w = x <;> simp [hwx]
  have hk0 : ∀ w, ((m.upd x (fun n => { n with key := newKey })).get w).key =
      if w = x then newKey else (m.get w).key := by
    intro w; rw [hg]; by_cases hwx : w = x <;> simp [hwx]
  generalize hm0 : m.upd x (fun n => { n with key := newKey }) = m0 at hg hsd hk0
  have hlive0 : ∀ w, m0.live w ↔ m.live w := by intro w; rw [← hm0]; exact live_upd _ _ _ _
  have hlen0 : m0.length = m.length := by rw [← hm0]; simp
  have hp0 : ∀ w, (m0.get w).parent = (m.get w).parent := fun w => by rw [hsd]
  have hs0 : Shape g m0 S := hs.shape_congr' (fun w hw => (hlive0 w).mpr (hs.live w hw))
    (fun w _ => by rw [hsd]; exact ⟨rfl, rfl, rfl⟩) (fun w _ _ => by rw [hsd]; exact ⟨rfl, rfl⟩)
  have hR0 : Ring m0 g.roots := hF.ring.congr (fun w _ => by rw [hsd]; exact ⟨rfl, rfl⟩)
  have hum0 : ∀ z, z ∈ g.roots → (m0.get z).mark = false := by
    intro z hz; rw [hsd]; exact hF.unmarked z hz
  have lx0 : m0.live x := (hlive0 x).mpr lx
  have hT0 : Thin m0 S none := hF.trees.thin.thin_congr (fun c _ => hp0 c)
    (fun c _ _ => by rw [hsd]; exact ⟨rfl, rfl⟩)
  have hfr0 : ∀ z, z ∉ S → m0.get z = m.get z := by
    intro z hz
    have hzx : z ≠ x := fun e => hz (e ▸ hx)
    rw [hg, if_neg hzx]
  have hexec0 : ∀ m' h', decreaseKeyBody m h (some x) newKey = .ok (m', h') →
      DecreaseKey m h ⟨some x⟩ newKey = .ok (m', h') () := by
    intro m' h' hr
    simp [DecreaseKey, rd_live lx, not_lt.mpr hle, hr]
  -- heap order away from the parent edge of `x`
  have ho0 : ∀ c, c ∈ S → c ≠ x → ∀ p, (m0.get c).parent = some p →
      (m0.get p).key ≤ (m0.get c).key := by
    intro c hc hcx p hp
    rw [hp0] at hp
    have := ho c hc p hp
    rw [hk0, hk0, if_neg hcx]
    by_cases hpx : p = x
    · rw [if_pos hpx]; rw [hpx] at this; omega
    · rw [if_neg hpx]; exact this
  cases hpar : (m.get x).parent with
  | none =>
    have hxR : x ∈ g.roots := (hs.roots_iff x).mpr ⟨hx, hpar⟩
    cases hmin : h.min_ with
    | none => rw [hH.min_none hmin] at hxR; cases hxR
    | some r =>
      obtain ⟨hrR, hrle⟩ := hH.min_some r hmin
      have hrS := hs.root_mem hrR
      have ho0' : Ordered m0 S := by
        intro c hc p hp
        by_cases hcx : c = x
        · rw [hcx, hp0, hpar] at hp; cases hp
        · exact ho0 c hc hcx p hp
      have hH0 := min_update hs0 ho0' hx hH.size hmin hrR (by
        intro z hz hzx
        rw [hk0, hk0, if_neg hzx]
        by_cases hrx : r = x
        · rw [if_pos hrx]; have := hrle z hz; rw [hrx] at this; omega
        · rw [if_neg hrx]; exact hrle z hz)
      refine ⟨m0, _, g, ?_, ⟨⟨hs0, ho0', hF.trees.binom, hT0⟩, hR0, hum0⟩, hH0,
        by rw [hk0, if_pos rfl],
        fun z hz => by rw [hk0, if_neg hz], ?_, hlen0, hlive0, hfr0, ?_, ?_⟩
      · apply hexec0
        simp only [decreaseKeyBody, modify_live _ lx, hm0, ok_bind, rd_live lx0, hp0, hpar,
          hmin, rd_live ((hlive0 r).mpr (hs.live r hrS))]
        by_cases hlt : (m0.get x).key < (m0.get r).key <;>
          simp [hlt, hmin, rd_live lx0, rd_live ((hlive0 r).mpr (hs.live r hrS))]
      · by_cases hlt : (m0.get x).key < (m0.get r).key <;> simp [hlt]
      · intro y' hy'
        cases hy'
      · intro _ z
        exact hg z
  | some y =>
    have hy : y ∈ S := hs.parent_mem x hx y hpar
    have hxy : x ≠ y := hs.parent_ne hx hpar
    have ly0 : m0.live y := (hlive0 y).mpr (hs.live y hy)
    have hxnR : x ∉ g.roots := by
      intro e; have := hs.root_parent e; rw [hpar] at this; cases this
    have hH0 : Hdr g m0 h S := by
      refine ⟨hH.size, hH.min_none, fun r hr => ⟨(hH.min_some r hr).1, fun z hz => ?_⟩⟩
      have hrx : r ≠ x := fun e => hxnR (e ▸ (hH.min_some r hr).1)
      have hzx : z ≠ x := fun e => hxnR (e ▸ hz)
      rw [hk0, hk0, if_neg hrx, if_neg hzx]
      exact (hH.min_some r hr).2 z hz
    by_cases hlt : newKey < (m.get y).key
    · obtain ⟨m1, h1, g1, e1, hs1, hR1, hum1, hH1, hcf1, hrl1, -, -, hlen1, hlive1, hfr1, hk1,
        hp1, -, -, hsz1⟩ := cut_spec hs0 hR0 hum0 hH0 hx ((hp0 x).trans hpar)
      obtain ⟨m2, h2, g2, e2, hs2, hR2, hum2, hH2, hcf2, hlen2, hlive2, hfr2, hk2, hp2, hpn2,
        hsz2⟩ := cascadingCut_spec m1.length hs1 hR1 hum1 hH1 hy (by
          have := hs1.length_le
          omega)
      have hk20 : ∀ w, (m2.get w).key = (m0.get w).key := fun w => (hk2 w).trans (hk1 w)
      have hpx2 : (m2.get x).parent = none := hpn2 x (by rw [hp1, if_pos rfl])
      have hxR2 : x ∈ g2.roots := (hs2.roots_iff x).mpr ⟨hx, hpx2⟩
      have ho2 : Ordered m2 S := by
        intro c hc p hp
        have h1' := hp2 c p hp
        rw [hp1] at h1'
        by_cases hcx : c = x
        · rw [if_pos hcx] at h1'; cases h1'
        · rw [if_neg hcx] at h1'
          rw [hk20, hk20]
          exact ho0 c hc hcx p h1'
      cases hmin : h2.min_ with
      | none => rw [hH2.min_none hmin] at hxR2; cases hxR2
      | some r =>
        obtain ⟨hrR, hrle⟩ := hH2.min_some r hmin
        have hH3 := min_update hs2 ho2 hx hH2.size hmin hrR (fun z hz _ => hrle z hz)
        have lx2 : m2.live x := (hlive2 x).mpr ((hlive1 x).mpr lx0)
        have lr2 : m2.live r := hs2.live r (hs2.root_mem hrR)
        obtain ⟨dT, dP, dM, dD1, dD2, dS⟩ := cut_cascade_detail m1.length hs0 hR0 hum0 hH0 hx
          ((hp0 x).trans hpar) hT0 (Or.inl rfl) e1 e2
        have hrun : markedRun m0 m1.length y = markedRun m m.length y ∧
            runStop m0 m1.length y = runStop m m.length y := by
          rw [hlen1, hlen0]
          exact @markedRun_agree _ _ _ _ hs 0 (fun w _ _ => ⟨by rw [hsd], by rw [hsd]⟩)
            m.length y hy (Nat.zero_le _)
        rw [hrun.1] at dP dM dD1 dD2
        rw [hrun.2] at dM dS
        have hm0' : ∀ w, (m0.get w).mark = (m.get w).mark := fun w => by rw [hsd]
        have hd0' : ∀ w, (m0.get w).degree = (m.get w).degree := fun w => by rw [hsd]
        refine ⟨m2, _, g2, ?_, ⟨⟨hs2, ho2, fun hc => ?_, dT⟩, hR2, hum2⟩, hH3,
          by rw [hk20, hk0, if_pos rfl], fun z hz => by rw [hk20, hk0, if_neg hz], ?_,
          hlen2.trans (hlen1.trans hlen0),
          fun w => (hlive2 w).trans ((hlive1 w).trans (hlive0 w)),
          fun w hw => (hfr2 w hw).trans ((hfr1 w hw).trans (hfr0 w hw)), ?_, ?_⟩
        · apply hexec0
          have hlt0 : (m0.get x).key < (m0.get y).key := by
            rw [hk0, hk0, if_pos rfl, if_neg hxy.symm]; exact hlt
          simp only [decreaseKeyBody, modify_live _ lx, hm0, ok_bind, rd_live lx0, hp0, hpar,
            rd_live ly0, hlt0, e1, e2]
          by_cases hlt2 : (m2.get x).key < (m2.get r).key <;>
            simp [hlt2, hmin, rd_live lx2, rd_live lr2, hlt0, e1, e2]
        · rw [hcf2 hcf1] at hc; cases hc
        · by_cases hlt2 : (m2.get x).key < (m2.get r).key <;> simp [hlt2, hsz2, hsz1]
        · intro y' hy' _
          have hyy : y' = y := (Option.some.inj hy').symm
          rw [hyy]
          refine ⟨fun z => ?_, fun z => ?_, fun z c hc hcz => ?_, fun z hz => ?_, fun hne => ?_⟩
          · rw [dP, hp0]
          · rw [dM, hp0, hm0']
          · rw [dD1 z c hc (by rw [hp0]; exact hcz), hd0']
          · rw [dD2 z (fun c hc => by rw [hp0]; exact hz c hc), hd0']
          · rw [← hm0']; exact dS (by rw [hp0]; exact hne)
        · rintro (hn | ⟨y', hy', hk'⟩)
          · cases hn
          · have hyy : y' = y := (Option.some.inj hy').symm
            rw [hyy] at hk'
            omega
    · have ho0' : Ordered m0 S := by
        intro c hc p hp
        by_cases hcx : c = x
        · rw [hcx, hp0, hpar] at hp
          have := Option.some.inj hp
          subst this; subst hcx
          rw [hk0, hk0, if_pos rfl, if_neg hxy.symm]
          omega
        · exact ho0 c hc hcx p hp
      cases hmin : h.min_ with
      | none =>
        have := hH.min_none hmin
        obtain ⟨z, hz, -⟩ := hs.dominated ho _ x hx (le_refl _)
        rw [this] at hz; cases hz
      | some r =>
        obtain ⟨hrR, hrle⟩ := hH0.min_some r hmin
        have hH3 := min_update hs0 ho0' hx hH.size hmin hrR (fun z hz _ => hrle z hz)
        have lr0 : m0.live r := hs0.live r (hs0.root_mem hrR)
        refine ⟨m0, _, g, ?_, ⟨⟨hs0, ho0', hF.trees.binom, hT0⟩, hR0, hum0⟩, hH3,
          by rw [hk0, if_pos rfl], fun z hz => by rw [hk0, if_neg hz], ?_, hlen0, hlive0, hfr0,
          ?_, ?_⟩
        · apply hexec0
          have hlt0 : ¬ (m0.get x).key < (m0.get y).key := by
            rw [hk0, hk0, if_pos rfl, if_neg hxy.symm]; exact hlt
          simp only [decreaseKeyBody, modify_live _ lx, hm0, ok_bind, rd_live lx0, hp0, hpar,
            rd_live ly0, hlt0]
          by_cases hlt2 : (m0.get x).key < (m0.get r).key <;>
            simp [hlt2, hmin, rd_live lx0, rd_live lr0, hlt0]
        · by_cases hlt2 : (m0.get x).key < (m0.get r).key <;> simp [hlt2]
        · intro y' hy' hlt'
          have hyy : y' = y := (Option.some.inj hy').symm
          rw [hyy] at hlt'
          exact absurd hlt' hlt
        · intro _ z
          exact hg z

theorem DecreaseKey_spec {g : Ghost} {m : Mem} {h : FHeap} {S : List Nat} {x : Nat}
    {newKey : Int} (hF : Forest g m S) (hH : Hdr g m h S) (hx : x ∈ S)
    (hle : newKey ≤ (m.get x).key) :
    ∃ m' h' g', DecreaseKey m h ⟨some x⟩ newKey = .ok (m', h') () ∧ Forest g' m' S ∧
      Hdr g' m' h' S ∧ (m'.get x).key = newKey ∧
      (∀ z, z ≠ x → (m'.get z).key = (m.get z).key) ∧ h'.size_ = h.size_ ∧
      m'.length = m.length ∧ (∀ z, m'.live z ↔ m.live z) ∧
      (∀ z, z ∉ S → m'.get z = m.get z) := by
  obtain ⟨m', h', g', a1, a2, a3, a4, a5, a6, a7, a8, a9, -⟩ := DecreaseKey_full hF hH hx hle
  exact ⟨m', h', g', a1, a2, a3, a4, a5, a6, a7, a8, a9⟩

/-! ## Ring traversals -/

/-- Successor along a traversal of `l = pre ++ x :: post` that started at the head `s`. -/
theorem csucc_walk {l pre post : List Nat} {x s : Nat} (hn : l.Nodup)
    (hl : l = pre ++ x :: post) (hs : l.head? = some s) :
    (post = [] → csucc l x = s) ∧
    (∀ p ps, post = p :: ps → csucc l x = p ∧ p ≠ s) := by
  subst hl
  have hx : x ∉ pre := by
    intro h
    have := (List.nodup_append.mp hn).2.2
    exact this h (List.mem_cons_self _ _)
  rw [csucc_decomp hx]
  constructor
  · intro hp; subst hp
    cases pre with
    | nil => simp at hs; simp [hs]
    | cons a as => simp at hs; simp [hs]
  · intro p ps hp; subst hp
    refine ⟨by simp, ?_⟩
    intro e
    cases pre with
    | nil =>
      simp at hs
      have : p = x := e.trans hs.symm
      subst this
      simp at hn
    | cons a as =>
      simp at hs
      have : p = a := e.trans hs.symm
      subst this
      simp at hn

theorem collectRoots_aux {m : Mem} {l : List Nat} {s : Nat} (hR : Ring m l)
    (hlv : ∀ w, w ∈ l → m.live w) (hs : l.head? = some s) :
    ∀ (post pre : List Nat) (x fuel : Nat), l = pre ++ x :: post → post.length < fuel →
      collectRoots m (some s) fuel (some x) (pre.map some) = .ok (l.map some) := by
  intro post
  induction post with
  | nil =>
    intro pre x fuel hl hf
    obtain ⟨f, rfl⟩ : ∃ f, fuel = f + 1 := ⟨fuel - 1, by simp at hf; omega⟩
    have hx : x ∈ l := by rw [hl]; simp
    have h1 := (csucc_walk hR.1 hl hs).1 rfl
    simp only [collectRoots, rd_live (hlv x hx), hR.right hx, h1, ok_bind, if_true]
    rw [hl]; simp
  | cons p ps ih =>
    intro pre x fuel hl hf
    obtain ⟨f, rfl⟩ : ∃ f, fuel = f + 1 := ⟨fuel - 1, by simp at hf; omega⟩
    have hx : x ∈ l := by rw [hl]; simp
    obtain ⟨h1, h2⟩ := (csucc_walk hR.1 hl hs).2 p ps rfl
    have := ih (pre ++ [x]) p f (by rw [hl]; simp) (by simp at hf; omega)
    simp only [collectRoots, rd_live (hlv x hx), hR.right hx, h1, ok_bind, Option.some.injEq, h2,
      if_false]
    simpa using this

/-- The snapshot loop of `consolidate` returns the ring in order. -/
theorem collectRoots_spec {m : Mem} {s : Nat} {t : List Nat} (hR : Ring m (s :: t))
    (hlv : ∀ w, w ∈ s :: t → m.live w) {fuel : Nat} (hf : t.length < fuel) :
    collectRoots m (some s) fuel (some s) [] = .ok ((s :: t).map some) :=
  collectRoots_aux hR hlv rfl t [] s fuel rfl hf

theorem clearParents_aux {m0 : Mem} {l : List Nat} {s : Nat} (hR : Ring m0 l)
    (hlv : ∀ w, w ∈ l → m0.live w) (hs : l.head? = some s) :
    ∀ (post pre : List Nat) (x : Nat) (m : Mem) (fuel : Nat), l = pre ++ x :: post →
      (∀ w, m.get w = if w ∈ pre then { m0.get w with parent := none } else m0.get w) →
      (∀ w, m.live w ↔ m0.live w) → m.length = m0.length → post.length < fuel →
      ∃ m', clearParents (some s) fuel m (some x) = .ok m' ∧
        (∀ w, m'.get w = if w ∈ l then { m0.get w with parent := none } else m0.get w) ∧
        (∀ w, m'.live w ↔ m0.live w) ∧ m'.length = m0.length := by
  intro post
  induction post with
  | nil =>
    intro pre x m fuel hl hg hlive hlen hf
    obtain ⟨f, rfl⟩ : ∃ f, fuel = f + 1 := ⟨fuel - 1, by simp at hf; omega⟩
    have hx : x ∈ l := by rw [hl]; simp
    have hxp : x ∉ pre := by
      intro h
      have := hR.1; rw [hl] at this
      exact (List.nodup_append.mp this).2.2 h (List.mem_cons_self _ _)
    have lx : m.live x := (hlive x).mpr (hlv x hx)
    have h1 := (csucc_walk hR.1 hl hs).1 rfl
    have hg1 : ∀ w, (m.upd x (fun n => { n with parent := none })).get w =
        if w ∈ l then { m0.get w with parent := none } else m0.get w := by
      intro w
      rw [get_upd m w _ lx, hg, hg, hl]
      by_cases hwx : w = x
      · subst hwx; simp [hxp]
      · simp [hwx]
    refine ⟨m.upd x (fun n => { n with parent := none }), ?_, hg1, ?_, ?_⟩
    · have : ((m.upd x (fun n => { n with parent := none })).get x).right = some s := by
        rw [hg1, if_pos hx]; simp [hR.right hx, h1]
      simp [clearParents, modify_live _ lx, rd_live ((live_upd _ _ _ _).mpr lx), this]
    · intro w; rw [live_upd]; exact hlive w
    · simp [hlen]
  | cons p ps ih =>
    intro pre x m fuel hl hg hlive hlen hf
    obtain ⟨f, rfl⟩ : ∃ f, fuel = f + 1 := ⟨fuel - 1, by simp at hf; omega⟩
    have hx : x ∈ l := by rw [hl]; simp
    have hxp : x ∉ pre := by
      intro h
      have := hR.1; rw [hl] at this
      exact (List.nodup_append.mp this).2.2 h (List.mem_cons_self _ _)
    have lx : m.live x := (hlive x).mpr (hlv x hx)
    obtain ⟨h1, h2⟩ := (csucc_walk hR.1 hl hs).2 p ps rfl
    have hg1 : ∀ w, (m.upd x (fun n => { n with parent := none })).get w =
        if w ∈ pre ++ [x] then { m0.get w with parent := none } else m0.get w := by
      intro w
      rw [get_upd m w _ lx, hg, hg]
      by_cases hwx : w = x
      · subst hwx; simp [hxp]
      · simp [hwx]
    obtain ⟨m', e1, e2, e3, e4⟩ := ih (pre ++ [x]) p (m.upd x (fun n => { n with parent := none }))
      f (by rw [hl]; simp) hg1 (fun w => by rw [live_upd]; exact hlive w) (by simp [hlen])
      (by simp at hf; omega)
    refine ⟨m', ?_, e2, e3, e4⟩
    have : ((m.upd x (fun n => { n with parent := none })).get x).right = some p := by
      rw [hg1, if_pos (by simp)]; simp [hR.right hx, h1]
    simp [clearParents, modify_live _ lx, rd_live ((live_upd _ _ _ _).mpr lx), this, h2, e1]

/-- The loop of `ExtractMin` that clears the parent pointer of every child. -/
theorem clearParents_spec {m : Mem} {s : Nat} {t : List Nat} (hR : Ring m (s :: t))
    (hlv : ∀ w, w ∈ s :: t → m.live w) {fuel : Nat} (hf : t.length < fuel) :
    ∃ m', clearParents (some s) fuel m (some s) = .ok m' ∧
      (∀ w, m'.get w = if w ∈ s :: t then { m.get w with parent := none } else m.get w) ∧
      (∀ w, m'.live w ↔ m.live w) ∧ m'.length = m.length :=
  clearParents_aux hR hlv rfl t [] s m fuel rfl (fun w => by simp) (fun _ => Iff.rfl) rfl hf

/-- The loop of `consolidate` that turns every snapshot root into a singleton list. -/
theorem detachAll_spec : ∀ (L : List Nat) (m : Mem), (∀ w, w ∈ L → m.live w) →
    ∃ m', detachAll m (L.map some) = .ok m' ∧
      (∀ w, m'.get w = if w ∈ L then { m.get w with left := some w, right := some w }
        else m.get w) ∧
      (∀ w, m'.live w ↔ m.live w) ∧ m'.length = m.length := by
  intro L
  induction L with
  | nil => intro m _; exact ⟨m, rfl, fun w => by simp, fun _ => Iff.rfl, rfl⟩
  | cons x xs ih =>
    intro m hlv
    have lx : m.live x := hlv x (List.mem_cons_self _ _)
    obtain ⟨m', e1, e2, e3, e4⟩ := ih
      ((m.upd x (fun n => { n with left := some x })).upd x (fun n => { n with right := some x }))
      (fun w hw => by simp only [live_upd]; exact hlv w (List.mem_cons_of_mem _ hw))
    refine ⟨m', ?_, ?_, ?_, ?_⟩
    · simp [detachAll, modify_live _ lx, modify_live _ ((live_upd _ _ _ _).mpr lx), e1]
    · intro w
      rw [e2, get_upd _ w _ ((live_upd _ _ _ _).mpr lx), get_upd m w _ lx, get_upd m x _ lx]
      by_cases hwx : w = x <;> by_cases hw : w ∈ xs <;> simp [hwx, hw]
    · intro w; rw [e3]; simp
    · rw [e4]; simp

/-- Linking the root `b` below the root `a` (the link step of `consolidate`). -/
theorem Shape.shape_link {g : Ghost} {m m' : Mem} {S : List Nat} {a b : Nat} {ka : List Nat}
    (hs : Shape g m S) (ha : a ∈ g.roots) (hb : b ∈ g.roots) (hab : a ≠ b)
    (hl : ∀ z, z ∈ S → m'.live z)
    (hpb : (m'.get b).parent = some a)
    (hpo : ∀ z, z ≠ b → (m'.get z).parent = (m.get z).parent)
    (hca : ∃ c, (m'.get a).child = some c ∧ c ∈ ka)
    (hco : ∀ z, z ≠ a → (m'.get z).child = (m.get z).child)
    (hda : (m'.get a).degree = (m.get a).degree + 1)
    (hdo : ∀ z, z ≠ a → (m'.get z).degree = (m.get z).degree)
    (hka : Ring m' ka) (hkm : ∀ z, z ∈ ka ↔ z = b ∨ z ∈ g.kids a)
    (hlen : ka.length = (g.kids a).length + 1)
    (hlr : ∀ z, z ∈ S → z ∉ ka →
      (m'.get z).right = (m.get z).right ∧ (m'.get z).left = (m.get z).left) :
    Shape { g with roots := g.roots.erase b, kids := fun z => if z = a then ka else g.kids z,
                   rk := fun z => if z = a then max (g.rk a) (g.rk b + 1) else g.rk z,
                   bound := g.bound + 1 } m' S := by
  have haS := hs.root_mem ha
  have hbS := hs.root_mem hb
  have hpa := hs.root_parent ha
  have hpbn := hs.root_parent hb
  have hparx : ∀ z p, (m'.get z).parent = some p →
      (z = b ∧ p = a) ∨ (z ≠ b ∧ (m.get z).parent = some p) := by
    intro z p h
    by_cases hzb : z = b
    · subst hzb; rw [hpb] at h; exact Or.inl ⟨rfl, (Option.some.inj h).symm⟩
    · exact Or.inr ⟨hzb, (hpo z hzb).symm.trans h⟩
  constructor
  · exact hs.nodup
  · exact hl
  · exact hs.roots_nodup.erase b
  · intro z
    simp only [hs.roots_nodup.mem_erase_iff, hs.roots_iff]
    constructor
    · rintro ⟨h1, h2, h3⟩; exact ⟨h2, by rw [hpo z h1]; exact h3⟩
    · rintro ⟨h1, h2⟩
      have hzb : z ≠ b := by rintro rfl; rw [hpb] at h2; cases h2
      exact ⟨hzb, h1, by rw [← hpo z hzb]; exact h2⟩
  · intro w hw
    by_cases hwa : w = a
    · simp only [hwa, if_true]; exact hka
    · simp only [hwa, if_false]
      refine (hs.kids_ring w hw).congr fun c hc => ?_
      obtain ⟨hcS, hcp⟩ := hs.kid_parent hw hc
      refine hlr c hcS ?_
      intro hck
      rcases (hkm c).mp hck with h | h
      · rw [h, hpbn] at hcp; cases hcp
      · have := (hs.kid_parent haS h).2
        rw [hcp] at this; exact hwa (Option.some.inj this)
  · intro w hw c
    by_cases hwa : w = a
    · simp only [hwa, if_true, hkm, hs.kids_iff a haS]
      constructor
      · rintro (rfl | ⟨h1, h2⟩)
        · exact ⟨hbS, hpb⟩
        · have hcb : c ≠ b := by rintro rfl; rw [hpbn] at h2; cases h2
          exact ⟨h1, by rw [hpo c hcb]; exact h2⟩
      · rintro ⟨h1, h2⟩
        rcases hparx c a h2 with ⟨h3, -⟩ | ⟨-, h4⟩
        · exact Or.inl h3
        · exact Or.inr ⟨h1, h4⟩
    · simp only [hwa, if_false, hs.kids_iff w hw]
      constructor
      · rintro ⟨h1, h2⟩
        have hcb : c ≠ b := by rintro rfl; rw [hpbn] at h2; cases h2
        exact ⟨h1, by rw [hpo c hcb]; exact h2⟩
      · rintro ⟨h1, h2⟩
        rcases hparx c w h2 with ⟨-, h3⟩ | ⟨-, h4⟩
        · exact absurd h3 hwa
        · exact ⟨h1, h4⟩
  · intro c hc p h
    rcases hparx c p h with ⟨-, h3⟩ | ⟨-, h4⟩
    · rw [h3]; exact haS
    · exact hs.parent_mem c hc p h4
  · intro w hw h
    by_cases hwa : w = a
    · obtain ⟨c, hc, -⟩ := hca
      rw [hwa, hc] at h; cases h
    · simp only [hwa, if_false]
      rw [hco w hwa] at h; exact hs.child_none w hw h
  · intro w hw c h
    by_cases hwa : w = a
    · obtain ⟨c', hc', hck⟩ := hca
      rw [hwa, hc'] at h
      simp only [hwa, if_true]
      rw [← Option.some.inj h]; exact hck
    · simp only [hwa, if_false]
      rw [hco w hwa] at h; exact hs.child_some w hw c h
  · intro w hw
    by_cases hwa : w = a
    · simp only [hwa, if_true]
      rw [hda, hs.degree a haS, hlen]; simp
    · simp only [hwa, if_false]
      rw [hdo w hwa]; exact hs.degree w hw
  · intro c hc p h
    rcases hparx c p h with ⟨h2, h3⟩ | ⟨h2, h4⟩
    · subst h2; subst h3
      simp only [hab.symm, if_false, if_true]
      omega
    · have hca' : c ≠ a := by rintro rfl; rw [hpa] at h4; cases h4
      have := hs.rk_lt c hc p h4
      simp only [hca', if_false]
      by_cases hpa' : p = a
      · subst hpa'; simp only [if_true]; omega
      · simp only [hpa', if_false]; exact this
  · intro w hw
    have := hs.rk_le w hw
    have h2 := hs.rk_le b hbS
    by_cases hwa : w = a
    · subst hwa; simp only [if_true]; omega
    · simp only [hwa, if_false]; omega

/-- The link step: the detached root `b` becomes the last child of the root `a`. -/
theorem link_spec {g : Ghost} {m : Mem} {S : List Nat} {a b : Nat} (hs : Shape g m S)
    (ha : a ∈ g.roots) (hb : b ∈ g.roots) (hab : a ≠ b)
    (hdet : (m.get b).left = some b ∧ (m.get b).right = some b) :
    ∃ m' ka, link m (some a) (some b) = .ok m' ∧ m'.length = m.length ∧
      (∀ z, m'.live z ↔ m.live z) ∧
      (∀ z, (m'.get z).key = (m.get z).key) ∧
      (∀ z, (m'.get z).parent = if z = b then some a else (m.get z).parent) ∧
      (∀ z, (m'.get z).mark = if z = b then false else (m.get z).mark) ∧
      (∃ c, (m'.get a).child = some c ∧ c ∈ ka) ∧
      (∀ z, z ≠ a → (m'.get z).child = (m.get z).child) ∧
      (∀ z, (m'.get z).degree = if z = a then (m.get a).degree + 1 else (m.get z).degree) ∧
      Ring m' ka ∧ (∀ z, z ∈ ka ↔ z = b ∨ z ∈ g.kids a) ∧
      ka.length = (g.kids a).length + 1 ∧
      (∀ z, z ∉ ka → (m'.get z).right = (m.get z).right ∧ (m'.get z).left = (m.get z).left) := by
  have haS := hs.root_mem ha
  have hbS := hs.root_mem hb
  have la := hs.live a haS
  have lb := hs.live b hbS
  have hg2 : ∀ w, ((m.upd b (fun n => { n with parent := some a })).upd b
      (fun n => { n with mark := false })).get w =
      if w = b then { m.get b with parent := some a, mark := false } else m.get w := by
    intro w
    rw [get_upd _ w _ ((live_upd _ _ _ _).mpr lb), get_upd m w _ lb, get_upd m b _ lb]
    by_cases hwb : w = b <;> simp [hwb]
  generalize hm2 : (m.upd b (fun n => { n with parent := some a })).upd b
      (fun n => { n with mark := false }) = m2 at hg2
  have hlive2 : ∀ w, m2.live w ↔ m.live w := by intro w; rw [← hm2]; simp
  have hlen2 : m2.length = m.length := by rw [← hm2]; simp
  have la2 := (hlive2 a).mpr la
  have lb2 := (hlive2 b).mpr lb
  have hga : m2.get a = m.get a := by rw [hg2, if_neg hab]
  have hexec : link m (some a) (some b) =
      ((if (m.get a).child = none then
        Except.ok (((m2.upd a (fun n => { n with child := some b })).upd b
          (fun n => { n with left := some b })).upd b (fun n => { n with right := some b }))
       else mergeRootLists m2 (m.get a).child (some b)) >>= fun m3 =>
        m3.modify (some a) (fun n => { n with degree := n.degree + 1 })) := by
    simp only [link, modify_live _ lb, modify_live _ ((live_upd _ _ _ _).mpr lb), hm2, ok_bind,
      rd_live la2, hga]
    by_cases hc : (m.get a).child = none
    · simp [hc, modify_live, live_upd, la2, lb2]
    · simp [hc]
  have hbk : b ∉ g.kids a := by
    intro h
    have := (hs.kid_parent haS h).2
    rw [hs.root_parent hb] at this; cases this
  have hak : a ∉ g.kids a := by
    intro h
    have := (hs.kid_parent haS h).2
    rw [hs.root_parent ha] at this; cases this
  cases hc : (m.get a).child with
  | none =>
    have hk0 : g.kids a = [] := hs.child_none a haS hc
    have hg4 : ∀ w, ((((m2.upd a (fun n => { n with child := some b })).upd b
          (fun n => { n with left := some b })).upd b (fun n => { n with right := some b })).upd a
            (fun n => { n with degree := n.degree + 1 })).get w =
        if w = a then { m.get a with child := some b, degree := (m.get a).degree + 1 }
        else if w = b then { m.get b with parent := some a, mark := false, left := some b,
                                           right := some b }
        else m.get w := by
      intro w
      simp only [get_upd, live_upd, la2, lb2, hg2]
      by_cases hwa : w = a <;> by_cases hwb : w = b <;> simp_all
    have hex4 : link m (some a) (some b) = .ok ((((m2.upd a (fun n => { n with child := some b })).upd b
          (fun n => { n with left := some b })).upd b (fun n => { n with right := some b })).upd a
            (fun n => { n with degree := n.degree + 1 })) := by
      rw [hexec, hc]
      simp [modify_live, live_upd, la2]
    have hlen4 : ((((m2.upd a (fun n => { n with child := some b })).upd b
          (fun n => { n with left := some b })).upd b (fun n => { n with right := some b })).upd a
            (fun n => { n with degree := n.degree + 1 })).length = m.length := by simp [hlen2]
    have hlive4 : ∀ z, ((((m2.upd a (fun n => { n with child := some b })).upd b
          (fun n => { n with left := some b })).upd b (fun n => { n with right := some b })).upd a
            (fun n => { n with degree := n.degree + 1 })).live z ↔ m.live z := by
      intro z; simp [hlive2]
    generalize ((((m2.upd a (fun n => { n with child := some b })).upd b
          (fun n => { n with left := some b })).upd b (fun n => { n with right := some b })).upd a
            (fun n => { n with degree := n.degree + 1 })) = m4 at hg4 hex4 hlen4 hlive4
    refine ⟨m4, [b], hex4, hlen4, hlive4, ?_, ?_, ?_, ⟨b, ?_, by simp⟩,
      ?_, ?_, ?_, by simp [hk0], by simp [hk0], ?_⟩
    · intro z; rw [hg4]; by_cases hwa : z = a <;> by_cases hwb : z = b <;> simp_all
    · intro z; rw [hg4]; by_cases hwa : z = a <;> by_cases hwb : z = b <;> simp_all
    · intro z; rw [hg4]; by_cases hwa : z = a <;> by_cases hwb : z = b <;> simp_all
    · rw [hg4]; simp
    · intro z hz; rw [hg4]; by_cases hwb : z = b <;> simp_all
    · intro z; rw [hg4]; by_cases hwa : z = a <;> by_cases hwb : z = b <;> simp_all
    · refine ring_singleton.mpr ?_
      rw [hg4]; simp [hab.symm]
    · intro z hz
      have hzb : z ≠ b := by simpa using hz
      rw [hg4]; by_cases hwa : z = a <;> simp_all
  | some c =>
    have hcK : c ∈ g.kids a := hs.child_some a haS c hc
    obtain ⟨cs, hrot⟩ := rotate_to_head hcK
    have hKb : ∀ w, w ∈ c :: cs → w ≠ b := fun w hw e => hbk (e ▸ hrot.mem_iff.mpr hw)
    have hKa : ∀ w, w ∈ c :: cs → w ≠ a := fun w hw e => hak (e ▸ hrot.mem_iff.mpr hw)
    have hKS : ∀ w, w ∈ c :: cs → w ∈ S := fun w hw =>
      (hs.kid_parent haS (hrot.mem_iff.mpr hw)).1
    have hR2 : Ring m2 (c :: cs) := ((hs.kids_ring a haS).rotated hrot).congr
      (fun w hw => by rw [hg2, if_neg (hKb w hw)]; exact ⟨rfl, rfl⟩)
    have hB2 : Ring m2 [b] := ring_singleton.mpr (by rw [hg2, if_pos rfl]; exact ⟨hdet.2, hdet.1⟩)
    obtain ⟨m3, e1, hlen3, hlive3, hR3, hfr3, hsd3⟩ := splice_spec hR2 hB2
      (fun w hw hw2 => hKb w hw (List.mem_singleton.mp hw2))
      (fun w hw => (hlive2 w).mpr (hs.live w (hKS w hw)))
      (fun w hw => by rw [List.mem_singleton.mp hw]; exact lb2)
    have la3 : m3.live a := (hlive3 a).mpr la2
    have hg4 : ∀ w, (m3.upd a (fun n => { n with degree := n.degree + 1 })).get w =
        if w = a then { m3.get a with degree := (m3.get a).degree + 1 } else m3.get w :=
      fun w => get_upd m3 w _ la3
    have ha3 : m3.get a = m.get a := by
      rw [hfr3 a (fun h => hKa a h rfl) (fun h => hab (List.mem_singleton.mp h)), hga]
    have hex4 : link m (some a) (some b) =
        .ok (m3.upd a (fun n => { n with degree := n.degree + 1 })) := by
      rw [hexec, hc]
      simp [e1, modify_live, la3]
    have hsd : ∀ w, sameData (m2.get w) ((m3.upd a (fun n => { n with degree := n.degree + 1 })).get w)
        ∨ w = a := by
      intro w
      by_cases hwa : w = a
      · exact Or.inr hwa
      · left; rw [hg4, if_neg hwa]; exact hsd3 w
    have hlr4 : ∀ w, ((m3.upd a (fun n => { n with degree := n.degree + 1 })).get w).right =
        (m3.get w).right ∧ ((m3.upd a (fun n => { n with degree := n.degree + 1 })).get w).left =
        (m3.get w).left := by
      intro w; rw [hg4]; by_cases hwa : w = a <;> simp [hwa]
    refine ⟨m3.upd a (fun n => { n with degree := n.degree + 1 }), c :: cs ++ [b], hex4,
      by simp [hlen3, hlen2], fun z => by simp [hlive3, hlive2], ?_, ?_, ?_, ⟨c, ?_, by simp⟩,
      ?_, ?_, ?_, ?_, ?_, ?_⟩
    · intro z; rw [hg4]
      by_cases hza : z = a
      · subst hza; simp [ha3]
      · rw [if_neg hza, (hsd3 z).1, hg2]; by_cases hzb : z = b <;> simp [hzb]
    · intro z; rw [hg4]
      by_cases hza : z = a
      · subst hza; simp [ha3, hab]
      · rw [if_neg hza, (hsd3 z).2.1, hg2]; by_cases hzb : z = b <;> simp [hzb]
    · intro z; rw [hg4]
      by_cases hza : z = a
      · subst hza; simp [ha3, hab]
      · rw [if_neg hza, (hsd3 z).2.2.2.2, hg2]; by_cases hzb : z = b <;> simp [hzb]
    · rw [hg4]; simp [ha3, hc]
    · intro z hza
      rw [hg4, if_neg hza, (hsd3 z).2.2.1, hg2]; by_cases hzb : z = b <;> simp [hzb]
    · intro z; rw [hg4]
      by_cases hza : z = a
      · subst hza; simp [ha3]
      · rw [if_neg hza, if_neg hza, (hsd3 z).2.2.2.1, hg2]; by_cases hzb : z = b <;> simp [hzb]
    · exact hR3.congr (fun w _ => hlr4 w)
    · intro z
      rw [List.mem_append, List.mem_singleton, ← hrot.mem_iff]
      exact or_comm
    · rw [List.length_append, ← hrot.perm.length_eq]; simp
    · intro z hz
      have h1 : z ∉ c :: cs := fun h => hz (List.mem_append_left _ h)
      have h2 : z ∉ [b] := fun h => hz (List.mem_append_right _ h)
      have hzb : z ≠ b := fun e => h2 (List.mem_singleton.mpr e)
      rw [(hlr4 z).1, (hlr4 z).2, hfr3 z h1 h2, hg2, if_neg hzb]
      exact ⟨rfl, rfl⟩

theorem sum_map_erase {f : Nat → Nat} {l : List Nat} {b : Nat} (hb : b ∈ l) :
    ((l.erase b).map f).sum + f b = (l.map f).sum := by
  have := ((List.perm_cons_erase hb).map f).sum_eq
  simp only [List.map_cons, List.sum_cons] at this
  omega

/-- Linking two binomial trees of the same degree gives a binomial tree. -/
theorem Binom.binom_link {g : Ghost} {S : List Nat} {a b : Nat} {ka : List Nat} {n : Nat}
    (hb : Binom g S) (haS : a ∈ S) (hbS : b ∈ S) (ha : a ∈ g.roots) (hbr : b ∈ g.roots)
    (hab : a ≠ b) (hnd : g.roots.Nodup) (hna : ∀ x, x ∈ S → a ∉ g.kids x)
    (hda : (g.kids a).length = n) (hdb : (g.kids b).length = n)
    (hka : ka.Perm (b :: g.kids a)) {rk' : Nat → Nat} {bd : Nat} :
    Binom { g with roots := g.roots.erase b, kids := fun z => if z = a then ka else g.kids z,
                   rk := rk', bound := bd } S := by
  have hf : ∀ c, c ≠ a → (fun c => 2 ^ (if c = a then ka else g.kids c).length) c =
      (fun c => 2 ^ (g.kids c).length) c := by
    intro c hc; simp [hc]
  have hka_len : ka.length = n + 1 := by rw [hka.length_eq]; simp [hda]
  constructor
  · intro x hx
    by_cases hxa : x = a
    · subst hxa
      simp only [if_true]
      have h1 := hb.1 x haS
      have h2 := hb.1 b hbS
      rw [(hka.map _).sum_eq, List.map_cons, List.sum_cons, hka_len]
      have e1 : 2 ^ (if b = x then ka else g.kids b).length = 2 ^ n := by
        simp [hab.symm, hdb]
      have e2 : (g.kids x).map (fun c => 2 ^ (if c = x then ka else g.kids c).length) =
          (g.kids x).map (fun c => 2 ^ (g.kids c).length) := by
        apply List.map_congr_left
        intro c hc
        exact hf c (fun e => hna x haS (e ▸ hc))
      rw [e1, e2]
      rw [hda] at h1
      rw [pow_succ]; omega
    · simp only [hxa, if_false]
      rw [← hb.1 x hx]
      congr 2
      apply List.map_congr_left
      intro c hc
      exact hf c (fun e => hna x hx (e ▸ hc))
  · simp only
    have ha' : a ∈ g.roots.erase b := (List.mem_erase_of_ne hab).mpr ha
    have h1 := @sum_map_erase (fun r => 2 ^ (g.kids r).length) _ _ hbr
    have h2 := @sum_map_erase (fun r => 2 ^ (g.kids r).length) _ _ ha'
    have h3 := @sum_map_erase (fun r => 2 ^ (if r = a then ka else g.kids r).length) _ _ ha'
    have e : ((g.roots.erase b).erase a).map (fun r => 2 ^ (if r = a then ka else g.kids r).length)
        = ((g.roots.erase b).erase a).map (fun r => 2 ^ (g.kids r).length) := by
      apply List.map_congr_left
      intro c hc
      exact hf c ((hnd.erase b).mem_erase_iff.mp hc).1
    rw [e] at h3
    simp only [if_true, hka_len] at h3
    simp only [hda, hdb] at h1 h2
    rw [← hb.2, ← h1, ← h2, ← h3, pow_succ]
    omega

/-- One iteration of the `while` loop of `consolidate` keeps the table invariant. -/
theorem TabInv.link_step {g : Ghost} {m : Mem} {S : List Nat} {t t' : List (Option Nat)}
    {x y a b n : Nat} {rest : List Nat}
    (hT : TabInv g m S t (x :: rest)) (hx : (g.kids x).length = n)
    (hy : t.getD n none = some y)
    (hab : (a = x ∧ b = y) ∨ (a = y ∧ b = x)) (hk : (m.get a).key ≤ (m.get b).key)
    (ht' : ∀ d, t'.getD d none = if d = n then none else t.getD d none) :
    ∃ m' g', link m (some a) (some b) = .ok m' ∧ TabInv g' m' S t' (a :: rest) ∧
      (g'.kids a).length = n + 1 ∧ g'.cutFree = g.cutFree ∧
      m'.length = m.length ∧ (∀ z, m'.live z ↔ m.live z) ∧
      (∀ z, (m'.get z).key = (m.get z).key) ∧ (∀ z, z ∉ S → m'.get z = m.get z) ∧
      (∀ z, z ∈ rest → (m'.get z).degree = (m.get z).degree) ∧
      (∀ z, (m.get z).parent ≠ none →
        (m'.get z).parent = (m.get z).parent ∧ (m'.get z).mark = (m.get z).mark) := by
  have hs := hT.trees.shape
  obtain ⟨hyR, hyr, hyd⟩ := hT.tab n y hy
  have hxR : x ∈ g.roots := hT.rest_sub x (List.mem_cons_self _ _)
  have hxy : x ≠ y := fun e => hyr (e ▸ List.mem_cons_self _ _)
  have hxr : x ∉ rest := (List.nodup_cons.mp hT.rest_nodup).1
  have hyr' : y ∉ rest := fun h => hyr (List.mem_cons_of_mem _ h)
  have haR : a ∈ g.roots := by rcases hab with ⟨h, -⟩ | ⟨h, -⟩ <;> rw [h] <;> assumption
  have hbR : b ∈ g.roots := by rcases hab with ⟨-, h⟩ | ⟨-, h⟩ <;> rw [h] <;> assumption
  have hne : a ≠ b := by
    rcases hab with ⟨h1, h2⟩ | ⟨h1, h2⟩ <;> rw [h1, h2]
    · exact hxy
    · exact hxy.symm
  have had : (g.kids a).length = n := by rcases hab with ⟨h, -⟩ | ⟨h, -⟩ <;> rw [h] <;> assumption
  have hbd : (g.kids b).length = n := by rcases hab with ⟨-, h⟩ | ⟨-, h⟩ <;> rw [h] <;> assumption
  have har : a ∉ rest := by rcases hab with ⟨h, -⟩ | ⟨h, -⟩ <;> rw [h] <;> assumption
  have hbr : b ∉ rest := by rcases hab with ⟨-, h⟩ | ⟨-, h⟩ <;> rw [h] <;> assumption
  have hxab : x = a ∨ x = b := by rcases hab with ⟨h, -⟩ | ⟨-, h⟩ <;> simp [h]
  have hyab : y = a ∨ y = b := by rcases hab with ⟨-, h⟩ | ⟨h, -⟩ <;> simp [h]
  have haS := hs.root_mem haR
  have hbS := hs.root_mem hbR
  obtain ⟨m', ka, e1, hlen, hlive, fk, fp, fm, fc, fco, fd, hRk, hkm, hkl, hlr⟩ :=
    link_spec hs haR hbR hne (hT.detached b hbR)
  have hrootk : ∀ r, r ∈ g.roots → r ≠ b → r ∉ ka := by
    intro r hr hrb hrk
    rcases (hkm r).mp hrk with h | h
    · exact hrb h
    · have := (hs.kid_parent haS h).2
      rw [hs.root_parent hr] at this; cases this
  have hs' := @Shape.shape_link g m m' S a b ka hs haR hbR hne
    (fun z hz => (hlive z).mpr (hs.live z hz)) (by rw [fp, if_pos rfl])
    (fun z hz => by rw [fp, if_neg hz]) fc fco (by rw [fd, if_pos rfl])
    (fun z hz => by rw [fd, if_neg hz]) hRk hkm hkl (fun z _ hz => hlr z hz)
  have hdeg : (m.get a).degree = (m.get b).degree := by
    rw [hs.degree a haS, hs.degree b hbS, had, hbd]
  refine ⟨m', _, e1, ⟨⟨hs', ?_, ?_, Thin.link hs hT.trees.thin haR hbR hne hdeg fp fm fd⟩,
    ?_, ?_, ?_, ?_, ?_⟩, ?_, rfl, hlen, hlive, fk, ?_, ?_, ?_⟩
  rotate_right
  · intro z hz
    have hzb : z ≠ b := fun e => hz (e ▸ hs.root_parent hbR)
    exact ⟨by rw [fp, if_neg hzb], by rw [fm, if_neg hzb]⟩
  · -- heap order
    intro c hc p hp
    rw [fp] at hp
    rw [fk, fk]
    by_cases hcb : c = b
    · rw [if_pos hcb] at hp
      rw [hcb, ← Option.some.inj hp]; exact hk
    · rw [if_neg hcb] at hp
      exact hT.trees.order c hc p hp
  · -- binomial trees
    intro hcf
    refine Binom.binom_link (hT.trees.binom hcf) haS hbS haR hbR hne hs.roots_nodup ?_ had hbd ?_
    · intro w hw h
      have := (hs.kid_parent hw h).2
      rw [hs.root_parent haR] at this; cases this
    · refine (List.perm_ext_iff_of_nodup hRk.1 ?_).mpr ?_
      · refine List.nodup_cons.mpr ⟨?_, (hs.kids_ring a haS).1⟩
        intro h
        have := (hs.kid_parent haS h).2
        rw [hs.root_parent hbR] at this; cases this
      · intro z; rw [hkm, List.mem_cons]
  · -- detached
    intro r hr
    have hr' := (hs.roots_nodup.mem_erase_iff.mp hr)
    rw [(hlr r (hrootk r hr'.2 hr'.1)).1, (hlr r (hrootk r hr'.2 hr'.1)).2]
    exact hT.detached r hr'.2
  · -- table entries
    intro d z hz
    rw [ht'] at hz
    by_cases hdn : d = n
    · rw [if_pos hdn] at hz; cases hz
    · rw [if_neg hdn] at hz
      obtain ⟨h1, h2, h3⟩ := hT.tab d z hz
      have hzy : z ≠ y := by
        rintro rfl; exact hdn (h3.symm.trans hyd)
      have hzx : z ≠ x := fun e => h2 (e ▸ List.mem_cons_self _ _)
      have hza : z ≠ a := by rcases hab with ⟨h, -⟩ | ⟨h, -⟩ <;> rw [h] <;> assumption
      have hzb : z ≠ b := by rcases hab with ⟨-, h⟩ | ⟨-, h⟩ <;> rw [h] <;> assumption
      refine ⟨hs.roots_nodup.mem_erase_iff.mpr ⟨hzb, h1⟩, ?_, by simp only [hza, if_false]; exact h3⟩
      intro h
      rcases List.mem_cons.mp h with h | h
      · exact hza h
      · exact h2 (List.mem_cons_of_mem _ h)
  · -- covered
    intro r hr
    obtain ⟨hrb, hrR⟩ := hs.roots_nodup.mem_erase_iff.mp hr
    rcases hT.covered r hrR with h | ⟨d, hd⟩
    · rcases List.mem_cons.mp h with h | h
      · left
        rcases hxab with h2 | h2
        · rw [h, h2]; exact List.mem_cons_self _ _
        · exact absurd (h.trans h2) hrb
      · exact Or.inl (List.mem_cons_of_mem _ h)
    · by_cases hdn : d = n
      · left
        rw [hdn, hy] at hd
        have hry : y = r := Option.some.inj hd
        rcases hyab with h2 | h2
        · rw [← hry, h2]; exact List.mem_cons_self _ _
        · exact absurd (hry.symm.trans h2) hrb
      · right; exact ⟨d, by rw [ht', if_neg hdn]; exact hd⟩
  · -- the remaining snapshot roots are still roots
    intro r hr
    rcases List.mem_cons.mp hr with h | h
    · rw [h]; exact hs.roots_nodup.mem_erase_iff.mpr ⟨hne, haR⟩
    · refine hs.roots_nodup.mem_erase_iff.mpr ⟨fun e => hbr (e ▸ h), ?_⟩
      exact hT.rest_sub r (List.mem_cons_of_mem _ h)
  · exact List.nodup_cons.mpr ⟨har, (List.nodup_cons.mp hT.rest_nodup).2⟩
  · simp only [if_true]; rw [hkl, had]
  · intro z hz
    have hza : z ≠ a := fun e => hz (e ▸ haS)
    have hzb : z ≠ b := fun e => hz (e ▸ hbS)
    have hzk : z ∉ ka := by
      intro h
      rcases (hkm z).mp h with h | h
      · exact hzb h
      · exact hz (hs.kid_parent haS h).1
    exact node_ext (fk z) (by rw [fp, if_neg hzb]) (fco z hza) (hlr z hzk).2 (hlr z hzk).1
      (by rw [fd, if_neg hza]) (by rw [fm, if_neg hzb])
  · intro z hz
    have hza : z ≠ a := fun e => har (e ▸ hz)
    rw [fd, if_neg hza]

/-! ## The degree table -/

theorem tget_ok {t : List (Option Nat)} {n : Nat} (h : n < t.length) :
    tget t (n : Int) = .ok (t.getD n none) := by
  simp [tget, h]

theorem tget_oor {t : List (Option Nat)} {n : Nat} (h : t.length ≤ n) :
    tget t (n : Int) = .error .outOfRange := by
  simp [tget]; omega

theorem tset_ok {t : List (Option Nat)} {n : Nat} (v : Option Nat) (h : n < t.length) :
    tset t (n : Int) v = .ok (t.set n v) := by
  simp [tset, h]

theorem getD_set_table (t : List (Option Nat)) (n d : Nat) (v : Option Nat) (h : n < t.length) :
    (t.set n v).getD d none = if d = n then v else t.getD d none := by
  simp only [List.getD_eq_getElem?_getD, List.getElem?_set]
  by_cases hdn : d = n
  · subst hdn; simp [h]
  · have : n ≠ d := fun e => hdn e.symm
    simp [hdn, this]

theorem getD_append_none (t : List (Option Nat)) (k d : Nat) :
    (t ++ List.replicate k none).getD d none = t.getD d none := by
  simp only [List.getD_eq_getElem?_getD]
  by_cases h : d < t.length
  · rw [List.getElem?_append_left h]
  · have h' : t.length ≤ d := Nat.le_of_not_lt h
    rw [List.getElem?_append_right h', List.getElem?_eq_none h']
    by_cases h2 : d - t.length < k
    · simp [List.getElem?_replicate, h2]
    · simp [List.getElem?_replicate, h2]

theorem countP_set_none : ∀ (t : List (Option Nat)) (n : Nat) (y : Nat),
    t.getD n none = some y →
    (t.set n none).countP (fun o => o.isSome) + 1 = t.countP (fun o => o.isSome) := by
  intro t
  induction t with
  | nil => intro n y h; simp at h
  | cons e es ih =>
    intro n y h
    cases n with
    | zero =>
      simp at h
      simp [h, List.countP_cons]
    | succ k =>
      simp at h
      have := ih k y (by simpa [List.getD_eq_getElem?_getD] using h)
      simp only [List.set_cons_succ, List.countP_cons]
      omega

/-- The table after `tree_ptrs[d] = nullptr; ++d; if (d >= size) resize(d + 1)`. -/
theorem resize_spec {t : List (Option Nat)} {n y : Nat} (h : n < t.length)
    (hy : t.getD n none = some y) :
    ∃ t', (if ((n : Int) + 1) ≥ ((t.set n none).length : Int)
        then t.set n none ++ List.replicate (((n : Int) + 1).toNat + 1 - (t.set n none).length) none
        else t.set n none) = t' ∧
      (∀ d, t'.getD d none = if d = n then none else t.getD d none) ∧
      n + 1 < t'.length ∧ t.length ≤ t'.length ∧
      t'.countP (fun o => o.isSome) + 1 = t.countP (fun o => o.isSome) := by
  refine ⟨_, rfl, ?_, ?_, ?_, ?_⟩
  · intro d
    split
    · rw [getD_append_none, getD_set_table _ _ _ _ h]
    · rw [getD_set_table _ _ _ _ h]
  · split
    · rename_i hc
      simp only [List.length_append, List.length_set, List.length_replicate]
      have : ((n : Int) + 1).toNat = n + 1 := by omega
      rw [this]; omega
    · rename_i hc
      simp only [List.length_set] at hc ⊢
      omega
  · split <;> simp
  · split
    · rw [List.countP_append, ← countP_set_none t n y hy]
      simp [List.countP_replicate]
    · exact countP_set_none t n y hy

/-- The `while` loop of `consolidate` terminates within the fuel; afterwards the
bucket of the current root is free. -/
theorem linkLoop_spec : ∀ (fuel : Nat) {g : Ghost} {m : Mem} {S : List Nat}
    {t : List (Option Nat)} {x n : Nat} {rest : List Nat},
    TabInv g m S t (x :: rest) → (g.kids x).length = n → n < t.length →
    t.countP (fun o => o.isSome) < fuel →
    ∃ (m' : Mem) (t' : List (Option Nat)) (x' n' : Nat) (g' : Ghost),
      linkLoop fuel m t (some x) (n : Int) = .ok (m', t', some x', (n' : Int)) ∧
      TabInv g' m' S t' (x' :: rest) ∧ (g'.kids x').length = n' ∧ n' < t'.length ∧
      t'.getD n' none = none ∧ t.length ≤ t'.length ∧ g'.cutFree = g.cutFree ∧
      m'.length = m.length ∧ (∀ z, m'.live z ↔ m.live z) ∧
      (∀ z, (m'.get z).key = (m.get z).key) ∧ (∀ z, z ∉ S → m'.get z = m.get z) ∧
      (∀ z, z ∈ rest → (m'.get z).degree = (m.get z).degree) ∧
      (∀ z, (m.get z).parent ≠ none →
        (m'.get z).parent = (m.get z).parent ∧ (m'.get z).mark = (m.get z).mark) := by
  intro fuel
  induction fuel with
  | zero => intro g m S t x n rest _ _ _ hf; omega
  | succ fuel ih =>
    intro g m S t x n rest hT hx hn hf
    have hs := hT.trees.shape
    have hxR : x ∈ g.roots := hT.rest_sub x (List.mem_cons_self _ _)
    have lx := hs.live x (hs.root_mem hxR)
    cases hy : t.getD n none with
    | none =>
      refine ⟨m, t, x, n, g, ?_, hT, hx, hn, hy, le_refl _, rfl, rfl, fun _ => Iff.rfl,
        fun _ => rfl, fun _ _ => rfl, fun _ _ => rfl, fun _ _ => ⟨rfl, rfl⟩⟩
      simp only [linkLoop, tget_ok hn, hy, ok_bind]
      rfl
    | some y =>
      obtain ⟨hyR, -, -⟩ := hT.tab n y hy
      have ly := hs.live y (hs.root_mem hyR)
      obtain ⟨t', et, ht1, ht2, ht3, ht4⟩ := resize_spec hn hy
      by_cases hgt : (m.get x).key > (m.get y).key
      · obtain ⟨m1, g1, e1, hT1, hk1, hcf1, hlen1, hlive1, hkey1, hfr1, hdeg1, hpm1⟩ :=
          hT.link_step hx hy (Or.inr ⟨rfl, rfl⟩) (le_of_lt hgt) ht1
        obtain ⟨m2, t2, x2, n2, g2, e2, hT2, hk2, hn2, hfree2, hlen2, hcf2, hl2, hlive2, hkey2,
          hfr2, hdeg2, hpm2⟩ := ih hT1 hk1 ht2 (by omega)
        refine ⟨m2, t2, x2, n2, g2, ?_, hT2, hk2, hn2, hfree2, le_trans ht3 hlen2,
          hcf2.trans hcf1, hl2.trans hlen1, fun z => (hlive2 z).trans (hlive1 z),
          fun z => (hkey2 z).trans (hkey1 z), fun z hz => (hfr2 z hz).trans (hfr1 z hz),
          fun z hz => (hdeg2 z hz).trans (hdeg1 z hz), fun z hz => by
            have h1 := hpm1 z hz
            have h2 := hpm2 z (by rw [h1.1]; exact hz)
            exact ⟨h2.1.trans h1.1, h2.2.trans h1.2⟩⟩
        simp only [linkLoop, tget_ok hn, hy, ok_bind, rd_live lx, rd_live ly, hgt, if_true, e1,
          tset_ok none hn, et]
        simpa using e2
      · obtain ⟨m1, g1, e1, hT1, hk1, hcf1, hlen1, hlive1, hkey1, hfr1, hdeg1, hpm1⟩ :=
          hT.link_step hx hy (Or.inl ⟨rfl, rfl⟩) (not_lt.mp hgt) ht1
        obtain ⟨m2, t2, x2, n2, g2, e2, hT2, hk2, hn2, hfree2, hlen2, hcf2, hl2, hlive2, hkey2,
          hfr2, hdeg2, hpm2⟩ := ih hT1 hk1 ht2 (by omega)
        refine ⟨m2, t2, x2, n2, g2, ?_, hT2, hk2, hn2, hfree2, le_trans ht3 hlen2,
          hcf2.trans hcf1, hl2.trans hlen1, fun z => (hlive2 z).trans (hlive1 z),
          fun z => (hkey2 z).trans (hkey1 z), fun z hz => (hfr2 z hz).trans (hfr1 z hz),
          fun z hz => (hdeg2 z hz).trans (hdeg1 z hz), fun z hz => by
            have h1 := hpm1 z hz
            have h2 := hpm2 z (by rw [h1.1]; exact hz)
            exact ⟨h2.1.trans h1.1, h2.2.trans h1.2⟩⟩
        simp only [linkLoop, tget_ok hn, hy, ok_bind, rd_live lx, rd_live ly, hgt, if_false, e1,
          tset_ok none hn, et]
        simpa using e2

/-- Storing the current root in its free bucket (`tree_ptrs[d] = x`). -/
theorem TabInv.place {g : Ghost} {m : Mem} {S : List Nat} {t : List (Option Nat)} {x n : Nat}
    {rest : List Nat} (hT : TabInv g m S t (x :: rest)) (hx : (g.kids x).length = n)
    (hn : n < t.length) (hfree : t.getD n none = none) :
    TabInv g m S (t.set n (some x)) rest := by
  have hxr : x ∉ rest := (List.nodup_cons.mp hT.rest_nodup).1
  refine ⟨hT.trees, hT.detached, ?_, ?_, ?_, (List.nodup_cons.mp hT.rest_nodup).2⟩
  · intro d y hy
    rw [getD_set_table _ _ _ _ hn] at hy
    by_cases hdn : d = n
    · rw [if_pos hdn] at hy
      have := Option.some.inj hy
      subst this
      exact ⟨hT.rest_sub _ (List.mem_cons_self _ _), hxr, by rw [hdn]; exact hx⟩
    · rw [if_neg hdn] at hy
      obtain ⟨h1, h2, h3⟩ := hT.tab d y hy
      exact ⟨h1, fun h => h2 (List.mem_cons_of_mem _ h), h3⟩
  · intro r hr
    rcases hT.covered r hr with h | ⟨d, hd⟩
    · rcases List.mem_cons.mp h with h | h
      · right; exact ⟨n, by rw [getD_set_table _ _ _ _ hn, if_pos rfl, h]⟩
      · exact Or.inl h
    · right
      refine ⟨d, ?_⟩
      have hdn : d ≠ n := by rintro rfl; rw [hfree] at hd; cases hd
      rw [getD_set_table _ _ _ _ hn, if_neg hdn]; exact hd
  · intro r hr
    exact hT.rest_sub r (List.mem_cons_of_mem _ hr)

theorem linkLoop_oor {m : Mem} {t : List (Option Nat)} {x : Option Nat} {n : Nat} (fuel : Nat)
    (h : t.length ≤ n) : linkLoop (fuel + 1) m t x (n : Int) = .error .outOfRange := by
  simp only [linkLoop, tget_oor h]
  rfl

/-- The bucket loop of `consolidate`: either every snapshot root ends up in the table, or the
first table access of some snapshot root is out of range. -/
theorem processRoots_spec : ∀ (rest : List Nat) {g : Ghost} {m : Mem} {S : List Nat}
    {t : List (Option Nat)}, TabInv g m S t rest →
    (∃ m' t' g', processRoots m t (rest.map some) = .ok (m', t') ∧ TabInv g' m' S t' [] ∧
      g'.cutFree = g.cutFree ∧ m'.length = m.length ∧ (∀ z, m'.live z ↔ m.live z) ∧
      (∀ z, (m'.get z).key = (m.get z).key) ∧ (∀ z, z ∉ S → m'.get z = m.get z)) ∨
    (processRoots m t (rest.map some) = .error .outOfRange ∧
      ∃ x, x ∈ rest ∧ (t.length : Int) ≤ (m.get x).degree) := by
  intro rest
  induction rest with
  | nil =>
    intro g m S t hT
    exact Or.inl ⟨m, t, g, rfl, hT, rfl, rfl, fun _ => Iff.rfl, fun _ => rfl, fun _ _ => rfl⟩
  | cons x xs ih =>
    intro g m S t hT
    have hs := hT.trees.shape
    have hxR : x ∈ g.roots := hT.rest_sub x (List.mem_cons_self _ _)
    have hxS := hs.root_mem hxR
    have lx := hs.live x hxS
    have hdeg := hs.degree x hxS
    by_cases hn : (g.kids x).length < t.length
    · obtain ⟨m1, t1, x1, n1, g1, e1, hT1, hk1, hn1, hfree1, hlen1, hcf1, hl1, hlive1, hkey1,
        hfr1, hdeg1, -⟩ := linkLoop_spec (t.length + 1) hT rfl hn
          (Nat.lt_succ_of_le (List.countP_le_length _))
      have hT2 := hT1.place hk1 hn1 hfree1
      rcases ih hT2 with ⟨m', t', g', e2, hT', hcf', hl', hlive', hkey', hfr'⟩ | ⟨e2, z, hz, hzd⟩
      · left
        refine ⟨m', t', g', ?_, hT', hcf'.trans hcf1, hl'.trans hl1,
          fun z => (hlive' z).trans (hlive1 z), fun z => (hkey' z).trans (hkey1 z),
          fun z hz => (hfr' z hz).trans (hfr1 z hz)⟩
        simp only [processRoots, List.map_cons, rd_live lx, ok_bind, hdeg, e1, tset_ok _ hn1]
        exact e2
      · right
        refine ⟨?_, z, List.mem_cons_of_mem _ hz, ?_⟩
        · simp only [processRoots, List.map_cons, rd_live lx, ok_bind, hdeg, e1, tset_ok _ hn1]
          exact e2
        · rw [hdeg1 z hz] at hzd
          simp only [List.length_set] at hzd
          omega
    · right
      refine ⟨?_, x, List.mem_cons_self _ _, ?_⟩
      · simp only [processRoots, List.map_cons, rd_live lx, ok_bind, hdeg,
          linkLoop_oor _ (Nat.le_of_not_lt hn)]
        rfl
      · rw [hdeg]; omega

/-- Adding one table entry to the root list being rebuilt. -/
theorem RebInv.reb_step {g : Ghost} {m : Mem} {S : List Nat} {acc E : List Nat} {mn : Option Nat}
    {x : Nat} (hI : RebInv g m S acc mn (x :: E)) :
    ∃ m1 m' mn' acc',
      m1 = (((m.upd x (fun n => { n with left := some x })).upd x
        (fun n => { n with right := some x })).upd x (fun n => { n with parent := none })).upd x
          (fun n => { n with mark := false }) ∧
      (match mn with
        | none => m' = m1 ∧ mn' = some x
        | some r => mergeRootLists m1 (some r) (some x) = .ok m' ∧
            mn' = if (m'.get x).key < (m'.get r).key then some x else some r) ∧
      m'.live x ∧ (∀ r, mn = some r → m'.live r) ∧
      RebInv g m' S acc' mn' E ∧ m'.length = m.length ∧ (∀ z, m'.live z ↔ m.live z) ∧
      (∀ z, (m'.get z).key = (m.get z).key) ∧ (∀ z, z ∉ S → m'.get z = m.get z) := by
  have hs := hI.trees.shape
  have hxR : x ∈ g.roots := (hI.roots_iff x).mpr (Or.inr (List.mem_cons_self _ _))
  have hxS := hs.root_mem hxR
  have lx := hs.live x hxS
  have hdet := hI.detached x (List.mem_cons_self _ _)
  have hpx := hs.root_parent hxR
  have hnd := List.nodup_append.mp hI.nodup
  have hxacc : x ∉ acc := fun h => hnd.2.2 h (List.mem_cons_self _ _)
  have hxE : x ∉ E := (List.nodup_cons.mp hnd.2.1).1
  have haccR : ∀ z, z ∈ acc → z ∈ g.roots := fun z hz => (hI.roots_iff z).mpr (Or.inl hz)
  have hg1 : ∀ w, ((((m.upd x (fun n => { n with left := some x })).upd x
        (fun n => { n with right := some x })).upd x (fun n => { n with parent := none })).upd x
          (fun n => { n with mark := false })).get w =
      if w = x then { m.get x with mark := false } else m.get w := by
    intro w
    simp only [get_upd, live_upd, lx]
    by_cases hwx : w = x
    · subst hwx
      simp only [if_true]
      exact node_ext rfl hpx.symm rfl hdet.1.symm hdet.2.symm rfl rfl
    · simp [hwx]
  generalize hm1 : (((m.upd x (fun n => { n with left := some x })).upd x
        (fun n => { n with right := some x })).upd x (fun n => { n with parent := none })).upd x
          (fun n => { n with mark := false }) = m1 at hg1
  have hlive1 : ∀ z, m1.live z ↔ m.live z := by intro z; rw [← hm1]; simp
  have hlen1 : m1.length = m.length := by rw [← hm1]; simp
  have hsd1 : ∀ w, sameData (m.get w) ({ m1.get w with mark := (m.get w).mark }) := by
    intro w; rw [hg1]; by_cases hwx : w = x <;> simp [hwx, sameData]
  have hlr1 : ∀ w, (m1.get w).right = (m.get w).right ∧ (m1.get w).left = (m.get w).left := by
    intro w; rw [hg1]; by_cases hwx : w = x <;> simp [hwx]
  have hf1 : ∀ w, (m1.get w).key = (m.get w).key ∧ (m1.get w).parent = (m.get w).parent ∧
      (m1.get w).child = (m.get w).child ∧ (m1.get w).degree = (m.get w).degree := by
    intro w; rw [hg1]; by_cases hwx : w = x <;> simp [hwx]
  have hs1 : Shape g m1 S := hs.shape_congr' (fun z hz => (hlive1 z).mpr (hs.live z hz))
    (fun z _ => ⟨(hf1 z).2.1, (hf1 z).2.2.1, (hf1 z).2.2.2⟩) (fun z _ _ => hlr1 z)
  have ho1 : Ordered m1 S := Ordered.order_congr' hs hI.trees.order (fun z _ => ⟨(hf1 z).1, (hf1 z).2.1⟩)
  have hR1 : Ring m1 acc := hI.ring.congr (fun z _ => hlr1 z)
  have hx1 : Ring m1 [x] := ring_singleton.mpr ⟨by rw [(hlr1 x).1]; exact hdet.2,
    by rw [(hlr1 x).2]; exact hdet.1⟩
  have hfr1 : ∀ z, z ≠ x → m1.get z = m.get z := fun z hz => by rw [hg1, if_neg hz]
  have hT1 : Thin m1 S none := hI.trees.thin.thin_congr (fun c _ => (hf1 c).2.1)
    (fun c _ hp => by
      have hcx : c ≠ x := by
        intro e; rw [e] at hp; exact hp (hs.root_parent hxR)
      rw [hfr1 c hcx]; exact ⟨rfl, rfl⟩)
  cases hmn : mn with
  | none =>
    have hacc : acc = [] := hI.min_none hmn
    refine ⟨m1, m1, some x, [x], rfl, ⟨rfl, rfl⟩, (hlive1 x).mpr lx, (fun r hr => by cases hr), ?_,
      hlen1, hlive1, fun z => (hf1 z).1, fun z hz => hfr1 z (fun e => hz (e ▸ hxS))⟩
    refine ⟨⟨hs1, ho1, hI.trees.binom, hT1⟩, hx1, ?_, ?_, ?_, ?_, by simp, ?_⟩
    · exact List.nodup_cons.mpr ⟨hxE, (List.nodup_cons.mp hnd.2.1).2⟩
    · intro z; rw [hI.roots_iff, hacc]; simp
    · intro z hz
      have hzx : z ≠ x := fun e => hxE (e ▸ hz)
      rw [hfr1 z hzx]; exact hI.detached z (List.mem_cons_of_mem _ hz)
    · intro z hz
      rw [List.mem_singleton.mp hz, hg1, if_pos rfl]
    · intro r hr
      simp only [Option.some.injEq] at hr
      subst hr
      exact ⟨List.mem_singleton.mpr rfl, fun z hz => by rw [List.mem_singleton.mp hz]⟩
  | some r =>
    obtain ⟨hracc, hrmin⟩ := hI.min_some r hmn
    obtain ⟨t, hrot⟩ := rotate_to_head hracc
    have hRt : Ring m1 (r :: t) := hR1.rotated hrot
    have hdj : ∀ z, z ∈ r :: t → z ∉ [x] := by
      intro z hz hz2
      rw [List.mem_singleton] at hz2
      exact hxacc (hz2 ▸ hrot.mem_iff.mpr hz)
    obtain ⟨m2, e1, hlen2, hlive2, hR2, hfr2, hsd2⟩ := splice_spec hRt hx1 hdj
      (fun z hz => (hlive1 z).mpr (hs.live z (hs.root_mem (haccR z (hrot.mem_iff.mpr hz)))))
      (fun z hz => by rw [List.mem_singleton.mp hz]; exact (hlive1 x).mpr lx)
    have hk2 : ∀ z, (m2.get z).key = (m.get z).key := fun z => (hsd2 z).1.trans (hf1 z).1
    have hmem : ∀ z, z ∈ r :: t ++ [x] ↔ z ∈ acc ∨ z = x := by
      intro z; rw [List.mem_append, List.mem_singleton, ← hrot.mem_iff]
    have hfr2' : ∀ z, z ∉ acc → z ≠ x → m2.get z = m.get z := by
      intro z hz hzx
      rw [hfr2 z (fun h => hz (hrot.mem_iff.mpr h)) (fun h => hzx (List.mem_singleton.mp h)),
        hfr1 z hzx]
    have hs2 : Shape g m2 S := hs1.shape_congr (fun z hz => (hlive2 z).mpr (hs1.live z hz))
      (fun z _ => hsd2 z) (fun z hz hp => by
        apply hfr2
        · intro h
          exact hp (hs1.root_parent (haccR z (hrot.mem_iff.mpr h)))
        · intro h
          rw [List.mem_singleton.mp h] at hp
          exact hp (hs1.root_parent hxR))
    refine ⟨m1, m2, if (m2.get x).key < (m2.get r).key then some x else some r, r :: t ++ [x], rfl,
      ⟨e1, rfl⟩, (hlive2 x).mpr ((hlive1 x).mpr lx),
      (fun r' hr' => by
        rw [← Option.some.inj hr']
        exact (hlive2 r).mpr ((hlive1 r).mpr (hs.live r (hs.root_mem (haccR r hracc))))),
      ?_, hlen2.trans hlen1, fun z => (hlive2 z).trans (hlive1 z), hk2, ?_⟩
    · refine ⟨⟨hs2, Ordered.order_congr hs1 ho1 (fun z _ => hsd2 z), hI.trees.binom,
          hT1.thin_congr (fun c _ => (hsd2 c).2.1)
            (fun c _ _ => ⟨(hsd2 c).2.2.2.1, (hsd2 c).2.2.2.2⟩)⟩, hR2, ?_, ?_, ?_, ?_,
        ?_, ?_⟩
      · refine List.nodup_append.mpr ⟨hR2.1, (List.nodup_cons.mp hnd.2.1).2, ?_⟩
        intro z hz hzE
        rcases (hmem z).mp hz with h | h
        · exact hnd.2.2 h (List.mem_cons_of_mem _ hzE)
        · exact hxE (h ▸ hzE)
      · intro z; rw [hI.roots_iff, hmem, List.mem_cons]
        constructor
        · rintro (h | h | h)
          · exact Or.inl (Or.inl h)
          · exact Or.inl (Or.inr h)
          · exact Or.inr h
        · rintro ((h | h) | h)
          · exact Or.inl h
          · exact Or.inr (Or.inl h)
          · exact Or.inr (Or.inr h)
      · intro z hz
        have hzx : z ≠ x := fun e => hxE (e ▸ hz)
        have hza : z ∉ acc := fun h => hnd.2.2 h (List.mem_cons_of_mem _ hz)
        rw [hfr2' z hza hzx]; exact hI.detached z (List.mem_cons_of_mem _ hz)
      · intro z hz
        rw [(hsd2 z).2.2.2.2, hg1]
        rcases (hmem z).mp hz with h | h
        · have hzx : z ≠ x := fun e => hxacc (e ▸ h)
          rw [if_neg hzx]; exact hI.unmarked z h
        · rw [if_pos h]
      · intro h; by_cases hlt : (m2.get x).key < (m2.get r).key <;> simp [hlt] at h
      · intro r' hr'
        by_cases hlt : (m2.get x).key < (m2.get r).key
        · simp only [hlt, if_true, Option.some.injEq] at hr'
          subst hr'
          refine ⟨by simp, fun z hz => ?_⟩
          rcases (hmem z).mp hz with h | h
          · have := hrmin z h
            rw [hk2, hk2] at hlt ⊢
            omega
          · rw [h]
        · simp only [hlt, if_false, Option.some.injEq] at hr'
          subst hr'
          refine ⟨by simp, fun z hz => ?_⟩
          rcases (hmem z).mp hz with h | h
          · rw [hk2, hk2]; exact hrmin z h
          · rw [h]; exact not_lt.mp hlt
    · intro z hz
      have hzx : z ≠ x := fun e => hz (e ▸ hxS)
      have hza : z ∉ acc := fun h => hz (hs.root_mem (haccR z h))
      exact hfr2' z hza hzx

/-- The loop of `consolidate` that rebuilds the root list from the table. -/
theorem rebuild_spec : ∀ (ents : List (Option Nat)) {g : Ghost} {m : Mem} {S : List Nat}
    {acc : List Nat} {mn : Option Nat}, RebInv g m S acc mn ents.reduceOption →
    ∃ m' mn' acc', rebuild m mn ents = .ok (m', mn') ∧ RebInv g m' S acc' mn' [] ∧
      m'.length = m.length ∧ (∀ z, m'.live z ↔ m.live z) ∧
      (∀ z, (m'.get z).key = (m.get z).key) ∧ (∀ z, z ∉ S → m'.get z = m.get z) := by
  intro ents
  induction ents with
  | nil =>
    intro g m S acc mn hI
    exact ⟨m, mn, acc, rfl, hI, rfl, fun _ => Iff.rfl, fun _ => rfl, fun _ _ => rfl⟩
  | cons e rest ih =>
    intro g m S acc mn hI
    cases e with
    | none =>
      rw [List.reduceOption_cons_of_none] at hI
      obtain ⟨m', mn', acc', e1, h2⟩ := ih hI
      refine ⟨m', mn', acc', ?_, h2⟩
      simp only [rebuild, ne_eq, not_true_eq_false, if_false]
      exact e1
    | some x =>
      rw [List.reduceOption_cons_of_some] at hI
      have lx := hI.trees.shape.live x (hI.trees.shape.root_mem
        ((hI.roots_iff x).mpr (Or.inr (List.mem_cons_self _ _))))
      obtain ⟨m1, m2, mn2, acc2, em1, hcase, lx2, lr2, hI2, hlen2, hlive2, hkey2, hfr2⟩ := hI.reb_step
      obtain ⟨m', mn', acc', e1, hI', hlen', hlive', hkey', hfr'⟩ := ih hI2
      refine ⟨m', mn', acc', ?_, hI', hlen'.trans hlen2, fun z => (hlive' z).trans (hlive2 z),
        fun z => (hkey' z).trans (hkey2 z), fun z hz => (hfr' z hz).trans (hfr2 z hz)⟩
      have hex : ∀ (k : Mem → Except Fault (Mem × Option Nat)),
          (((m.modify (some x) (fun n => { n with left := some x })) >>= fun m =>
            (m.modify (some x) (fun n => { n with right := some x })) >>= fun m =>
            (m.modify (some x) (fun n => { n with parent := none })) >>= fun m =>
            (m.modify (some x) (fun n => { n with mark := false })) >>= k) = k m1) := by
        intro k
        simp [modify_live, live_upd, lx, em1]
      cases hmn : mn with
      | none =>
        rw [hmn] at hcase
        obtain ⟨h1, h2⟩ := hcase
        subst h1; subst h2
        have := hex (fun m => rebuild m (some x) rest)
        simp only [rebuild, ne_eq, not_false_eq_true, if_true, reduceCtorEq]
        simp only [bind_assoc] at this ⊢
        rw [← e1, ← this]
      | some r =>
        rw [hmn] at hcase
        obtain ⟨h1, h2⟩ := hcase
        have lr := lr2 r hmn
        have := hex (fun m => (mergeRootLists m (some r) (some x)) >>= fun m =>
          (m.rd (some x)) >>= fun nx => (m.rd (some r)) >>= fun nr =>
            rebuild m (if nx.key < nr.key then some x else some r) rest)
        simp only [rebuild, ne_eq, not_false_eq_true, if_true, reduceCtorEq, if_false]
        simp only [bind_assoc] at this ⊢
        rw [this, h1]
        simp only [ok_bind, rd_live lx2, rd_live lr, ← h2]
        exact e1

theorem mem_reduceOption_iff_getD {t : List (Option Nat)} {y : Nat} :
    y ∈ t.reduceOption ↔ ∃ d, t.getD d none = some y := by
  rw [List.reduceOption_mem_iff, List.mem_iff_getElem?]
  constructor
  · rintro ⟨d, hd⟩; exact ⟨d, by simp [List.getD_eq_getElem?_getD, hd]⟩
  · rintro ⟨d, hd⟩
    refine ⟨d, ?_⟩
    rw [List.getD_eq_getElem?_getD] at hd
    cases h : t[d]? with
    | none => rw [h] at hd; simp at hd
    | some o => rw [h] at hd; simp at hd; rw [hd]

theorem nodup_reduceOption_of_index (f : Nat → Nat) : ∀ (t : List (Option Nat)) (k : Nat),
    (∀ d y, t.getD d none = some y → f y = d + k) → t.reduceOption.Nodup := by
  intro t
  induction t with
  | nil => intro k _; simp
  | cons e es ih =>
    intro k h
    have hes : ∀ d y, es.getD d none = some y → f y = d + (k + 1) := by
      intro d y hy
      have := h (d + 1) y (by simpa [List.getD_eq_getElem?_getD] using hy)
      omega
    cases e with
    | none => rw [List.reduceOption_cons_of_none]; exact ih (k + 1) hes
    | some x =>
      rw [List.reduceOption_cons_of_some]
      refine List.nodup_cons.mpr ⟨?_, ih (k + 1) hes⟩
      intro hx
      obtain ⟨d, hd⟩ := mem_reduceOption_iff_getD.mp hx
      have h1 := hes d x hd
      have h2 := h 0 x (by simp)
      omega

theorem Binom.binom_reroot {g : Ghost} {S : List Nat} (hb : Binom g S) {roots' : List Nat}
    (hp : roots'.Perm g.roots) : Binom { g with roots := roots' } S :=
  ⟨hb.1, by rw [← hb.2]; exact (hp.map _).sum_eq⟩

theorem Trees.trees_reroot {g : Ghost} {m : Mem} {S : List Nat} (hT : Trees g m S)
    {roots' : List Nat} (hn : roots'.Nodup) (hi : ∀ x, x ∈ roots' ↔ x ∈ g.roots) :
    Trees { g with roots := roots' } m S :=
  ⟨hT.shape.shape_reroot hn hi, hT.order, fun hc =>
    (hT.binom hc).binom_reroot ((List.perm_ext_iff_of_nodup hn hT.shape.roots_nodup).mpr hi),
    hT.thin⟩

theorem getD_replicate_none (k d : Nat) :
    (List.replicate k (none : Option Nat)).getD d none = none := by
  simp only [List.getD_eq_getElem?_getD, List.getElem?_replicate]
  split <;> rfl

/-- Specification of `consolidate`: either the root list is rebuilt from the table, or the first table
access of some root is out of range. -/
theorem consolidate_spec {g : Ghost} {m : Mem} {h : FHeap} {S : List Nat} {r : Nat}
    (hT : Trees g m S) (hR : Ring m g.roots) (hmin : h.min_ = some r) (hr : r ∈ g.roots)
    (hsz : h.size_ ≠ 0) :
    (∃ m' h' g', consolidate m h = .ok (m', h') ∧ Forest g' m' S ∧
      (∃ r', h'.min_ = some r' ∧ r' ∈ g'.roots ∧
        ∀ x, x ∈ g'.roots → (m'.get r').key ≤ (m'.get x).key) ∧
      h'.size_ = h.size_ ∧ g'.cutFree = g.cutFree ∧ m'.length = m.length ∧
      (∀ z, m'.live z ↔ m.live z) ∧ (∀ z, (m'.get z).key = (m.get z).key) ∧
      (∀ z, z ∉ S → m'.get z = m.get z) ∧
      (∀ x, x ∈ g'.roots → ∀ y, y ∈ g'.roots →
        (m'.get x).degree = (m'.get y).degree → x = y)) ∨
    (consolidate m h = .error .outOfRange ∧
      ∃ x, x ∈ g.roots ∧ ((Nat.log2 h.size_ + 2 : Nat) : Int) ≤ (m.get x).degree) := by
  have hs := hT.shape
  obtain ⟨t, hrot⟩ := rotate_to_head hr
  have hRt : Ring m (r :: t) := hR.rotated hrot
  have hLR : ∀ w, w ∈ r :: t ↔ w ∈ g.roots := fun w => (hrot.mem_iff).symm
  have hLS : ∀ w, w ∈ r :: t → w ∈ S := fun w hw => hs.root_mem ((hLR w).mp hw)
  have hlv : ∀ w, w ∈ r :: t → m.live w := fun w hw => hs.live w (hLS w hw)
  have hfuel : t.length < m.length := by
    have h1 := hs.roots_length_le
    have h2 := hs.length_le
    have h3 := hrot.perm.length_eq
    simp only [List.length_cons] at h3
    omega
  have e1 := collectRoots_spec hRt hlv hfuel
  obtain ⟨m1, e2, hg1, hlive1, hlen1⟩ := detachAll_spec (r :: t) m hlv
  have hf1 : ∀ w, sameData (m.get w) (m1.get w) := by
    intro w; rw [hg1]; by_cases hw : w ∈ r :: t <;> simp [hw, sameData]
  have hT0 : Trees { g with roots := r :: t } m S := hT.trees_reroot hRt.1 hLR
  have hT1 : Trees { g with roots := r :: t } m1 S := by
    refine ⟨hT0.shape.shape_congr (fun z hz => (hlive1 z).mpr (hs.live z hz)) (fun z _ => hf1 z) ?_,
      Ordered.order_congr hs hT.order (fun z _ => hf1 z), hT0.binom,
      hT.thin.thin_congr (fun c _ => (hf1 c).2.1)
        (fun c _ _ => ⟨(hf1 c).2.2.2.1, (hf1 c).2.2.2.2⟩)⟩
    intro z hz hp
    rw [hg1, if_neg]
    intro hzL
    exact hp (hs.root_parent ((hLR z).mp hzL))
  have hTab : TabInv { g with roots := r :: t } m1 S
      (List.replicate (Nat.log2 h.size_ + 1 + 1) none) (r :: t) := by
    refine ⟨hT1, ?_, ?_, fun x hx => Or.inl hx, fun x hx => hx, hRt.1⟩
    · intro x hx
      rw [hg1, if_pos hx]; exact ⟨rfl, rfl⟩
    · intro d y hy
      rw [getD_replicate_none] at hy; cases hy
  have hex : consolidate m h = (processRoots m1 (List.replicate (Nat.log2 h.size_ + 1 + 1) none)
      ((r :: t).map some)) >>= fun p => (rebuild p.1 none p.2) >>= fun q =>
        .ok (q.1, { h with min_ := q.2 }) := by
    simp only [consolidate, hmin, reduceCtorEq, if_false, hsz, e1, ok_bind, e2]
    rfl
  rcases processRoots_spec (r :: t) hTab with
    ⟨m2, t2, g2, e3, hT2, hcf2, hlen2, hlive2, hkey2, hfr2⟩ | ⟨e3, x, hx, hxd⟩
  · left
    have hReb : RebInv g2 m2 S [] none t2.reduceOption := by
      refine ⟨hT2.trees, ring_nil _, ?_, ?_, ?_, (fun _ h => by cases h), fun _ => rfl,
        (fun _ h => by cases h)⟩
      · rw [List.nil_append]
        exact nodup_reduceOption_of_index (fun y => (g2.kids y).length) t2 0
          (fun d y hy => by simpa using (hT2.tab d y hy).2.2)
      · intro x
        rw [mem_reduceOption_iff_getD]
        constructor
        · intro hx
          rcases hT2.covered x hx with h | h
          · cases h
          · exact Or.inr h
        · rintro (h | ⟨d, hd⟩)
          · cases h
          · exact (hT2.tab d x hd).1
      · intro x hx
        obtain ⟨d, hd⟩ := mem_reduceOption_iff_getD.mp hx
        exact hT2.detached x (hT2.tab d x hd).1
    obtain ⟨m3, mn3, acc3, e4, hI3, hlen3, hlive3, hkey3, hfr3⟩ := rebuild_spec t2 hReb
    have hacc : ∀ z, z ∈ acc3 ↔ z ∈ g2.roots := by
      intro z; rw [hI3.roots_iff]; simp
    have hnd3 : acc3.Nodup := by simpa using hI3.nodup
    -- the rebuilt list is not empty
    have hne3 : ∃ z, z ∈ acc3 := by
      obtain ⟨z, hz, -⟩ := hT2.trees.shape.dominated hT2.trees.order _ r
        (hLS r (List.mem_cons_self _ _)) (le_refl _)
      exact ⟨z, (hacc z).mpr hz⟩
    cases hmn3 : mn3 with
    | none =>
      obtain ⟨z, hz⟩ := hne3
      rw [hI3.min_none hmn3] at hz; cases hz
    | some r3 =>
      obtain ⟨hr3, hmin3⟩ := hI3.min_some r3 hmn3
      refine ⟨m3, { h with min_ := some r3 }, { g2 with roots := acc3 }, ?_,
        ⟨hI3.trees.trees_reroot hnd3 hacc, hI3.ring, hI3.unmarked⟩, ⟨r3, rfl, hr3, hmin3⟩, rfl, hcf2,
        hlen3.trans (hlen2.trans hlen1),
        fun z => (hlive3 z).trans ((hlive2 z).trans (hlive1 z)),
        fun z => (hkey3 z).trans ((hkey2 z).trans (hf1 z).1), ?_, ?_⟩
      · rw [hex, e3]
        simp only [ok_bind, e4, hmn3]
      · intro z hz
        rw [hfr3 z hz, hfr2 z hz, hg1, if_neg (fun hzL => hz (hLS z hzL))]
      · intro x hx y hy hxy
        have hxR : x ∈ g2.roots := (hacc x).mp hx
        have hyR : y ∈ g2.roots := (hacc y).mp hy
        have hs3 := hI3.trees.shape
        rw [hs3.degree x (hs3.root_mem hxR), hs3.degree y (hs3.root_mem hyR)] at hxy
        have hxy' : (g2.kids x).length = (g2.kids y).length := by exact_mod_cast hxy
        rcases hT2.covered x hxR with h | ⟨d, hd⟩
        · cases h
        rcases hT2.covered y hyR with h | ⟨d', hd'⟩
        · cases h
        have h1 := (hT2.tab d x hd).2.2
        have h2 := (hT2.tab d' y hd').2.2
        have hdd : d = d' := by omega
        rw [hdd, hd'] at hd
        exact (Option.some.inj hd).symm
  · right
    refine ⟨by rw [hex, e3]; rfl, x, (hLR x).mp hx, ?_⟩
    rw [(hf1 x).2.2.2.1] at hxd
    simpa using hxd

theorem Shape.kids_length_le {g : Ghost} {m : Mem} {S : List Nat} (hs : Shape g m S) {x : Nat}
    (hx : x ∈ S) : (g.kids x).length ≤ S.length :=
  (List.subperm_of_subset (hs.kids_ring x hx).1 (fun _ hc => (hs.kid_parent hx hc).1)).length_le

/-- The first block of `ExtractMin`: the children of the minimum join the root list. -/
theorem promote_spec {g : Ghost} {m : Mem} {h : FHeap} {S : List Nat} {z : Nat}
    (hs : Shape g m S) (hR : Ring m g.roots) (hmin : h.min_ = some z) (hz : z ∈ g.roots) :
    ∃ mA T, promoteChildren m h (some z) = .ok mA ∧ Ring mA (z :: T) ∧
      (∀ w, w ∈ T ↔ (w ∈ g.roots ∧ w ≠ z) ∨ w ∈ g.kids z) ∧
      (∀ w, (mA.get w).parent = if w ∈ g.kids z then none else (m.get w).parent) ∧
      (∀ w, (mA.get w).key = (m.get w).key ∧ (mA.get w).child = (m.get w).child ∧
        (mA.get w).degree = (m.get w).degree ∧ (mA.get w).mark = (m.get w).mark) ∧
      (∀ w, w ∉ z :: T →
        (mA.get w).right = (m.get w).right ∧ (mA.get w).left = (m.get w).left) ∧
      (∀ w, mA.live w ↔ m.live w) ∧ mA.length = m.length := by
  have hzS := hs.root_mem hz
  have lz := hs.live z hzS
  obtain ⟨R0, hrot⟩ := rotate_to_head hz
  have hRz : Ring m (z :: R0) := hR.rotated hrot
  have hzR0 : z ∉ R0 := (List.nodup_cons.mp hRz.1).1
  have hR0 : ∀ w, w ∈ R0 ↔ w ∈ g.roots ∧ w ≠ z := by
    intro w
    rw [hrot.mem_iff, List.mem_cons]
    constructor
    · intro hw; exact ⟨Or.inr hw, fun e => hzR0 (e ▸ hw)⟩
    · rintro ⟨h1 | h1, h2⟩
      · exact absurd h1 h2
      · exact h1
  cases hc : (m.get z).child with
  | none =>
    have hk : g.kids z = [] := hs.child_none z hzS hc
    refine ⟨m, R0, ?_, hRz, ?_, ?_, fun w => ⟨rfl, rfl, rfl, rfl⟩, fun w _ => ⟨rfl, rfl⟩,
      fun _ => Iff.rfl, rfl⟩
    · simp [promoteChildren, rd_live lz, hc]
    · intro w; rw [hR0, hk]; simp
    · intro w; rw [hk]; simp
  | some c =>
    have hcK : c ∈ g.kids z := hs.child_some z hzS c hc
    obtain ⟨cs, hrotK⟩ := rotate_to_head hcK
    have hK : Ring m (c :: cs) := (hs.kids_ring z hzS).rotated hrotK
    have hKm : ∀ w, w ∈ c :: cs ↔ w ∈ g.kids z := fun w => hrotK.mem_iff.symm
    have hKS : ∀ w, w ∈ c :: cs → w ∈ S ∧ (m.get w).parent = some z :=
      fun w hw => hs.kid_parent hzS ((hKm w).mp hw)
    have hfuel : cs.length < m.length := by
      have h1 := hs.kids_length_le hzS
      have h2 := hs.length_le
      have h3 := hrotK.perm.length_eq
      simp only [List.length_cons] at h3
      omega
    obtain ⟨ma, e1, hga, hlivea, hlena⟩ := clearParents_spec hK
      (fun w hw => hs.live w (hKS w hw).1) hfuel
    have hzK : z ∉ c :: cs := by
      intro h
      have := (hKS z h).2
      rw [hs.root_parent hz] at this; cases this
    have hdj : ∀ w, w ∈ z :: R0 → w ∉ c :: cs := by
      intro w hw hw2
      have h1 := (hKS w hw2).2
      rw [hs.root_parent (hrot.mem_iff.mpr hw)] at h1; cases h1
    have hlra : ∀ w, (ma.get w).right = (m.get w).right ∧ (ma.get w).left = (m.get w).left := by
      intro w; rw [hga]; by_cases hw : w ∈ c :: cs <;> simp [hw]
    obtain ⟨mb, e2, hlenb, hliveb, hRb, hfrb, hsdb⟩ := splice_spec
      (hRz.congr (fun w _ => hlra w)) (hK.congr (fun w _ => hlra w)) hdj
      (fun w hw => (hlivea w).mpr (hs.live w (hs.root_mem (hrot.mem_iff.mpr hw))))
      (fun w hw => (hlivea w).mpr (hs.live w (hKS w hw).1))
    have hgz : ma.get z = m.get z := by rw [hga, if_neg hzK]
    refine ⟨mb, R0 ++ c :: cs, ?_, hRb, ?_, ?_, ?_, ?_, fun w => (hliveb w).trans (hlivea w),
      hlenb.trans hlena⟩
    · simp only [promoteChildren, rd_live lz, hc, ne_eq, reduceCtorEq, not_false_eq_true, if_true,
        ok_bind, e1, rd_live ((hlivea z).mpr lz), hgz, hmin, e2]
    · intro w; rw [List.mem_append, hR0, hKm]
    · intro w
      by_cases hw : w ∈ g.kids z
      · rw [if_pos hw, (hsdb w).2.1, hga, if_pos ((hKm w).mpr hw)]
      · rw [if_neg hw, (hsdb w).2.1, hga, if_neg (fun h => hw ((hKm w).mp h))]
    · intro w
      rw [(hsdb w).1, (hsdb w).2.2.1, (hsdb w).2.2.2.1, (hsdb w).2.2.2.2, hga]
      by_cases hw : w ∈ c :: cs <;> simp [hw]
    · intro w hw
      have h1 : w ∉ z :: R0 := by
        intro h
        apply hw
        rcases List.mem_cons.mp h with h | h
        · rw [h]; exact List.mem_cons_self _ _
        · exact List.mem_cons_of_mem _ (List.mem_append_left _ h)
      have h2 : w ∉ c :: cs := fun h => hw (List.mem_cons_of_mem _ (List.mem_append_right _ h))
      rw [hfrb w h1 h2]; exact hlra w

/-- Removing the minimum `z` from the root list. -/
theorem unlinkMin_spec {m : Mem} {z : Nat} {T : List Nat} (hR : Ring m (z :: T))
    (hlv : ∀ w, w ∈ z :: T → m.live w) :
    ∃ m' zr, unlinkMin m (some z) = .ok m' ∧ (m'.get z).right = some zr ∧
      (zr = z ↔ T = []) ∧ (T ≠ [] → zr ∈ T) ∧ Ring m' T ∧
      (∀ w, sameData (m.get w) (m'.get w)) ∧
      (∀ w, w ∉ T → (m'.get w).right = (m.get w).right ∧ (m'.get w).left = (m.get w).left) ∧
      (∀ w, m'.live w ↔ m.live w) ∧ m'.length = m.length := by
  have hzm : z ∈ z :: T := List.mem_cons_self _ _
  have lz := hlv z hzm
  obtain ⟨zl, hzl, hzlz, hleft⟩ := hR.left hzm
  have hright := hR.right hzm
  have hzr : csucc (z :: T) z ∈ z :: T := csucc_mem hzm
  generalize hzr_def : csucc (z :: T) z = zr at hright hzr
  have lzl := hlv zl hzl
  have lzr := hlv zr hzr
  have hiff : zr = z ↔ T = [] := by
    constructor
    · intro e; rw [e] at hzr_def; exact csucc_self hR.1 hzr_def
    · intro e; subst e; rw [← hzr_def]; rfl
  have hiffl : zl = z ↔ T = [] := by
    constructor
    · intro e; rw [e] at hzlz; exact csucc_self hR.1 hzlz
    · intro e; subst e; exact List.mem_singleton.mp hzl
  have hg1 : ∀ w, (m.upd zl (fun n => { n with right := some zr })).get w =
      if w = zl then { m.get zl with right := some zr } else m.get w := fun w => get_upd m w _ lzl
  have hz1 : ((m.upd zl (fun n => { n with right := some zr })).get z).right = some zr ∧
      ((m.upd zl (fun n => { n with right := some zr })).get z).left = some zl := by
    rw [hg1]; by_cases h : z = zl
    · rw [if_pos h]; subst h; exact ⟨rfl, hleft⟩
    · rw [if_neg h]; exact ⟨hright, hleft⟩
  have hg2 : ∀ w, ((m.upd zl (fun n => { n with right := some zr })).upd zr
      (fun n => { n with left := some zl })).get w =
      { m.get w with right := if w = zl then some zr else (m.get w).right,
                     left := if w = zr then some zl else (m.get w).left } := by
    intro w
    rw [get_upd _ w _ ((live_upd _ _ _ _).mpr lzr), hg1, hg1]
    by_cases h1 : w = zl <;> by_cases h2 : w = zr <;> by_cases h3 : zr = zl <;> simp_all
  refine ⟨(m.upd zl (fun n => { n with right := some zr })).upd zr
      (fun n => { n with left := some zl }), zr, ?_, ?_, hiff, ?_, ?_, ?_, ?_, by simp, by simp⟩
  · simp only [unlinkMin, rd_live lz, ok_bind, hleft, hright, modify_live _ lzl,
      rd_live ((live_upd _ _ _ _).mpr lz), hz1.1, hz1.2,
      modify_live _ ((live_upd _ _ _ _).mpr lzr)]
  · rw [hg2]
    by_cases h : z = zl <;> simp [h, hright]
  · intro hT
    rcases List.mem_cons.mp hzr with h | h
    · exact absurd (hiff.mp h) hT
    · exact h
  · exact ring_unlink hR hleft hright (fun w _ => by rw [hg2]) (fun w _ => by rw [hg2])
  · intro w; rw [hg2]; exact ⟨rfl, rfl, rfl, rfl, rfl⟩
  · intro w hw
    rw [hg2]
    by_cases hT : T = []
    · have e1 := hiff.mpr hT
      have e2 := hiffl.mpr hT
      by_cases h1 : w = z
      · subst h1; simp [e1, e2, hright, hleft]
      · simp [e1, e2, h1]
    · have h1 : w ≠ zl := by
        rintro rfl
        rcases List.mem_cons.mp hzl with h | h
        · exact hT (hiffl.mp h)
        · exact hw h
      have h2 : w ≠ zr := by
        rintro rfl
        rcases List.mem_cons.mp hzr with h | h
        · exact hT (hiff.mp h)
        · exact hw h
      simp [h1, h2]

/-- The forest after the minimum `z` has been taken out and its children promoted. -/
theorem Trees.remove_root {g : Ghost} {m m' : Mem} {S : List Nat} {z : Nat} {T : List Nat}
    (hT : Trees g m S) (hz : z ∈ g.roots) (hTn : T.Nodup)
    (hTm : ∀ w, w ∈ T ↔ (w ∈ g.roots ∧ w ≠ z) ∨ w ∈ g.kids z)
    (hl : ∀ w, w ∈ S → w ≠ z → m'.live w)
    (hp : ∀ w, (m'.get w).parent = if w ∈ g.kids z then none else (m.get w).parent)
    (hd : ∀ w, (m'.get w).key = (m.get w).key ∧ (m'.get w).child = (m.get w).child ∧
      (m'.get w).degree = (m.get w).degree)
    (hlr : ∀ w, w ∉ z :: T →
      (m'.get w).right = (m.get w).right ∧ (m'.get w).left = (m.get w).left)
    (hmk : ∀ w, (m'.get w).parent ≠ none → (m'.get w).mark = (m.get w).mark) :
    Trees { g with roots := T } m' (S.erase z) := by
  have hs := hT.shape
  have hzS := hs.root_mem hz
  have hpz := hs.root_parent hz
  have hmem : ∀ w, w ∈ S.erase z ↔ w ≠ z ∧ w ∈ S := fun w => hs.nodup.mem_erase_iff
  have hkz : ∀ w, w ∈ g.kids z → w ∈ S ∧ w ≠ z ∧ (m.get w).parent = some z := by
    intro w hw
    obtain ⟨h1, h2⟩ := hs.kid_parent hzS hw
    exact ⟨h1, hs.parent_ne h1 h2, h2⟩
  have hpar : ∀ w p, (m'.get w).parent = some p →
      w ∉ g.kids z ∧ (m.get w).parent = some p := by
    intro w p h
    rw [hp] at h
    by_cases hw : w ∈ g.kids z
    · rw [if_pos hw] at h; cases h
    · rw [if_neg hw] at h; exact ⟨hw, h⟩
  have hpar' : ∀ w x, x ≠ z → (m.get w).parent = some x → (m'.get w).parent = some x := by
    intro w x hxz h
    rw [hp, if_neg, h]
    intro hw
    have := (hkz w hw).2.2
    rw [h] at this; exact hxz (Option.some.inj this)
  refine ⟨?_, ?_, ?_, ?_⟩
  rotate_right
  · refine hT.thin.weaken (fun x hx => ((hmem x).mp hx).2) ?_ ?_
    · intro x c _ hc h
      exact ⟨((hmem c).mp hc).2, (hpar c x h).2⟩
    · intro x c _ _ h
      rw [(hd c).2.2, hmk c (by rw [h]; exact Option.some_ne_none x)]
  · constructor
    · exact hs.nodup.erase z
    · intro w hw; exact hl w ((hmem w).mp hw).2 ((hmem w).mp hw).1
    · exact hTn
    · intro w
      simp only [hTm, hmem]
      constructor
      · rintro (⟨h1, h2⟩ | h1)
        · refine ⟨⟨h2, hs.root_mem h1⟩, ?_⟩
          rw [hp, hs.root_parent h1]; simp
        · exact ⟨⟨(hkz w h1).2.1, (hkz w h1).1⟩, by rw [hp, if_pos h1]⟩
      · rintro ⟨⟨h1, h2⟩, h3⟩
        by_cases hw : w ∈ g.kids z
        · exact Or.inr hw
        · rw [hp, if_neg hw] at h3
          exact Or.inl ⟨(hs.roots_iff w).mpr ⟨h2, h3⟩, h1⟩
    · intro x hx
      obtain ⟨hxz, hxS⟩ := (hmem x).mp hx
      refine (hs.kids_ring x hxS).congr fun c hc => ?_
      obtain ⟨hcS, hcp⟩ := hs.kid_parent hxS hc
      apply hlr
      intro h
      rcases List.mem_cons.mp h with h | h
      · rw [h, hpz] at hcp; cases hcp
      · rcases (hTm c).mp h with ⟨h1, -⟩ | h1
        · rw [hs.root_parent h1] at hcp; cases hcp
        · have := (hkz c h1).2.2
          rw [hcp] at this; exact hxz (Option.some.inj this)
    · intro x hx c
      obtain ⟨hxz, hxS⟩ := (hmem x).mp hx
      simp only [hs.kids_iff x hxS, hmem]
      constructor
      · rintro ⟨h1, h2⟩
        refine ⟨⟨?_, h1⟩, hpar' c x hxz h2⟩
        rintro rfl; rw [hpz] at h2; cases h2
      · rintro ⟨⟨-, h1⟩, h2⟩
        exact ⟨h1, (hpar c x h2).2⟩
    · intro c hc p h
      obtain ⟨hcz, hcS⟩ := (hmem c).mp hc
      obtain ⟨h1, h2⟩ := hpar c p h
      refine (hmem p).mpr ⟨?_, hs.parent_mem c hcS p h2⟩
      rintro rfl
      exact h1 ((hs.kids_iff p hzS c).mpr ⟨hcS, h2⟩)
    · intro x hx h
      rw [(hd x).2.1] at h
      exact hs.child_none x ((hmem x).mp hx).2 h
    · intro x hx c h
      rw [(hd x).2.1] at h
      exact hs.child_some x ((hmem x).mp hx).2 c h
    · intro x hx
      rw [(hd x).2.2]
      exact hs.degree x ((hmem x).mp hx).2
    · intro c hc p h
      exact hs.rk_lt c ((hmem c).mp hc).2 p (hpar c p h).2
    · intro x hx
      exact hs.rk_le x ((hmem x).mp hx).2
  · intro c hc p h
    obtain ⟨-, h2⟩ := hpar c p h
    rw [(hd c).1, (hd p).1]
    exact hT.order c ((hmem c).mp hc).2 p h2
  · intro hcf
    obtain ⟨hb1, hb2⟩ := hT.binom hcf
    refine ⟨fun x hx => hb1 x ((hmem x).mp hx).2, ?_⟩
    have hperm : T.Perm (g.roots.erase z ++ g.kids z) := by
      refine (List.perm_ext_iff_of_nodup hTn ?_).mpr ?_
      · refine List.nodup_append.mpr ⟨hs.roots_nodup.erase z, (hs.kids_ring z hzS).1, ?_⟩
        intro w h1 h2
        have := (hkz w h2).2.2
        rw [hs.root_parent (List.mem_of_mem_erase h1)] at this; cases this
      · intro w
        rw [hTm, List.mem_append, hs.roots_nodup.mem_erase_iff]
        constructor
        · rintro (⟨h1, h2⟩ | h1)
          · exact Or.inl ⟨h2, h1⟩
          · exact Or.inr h1
        · rintro (⟨h1, h2⟩ | h1)
          · exact Or.inl ⟨h2, h1⟩
          · exact Or.inr h1
    have h1 := @sum_map_erase (fun r => 2 ^ (g.kids r).length) _ _ hz
    have h2 := hb1 z hzS
    have h3 : (S.erase z).length = S.length - 1 := List.length_erase_of_mem hzS
    show (T.map (fun r => 2 ^ (g.kids r).length)).sum = (S.erase z).length
    rw [(hperm.map _).sum_eq, List.map_append, List.sum_append, h3]
    dsimp only at h1 h2 hb2 ⊢
    omega

theorem get_free (m : Mem) {z w : Nat} (h : w ≠ z) : Mem.get (m.set z none) w = m.get w := by
  unfold Mem.get
  have : z ≠ w := fun e => h e.symm
  simp [List.getD_eq_getElem?_getD, List.getElem?_set, this]

theorem live_free (m : Mem) {z w : Nat} (h : w ≠ z) : Mem.live (m.set z none) w ↔ m.live w := by
  unfold Mem.live
  have : z ≠ w := fun e => h e.symm
  simp [List.getD_eq_getElem?_getD, List.getElem?_set, this]

/-- The invariant only depends on the cells of the nodes of the heap. -/
theorem Trees.trees_frame {g : Ghost} {m m' : Mem} {S : List Nat} (hT : Trees g m S)
    (hf : ∀ x, x ∈ S → m'.get x = m.get x ∧ m'.live x) : Trees g m' S :=
  ⟨hT.shape.shape_congr (fun x hx => (hf x hx).2) (fun x hx => by rw [(hf x hx).1]; exact sameData_refl _)
      (fun x hx _ => (hf x hx).1),
    Ordered.order_congr hT.shape hT.order
      (fun x hx => by rw [(hf x hx).1]; exact sameData_refl _), hT.binom,
    hT.thin.thin_congr (fun c hc => by rw [(hf c hc).1])
      (fun c hc _ => by rw [(hf c hc).1]; exact ⟨rfl, rfl⟩)⟩

theorem Forest.forest_frame {g : Ghost} {m m' : Mem} {S : List Nat} (hF : Forest g m S)
    (hf : ∀ x, x ∈ S → m'.get x = m.get x ∧ m'.live x) : Forest g m' S :=
  ⟨hF.trees.trees_frame hf,
    hF.ring.congr (fun x hx => by rw [(hf x (hF.trees.shape.root_mem hx)).1]; exact ⟨rfl, rfl⟩),
    fun x hx => by rw [(hf x (hF.trees.shape.root_mem hx)).1]; exact hF.unmarked x hx⟩

theorem Hdr.hdr_frame {g : Ghost} {m m' : Mem} {h : FHeap} {S : List Nat} (hs : Shape g m S)
    (hH : Hdr g m h S) (hf : ∀ x, x ∈ S → m'.get x = m.get x ∧ m'.live x) : Hdr g m' h S :=
  ⟨hH.size, hH.min_none, fun r hr => ⟨(hH.min_some r hr).1, fun x hx => by
    rw [(hf r (hs.root_mem (hH.min_some r hr).1)).1, (hf x (hs.root_mem hx)).1]
    exact (hH.min_some r hr).2 x hx⟩⟩

/-- Specification of `ExtractMin` on a heap whose minimum is `z`: either `z` is removed and the invariant holds
for the remaining nodes, or `consolidate` accesses its table out of range. -/
theorem ExtractMin_full {g : Ghost} {m : Mem} {h : FHeap} {S : List Nat} {z : Nat}
    (hF : Forest g m S) (hH : Hdr g m h S) (hmin : h.min_ = some z) :
    (∃ m' h' g', ExtractMin m h = .ok (m', h') (m.get z).key ∧ Forest g' m' (S.erase z) ∧
      Hdr g' m' h' (S.erase z) ∧ g'.cutFree = g.cutFree ∧
      (∀ x, x ≠ z → (m'.get x).key = (m.get x).key) ∧
      (∀ x, x ∉ S → m.live x → m'.get x = m.get x ∧ m'.live x) ∧
      m'.length = m.length ∧ h'.size_ = h.size_ - 1 ∧
      (∀ x, x ∈ g'.roots → ∀ y, y ∈ g'.roots →
        (m'.get x).degree = (m'.get y).degree → x = y)) ∨
    (ExtractMin m h = .fault .outOfRange ∧
      ∃ x, x ∈ S ∧ x ≠ z ∧ ((m.get x).parent = none ∨ (m.get x).parent = some z) ∧
        ((Nat.log2 h.size_ + 2 : Nat) : Int) ≤ (m.get x).degree) := by
  have hs := hF.trees.shape
  obtain ⟨hzR, -⟩ := hH.min_some z hmin
  have hzS := hs.root_mem hzR
  have lz := hs.live z hzS
  obtain ⟨mA, T, eA, hRA, hTm, hpA, hdA, hlrA, hliveA, hlenA⟩ := promote_spec hs hF.ring hmin hzR
  have hTS : ∀ w, w ∈ T → w ∈ S ∧ w ≠ z ∧
      ((m.get w).parent = none ∨ (m.get w).parent = some z) := by
    intro w hw
    rcases (hTm w).mp hw with ⟨h1, h2⟩ | h1
    · exact ⟨hs.root_mem h1, h2, Or.inl (hs.root_parent h1)⟩
    · obtain ⟨h2, h3⟩ := hs.kid_parent hzS h1
      exact ⟨h2, hs.parent_ne h2 h3, Or.inr h3⟩
  obtain ⟨mB, zr, eB, hzrB, hzr_iff, hzrT, hRB, hsdB, hlrB, hliveB, hlenB⟩ :=
    unlinkMin_spec hRA (by
      intro w hw
      rcases List.mem_cons.mp hw with h | h
      · rw [h]; exact (hliveA z).mpr lz
      · exact (hliveA w).mpr (hs.live w (hTS w h).1))
  have hTB : Trees { g with roots := T } mB (S.erase z) :=
    hF.trees.remove_root hzR (List.nodup_cons.mp hRA.1).2 hTm
      (fun w hw _ => (hliveB w).mpr ((hliveA w).mpr (hs.live w hw)))
      (fun w => by rw [(hsdB w).2.1]; exact hpA w)
      (fun w => ⟨(hsdB w).1.trans (hdA w).1, (hsdB w).2.2.1.trans (hdA w).2.1,
        (hsdB w).2.2.2.1.trans (hdA w).2.2.1⟩)
      (fun w hw => by
        have hwT : w ∉ T := fun h => hw (List.mem_cons_of_mem _ h)
        rw [(hlrB w hwT).1, (hlrB w hwT).2]; exact hlrA w hw)
      (fun w _ => (hsdB w).2.2.2.2.trans (hdA w).2.2.2)
  have lzB : mB.live z := (hliveB z).mpr ((hliveA z).mpr lz)
  have hzS' : z ∉ S.erase z := fun h => (hs.nodup.mem_erase_iff.mp h).1 rfl
  have hsz : h.size_ = S.length := hH.size
  have hszpos : 0 < S.length := List.length_pos_of_mem hzS
  have hlen' : (S.erase z).length = S.length - 1 := List.length_erase_of_mem hzS
  have hkeyB : ∀ x, (mB.get x).key = (m.get x).key := fun x => (hsdB x).1.trans (hdA x).1
  have hfrB : ∀ x, x ∉ S → mB.get x = m.get x := by
    intro x hx
    have hxz : x ≠ z := fun e => hx (e ▸ hzS)
    have hxT : x ∉ T := fun h => hx (hTS x h).1
    have hxzT : x ∉ z :: T := by
      intro h
      rcases List.mem_cons.mp h with h | h
      · exact hxz h
      · exact hxT h
    have hxk : x ∉ g.kids z := fun h => hx (hs.kid_parent hzS h).1
    exact node_ext (hkeyB x) (by rw [(hsdB x).2.1, hpA, if_neg hxk])
      ((hsdB x).2.2.1.trans (hdA x).2.1)
      (by rw [(hlrB x hxT).2, (hlrA x hxzT).2]) (by rw [(hlrB x hxT).1, (hlrA x hxzT).1])
      ((hsdB x).2.2.2.1.trans (hdA x).2.2.1) ((hsdB x).2.2.2.2.trans (hdA x).2.2.2)
  have hexec : extractMinBody m h =
      ((if some z = some zr then Except.ok (mB, { h with min_ := none })
        else consolidate mB { h with min_ := some zr }) >>= fun p =>
          (p.1.free (some z)) >>= fun m4 =>
            .ok (m4, { p.2 with size_ := p.2.size_ - 1 }, (m.get z).key)) := by
    simp only [extractMinBody, hmin, rd_live lz, ok_bind, eA, eB, rd_live lzB, hzrB]
    by_cases hc : (some z : Option Nat) = some zr
    · simp only [hc, if_true]; rfl
    · simp only [hc, if_false]; rfl
  by_cases hT : T = []
  · left
    have hzrz : zr = z := hzr_iff.mpr hT
    refine ⟨mB.set z none, { min_ := none, size_ := h.size_ - 1 }, { g with roots := [] }, ?_,
      ?_, ?_, rfl, ?_, ?_, by simp [hlenB, hlenA], rfl, fun x hx => by cases hx⟩
    · simp only [ExtractMin, hmin, reduceCtorEq, if_false, hexec, hzrz, if_true, ok_bind,
        free_live lzB]
    · have hTB' : Trees { g with roots := [] } mB (S.erase z) := by rw [hT] at hTB; exact hTB
      exact (⟨hTB', ring_nil _, fun x hx => by cases hx⟩ : Forest _ mB _).forest_frame
        (fun x hx => by
          have hxz : x ≠ z := fun e => hzS' (e ▸ hx)
          exact ⟨get_free mB hxz, (live_free mB hxz).mpr (hTB'.shape.live x hx)⟩)
    · exact ⟨by simp only; omega, fun _ => rfl, fun r hr => by cases hr⟩
    · intro x hxz; rw [get_free mB hxz]; exact hkeyB x
    · intro x hx hl
      have hxz : x ≠ z := fun e => hx (e ▸ hzS)
      exact ⟨by rw [get_free mB hxz]; exact hfrB x hx,
        (live_free mB hxz).mpr ((hliveB x).mpr ((hliveA x).mpr hl))⟩
  · have hzrT' := hzrT hT
    have hzrz : zr ≠ z := fun e => hT (hzr_iff.mp e)
    have hne : (some z : Option Nat) ≠ some zr := fun e => hzrz (Option.some.inj e).symm
    rcases consolidate_spec (h := { h with min_ := some zr }) hTB hRB rfl hzrT' (by
        show h.size_ ≠ 0
        omega) with
      ⟨mE, hE, gE, eE, hFE, ⟨rE, hrE1, hrE2, hrE3⟩, hszE, hcfE, hlenE, hliveE, hkeyE, hfrE,
        hdist⟩ |
      ⟨eE, x, hx, hxd⟩
    · left
      have lzE : mE.live z := (hliveE z).mpr lzB
      have hfr : ∀ x, x ∈ S.erase z → Mem.get (mE.set z none) x = mE.get x ∧
          Mem.live (mE.set z none) x := by
        intro x hx
        have hxz : x ≠ z := fun e => hzS' (e ▸ hx)
        exact ⟨get_free mE hxz, (live_free mE hxz).mpr (hFE.trees.shape.live x hx)⟩
      refine ⟨mE.set z none, { hE with size_ := hE.size_ - 1 }, gE, ?_, hFE.forest_frame hfr, ?_, hcfE,
        ?_, ?_, by simp [hlenE, hlenB, hlenA], by simp [hszE], ?_⟩
      rotate_right
      · intro x hx y hy
        have hxz : x ≠ z := fun e => hzS' (e ▸ hFE.trees.shape.root_mem hx)
        have hyz : y ≠ z := fun e => hzS' (e ▸ hFE.trees.shape.root_mem hy)
        rw [get_free mE hxz, get_free mE hyz]
        exact hdist x hx y hy
      · simp only [ExtractMin, hmin, reduceCtorEq, if_false, hexec, hne, eE, ok_bind,
          free_live lzE]
      · refine Hdr.hdr_frame hFE.trees.shape ⟨?_, ?_, ?_⟩ hfr
        · show hE.size_ - 1 = (S.erase z).length
          rw [hszE]; show h.size_ - 1 = _; omega
        · intro hn; rw [hrE1] at hn; cases hn
        · intro r hr
          have : r = rE := by
            have := hrE1.symm.trans hr
            exact (Option.some.inj this).symm
          subst this
          exact ⟨hrE2, hrE3⟩
      · intro x hxz; rw [get_free mE hxz, hkeyE]; exact hkeyB x
      · intro x hx hl
        have hxz : x ≠ z := fun e => hx (e ▸ hzS)
        have hx' : x ∉ S.erase z := fun h => hx (List.mem_of_mem_erase h)
        exact ⟨by rw [get_free mE hxz, hfrE x hx']; exact hfrB x hx,
          (live_free mE hxz).mpr ((hliveE x).mpr ((hliveB x).mpr ((hliveA x).mpr hl)))⟩
    · right
      refine ⟨?_, x, (hTS x hx).1, (hTS x hx).2.1, (hTS x hx).2.2, ?_⟩
      · simp only [ExtractMin, hmin, reduceCtorEq, if_false, hexec, hne, eE]
        rfl
      · rw [(hsdB x).2.2.2.1, (hdA x).2.2.1] at hxd
        exact hxd

/-- Specification of `ExtractMin` on a heap whose minimum is `z`: either `z` is removed and the invariant holds
for the remaining nodes, or `consolidate` accesses its table out of range. -/
theorem ExtractMin_spec {g : Ghost} {m : Mem} {h : FHeap} {S : List Nat} {z : Nat}
    (hF : Forest g m S) (hH : Hdr g m h S) (hmin : h.min_ = some z) :
    (∃ m' h' g', ExtractMin m h = .ok (m', h') (m.get z).key ∧ Forest g' m' (S.erase z) ∧
      Hdr g' m' h' (S.erase z) ∧ g'.cutFree = g.cutFree ∧
      (∀ x, x ≠ z → (m'.get x).key = (m.get x).key) ∧
      (∀ x, x ∉ S → m.live x → m'.get x = m.get x ∧ m'.live x) ∧
      m'.length = m.length ∧ h'.size_ = h.size_ - 1) ∨
    (ExtractMin m h = .fault .outOfRange ∧
      ∃ x, x ∈ S ∧ x ≠ z ∧ ((m.get x).parent = none ∨ (m.get x).parent = some z) ∧
        ((Nat.log2 h.size_ + 2 : Nat) : Int) ≤ (m.get x).degree) := by
  rcases ExtractMin_full hF hH hmin with ⟨m', h', g', h1, h2, h3, h4, h5, h6, h7, h8, -⟩ | h
  · exact Or.inl ⟨m', h', g', h1, h2, h3, h4, h5, h6, h7, h8⟩
  · exact Or.inr h

/-- A property closed under `right` that holds at one node of a ring holds on the ring. -/
theorem ring_reach {m : Mem} {l : List Nat} (hR : Ring m l) (P : Nat → Prop)
    (hP : ∀ x y, P x → (m.get x).right = some y → P y) {a : Nat} (ha : a ∈ l) (hPa : P a) :
    ∀ b, b ∈ l → P b := by
  obtain ⟨t, hrot⟩ := rotate_to_head ha
  have hR' : Ring m (a :: t) := hR.rotated hrot
  have key : ∀ (post pre : List Nat) (x : Nat), a :: t = pre ++ x :: post → P x →
      ∀ y, y ∈ post → P y := by
    intro post
    induction post with
    | nil => intro _ _ _ _ y hy; cases hy
    | cons p ps ih =>
      intro pre x hl hx y hy
      have hxm : x ∈ a :: t := by rw [hl]; simp
      have hw := (csucc_walk hR'.1 hl (by rfl : (a :: t).head? = some a)).2 p ps rfl
      have hPp : P p := hP x p hx (by rw [hR'.right hxm, hw.1])
      rcases List.mem_cons.mp hy with h | h
      · rw [h]; exact hPp
      · exact ih (pre ++ [x]) p (by rw [hl]; simp) hPp y h
  intro b hb
  have hb' : b ∈ a :: t := hrot.mem_iff.mp hb
  rcases List.mem_cons.mp hb' with h | h
  · rw [h]; exact hPa
  · exact key t [] a rfl hPa b h

/-- Under the invariant the nodes reached through pointers are the nodes owned. -/
theorem inForest_mem {g : Ghost} {m : Mem} {h : FHeap} {S : List Nat} (hF : Forest g m S)
    (hH : Hdr g m h S) {x : Nat} (hx : InForest m h x) : x ∈ S := by
  have hs := hF.trees.shape
  induction hx with
  | min hr => exact hs.root_mem (hH.min_some _ hr).1
  | @right x y _ hxy ih =>
    cases hp : (m.get x).parent with
    | none =>
      have hxr : x ∈ g.roots := (hs.roots_iff x).mpr ⟨ih, hp⟩
      have := hF.ring.right hxr
      rw [hxy] at this
      rw [Option.some.inj this]
      exact hs.root_mem (csucc_mem hxr)
    | some p =>
      have hpS := hs.parent_mem x ih p hp
      have hxk : x ∈ g.kids p := (hs.kids_iff p hpS x).mpr ⟨ih, hp⟩
      have := (hs.kids_ring p hpS).right hxk
      rw [hxy] at this
      rw [Option.some.inj this]
      exact (hs.kid_parent hpS (csucc_mem hxk)).1
  | @child x y _ hxy ih => exact (hs.kid_parent ih (hs.child_some x ih y hxy)).1

theorem mem_inForest {g : Ghost} {m : Mem} {h : FHeap} {S : List Nat} (hF : Forest g m S)
    (hH : Hdr g m h S) : ∀ n x, x ∈ S → g.bound - g.rk x ≤ n → InForest m h x := by
  have hs := hF.trees.shape
  have hroot : ∀ x, x ∈ g.roots → InForest m h x := by
    intro x hx
    cases hm : h.min_ with
    | none => rw [hH.min_none hm] at hx; cases hx
    | some r =>
      exact ring_reach hF.ring (InForest m h) (fun _ _ h1 h2 => InForest.right h1 h2)
        (hH.min_some r hm).1 (InForest.min hm) x hx
  intro n
  induction n using Nat.strong_induction_on with
  | _ n ih =>
    intro x hx hn
    cases hp : (m.get x).parent with
    | none => exact hroot x ((hs.roots_iff x).mpr ⟨hx, hp⟩)
    | some p =>
      have hpS := hs.parent_mem x hx p hp
      have h1 := hs.rk_lt x hx p hp
      have h2 := hs.rk_le p hpS
      have hpF : InForest m h p := ih (g.bound - g.rk p) (by omega) p hpS (le_refl _)
      have hxk : x ∈ g.kids p := (hs.kids_iff p hpS x).mpr ⟨hx, hp⟩
      cases hc : (m.get p).child with
      | none => rw [hs.child_none p hpS hc] at hxk; cases hxk
      | some c =>
        exact ring_reach (hs.kids_ring p hpS) (InForest m h)
          (fun _ _ h1 h2 => InForest.right h1 h2) (hs.child_some p hpS c hc)
          (InForest.child hpF hc) x hxk

theorem Inv.owns {g : Ghost} {m : Mem} {h : FHeap} {S : List Nat} (hF : Forest g m S)
    (hH : Hdr g m h S) : Owns m h S :=
  ⟨hF.trees.shape.nodup, fun x =>
    ⟨fun hx => mem_inForest hF hH _ x hx (le_refl _), fun hx => inForest_mem hF hH hx⟩⟩

/-- Two enumerations of the forest hold the same keys. -/
theorem Owns.perm {m : Mem} {h : FHeap} {S T : List Nat} (hS : Owns m h S) (hT : Owns m h T) :
    S.Perm T :=
  (List.perm_ext_iff_of_nodup hS.1 hT.1).mpr (fun x => (hS.2 x).trans (hT.2 x).symm)

theorem le_sum_map {l : List Nat} {f : Nat → Nat} {x : Nat} (hx : x ∈ l) :
    f x ≤ (l.map f).sum := by
  induction l with
  | nil => cases hx
  | cons a l ih =>
    rcases List.mem_cons.mp hx with h | h
    · rw [h]; simp
    · have := ih h
      simp only [List.map_cons, List.sum_cons]
      omega

/-- In a forest of binomial trees a root, or a child of a root, with `d` children
satisfies `2 ^ d ≤ n`. -/
theorem Binom.pow_le {g : Ghost} {m : Mem} {S : List Nat} (hs : Shape g m S) (hb : Binom g S)
    {x z : Nat} (hx : x ∈ S) (hz : z ∈ g.roots)
    (hp : (m.get x).parent = none ∨ (m.get x).parent = some z) :
    2 ^ (g.kids x).length ≤ S.length := by
  rcases hp with hp | hp
  · have hxr : x ∈ g.roots := (hs.roots_iff x).mpr ⟨hx, hp⟩
    rw [← hb.2]
    exact le_sum_map (f := fun r => 2 ^ (g.kids r).length) hxr
  · have hzS := hs.root_mem hz
    have hxk : x ∈ g.kids z := (hs.kids_iff z hzS x).mpr ⟨hx, hp⟩
    have h1 := le_sum_map (f := fun c => 2 ^ (g.kids c).length) hxk
    have h2 := hb.1 z hzS
    have h3 := le_sum_map (f := fun r => 2 ^ (g.kids r).length) hz
    rw [hb.2] at h3
    dsimp only at h1 h3
    omega

/-- On a forest of binomial trees `ExtractMin` stays inside the degree table. -/
theorem ExtractMin_binom {g : Ghost} {m : Mem} {h : FHeap} {S : List Nat} {z : Nat}
    (hF : Forest g m S) (hH : Hdr g m h S) (hmin : h.min_ = some z) (hc : g.cutFree = true) :
    ∃ m' h' g', ExtractMin m h = .ok (m', h') (m.get z).key ∧ Forest g' m' (S.erase z) ∧
      Hdr g' m' h' (S.erase z) ∧ g'.cutFree = true ∧
      (∀ x, x ≠ z → (m'.get x).key = (m.get x).key) := by
  rcases ExtractMin_spec hF hH hmin with ⟨m', h', g', e, hF', hH', hc', hk, -⟩ | ⟨-, x, hx, -, hp, hd⟩
  · exact ⟨m', h', g', e, hF', hH', hc'.trans hc, hk⟩
  · exfalso
    have hs := hF.trees.shape
    have hpow := (hF.trees.binom hc).pow_le hs hx (hH.min_some z hmin).1 hp
    rw [hs.degree x hx] at hd
    have hd' : Nat.log2 h.size_ + 2 ≤ (g.kids x).length := by exact_mod_cast hd
    have hne : h.size_ ≠ 0 := by
      rw [hH.size]; exact List.length_pos.mp (List.length_pos_of_mem hx) |> fun h => by
        intro h0; exact h (List.length_eq_zero.mp h0)
    have := (Nat.le_log2 hne).mpr (hH.size ▸ hpow)
    omega

/-- A forest without roots has no nodes. -/
theorem Shape.nil_of_roots {g : Ghost} {m : Mem} {S : List Nat} (hs : Shape g m S)
    (ho : Ordered m S) (hr : g.roots = []) : S = [] := by
  apply List.eq_nil_iff_forall_not_mem.mpr
  intro x hx
  obtain ⟨z, hz, -⟩ := hs.dominated ho _ x hx (le_refl _)
  rw [hr] at hz; cases hz

/-- The field `size_` is zero exactly when `min_` is null. -/
theorem Hdr.size_zero_iff {g : Ghost} {m : Mem} {h : FHeap} {S : List Nat} (hF : Forest g m S)
    (hH : Hdr g m h S) : h.size_ = 0 ↔ h.min_ = none := by
  constructor
  · intro h0
    cases hm : h.min_ with
    | none => rfl
    | some r =>
      have := hF.trees.shape.root_mem (hH.min_some r hm).1
      have := List.length_pos_of_mem this
      have := hH.size
      omega
  · intro hm
    rw [hH.size, hF.trees.shape.nil_of_roots hF.trees.order (hH.min_none hm)]
    rfl

/-- The ghost description of the union of two forests. -/
theorem Shape.shape_union {gA gB : Ghost} {m : Mem} {SA SB : List Nat} {roots' : List Nat}
    (hA : Shape gA m SA) (hB : Shape gB m SB) (hd : ∀ x, x ∈ SA → x ∉ SB)
    (hn : roots'.Nodup) (hi : ∀ x, x ∈ roots' ↔ x ∈ gA.roots ∨ x ∈ gB.roots) :
    Shape { roots := roots', kids := fun x => if x ∈ SA then gA.kids x else gB.kids x,
            rk := fun x => if x ∈ SA then gA.rk x else gB.rk x,
            bound := max gA.bound gB.bound, cutFree := false } m (SA ++ SB) where
  nodup := List.nodup_append.mpr ⟨hA.nodup, hB.nodup, fun x h1 h2 => hd x h1 h2⟩
  live x hx := by
    rcases List.mem_append.mp hx with h | h
    · exact hA.live x h
    · exact hB.live x h
  roots_nodup := hn
  roots_iff x := by
    show x ∈ roots' ↔ _
    rw [hi, hA.roots_iff, hB.roots_iff, List.mem_append]
    tauto
  kids_ring x hx := by
    show Ring m (if x ∈ SA then gA.kids x else gB.kids x)
    by_cases hxA : x ∈ SA
    · rw [if_pos hxA]; exact hA.kids_ring x hxA
    · rw [if_neg hxA]
      exact hB.kids_ring x ((List.mem_append.mp hx).resolve_left hxA)
  kids_iff x hx c := by
    show c ∈ (if x ∈ SA then gA.kids x else gB.kids x) ↔ _
    by_cases hxA : x ∈ SA
    · rw [if_pos hxA, hA.kids_iff x hxA, List.mem_append]
      constructor
      · exact fun h => ⟨Or.inl h.1, h.2⟩
      · rintro ⟨h1 | h1, h2⟩
        · exact ⟨h1, h2⟩
        · exact absurd (hB.parent_mem c h1 x h2) (hd x hxA)
    · have hxB := (List.mem_append.mp hx).resolve_left hxA
      rw [if_neg hxA, hB.kids_iff x hxB, List.mem_append]
      constructor
      · exact fun h => ⟨Or.inr h.1, h.2⟩
      · rintro ⟨h1 | h1, h2⟩
        · exact absurd (hA.parent_mem c h1 x h2) hxA
        · exact ⟨h1, h2⟩
  parent_mem c hc p hp := by
    rcases List.mem_append.mp hc with h | h
    · exact List.mem_append.mpr (Or.inl (hA.parent_mem c h p hp))
    · exact List.mem_append.mpr (Or.inr (hB.parent_mem c h p hp))
  child_none x hx hc := by
    show (if x ∈ SA then gA.kids x else gB.kids x) = []
    by_cases hxA : x ∈ SA
    · rw [if_pos hxA]; exact hA.child_none x hxA hc
    · rw [if_neg hxA]
      exact hB.child_none x ((List.mem_append.mp hx).resolve_left hxA) hc
  child_some x hx c hc := by
    show c ∈ (if x ∈ SA then gA.kids x else gB.kids x)
    by_cases hxA : x ∈ SA
    · rw [if_pos hxA]; exact hA.child_some x hxA c hc
    · rw [if_neg hxA]
      exact hB.child_some x ((List.mem_append.mp hx).resolve_left hxA) c hc
  degree x hx := by
    show _ = (((if x ∈ SA then gA.kids x else gB.kids x).length : Nat) : Int)
    by_cases hxA : x ∈ SA
    · rw [if_pos hxA]; exact hA.degree x hxA
    · rw [if_neg hxA]
      exact hB.degree x ((List.mem_append.mp hx).resolve_left hxA)
  rk_lt c hc p hp := by
    show (if c ∈ SA then gA.rk c else gB.rk c) < (if p ∈ SA then gA.rk p else gB.rk p)
    by_cases hcA : c ∈ SA
    · rw [if_pos hcA, if_pos (hA.parent_mem c hcA p hp)]; exact hA.rk_lt c hcA p hp
    · have hcB := (List.mem_append.mp hc).resolve_left hcA
      have hpB := hB.parent_mem c hcB p hp
      rw [if_neg hcA, if_neg (fun h => hd p h hpB)]
      exact hB.rk_lt c hcB p hp
  rk_le x hx := by
    show (if x ∈ SA then gA.rk x else gB.rk x) ≤ max gA.bound gB.bound
    by_cases hxA : x ∈ SA
    · rw [if_pos hxA]; exact le_trans (hA.rk_le x hxA) (le_max_left _ _)
    · rw [if_neg hxA]
      exact le_trans (hB.rk_le x ((List.mem_append.mp hx).resolve_left hxA)) (le_max_right _ _)

theorem Ordered.order_union {m : Mem} {SA SB : List Nat} (hA : Ordered m SA) (hB : Ordered m SB) :
    Ordered m (SA ++ SB) := by
  intro c hc p hp
  rcases List.mem_append.mp hc with h | h
  · exact hA c h p hp
  · exact hB c h p hp

/-- Specification of `Merge` of two heaps that own different nodes: the receiver owns the nodes of both. -/
theorem Merge_spec {gA gB : Ghost} {m : Mem} {hA hB : FHeap} {SA SB : List Nat}
    (FA : Forest gA m SA) (HA : Hdr gA m hA SA) (FB : Forest gB m SB) (HB : Hdr gB m hB SB)
    (hd : ∀ x, x ∈ SA → x ∉ SB) :
    ∃ m' hA' g', Merge m hA hB = .ok (m', hA', FHeap.empty) () ∧
      Forest g' m' (SA ++ SB) ∧ Hdr g' m' hA' (SA ++ SB) ∧
      (∀ x, sameData (m.get x) (m'.get x)) ∧
      (∀ x, x ∉ SA → x ∉ SB → m'.get x = m.get x) ∧
      (∀ x, m'.live x ↔ m.live x) ∧ m'.length = m.length ∧
      hA'.size_ = hA.size_ + hB.size_ ∧
      (hB.min_ = none → m' = m ∧ hA' = hA) ∧
      (hA.min_ = none → hA'.min_ = hB.min_) ∧
      (∀ a b, hA.min_ = some a → hB.min_ = some b →
        ∃ r, hA'.min_ = some r ∧ (m'.get r).key = min (m.get a).key (m.get b).key) := by
  have sA := FA.trees.shape
  have sB := FB.trees.shape
  cases hb : hB.min_ with
  | none =>
    have hSB : SB = [] := sB.nil_of_roots FB.trees.order (HB.min_none hb)
    have hBe : hB = FHeap.empty := by
      have h0 : hB.size_ = 0 := (HB.size_zero_iff FB).mpr hb
      cases hB
      simp only [FHeap.empty] at *
      simp [hb, h0]
    subst hSB
    refine ⟨m, hA, gA, ?_, by rw [List.append_nil]; exact FA, by rw [List.append_nil]; exact HA,
      fun x => sameData_refl _, fun _ _ _ => rfl, fun _ => Iff.rfl, rfl, ?_, fun _ => ⟨rfl, rfl⟩,
      ?_, ?_⟩
    · simp only [Merge, hBe, FHeap.empty, if_true]
    · rw [hBe]; rfl
    · intro ha
      rw [ha]
    · intro a b _ h
      cases h
  | some b =>
    obtain ⟨hbR, hbmin⟩ := HB.min_some b hb
    cases ha : hA.min_ with
    | none =>
      have hSA : SA = [] := sA.nil_of_roots FA.trees.order (HA.min_none ha)
      have h0 : hA.size_ = 0 := (HA.size_zero_iff FA).mpr ha
      subst hSA
      refine ⟨m, { min_ := hB.min_, size_ := hB.size_ }, gB, ?_, FB, ⟨HB.size, ?_, ?_⟩,
        fun x => sameData_refl _, fun _ _ _ => rfl, fun _ => Iff.rfl, rfl, by simp [h0],
        (fun h => by cases h), (fun _ => hb), (fun a _ h => by cases h)⟩
      · simp only [Merge, hb, ha, reduceCtorEq, if_false, if_true, FHeap.empty]
      · intro h; exact HB.min_none h
      · intro r hr; exact HB.min_some r hr
    | some a =>
      obtain ⟨haR, hamin⟩ := HA.min_some a ha
      obtain ⟨tA, rotA⟩ := rotate_to_head haR
      obtain ⟨tB, rotB⟩ := rotate_to_head hbR
      have RA : Ring m (a :: tA) := FA.ring.rotated rotA
      have RB : Ring m (b :: tB) := FB.ring.rotated rotB
      have mA : ∀ x, x ∈ a :: tA → x ∈ SA := fun x hx => sA.root_mem (rotA.mem_iff.mpr hx)
      have mB : ∀ x, x ∈ b :: tB → x ∈ SB := fun x hx => sB.root_mem (rotB.mem_iff.mpr hx)
      obtain ⟨m', e, hlen, hlive, hR', hfr, hsd⟩ := splice_spec RA RB
        (fun x hx hx2 => hd x (mA x hx) (mB x hx2))
        (fun x hx => sA.live x (mA x hx)) (fun x hx => sB.live x (mB x hx))
      have la : m'.live a := (hlive a).mpr (sA.live a (sA.root_mem haR))
      have lb : m'.live b := (hlive b).mpr (sB.live b (sB.root_mem hbR))
      have sA' : Shape gA m' SA := sA.shape_congr (fun x hx => (hlive x).mpr (sA.live x hx))
        (fun x _ => hsd x) (fun x hx hp => hfr x
          (fun h => hp (sA.root_parent (rotA.mem_iff.mpr h)))
          (fun h => hd x hx (mB x h)))
      have sB' : Shape gB m' SB := sB.shape_congr (fun x hx => (hlive x).mpr (sB.live x hx))
        (fun x _ => hsd x) (fun x hx hp => hfr x
          (fun h => hd x (mA x h) hx)
          (fun h => hp (sB.root_parent (rotB.mem_iff.mpr h))))
      have hkey : ∀ x, (m'.get x).key = (m.get x).key := fun x => (hsd x).1
      have hmin' : ∀ r, (∀ x, x ∈ a :: tA ++ b :: tB → (m.get r).key ≤ (m.get x).key) →
          ∀ x, x ∈ a :: tA ++ b :: tB → (m'.get r).key ≤ (m'.get x).key := by
        intro r h x hx; rw [hkey, hkey]; exact h x hx
      have hall : ∀ x, x ∈ a :: tA ++ b :: tB → x ∈ gA.roots ∨ x ∈ gB.roots := by
        intro x hx
        rcases List.mem_append.mp hx with h | h
        · exact Or.inl (rotA.mem_iff.mpr h)
        · exact Or.inr (rotB.mem_iff.mpr h)
      refine ⟨m', (if (m.get b).key < (m.get a).key then
          { min_ := some b, size_ := hA.size_ + hB.size_ }
          else { min_ := some a, size_ := hA.size_ + hB.size_ }),
        { roots := a :: tA ++ b :: tB, kids := fun x => if x ∈ SA then gA.kids x else gB.kids x,
          rk := fun x => if x ∈ SA then gA.rk x else gB.rk x,
          bound := max gA.bound gB.bound, cutFree := false }, ?_, ⟨⟨?_, ?_, ?_, ?_⟩, hR', ?_⟩,
        ⟨?_, ?_, ?_⟩, hsd, (fun x h1 h2 => hfr x (fun h => h1 (mA x h)) (fun h => h2 (mB x h))),
        hlive, hlen, ?_, (fun h => by cases h), (fun h => by cases h), ?_⟩
      · simp only [Merge, hb, ha, reduceCtorEq, if_false, e, ok_bind, rd_live la, rd_live lb,
          hkey]
        by_cases hlt : (m.get b).key < (m.get a).key
        · simp only [hlt, if_true]; rfl
        · simp only [hlt, if_false]
          have : hA = { min_ := some a, size_ := hA.size_ } := by
            cases hA; simp at ha; simp [ha]
          rw [this]; rfl
      · exact sA'.shape_union sB' hd hR'.1 (fun x => by
          rw [List.mem_append, rotA.mem_iff, rotB.mem_iff])
      · exact Ordered.order_union (Ordered.order_congr sA FA.trees.order (fun x _ => hsd x))
          (Ordered.order_congr sB FB.trees.order (fun x _ => hsd x))
      · intro h; cases h
      · exact Thin.thin_union
          (FA.trees.thin.thin_congr (fun c _ => (hsd c).2.1)
            (fun c _ _ => ⟨(hsd c).2.2.2.1, (hsd c).2.2.2.2⟩))
          (FB.trees.thin.thin_congr (fun c _ => (hsd c).2.1)
            (fun c _ _ => ⟨(hsd c).2.2.2.1, (hsd c).2.2.2.2⟩))
          sA'.parent_mem sB'.parent_mem hd
      · intro x hx
        rw [(hsd x).2.2.2.2]
        rcases hall x hx with h | h
        · exact FA.unmarked x h
        · exact FB.unmarked x h
      · show (if (m.get b).key < (m.get a).key then _ else _ : FHeap).size_ = _
        rw [List.length_append, ← HA.size, ← HB.size]
        split <;> rfl
      · intro h
        split at h <;> cases h
      · intro r hr
        have hle : ∀ x, x ∈ a :: tA ++ b :: tB →
            (min (m.get a).key (m.get b).key) ≤ (m.get x).key := by
          intro x hx
          rcases hall x hx with h | h
          · exact le_trans (min_le_left _ _) (hamin x h)
          · exact le_trans (min_le_right _ _) (hbmin x h)
        by_cases hlt : (m.get b).key < (m.get a).key
        · rw [if_pos hlt] at hr
          have : r = b := (Option.some.inj hr).symm
          subst this
          refine ⟨by simp, hmin' _ (fun x hx => ?_)⟩
          have := hle x hx
          rw [min_eq_right (le_of_lt hlt)] at this
          exact this
        · rw [if_neg hlt] at hr
          have : r = a := (Option.some.inj hr).symm
          subst this
          refine ⟨by simp, hmin' _ (fun x hx => ?_)⟩
          have := hle x hx
          rw [min_eq_left (not_lt.mp hlt)] at this
          exact this
      · split <;> rfl
      · intro a' b' h1 h2
        have e1 : a' = a := (Option.some.inj h1).symm
        have e2 : b' = b := (Option.some.inj h2).symm
        subst e1 e2
        by_cases hlt : (m.get b').key < (m.get a').key
        · exact ⟨b', by rw [if_pos hlt], by rw [hkey, min_eq_right (le_of_lt hlt)]⟩
        · exact ⟨a', by rw [if_neg hlt], by rw [hkey, min_eq_left (not_lt.mp hlt)]⟩

theorem keysOf_cons (m : Mem) (x : Nat) (S : List Nat) :
    keysOf m (x :: S) = (m.get x).key ::ₘ keysOf m S := rfl

theorem keysOf_perm (m : Mem) {S T : List Nat} (h : S.Perm T) : keysOf m S = keysOf m T :=
  Quot.sound (h.map _)

theorem keysOf_congr {m m' : Mem} {S : List Nat}
    (h : ∀ x, x ∈ S → (m'.get x).key = (m.get x).key) : keysOf m' S = keysOf m S := by
  unfold keysOf
  rw [List.map_congr_left h]

theorem keysOf_append (m : Mem) (S T : List Nat) : keysOf m (S ++ T) = keysOf m S + keysOf m T := by
  unfold keysOf
  rw [List.map_append]; rfl

/-- Removing a node removes one occurrence of its key. -/
theorem keysOf_remove {m m' : Mem} {S : List Nat} {z : Nat} (hn : S.Nodup) (hz : z ∈ S)
    (h : ∀ y, y ≠ z → (m'.get y).key = (m.get y).key) :
    keysOf m' (S.erase z) = (keysOf m S).erase (m.get z).key := by
  rw [keysOf_perm m (List.perm_cons_erase hz), keysOf_cons, Multiset.erase_cons_head]
  exact keysOf_congr (fun y hy => h y (fun e => (hn.mem_erase_iff.mp (e ▸ hy)).1 rfl))

/-- Changing the key of one node replaces one occurrence of its key. -/
theorem keysOf_update {m m' : Mem} {S : List Nat} {x : Nat} (hn : S.Nodup) (hx : x ∈ S)
    (h : ∀ y, y ≠ x → (m'.get y).key = (m.get y).key) :
    keysOf m' S = (m'.get x).key ::ₘ (keysOf m S).erase (m.get x).key := by
  rw [← keysOf_remove hn hx h, ← keysOf_cons, keysOf_perm m' (List.perm_cons_erase hx)]

theorem mem_keysOf {m : Mem} {S : List Nat} {k : Int} :
    k ∈ keysOf m S ↔ ∃ x, x ∈ S ∧ (m.get x).key = k := by
  unfold keysOf
  simp

/-- The key of `min_` is the least key of the heap. -/
theorem Hdr.min_le {g : Ghost} {m : Mem} {h : FHeap} {S : List Nat} (hF : Forest g m S)
    (hH : Hdr g m h S) {r : Nat} (hr : h.min_ = some r) :
    ∀ y, y ∈ S → (m.get r).key ≤ (m.get y).key := by
  intro y hy
  obtain ⟨z, hz, hzk, -⟩ := hF.trees.shape.dominated hF.trees.order _ y hy (le_refl _)
  exact le_trans ((hH.min_some r hr).2 z hz) hzk

/-- A heap with a node has a minimum. -/
theorem Hdr.min_of_mem {g : Ghost} {m : Mem} {h : FHeap} {S : List Nat} (hF : Forest g m S)
    (hH : Hdr g m h S) {x : Nat} (hx : x ∈ S) : ∃ r, h.min_ = some r ∧ r ∈ S := by
  cases hm : h.min_ with
  | none =>
    rw [hF.trees.shape.nil_of_roots hF.trees.order (hH.min_none hm)] at hx
    cases hx
  | some r => exact ⟨r, rfl, hF.trees.shape.root_mem (hH.min_some r hm).1⟩

/-- Specification of `Erase` on a node of the heap: a node `z` with key `INT_MIN` after the `DecreaseKey`
step is removed, or `consolidate` accesses its table out of range. -/
theorem Erase_spec {g : Ghost} {m : Mem} {h : FHeap} {S : List Nat} {x : Nat}
    (hF : Forest g m S) (hH : Hdr g m h S) (hx : x ∈ S)
    (hk : ∀ y, y ∈ S → INT_MIN ≤ (m.get y).key) :
    (∃ m' h' g' z, Erase m h ⟨some x⟩ = .ok (m', h') () ∧ z ∈ S ∧
      Forest g' m' (S.erase z) ∧ Hdr g' m' h' (S.erase z) ∧
      keysOf m' (S.erase z) = (keysOf m S).erase (m.get x).key ∧
      (∀ y, y ≠ x → y ≠ z → (m'.get y).key = (m.get y).key) ∧
      (z ≠ x → (m'.get x).key = INT_MIN ∧ (m.get z).key = INT_MIN) ∧
      (∀ y, y ∉ S → m.live y → m'.get y = m.get y ∧ m'.live y) ∧
      m'.length = m.length ∧ h'.size_ = h.size_ - 1) ∨
    Erase m h ⟨some x⟩ = .fault .outOfRange := by
  have hs := hF.trees.shape
  obtain ⟨m1, h1, g1, e1, hF1, hH1, hkx, hko, hsz1, hlen1, hlive1, hfr1⟩ :=
    DecreaseKey_spec hF hH hx (hk x hx)
  obtain ⟨z, hz, hzS⟩ := hH1.min_of_mem hF1 hx
  have hzk : (m1.get z).key = INT_MIN := by
    have h1' := hH1.min_le hF1 hz x hx
    rw [hkx] at h1'
    have h2 : INT_MIN ≤ (m1.get z).key := by
      by_cases hzx : z = x
      · rw [hzx, hkx]
      · rw [hko z hzx]; exact hk z hzS
    omega
  rcases ExtractMin_spec hF1 hH1 hz with ⟨m', h', g', e2, hF', hH', -, hk', hfr', hlen', hsz'⟩ | ⟨e2, -⟩
  · left
    refine ⟨m', h', g', z, ?_, hzS, hF', hH', ?_, ?_, ?_, ?_, by rw [hlen', hlen1],
      by rw [hsz', hsz1]⟩
    · simp only [Erase, e1, e2]
    · rw [keysOf_remove hs.nodup hzS hk', hzk, keysOf_update hs.nodup hx hko, hkx,
        Multiset.erase_cons_head]
    · intro y hyx hyz
      rw [hk' y hyz, hko y hyx]
    · intro hzx
      exact ⟨by rw [hk' x (fun e => hzx e.symm), hkx], by rw [← hko z hzx, hzk]⟩
    · intro y hy hl
      have := hfr' y hy ((hlive1 y).mpr hl)
      exact ⟨by rw [this.1, hfr1 y hy], this.2⟩
  · right
    simp only [Erase, e1, e2]

/-- The empty heap owns no node; its forest is trivially a forest of binomial trees. -/
theorem Forest.empty_forest (m : Mem) :
    ∃ g, Forest g m [] ∧ Hdr g m FHeap.empty [] ∧ g.cutFree = true := by
  refine ⟨{ roots := [], kids := fun _ => [], rk := fun _ => 0, bound := 0, cutFree := true },
    ⟨⟨?_, ?_, ?_, Thin.thin_nil m⟩, ring_nil _, ?_⟩, ⟨rfl, fun _ => rfl, ?_⟩, rfl⟩
  · exact { nodup := List.nodup_nil, live := fun x hx => absurd hx (List.not_mem_nil _),
            roots_nodup := List.nodup_nil,
            roots_iff := fun x => ⟨fun hx => absurd hx (List.not_mem_nil _), fun hx => hx.1⟩,
            kids_ring := fun x hx => absurd hx (List.not_mem_nil _),
            kids_iff := fun x hx => absurd hx (List.not_mem_nil _),
            parent_mem := fun x hx => absurd hx (List.not_mem_nil _),
            child_none := fun x hx => absurd hx (List.not_mem_nil _),
            child_some := fun x hx => absurd hx (List.not_mem_nil _),
            degree := fun x hx => absurd hx (List.not_mem_nil _),
            rk_lt := fun x hx => absurd hx (List.not_mem_nil _),
            rk_le := fun x hx => absurd hx (List.not_mem_nil _) }
  · intro c hc; cases hc
  · intro _; exact ⟨fun x hx => absurd hx (List.not_mem_nil _), rfl⟩
  · intro x hx; cases hx
  · intro r hr; cases hr

theorem Inv.empty_inv (m : Mem) : Inv m FHeap.empty [] := by
  obtain ⟨g, hF, hH, -⟩ := Forest.empty_forest m
  exact ⟨g, hF, hH⟩

theorem Inv.live {m : Mem} {h : FHeap} {S : List Nat} (hI : Inv m h S) :
    ∀ x, x ∈ S → m.live x := by
  obtain ⟨g, hF, -⟩ := hI
  exact hF.trees.shape.live

theorem Inv.inv_frame {m m' : Mem} {h : FHeap} {S : List Nat} (hI : Inv m h S)
    (hf : ∀ x, x ∈ S → m'.get x = m.get x ∧ m'.live x) : Inv m' h S := by
  obtain ⟨g, hF, hH⟩ := hI
  exact ⟨g, hF.forest_frame hf, hH.hdr_frame hF.trees.shape hf⟩

/-- Replace heap `i` by a heap that owns `S'`, when the nodes of the other heaps are
untouched and not in `S'`. -/
theorem WInv.set {w : World} {own : Nat → List Nat} (hW : WInv w own) {i : Nat} {h h' : FHeap}
    {m' : Mem} {S' : List Nat} (hi : w.heaps[i]? = some h) (hinv : Inv m' h' S')
    (hkeys : ∀ x, x ∈ S' → isInt (m'.get x).key)
    (hfr : ∀ k hk, k ≠ i → w.heaps[k]? = some hk → ∀ y, y ∈ own k →
      m'.get y = w.mem.get y ∧ m'.live y ∧ y ∉ S') :
    WInv { mem := m', heaps := w.heaps.set i h' } (Function.update own i S') := by
  have hget : ∀ k hk, (w.heaps.set i h')[k]? = some hk →
      (k = i ∧ hk = h') ∨ (k ≠ i ∧ w.heaps[k]? = some hk) := by
    intro k hk hk'
    rw [List.getElem?_set] at hk'
    by_cases hki : i = k
    · rw [if_pos hki] at hk'
      split at hk'
      · exact Or.inl ⟨hki.symm, (Option.some.inj hk').symm⟩
      · cases hk'
    · rw [if_neg hki] at hk'
      exact Or.inr ⟨fun e => hki e.symm, hk'⟩
  refine ⟨?_, ?_, ?_⟩
  · intro k hk hk'
    rcases hget k hk hk' with ⟨rfl, rfl⟩ | ⟨hne, hk''⟩
    · simpa using hinv
    · rw [Function.update_noteq hne]
      exact (hW.inv k hk hk'').inv_frame (fun y hy => ⟨(hfr k hk hne hk'' y hy).1, (hfr k hk hne hk'' y hy).2.1⟩)
  · intro k hk hk' x hx
    rcases hget k hk hk' with ⟨rfl, rfl⟩ | ⟨hne, hk''⟩
    · rw [Function.update_same] at hx
      exact hkeys x hx
    · rw [Function.update_noteq hne] at hx
      show isInt (m'.get x).key
      rw [(hfr k hk hne hk'' x hx).1]
      exact hW.keys k hk hk'' x hx
  · intro a b ha hb hab ha' hb' x hx hx2
    rcases hget a ha ha' with ⟨rfl, rfl⟩ | ⟨hna, ha''⟩
    · rcases hget b hb hb' with ⟨rfl, -⟩ | ⟨hnb, hb''⟩
      · exact hab rfl
      · rw [Function.update_same] at hx
        rw [Function.update_noteq hnb] at hx2
        exact (hfr b hb hnb hb'' x hx2).2.2 hx
    · rcases hget b hb hb' with ⟨rfl, -⟩ | ⟨hnb, hb''⟩
      · rw [Function.update_same] at hx2
        rw [Function.update_noteq hna] at hx
        exact (hfr a ha hna ha'' x hx).2.2 hx2
      · rw [Function.update_noteq hna] at hx
        rw [Function.update_noteq hnb] at hx2
        exact hW.disj a b ha hb hab ha'' hb'' x hx hx2

/-- The frame condition of `WInv.set` for an operation that touches only the nodes of heap
`i` and whose new nodes were not allocated before. -/
theorem WInv.frame_of {w : World} {own : Nat → List Nat} (hW : WInv w own) {i : Nat}
    {h : FHeap} {m' : Mem} {S' : List Nat} (hi : w.heaps[i]? = some h)
    (hfr : ∀ y, y ∉ own i → w.mem.live y → m'.get y = w.mem.get y ∧ m'.live y)
    (hnew : ∀ y, y ∈ S' → y ∈ own i ∨ ¬ w.mem.live y) :
    ∀ k hk, k ≠ i → w.heaps[k]? = some hk → ∀ y, y ∈ own k →
      m'.get y = w.mem.get y ∧ m'.live y ∧ y ∉ S' := by
  intro k hk hne hk' y hy
  have hyi : y ∉ own i := hW.disj k i hk h hne hk' hi y hy
  have hl : w.mem.live y := (hW.inv k hk hk').live y hy
  refine ⟨(hfr y hyi hl).1, (hfr y hyi hl).2, fun hyS => ?_⟩
  rcases hnew y hyS with h1 | h1
  · exact hyi h1
  · exact h1 hl

theorem inserts_append (k : Nat) (cs ds : List Call) :
    inserts k (cs ++ ds) = inserts k cs + inserts k ds := by
  unfold inserts; rw [List.countP_append]

theorem removals_append (k : Nat) (cs ds : List Call) :
    removals k (cs ++ ds) = removals k cs + removals k ds := by
  unfold removals; rw [List.countP_append]

theorem mergeFree_append (cs ds : List Call) :
    mergeFree (cs ++ ds) = (mergeFree cs && mergeFree ds) := by
  unfold mergeFree; rw [List.all_append]

theorem lt_of_getElem? {α : Type} {l : List α} {i : Nat} {a : α} (h : l[i]? = some a) :
    i < l.length := by
  by_contra hn
  rw [List.getElem?_eq_none (not_lt.mp hn)] at h
  cases h

/-- A call on heap `i` that changes only that heap keeps the size bookkeeping. -/
theorem Tally.tally_step {cs : List Call} {w : World} {c : Call} {i : Nat} {h h' : FHeap} {m' : Mem}
    (hT : Tally cs w) (hi : w.heaps[i]? = some h)
    (hc : ∀ k, k ≠ i → inserts k [c] = 0 ∧ removals k [c] = 0)
    (hsz : h'.size_ + removals i [c] = h.size_ + inserts i [c]) :
    Tally (cs ++ [c]) { mem := m', heaps := w.heaps.set i h' } := by
  have hlt := lt_of_getElem? hi
  constructor
  · intro k hk
    simp only [List.length_set] at hk
    have hki : k ≠ i := by omega
    rw [inserts_append, removals_append, (hc k hki).1, (hc k hki).2, (hT.1 k hk).1,
      (hT.1 k hk).2]
    exact ⟨rfl, rfl⟩
  · intro hmf k hk hk'
    rw [mergeFree_append, Bool.and_eq_true] at hmf
    rw [inserts_append, removals_append]
    show hk.size_ + _ = _
    simp only [List.getElem?_set] at hk'
    by_cases hki : i = k
    · rw [if_pos hki, if_pos hlt] at hk'
      have e : hk = h' := (Option.some.inj hk').symm
      subst hki
      have := hT.2 hmf.1 i h hi
      rw [e]
      omega
    · rw [if_neg hki] at hk'
      have := hT.2 hmf.1 k hk hk'
      rw [(hc k (fun e => hki e.symm)).1, (hc k (fun e => hki e.symm)).2]
      omega

theorem isInt_INT_MIN : isInt INT_MIN := by
  unfold isInt INT_MIN INT_MAX; omega

/-- Every reachable world satisfies the invariant, and sizes are accounted for. -/
theorem Reach.sound {cs : List Call} {w : World} (hR : Reach cs w) :
    ∃ own, WInv w own ∧ Tally cs w := by
  induction hR with
  | init =>
    refine ⟨fun _ => [], ⟨?_, ?_, ?_⟩, ?_, ?_⟩
    · intro i h hi; simp at hi
    · intro i h hi; simp at hi
    · intro i j hi hj _ h1; simp at h1
    · intro k _; exact ⟨rfl, rfl⟩
    · intro _ k hk h1; simp at h1
  | @newHeap cs w _ ih =>
    obtain ⟨own, hW, hT⟩ := ih
    have hget : ∀ k hk, (w.heaps ++ [FHeap.empty])[k]? = some hk →
        (k = w.heaps.length ∧ hk = FHeap.empty) ∨ (k ≠ w.heaps.length ∧ w.heaps[k]? = some hk) := by
      intro k hk hk'
      by_cases hlt : k < w.heaps.length
      · rw [List.getElem?_append_left hlt] at hk'
        exact Or.inr ⟨by omega, hk'⟩
      · have hlen := lt_of_getElem? hk'
        simp only [List.length_append, List.length_singleton] at hlen
        have hke : k = w.heaps.length := by omega
        subst hke
        simp at hk'
        exact Or.inl ⟨rfl, hk'.symm⟩
    refine ⟨Function.update own w.heaps.length [], ⟨?_, ?_, ?_⟩, ?_, ?_⟩
    · intro k hk hk'
      rcases hget k hk hk' with ⟨rfl, rfl⟩ | ⟨hne, hk''⟩
      · rw [Function.update_same]; exact Inv.empty_inv _
      · rw [Function.update_noteq hne]; exact hW.inv k hk hk''
    · intro k hk hk' x hx
      rcases hget k hk hk' with ⟨rfl, rfl⟩ | ⟨hne, hk''⟩
      · rw [Function.update_same] at hx; cases hx
      · rw [Function.update_noteq hne] at hx; exact hW.keys k hk hk'' x hx
    · intro a b ha hb hab ha' hb' x hx hx2
      rcases hget a ha ha' with ⟨rfl, rfl⟩ | ⟨hna, ha''⟩
      · rw [Function.update_same] at hx; cases hx
      · rcases hget b hb hb' with ⟨rfl, rfl⟩ | ⟨hnb, hb''⟩
        · rw [Function.update_same] at hx2; cases hx2
        · rw [Function.update_noteq hna] at hx
          rw [Function.update_noteq hnb] at hx2
          exact hW.disj a b ha hb hab ha'' hb'' x hx hx2
    · intro k hk
      simp only [List.length_append, List.length_singleton] at hk
      rw [inserts_append, removals_append, (hT.1 k (by omega)).1, (hT.1 k (by omega)).2]
      exact ⟨rfl, rfl⟩
    · intro hmf k hk hk'
      rw [mergeFree_append, Bool.and_eq_true] at hmf
      rw [inserts_append, removals_append]
      have h0 : inserts k [Call.newHeap] = 0 ∧ removals k [Call.newHeap] = 0 := ⟨rfl, rfl⟩
      rw [h0.1, h0.2]
      rcases hget k hk hk' with ⟨rfl, rfl⟩ | ⟨hne, hk''⟩
      · rw [(hT.1 _ (le_refl _)).1, (hT.1 _ (le_refl _)).2]; rfl
      · exact hT.2 hmf.1 k hk hk''
  | @insert cs w i h h' k m' hd _ hi hk e ih =>
    obtain ⟨own, hW, hT⟩ := ih
    obtain ⟨g, hF, hH⟩ := hW.inv i h hi
    obtain ⟨m1, h1, g1, e1, hF1, hH1, -, -, hkey, hsd, hfr, -⟩ := Insert_spec hF hH k
    have he := e1.symm.trans e
    simp only [Res.ok.injEq, Prod.mk.injEq] at he
    obtain ⟨⟨rfl, rfl⟩, -⟩ := he
    refine ⟨Function.update own i (w.mem.length :: own i),
      hW.set hi ⟨g1, hF1, hH1⟩ ?_ (hW.frame_of hi hfr ?_), hT.tally_step hi ?_ ?_⟩
    · intro x hx
      rcases List.mem_cons.mp hx with h | h
      · rw [h, hkey]; exact hk
      · rw [(hsd x h).1]; exact hW.keys i _ hi x h
    · intro y hy
      rcases List.mem_cons.mp hy with h | h
      · right; rw [h]; intro hl; exact Nat.lt_irrefl _ (live_lt hl)
      · exact Or.inl h
    · intro j hj
      have hij : ¬ i = j := fun e => hj e.symm
      simp [inserts, removals, hij]
    · have h1' := hH1.size
      have h2' := hH.size
      simp only [List.length_cons] at h1'
      simp [inserts, removals]
      omega
  | @extractMin cs w i h h' k m' _ hi e ih =>
    obtain ⟨own, hW, hT⟩ := ih
    obtain ⟨g, hF, hH⟩ := hW.inv i h hi
    cases hm : h.min_ with
    | none => simp [ExtractMin, hm] at e
    | some z =>
      have hzS := hF.trees.shape.root_mem (hH.min_some z hm).1
      rcases ExtractMin_spec hF hH hm with ⟨m1, h1, g1, e1, hF1, hH1, -, hk1, hfr, -, hsz⟩ | ⟨e1, -⟩
      · have he := e1.symm.trans e
        simp only [Res.ok.injEq, Prod.mk.injEq] at he
        obtain ⟨⟨rfl, rfl⟩, -⟩ := he
        refine ⟨Function.update own i ((own i).erase z),
          hW.set hi ⟨g1, hF1, hH1⟩ ?_ (hW.frame_of hi hfr ?_), hT.tally_step hi ?_ ?_⟩
        · intro x hx
          have hx' := hF.trees.shape.nodup.mem_erase_iff.mp hx
          rw [hk1 x hx'.1]; exact hW.keys i _ hi x hx'.2
        · intro y hy; exact Or.inl (List.mem_of_mem_erase hy)
        · intro j hj
          have hij : ¬ i = j := fun e => hj e.symm
          simp [inserts, removals, hij]
        · have h2' := hH.size
          have := List.length_pos_of_mem hzS
          simp [inserts, removals]
          omega
      · rw [e1] at e; cases e
  | @decreaseKey cs w i p h h' k m' _ hi hp hk e ih =>
    obtain ⟨own, hW, hT⟩ := ih
    obtain ⟨g, hF, hH⟩ := hW.inv i h hi
    have hpS := inForest_mem hF hH hp
    have lp := hF.trees.shape.live p hpS
    by_cases hgt : k > (w.mem.get p).key
    · exfalso
      have hr : w.mem.rd (some p) = .ok (w.mem.get p) := rd_live lp
      simp [DecreaseKey, hr, hgt] at e
    · obtain ⟨m1, h1, g1, e1, hF1, hH1, hkx, hko, hsz, -, hlive, hfr⟩ :=
        DecreaseKey_spec hF hH hpS (not_lt.mp hgt)
      have he := e1.symm.trans e
      simp only [Res.ok.injEq, Prod.mk.injEq] at he
      obtain ⟨⟨rfl, rfl⟩, -⟩ := he
      refine ⟨Function.update own i (own i),
        hW.set hi ⟨g1, hF1, hH1⟩ ?_ (hW.frame_of hi
          (fun y hy hl => ⟨hfr y hy, (hlive y).mpr hl⟩) (fun y hy => Or.inl hy)),
        hT.tally_step hi ?_ ?_⟩
      · intro x hx
        by_cases hxp : x = p
        · rw [hxp, hkx]; exact hk
        · rw [hko x hxp]; exact hW.keys i _ hi x hx
      · intro j hj
        simp [inserts, removals]
      · simp [inserts, removals, hsz]
  | @erase cs w i p h h' m' _ hi hp e ih =>
    obtain ⟨own, hW, hT⟩ := ih
    obtain ⟨g, hF, hH⟩ := hW.inv i h hi
    have hpS := inForest_mem hF hH hp
    rcases Erase_spec hF hH hpS (fun y hy => (hW.keys i _ hi y hy).1) with
      ⟨m1, h1, g1, z, e1, hzS, hF1, hH1, -, hko, hkz, hfr, -, hsz⟩ | e1
    · have he := e1.symm.trans e
      simp only [Res.ok.injEq, Prod.mk.injEq] at he
      obtain ⟨⟨rfl, rfl⟩, -⟩ := he
      refine ⟨Function.update own i ((own i).erase z),
        hW.set hi ⟨g1, hF1, hH1⟩ ?_ (hW.frame_of hi hfr ?_), hT.tally_step hi ?_ ?_⟩
      · intro x hx
        have hx' := hF.trees.shape.nodup.mem_erase_iff.mp hx
        by_cases hxp : x = p
        · have hzp : z ≠ p := fun e => hx'.1 (hxp.trans e.symm)
          rw [hxp, (hkz hzp).1]; exact isInt_INT_MIN
        · rw [hko x hxp hx'.1]; exact hW.keys i _ hi x hx'.2
      · intro y hy; exact Or.inl (List.mem_of_mem_erase hy)
      · intro j hj
        have hij : ¬ i = j := fun e => hj e.symm
        simp [inserts, removals, hij]
      · have h2' := hH.size
        have := List.length_pos_of_mem hzS
        simp [inserts, removals]
        omega
    · rw [e1] at e; cases e
  | @merge cs w i j h o h' o' m' _ hij hi hj e ih =>
    obtain ⟨own, hW, hT⟩ := ih
    obtain ⟨gA, FA, HA⟩ := hW.inv i h hi
    obtain ⟨gB, FB, HB⟩ := hW.inv j o hj
    have hdj := hW.disj i j h o hij hi hj
    obtain ⟨m1, h1, g1, e1, hF1, hH1, hsd, hfr, hlive, -⟩ := Merge_spec FA HA FB HB hdj
    have he := e1.symm.trans e
    simp only [Res.ok.injEq, Prod.mk.injEq] at he
    obtain ⟨⟨rfl, rfl, rfl⟩, -⟩ := he
    have W1 : WInv { mem := w.mem, heaps := w.heaps.set j FHeap.empty }
        (Function.update own j []) :=
      hW.set hj (Inv.empty_inv _) (fun x hx => absurd hx (List.not_mem_nil _))
        (fun k hk _ hk' y hy => ⟨rfl, (hW.inv k hk hk').live y hy, List.not_mem_nil _⟩)
    have hi' : (w.heaps.set j FHeap.empty)[i]? = some h := by
      rw [List.getElem?_set_ne (fun e => hij e.symm)]; exact hi
    have W2 := @WInv.set _ _ W1 i h h1 m1 (own i ++ own j) hi' ⟨g1, hF1, hH1⟩
      (by
        intro x hx
        show isInt (m1.get x).key
        rw [(hsd x).1]
        rcases List.mem_append.mp hx with h | h
        · exact hW.keys i _ hi x h
        · exact hW.keys j _ hj x h)
      (by
        intro k hk hki hk' y hy
        by_cases hkj : k = j
        · rw [hkj, Function.update_same] at hy; cases hy
        · rw [Function.update_noteq hkj] at hy
          have hk'' : w.heaps[k]? = some hk := by
            rw [List.getElem?_set_ne (fun e => hkj e.symm)] at hk'; exact hk'
          have h1' : y ∉ own i := hW.disj k i hk h hki hk'' hi y hy
          have h2' : y ∉ own j := hW.disj k j hk o hkj hk'' hj y hy
          refine ⟨hfr y h1' h2', (hlive y).mpr ((hW.inv k hk hk'').live y hy), ?_⟩
          intro h
          rcases List.mem_append.mp h with h | h
          · exact h1' h
          · exact h2' h)
    refine ⟨Function.update (Function.update own j []) i (own i ++ own j), ?_, ?_, ?_⟩
    · rw [List.set_comm _ _ _ hij]
      exact W2
    · intro k hk
      simp only [List.length_set] at hk
      rw [inserts_append, removals_append, (hT.1 k hk).1, (hT.1 k hk).2]
      exact ⟨rfl, rfl⟩
    · intro hmf
      rw [mergeFree_append, Bool.and_eq_true] at hmf
      exact absurd hmf.2 (by simp [mergeFree])

/-- The sorted list of a multiset starts with a least element. -/
theorem sort_cons_min {M : Multiset Int} {k : Int} (hk : k ∈ M) (hle : ∀ b, b ∈ M → k ≤ b) :
    M.sort (· ≤ ·) = k :: (M.erase k).sort (· ≤ ·) := by
  apply List.eq_of_perm_of_sorted (r := (· ≤ ·)) _ (Multiset.sort_sorted _ _)
  · refine List.sorted_cons.mpr ⟨fun b hb => ?_, Multiset.sort_sorted _ _⟩
    exact hle b (Multiset.mem_of_mem_erase ((Multiset.mem_sort _).mp hb))
  · apply Multiset.coe_eq_coe.mp
    rw [Multiset.sort_eq, ← Multiset.cons_coe, Multiset.sort_eq, Multiset.cons_erase hk]

theorem sort_coe (ks : List Int) :
    (Multiset.ofList ks).sort (· ≤ ·) = ks.insertionSort (· ≤ ·) := by
  apply List.eq_of_perm_of_sorted (r := (· ≤ ·)) _ (Multiset.sort_sorted _ _)
    (List.sorted_insertionSort _ _)
  have h1 : List.Perm ((Multiset.ofList ks).sort (· ≤ ·)) ks :=
    Multiset.coe_eq_coe.mp (Multiset.sort_eq (· ≤ ·) (Multiset.ofList ks))
  exact h1.trans (List.perm_insertionSort _ _).symm

/-- Specification of `GetMin` on a heap with minimum `z`. -/
theorem GetMin_spec {g : Ghost} {m : Mem} {h : FHeap} {S : List Nat} {z : Nat}
    (hF : Forest g m S) (hH : Hdr g m h S) (hz : h.min_ = some z) :
    GetMin m h = .ok (m, h) (m.get z).key ∧ z ∈ S ∧ ∀ y, y ∈ S → (m.get z).key ≤ (m.get y).key := by
  have hzS := hF.trees.shape.root_mem (hH.min_some z hz).1
  refine ⟨?_, hzS, hH.min_le hF hz⟩
  have hr : m.rd (some z) = .ok (m.get z) := rd_live (hF.trees.shape.live z hzS)
  simp only [GetMin, hz, reduceCtorEq, if_false, hr]

/-- A full drain returns the keys in sorted order, unless `consolidate` leaves its table,
which does not happen in a forest of binomial trees. -/
theorem drain_spec : ∀ (n : Nat) (S : List Nat) (g : Ghost) (m : Mem) (h : FHeap),
    S.length = n → Forest g m S → Hdr g m h S → ∀ fuel, n < fuel →
    (∃ s, drain fuel m h = .ok s ((keysOf m S).sort (· ≤ ·)) ∧ s.2 = FHeap.empty) ∨
    (drain fuel m h = .fault .outOfRange ∧ g.cutFree = false) := by
  intro n
  induction n with
  | zero =>
    intro S g m h hn hF hH fuel hfuel
    left
    obtain ⟨f, rfl⟩ : ∃ f, fuel = f + 1 := ⟨fuel - 1, by omega⟩
    have hS : S = [] := List.length_eq_zero.mp hn
    subst hS
    have h0 : h.size_ = 0 := hH.size
    have hm : h.min_ = none := (hH.size_zero_iff hF).mp h0
    refine ⟨(m, h), ?_, ?_⟩
    · have hk0 : keysOf m [] = 0 := rfl
      simp only [drain, GetSize, h0, lt_irrefl, if_false, hk0, Multiset.sort_zero]
    · cases h; simp only [FHeap.empty] at *; simp [h0, hm]
  | succ n ih =>
    intro S g m h hn hF hH fuel hfuel
    obtain ⟨f, rfl⟩ : ∃ f, fuel = f + 1 := ⟨fuel - 1, by omega⟩
    have hpos : 0 < h.size_ := by rw [hH.size]; omega
    obtain ⟨x, hx⟩ : ∃ x, x ∈ S := by
      cases S with
      | nil => simp at hn
      | cons a t => exact ⟨a, List.mem_cons_self _ _⟩
    obtain ⟨z, hz, hzS⟩ := hH.min_of_mem hF hx
    have hmin := hH.min_le hF hz
    rcases ExtractMin_spec hF hH hz with ⟨m', h', g', e, hF', hH', hc', hk, -⟩ | ⟨e, -⟩
    · have hlen : (S.erase z).length = n := by rw [List.length_erase_of_mem hzS]; omega
      have hkeys := keysOf_remove hF.trees.shape.nodup hzS hk
      have hsort : (keysOf m S).sort (· ≤ ·) =
          (m.get z).key :: (keysOf m' (S.erase z)).sort (· ≤ ·) := by
        rw [hkeys]
        exact sort_cons_min (mem_keysOf.mpr ⟨z, hzS, rfl⟩)
          (fun b hb => by
            obtain ⟨y, hy, rfl⟩ := mem_keysOf.mp hb
            exact hmin y hy)
      rcases ih (S.erase z) g' m' h' hlen hF' hH' f (by omega) with ⟨s, e2, hs⟩ | ⟨e2, hcf⟩
      · left
        refine ⟨s, ?_, hs⟩
        simp only [drain, GetSize, hpos, if_true, e, e2, hsort]
      · right
        refine ⟨?_, hc' ▸ hcf⟩
        simp only [drain, GetSize, hpos, if_true, e, e2]
    · right
      refine ⟨by simp only [drain, GetSize, hpos, if_true, e], ?_⟩
      cases hcf : g.cutFree with
      | false => rfl
      | true =>
        obtain ⟨_, _, _, e', -⟩ := ExtractMin_binom hF hH hz hcf
        rw [e] at e'; cases e'

/-- The same for the drain that also calls `GetMin`: both recorded values agree. -/
theorem drainMin_spec : ∀ (n : Nat) (S : List Nat) (g : Ghost) (m : Mem) (h : FHeap),
    S.length = n → Forest g m S → Hdr g m h S → ∀ fuel, n < fuel →
    (∃ s, drainMin fuel m h = .ok s (((keysOf m S).sort (· ≤ ·)).map (fun k => (k, k))) ∧
      s.2 = FHeap.empty) ∨
    (drainMin fuel m h = .fault .outOfRange ∧ g.cutFree = false) := by
  intro n
  induction n with
  | zero =>
    intro S g m h hn hF hH fuel hfuel
    left
    obtain ⟨f, rfl⟩ : ∃ f, fuel = f + 1 := ⟨fuel - 1, by omega⟩
    have hS : S = [] := List.length_eq_zero.mp hn
    subst hS
    have h0 : h.size_ = 0 := hH.size
    have hm : h.min_ = none := (hH.size_zero_iff hF).mp h0
    refine ⟨(m, h), ?_, ?_⟩
    · have hk0 : keysOf m [] = 0 := rfl
      simp only [drainMin, GetSize, h0, lt_irrefl, if_false, hk0, Multiset.sort_zero, List.map_nil]
    · cases h; simp only [FHeap.empty] at *; simp [h0, hm]
  | succ n ih =>
    intro S g m h hn hF hH fuel hfuel
    obtain ⟨f, rfl⟩ : ∃ f, fuel = f + 1 := ⟨fuel - 1, by omega⟩
    have hpos : 0 < h.size_ := by rw [hH.size]; omega
    obtain ⟨x, hx⟩ : ∃ x, x ∈ S := by
      cases S with
      | nil => simp at hn
      | cons a t => exact ⟨a, List.mem_cons_self _ _⟩
    obtain ⟨z, hz, hzS⟩ := hH.min_of_mem hF hx
    have hmin := hH.min_le hF hz
    have eg := (GetMin_spec hF hH hz).1
    rcases ExtractMin_spec hF hH hz with ⟨m', h', g', e, hF', hH', hc', hk, -⟩ | ⟨e, -⟩
    · have hlen : (S.erase z).length = n := by rw [List.length_erase_of_mem hzS]; omega
      have hkeys := keysOf_remove hF.trees.shape.nodup hzS hk
      have hsort : (keysOf m S).sort (· ≤ ·) =
          (m.get z).key :: (keysOf m' (S.erase z)).sort (· ≤ ·) := by
        rw [hkeys]
        exact sort_cons_min (mem_keysOf.mpr ⟨z, hzS, rfl⟩)
          (fun b hb => by
            obtain ⟨y, hy, rfl⟩ := mem_keysOf.mp hb
            exact hmin y hy)
      rcases ih (S.erase z) g' m' h' hlen hF' hH' f (by omega) with ⟨s, e2, hs⟩ | ⟨e2, hcf⟩
      · left
        refine ⟨s, ?_, hs⟩
        simp only [drainMin, GetSize, hpos, if_true, eg, e, e2, hsort, List.map_cons]
      · right
        refine ⟨?_, hc' ▸ hcf⟩
        simp only [drainMin, GetSize, hpos, if_true, eg, e, e2]
    · right
      refine ⟨by simp only [drainMin, GetSize, hpos, if_true, eg, e], ?_⟩
      cases hcf : g.cutFree with
      | false => rfl
      | true =>
        obtain ⟨_, _, _, e', -⟩ := ExtractMin_binom hF hH hz hcf
        rw [e] at e'; cases e'

/-- Inserting a list of keys adds them to the key multiset. -/
theorem insertAll_spec : ∀ (ks : List Int) (S : List Nat) (g : Ghost) (m : Mem) (h : FHeap),
    Forest g m S → Hdr g m h S →
    ∃ m' h' g' S', insertAll m h ks = .ok (m', h') () ∧ Forest g' m' S' ∧ Hdr g' m' h' S' ∧
      g'.cutFree = g.cutFree ∧ keysOf m' S' = keysOf m S + Multiset.ofList ks ∧
      S'.length = S.length + ks.length := by
  intro ks
  induction ks with
  | nil =>
    intro S g m h hF hH
    exact ⟨m, h, g, S, rfl, hF, hH, rfl, by simp, rfl⟩
  | cons k ks ih =>
    intro S g m h hF hH
    obtain ⟨m1, h1, g1, e1, hF1, hH1, hc1, -, hkey, hsd, -, -⟩ := Insert_spec hF hH k
    obtain ⟨m', h', g', S', e2, hF', hH', hc', hkeys, hlen⟩ := ih _ g1 m1 h1 hF1 hH1
    refine ⟨m', h', g', S', ?_, hF', hH', hc'.trans hc1, ?_, ?_⟩
    · simp only [insertAll, e1, e2]
    · rw [hkeys, keysOf_cons, hkey, keysOf_congr (fun x hx => (hsd x hx).1),
        ← Multiset.cons_coe]
      simp only [Multiset.cons_add, Multiset.add_cons]
    · rw [hlen, List.length_cons, List.length_cons]; omega

theorem visit_sound {m : Mem} {h : FHeap} : ∀ (fuel : Nat) (stack seen : List Nat),
    (∀ x, x ∈ stack → InForest m h x) → (∀ x, x ∈ seen → InForest m h x) →
    ∀ y, y ∈ visit m fuel stack seen → InForest m h y := by
  intro fuel
  induction fuel with
  | zero => intro stack seen _ hs y hy; exact hs y hy
  | succ n ih =>
    intro stack seen hst hs y hy
    cases stack with
    | nil => exact hs y hy
    | cons x stack =>
      have hx := hst x (List.mem_cons_self _ _)
      simp only [visit] at hy
      split at hy
      · exact ih stack seen (fun z hz => hst z (List.mem_cons_of_mem _ hz)) hs y hy
      · refine ih _ _ ?_ ?_ y hy
        · intro z hz
          rcases List.mem_append.mp hz with hz | hz
          · rcases List.mem_append.mp hz with hz | hz
            · exact InForest.right hx (Option.mem_toList.mp hz)
            · exact InForest.child hx (Option.mem_toList.mp hz)
          · exact hst z (List.mem_cons_of_mem _ hz)
        · intro z hz
          rcases List.mem_cons.mp hz with hz | hz
          · rw [hz]; exact hx
          · exact hs z hz

theorem nodesOf_sound {m : Mem} {h : FHeap} {p : Nat} (hp : p ∈ nodesOf m h) :
    InForest m h p :=
  visit_sound _ _ _ (fun _ hx => InForest.min (Option.mem_toList.mp hx))
    (fun x hx => absurd hx (List.not_mem_nil _)) p hp

/-- A call accepted by `exec` is a step of `Reach`. -/
theorem exec_sound {cs : List Call} {w w' : World} {c : Call} (hR : Reach cs w)
    (he : exec w c = some w') : Reach (cs ++ [c]) w' := by
  cases c with
  | newHeap =>
    simp only [exec, Option.some.injEq] at he
    rw [← he]; exact Reach.newHeap hR
  | insert i k =>
    simp only [exec] at he
    split at he
    · cases he
    · rename_i h hi
      split at he
      · rename_i hk
        split at he
        · rename_i m' h' hd e
          simp only [Option.some.injEq] at he
          rw [← he]; exact Reach.insert hR hi hk e
        · cases he
      · cases he
  | extractMin i =>
    simp only [exec] at he
    split at he
    · cases he
    · rename_i h hi
      split at he
      · rename_i m' h' k e
        simp only [Option.some.injEq] at he
        rw [← he]; exact Reach.extractMin hR hi e
      · cases he
  | decreaseKey i p k =>
    simp only [exec] at he
    split at he
    · cases he
    · rename_i h hi
      split at he
      · rename_i hk
        split at he
        · rename_i m' h' u e
          simp only [Option.some.injEq] at he
          rw [← he]; exact Reach.decreaseKey hR hi (nodesOf_sound hk.1) hk.2 e
        · cases he
      · cases he
  | erase i p =>
    simp only [exec] at he
    split at he
    · cases he
    · rename_i h hi
      split at he
      · rename_i hk
        split at he
        · rename_i m' h' u e
          simp only [Option.some.injEq] at he
          rw [← he]; exact Reach.erase hR hi (nodesOf_sound hk) e
        · cases he
      · cases he
  | merge i j =>
    simp only [exec] at he
    split at he
    · rename_i h o hi hj
      split at he
      · rename_i hij
        split at he
        · rename_i m' h' o' u e
          simp only [Option.some.injEq] at he
          rw [← he]; exact Reach.merge hR hij hi hj e
        · cases he
      · cases he
    · cases he

theorem run_sound : ∀ (ds cs : List Call) (w w' : World), Reach cs w → run w ds = some w' →
    Reach (cs ++ ds) w' := by
  intro ds
  induction ds with
  | nil =>
    intro cs w w' hR he
    simp only [run, Option.some.injEq] at he
    rw [← he, List.append_nil]; exact hR
  | cons d ds ih =>
    intro cs w w' hR he
    simp only [run] at he
    split at he
    · rename_i w1 e1
      have := ih (cs ++ [d]) w1 w' (exec_sound hR e1) he
      rw [List.append_assoc] at this
      exact this
    · cases he

/-- A successful `check` exhibits a reachable world that passes the test. -/
theorem check_sound {cs : List Call} {f : World → Bool} (hc : check cs f = true) :
    ∃ w, Reach cs w ∧ f w = true := by
  unfold check at hc
  split at hc
  · cases hc
  · rename_i w hw
    exact ⟨w, by simpa using run_sound cs [] World.init w Reach.init hw, hc⟩

theorem sample_reach : Reach sampleCalls sampleWorld := by
  have h : run World.init sampleCalls = some sampleWorld := by decide
  simpa using run_sound sampleCalls [] World.init sampleWorld Reach.init h

/-- A heap of a reachable world satisfies the representation invariant for the nodes of
its forest. -/
theorem Reach.inv {cs : List Call} {w : World} {i : Nat} {h : FHeap} (hR : Reach cs w)
    (hi : w.heaps[i]? = some h) :
    ∃ g S, Forest g w.mem S ∧ Hdr g w.mem h S ∧ Owns w.mem h S ∧
      ∀ x, x ∈ S → isInt (w.mem.get x).key := by
  obtain ⟨own, hW, -⟩ := hR.sound
  obtain ⟨g, hF, hH⟩ := hW.inv i h hi
  exact ⟨g, own i, hF, hH, Inv.owns hF hH, hW.keys i h hi⟩

theorem sample_heap : sampleWorld.heaps[0]? = some sampleHeap := by decide

theorem sample_node : InForest sampleWorld.mem sampleHeap 0 :=
  nodesOf_sound (by decide)

/-- The calls `GetMin` and `ExtractMin` on a heap whose `min_` is null. -/
theorem empty_throws (m : Mem) (h : FHeap) (hm : h.min_ = none) :
    GetMin m h = .throw (m, h) .EmptyHeap ∧ ExtractMin m h = .throw (m, h) .EmptyHeap := by
  simp [GetMin, ExtractMin, hm]

/-- The call `ExtractMin` with a non-null `min_` throws no exception. -/
theorem ExtractMin_no_throw (m : Mem) (h : FHeap) (hm : h.min_ ≠ none) (s : Mem × FHeap)
    (e : Exn) : ExtractMin m h ≠ .throw s e := by
  unfold ExtractMin
  rw [if_neg hm]
  split <;> simp

/-- C1: for every list of keys inserted one by one into an empty heap, the full drain
(`ExtractMin` until `GetSize` is 0) returns the input list sorted in non-decreasing order,
and in the drain that calls `GetMin` before each `ExtractMin` both calls return the same
value; the heap is empty afterwards. -/
theorem heapsort_by_drain (m0 : Mem) (ks : List Int) :
    ∃ m h, insertAll m0 FHeap.empty ks = .ok (m, h) () ∧
      (∃ s, drain (ks.length + 1) m h = .ok s (ks.insertionSort (· ≤ ·)) ∧ GetSize s.2 = 0) ∧
      (∃ s, drainMin (ks.length + 1) m h =
          .ok s ((ks.insertionSort (· ≤ ·)).map (fun k => (k, k))) ∧ GetSize s.2 = 0) := by
  obtain ⟨g0, hF0, hH0, hc0⟩ := Forest.empty_forest m0
  obtain ⟨m, h, g, S, e, hF, hH, hc, hkeys, hlen⟩ := insertAll_spec ks [] g0 m0 FHeap.empty hF0 hH0
  have hk : keysOf m S = Multiset.ofList ks := by
    rw [hkeys]
    show (0 : Multiset Int) + _ = _
    rw [zero_add]
  have hl : S.length = ks.length := by rw [hlen]; simp
  have hcf : g.cutFree ≠ false := by rw [hc, hc0]; simp
  refine ⟨m, h, e, ?_, ?_⟩
  · rcases drain_spec _ S g m h hl hF hH (ks.length + 1) (Nat.lt_succ_self _) with
      ⟨s, e1, hs⟩ | ⟨-, h2⟩
    · exact ⟨s, by rw [e1, hk, sort_coe], by rw [hs]; rfl⟩
    · exact absurd h2 hcf
  · rcases drainMin_spec _ S g m h hl hF hH (ks.length + 1) (Nat.lt_succ_self _) with
      ⟨s, e1, hs⟩ | ⟨-, h2⟩
    · exact ⟨s, by rw [e1, hk, sort_coe], by rw [hs]; rfl⟩
    · exact absurd h2 hcf

/-- C2: on every non-empty heap of a reachable world `GetMin` returns a key stored in the
forest that is at most the key of every node of the forest (roots or not), and the state
is returned unchanged. -/
theorem GetMin_least (cs : List Call) (w : World) (i : Nat) (h : FHeap) (hR : Reach cs w)
    (hi : w.heaps[i]? = some h) (hne : 0 < GetSize h) :
    ∃ k, GetMin w.mem h = .ok (w.mem, h) k ∧
      (∃ x, InForest w.mem h x ∧ (w.mem.get x).key = k) ∧
      ∀ x, InForest w.mem h x → k ≤ (w.mem.get x).key := by
  obtain ⟨g, S, hF, hH, hO, -⟩ := hR.inv hi
  cases hm : h.min_ with
  | none =>
    have := (hH.size_zero_iff hF).mpr hm
    unfold GetSize at hne
    omega
  | some z =>
    obtain ⟨e, hzS, hle⟩ := GetMin_spec hF hH hm
    exact ⟨_, e, ⟨z, (hO.2 z).mp hzS, rfl⟩, fun x hx => hle x ((hO.2 x).mpr hx)⟩

theorem GetMin_least_witness :
    Reach sampleCalls sampleWorld ∧ sampleWorld.heaps[0]? = some sampleHeap ∧
    0 < GetSize sampleHeap ∧
    ∃ k, GetMin sampleWorld.mem sampleHeap = .ok (sampleWorld.mem, sampleHeap) k ∧
      (∃ x, InForest sampleWorld.mem sampleHeap x ∧ (sampleWorld.mem.get x).key = k) ∧
      ∀ x, InForest sampleWorld.mem sampleHeap x → k ≤ (sampleWorld.mem.get x).key :=
  ⟨sample_reach, sample_heap, by decide,
    GetMin_least sampleCalls sampleWorld 0 sampleHeap sample_reach sample_heap (by decide)⟩

/-- C5: on a reachable heap, `DecreaseKey` through a valid handle with a new key greater
than the key `k` of the node throws `InvalidArgument`, and the state at the throw is the
state before the call: the key of the node is still `k`, and `GetSize`, `GetMin` and every
full drain give what they give without the call. -/
theorem DecreaseKey_greater_rejected (cs : List Call) (w : World) (i : Nat) (h : FHeap)
    (p : Nat) (newKey : Int) (hR : Reach cs w) (hi : w.heaps[i]? = some h)
    (hp : InForest w.mem h p) (hgt : newKey > (w.mem.get p).key) :
    ∃ s, DecreaseKey w.mem h { ptr_ := some p } newKey = .throw s .InvalidArgument ∧
      s = (w.mem, h) ∧ (s.1.get p).key = (w.mem.get p).key ∧ GetSize s.2 = GetSize h ∧
      GetMin s.1 s.2 = GetMin w.mem h ∧ ∀ fuel, drain fuel s.1 s.2 = drain fuel w.mem h := by
  obtain ⟨g, S, hF, hH, hO, -⟩ := hR.inv hi
  have lp := hF.trees.shape.live p ((hO.2 p).mpr hp)
  have hr : w.mem.rd (some p) = .ok (w.mem.get p) := rd_live lp
  refine ⟨(w.mem, h), ?_, rfl, rfl, rfl, rfl, fun _ => rfl⟩
  simp [DecreaseKey, hr, hgt]

theorem DecreaseKey_greater_rejected_witness :
    Reach sampleCalls sampleWorld ∧ sampleWorld.heaps[0]? = some sampleHeap ∧
    InForest sampleWorld.mem sampleHeap 0 ∧ (6 : Int) > (sampleWorld.mem.get 0).key ∧
    ∃ s, DecreaseKey sampleWorld.mem sampleHeap { ptr_ := some 0 } 6 =
        .throw s .InvalidArgument ∧
      s = (sampleWorld.mem, sampleHeap) ∧ (s.1.get 0).key = (sampleWorld.mem.get 0).key ∧
      GetSize s.2 = GetSize sampleHeap ∧
      GetMin s.1 s.2 = GetMin sampleWorld.mem sampleHeap ∧
      ∀ fuel, drain fuel s.1 s.2 = drain fuel sampleWorld.mem sampleHeap :=
  ⟨sample_reach, sample_heap, sample_node, by decide,
    DecreaseKey_greater_rejected sampleCalls sampleWorld 0 sampleHeap 0 6 sample_reach
      sample_heap sample_node (by decide)⟩

/-- C6: in every state and for every new key, `DecreaseKey` and `Erase` called with a
default-constructed handle throw `InvalidHandle`, and the state at the throw is the state
before the call (so `Erase` has not run `ExtractMin`). -/
theorem default_handle_rejected (m : Mem) (h : FHeap) (newKey : Int) :
    DecreaseKey m h Handle.default newKey = .throw (m, h) .InvalidHandle ∧
    Erase m h Handle.default = .throw (m, h) .InvalidHandle := by
  simp [DecreaseKey, Erase, Handle.default]

/-- C7: on a reachable heap, `DecreaseKey` through a valid handle whose node holds `k`,
with `newKey ≤ k`, returns normally; the forest has the same nodes, its key multiset is
the old one with one occurrence of `k` replaced by `newKey`, `GetSize` is unchanged, and
`GetMin` returns the minimum of its previous value and `newKey`. -/
theorem DecreaseKey_succeeds (cs : List Call) (w : World) (i : Nat) (h : FHeap) (p : Nat)
    (newKey : Int) (hR : Reach cs w) (hi : w.heaps[i]? = some h) (hp : InForest w.mem h p)
    (hle : newKey ≤ (w.mem.get p).key) :
    ∃ m' h' S, DecreaseKey w.mem h { ptr_ := some p } newKey = .ok (m', h') () ∧
      Owns w.mem h S ∧ Owns m' h' S ∧
      keysOf m' S = newKey ::ₘ (keysOf w.mem S).erase (w.mem.get p).key ∧
      GetSize h' = GetSize h ∧
      ∃ a, GetMin w.mem h = .ok (w.mem, h) a ∧ GetMin m' h' = .ok (m', h') (min a newKey) := by
  obtain ⟨g, S, hF, hH, hO, -⟩ := hR.inv hi
  have hpS := (hO.2 p).mpr hp
  obtain ⟨m', h', g', e, hF', hH', hkx, hko, hsz, -, -, -⟩ := DecreaseKey_spec hF hH hpS hle
  obtain ⟨z, hz, -⟩ := hH.min_of_mem hF hpS
  obtain ⟨z', hz', -⟩ := hH'.min_of_mem hF' hpS
  obtain ⟨eg, hzS, hmin⟩ := GetMin_spec hF hH hz
  obtain ⟨eg', hzS', hmin'⟩ := GetMin_spec hF' hH' hz'
  refine ⟨m', h', S, e, hO, Inv.owns hF' hH', ?_, hsz, (w.mem.get z).key, eg, ?_⟩
  · rw [keysOf_update hF.trees.shape.nodup hpS hko, hkx]
  · rw [eg']
    have h1 : (m'.get z').key ≤ newKey := by have := hmin' p hpS; rwa [hkx] at this
    have h2 : (m'.get z').key ≤ (w.mem.get z).key := by
      by_cases hzp : z = p
      · rw [hzp]; exact le_trans h1 hle
      · have := hmin' z hzS; rwa [hko z hzp] at this
    have h3 : min (w.mem.get z).key newKey ≤ (m'.get z').key := by
      by_cases hzp : z' = p
      · rw [hzp, hkx]; exact min_le_right _ _
      · rw [hko z' hzp]; exact le_trans (min_le_left _ _) (hmin z' hzS')
    have : (m'.get z').key = min (w.mem.get z).key newKey :=
      le_antisymm (le_min h2 h1) h3
    rw [this]

theorem DecreaseKey_succeeds_witness :
    Reach sampleCalls sampleWorld ∧ sampleWorld.heaps[0]? = some sampleHeap ∧
    InForest sampleWorld.mem sampleHeap 0 ∧ (2 : Int) ≤ (sampleWorld.mem.get 0).key ∧
    ∃ m' h' S, DecreaseKey sampleWorld.mem sampleHeap { ptr_ := some 0 } 2 = .ok (m', h') () ∧
      Owns sampleWorld.mem sampleHeap S ∧ Owns m' h' S ∧
      keysOf m' S = 2 ::ₘ (keysOf sampleWorld.mem S).erase (sampleWorld.mem.get 0).key ∧
      GetSize h' = GetSize sampleHeap ∧
      ∃ a, GetMin sampleWorld.mem sampleHeap = .ok (sampleWorld.mem, sampleHeap) a ∧
        GetMin m' h' = .ok (m', h') (min a 2) :=
  ⟨sample_reach, sample_heap, sample_node, by decide,
    DecreaseKey_succeeds sampleCalls sampleWorld 0 sampleHeap 0 2 sample_reach sample_heap
      sample_node (by decide)⟩

/-- The call `ExtractMin` on a non-empty reachable heap: the minimum is removed, or the degree table
is accessed out of range. -/
theorem ExtractMin_reach {cs : List Call} {w : World} {i : Nat} {h : FHeap} (hR : Reach cs w)
    (hi : w.heaps[i]? = some h) (hne : 0 < GetSize h) :
    (∃ m' h' k S S', ExtractMin w.mem h = .ok (m', h') k ∧ Owns w.mem h S ∧ Owns m' h' S' ∧
      k ∈ keysOf w.mem S ∧ (∀ a, a ∈ keysOf w.mem S → k ≤ a) ∧
      keysOf m' S' = (keysOf w.mem S).erase k ∧ GetSize h' + 1 = GetSize h) ∨
    ExtractMin w.mem h = .fault .outOfRange := by
  obtain ⟨g, S, hF, hH, hO, -⟩ := hR.inv hi
  cases hm : h.min_ with
  | none =>
    have := (hH.size_zero_iff hF).mpr hm
    unfold GetSize at hne
    omega
  | some z =>
    have hzS := hF.trees.shape.root_mem (hH.min_some z hm).1
    rcases ExtractMin_spec hF hH hm with ⟨m', h', g', e, hF', hH', -, hk, -, -, hsz⟩ | ⟨e, -⟩
    · left
      refine ⟨m', h', _, S, S.erase z, e, hO, Inv.owns hF' hH', mem_keysOf.mpr ⟨z, hzS, rfl⟩,
        ?_, keysOf_remove hF.trees.shape.nodup hzS hk, ?_⟩
      · intro a ha
        obtain ⟨y, hy, rfl⟩ := mem_keysOf.mp ha
        exact hH.min_le hF hm y hy
      · unfold GetSize at hne ⊢
        omega
    · exact Or.inr e

/-- The heap reached by `thinTree` followed by `DecreaseKey(31, 0)`: `ExtractMin` reads
the degree table out of range. -/
theorem thin_extract_fault :
    ∃ w h, Reach (thinTree ++ [Call.decreaseKey 0 31 0]) w ∧ w.heaps[0]? = some h ∧
      0 < GetSize h ∧ ExtractMin w.mem h = .fault .outOfRange := by
  have hc : check (thinTree ++ [Call.decreaseKey 0 31 0]) (fun w =>
      match w.heaps[0]? with
      | some h => decide (0 < GetSize h ∧ ExtractMin w.mem h = .fault .outOfRange)
      | none => false) = true := by
    set_option maxRecDepth 100000 in decide!
  obtain ⟨w, hR, hf⟩ := check_sound hc
  split at hf
  · rename_i h hi
    have := of_decide_eq_true hf
    exact ⟨w, h, hR, hi, this.1, this.2⟩
  · cases hf

/-- C3: on a non-empty heap of a reachable world `ExtractMin` either returns the smallest
key stored, leaves the key multiset minus one occurrence of that key and decrements
`GetSize`, or it reads the degree table of `consolidate` out of range; the second case
occurs: after 33 inserts, one `ExtractMin`, 17 `Erase` calls and one `DecreaseKey` the
heap holds 15 nodes, one root has degree 5, and the table has 5 entries. -/
theorem ExtractMin_min_or_overrun :
    (∀ (cs : List Call) (w : World) (i : Nat) (h : FHeap), Reach cs w →
      w.heaps[i]? = some h → 0 < GetSize h →
      (∃ m' h' k S S', ExtractMin w.mem h = .ok (m', h') k ∧ Owns w.mem h S ∧ Owns m' h' S' ∧
        k ∈ keysOf w.mem S ∧ (∀ a, a ∈ keysOf w.mem S → k ≤ a) ∧
        keysOf m' S' = (keysOf w.mem S).erase k ∧ GetSize h' + 1 = GetSize h) ∨
      ExtractMin w.mem h = .fault .outOfRange) ∧
    ∃ w h, Reach (thinTree ++ [Call.decreaseKey 0 31 0]) w ∧ w.heaps[0]? = some h ∧
      0 < GetSize h ∧ ExtractMin w.mem h = .fault .outOfRange :=
  ⟨fun _ _ _ _ hR hi hne => ExtractMin_reach hR hi hne, thin_extract_fault⟩

/-- C4: on a heap of a reachable world whose size is 0, `GetMin` and `ExtractMin` throw
`EmptyHeap` and the state at the throw is the state before the call (`min_` null, size 0);
on a heap whose size is greater than 0, `GetMin` returns normally and `ExtractMin` throws
no exception; but `ExtractMin` does not always return: on the heap reached by `thinTree`
and `DecreaseKey(31, 0)` it reads the degree table out of range. -/
theorem EmptyHeap_only_when_empty :
    (∀ (cs : List Call) (w : World) (i : Nat) (h : FHeap), Reach cs w →
      w.heaps[i]? = some h → GetSize h = 0 →
      h.min_ = none ∧ GetMin w.mem h = .throw (w.mem, h) .EmptyHeap ∧
      ExtractMin w.mem h = .throw (w.mem, h) .EmptyHeap) ∧
    (∀ (cs : List Call) (w : World) (i : Nat) (h : FHeap), Reach cs w →
      w.heaps[i]? = some h → 0 < GetSize h →
      (∃ k, GetMin w.mem h = .ok (w.mem, h) k) ∧
      ∀ s e, ExtractMin w.mem h ≠ .throw s e) ∧
    ∃ w h, Reach (thinTree ++ [Call.decreaseKey 0 31 0]) w ∧ w.heaps[0]? = some h ∧
      0 < GetSize h ∧ ExtractMin w.mem h = .fault .outOfRange := by
  refine ⟨?_, ?_, thin_extract_fault⟩
  · intro cs w i h hR hi h0
    obtain ⟨g, S, hF, hH, -, -⟩ := hR.inv hi
    have hm := (hH.size_zero_iff hF).mp h0
    exact ⟨hm, empty_throws w.mem h hm⟩
  · intro cs w i h hR hi hne
    obtain ⟨g, S, hF, hH, -, -⟩ := hR.inv hi
    cases hm : h.min_ with
    | none =>
      have := (hH.size_zero_iff hF).mpr hm
      unfold GetSize at hne
      omega
    | some z =>
      exact ⟨⟨_, (GetMin_spec hF hH hm).1⟩,
        ExtractMin_no_throw w.mem h (by rw [hm]; simp)⟩

/-- The call `Erase` through a valid handle on a reachable heap. -/
theorem Erase_reach {cs : List Call} {w : World} {i : Nat} {h : FHeap} {p : Nat}
    (hR : Reach cs w) (hi : w.heaps[i]? = some h) (hp : InForest w.mem h p) :
    (∃ m' h' S S', Erase w.mem h { ptr_ := some p } = .ok (m', h') () ∧ Owns w.mem h S ∧
      Owns m' h' S' ∧ keysOf m' S' = (keysOf w.mem S).erase (w.mem.get p).key ∧
      GetSize h' + 1 = GetSize h ∧
      ((∃ s, drain (S'.length + 1) m' h' =
          .ok s (((keysOf w.mem S).erase (w.mem.get p).key).sort (· ≤ ·))) ∨
        drain (S'.length + 1) m' h' = .fault .outOfRange)) ∨
    Erase w.mem h { ptr_ := some p } = .fault .outOfRange := by
  obtain ⟨g, S, hF, hH, hO, hk⟩ := hR.inv hi
  have hpS := (hO.2 p).mpr hp
  rcases Erase_spec hF hH hpS (fun y hy => (hk y hy).1) with
    ⟨m', h', g', z, e, hzS, hF', hH', hkeys, -, -, -, -, hsz⟩ | e
  · left
    refine ⟨m', h', S, S.erase z, e, hO, Inv.owns hF' hH', hkeys, ?_, ?_⟩
    · have := hH.size
      have := List.length_pos_of_mem hzS
      unfold GetSize
      omega
    · rcases drain_spec _ (S.erase z) g' m' h' rfl hF' hH' _ (Nat.lt_succ_self _) with
        ⟨s, e1, -⟩ | ⟨e1, -⟩
      · exact Or.inl ⟨s, by rw [e1, hkeys]⟩
      · exact Or.inr e1
  · exact Or.inr e

/-- C8: on a reachable heap `Erase` through a valid handle whose node holds `k` (any `int`,
`INT_MIN` included) either returns normally, decrements `GetSize` and leaves the key
multiset minus one occurrence of `k`, after which a full drain returns that multiset sorted
or reads the degree table out of range; or `Erase` itself reads the degree table out of
range.  The last case occurs for the handle of key 31 on the heap reached by `thinTree`. -/
theorem Erase_removes_or_overrun :
    (∀ (cs : List Call) (w : World) (i : Nat) (h : FHeap) (p : Nat), Reach cs w →
      w.heaps[i]? = some h → InForest w.mem h p →
      (∃ m' h' S S', Erase w.mem h { ptr_ := some p } = .ok (m', h') () ∧ Owns w.mem h S ∧
        Owns m' h' S' ∧ keysOf m' S' = (keysOf w.mem S).erase (w.mem.get p).key ∧
        GetSize h' + 1 = GetSize h ∧
        ((∃ s, drain (S'.length + 1) m' h' =
            .ok s (((keysOf w.mem S).erase (w.mem.get p).key).sort (· ≤ ·))) ∨
          drain (S'.length + 1) m' h' = .fault .outOfRange)) ∨
      Erase w.mem h { ptr_ := some p } = .fault .outOfRange) ∧
    ∃ w h, Reach thinTree w ∧ w.heaps[0]? = some h ∧ InForest w.mem h 31 ∧
      Erase w.mem h { ptr_ := some 31 } = .fault .outOfRange := by
  refine ⟨fun _ _ _ _ _ hR hi hp => Erase_reach hR hi hp, ?_⟩
  have hc : check thinTree (fun w =>
      match w.heaps[0]? with
      | some h => decide (31 ∈ nodesOf w.mem h ∧
          Erase w.mem h { ptr_ := some 31 } = .fault .outOfRange)
      | none => false) = true := by
    set_option maxRecDepth 100000 in decide!
  obtain ⟨w, hR, hf⟩ := check_sound hc
  split at hf
  · rename_i h hi
    have := of_decide_eq_true hf
    exact ⟨w, h, hR, hi, nodesOf_sound this.1, this.2⟩
  · cases hf

/-- If `GetMin` returns, `min_` is not null and the value is the key of that node. -/
theorem GetMin_ok {m : Mem} {h : FHeap} {s : Mem × FHeap} {a : Int}
    (e : GetMin m h = .ok s a) : ∃ r, h.min_ = some r := by
  cases hm : h.min_ with
  | none => simp [GetMin, hm] at e
  | some r => exact ⟨r, rfl⟩

/-- The call `Merge` of two different heaps of a reachable world. -/
theorem Merge_reach {cs : List Call} {w : World} {i j : Nat} {A B : FHeap} (hR : Reach cs w)
    (hij : i ≠ j) (hi : w.heaps[i]? = some A) (hj : w.heaps[j]? = some B) :
    ∃ m' A' SA SB, Merge w.mem A B = .ok (m', A', FHeap.empty) () ∧
      Owns w.mem A SA ∧ Owns w.mem B SB ∧ Owns m' A' (SA ++ SB) ∧
      keysOf m' (SA ++ SB) = keysOf w.mem SA + keysOf w.mem SB ∧
      GetSize A' = GetSize A + GetSize B ∧
      (∀ a b, GetMin w.mem A = .ok (w.mem, A) a → GetMin w.mem B = .ok (w.mem, B) b →
        GetMin m' A' = .ok (m', A') (min a b)) ∧
      (GetSize A = 0 → ∀ b, GetMin w.mem B = .ok (w.mem, B) b →
        GetMin m' A' = .ok (m', A') b) ∧
      GetSize FHeap.empty = 0 ∧
      GetMin m' FHeap.empty = .throw (m', FHeap.empty) .EmptyHeap ∧
      (GetSize B = 0 → m' = w.mem ∧ A' = A) := by
  obtain ⟨own, hW, -⟩ := hR.sound
  obtain ⟨gA, FA, HA⟩ := hW.inv i A hi
  obtain ⟨gB, FB, HB⟩ := hW.inv j B hj
  obtain ⟨m', A', g', e, hF', hH', hsd, -, -, -, hsz, hBe, hAe, hmin⟩ :=
    Merge_spec FA HA FB HB (hW.disj i j A B hij hi hj)
  refine ⟨m', A', own i, own j, e, Inv.owns FA HA, Inv.owns FB HB, Inv.owns hF' hH', ?_, hsz,
    ?_, ?_, rfl, by simp [GetMin, FHeap.empty], ?_⟩
  · rw [keysOf_append, keysOf_congr (fun x _ => (hsd x).1), keysOf_congr (fun x _ => (hsd x).1)]
  · intro a b ea eb
    obtain ⟨ra, hra⟩ := GetMin_ok ea
    obtain ⟨rb, hrb⟩ := GetMin_ok eb
    have ha := (GetMin_spec FA HA hra).1.symm.trans ea
    have hb := (GetMin_spec FB HB hrb).1.symm.trans eb
    simp only [Res.ok.injEq, true_and] at ha hb
    obtain ⟨r, hr, hk⟩ := hmin ra rb hra hrb
    rw [(GetMin_spec hF' hH' hr).1, hk, ha, hb]
  · intro h0 b eb
    have hA0 : A.min_ = none := (HA.size_zero_iff FA).mp h0
    obtain ⟨rb, hrb⟩ := GetMin_ok eb
    have hb := (GetMin_spec FB HB hrb).1.symm.trans eb
    simp only [Res.ok.injEq, true_and] at hb
    have hr : A'.min_ = some rb := (hAe hA0).trans hrb
    rw [(GetMin_spec hF' hH' hr).1, (hsd rb).1, hb]
  · intro h0
    exact hBe ((HB.size_zero_iff FB).mp h0)

/-- C9: `A.Merge(B)` on two different heaps of a reachable world returns normally; `A`
holds the nodes of both, its key multiset is the sum, `GetSize` the sum, `GetMin` the
smaller of the two former minima (the minimum of `B` when `A` was empty); `B` is left empty
and `GetMin` on it throws `EmptyHeap`; when `B` was empty nothing changes.  But a full
drain of `A` need not return what re-inserting the keys of `B` into `A` would: with `B` the
heap reached by `thinTree` and `DecreaseKey(31, 0)` and `A` a new heap, the drain after
`Merge` reads the degree table out of range, while after re-insertion it returns the
sorted keys. -/
theorem Merge_union_but_drain_overrun :
    (∀ (cs : List Call) (w : World) (i j : Nat) (A B : FHeap), Reach cs w → i ≠ j →
      w.heaps[i]? = some A → w.heaps[j]? = some B →
      ∃ m' A' SA SB, Merge w.mem A B = .ok (m', A', FHeap.empty) () ∧
        Owns w.mem A SA ∧ Owns w.mem B SB ∧ Owns m' A' (SA ++ SB) ∧
        keysOf m' (SA ++ SB) = keysOf w.mem SA + keysOf w.mem SB ∧
        GetSize A' = GetSize A + GetSize B ∧
        (∀ a b, GetMin w.mem A = .ok (w.mem, A) a → GetMin w.mem B = .ok (w.mem, B) b →
          GetMin m' A' = .ok (m', A') (min a b)) ∧
        (GetSize A = 0 → ∀ b, GetMin w.mem B = .ok (w.mem, B) b →
          GetMin m' A' = .ok (m', A') b) ∧
        GetSize FHeap.empty = 0 ∧
        GetMin m' FHeap.empty = .throw (m', FHeap.empty) .EmptyHeap ∧
        (GetSize B = 0 → m' = w.mem ∧ A' = A)) ∧
    ∃ w A B m' A' m2 A2 s, Reach (thinTree ++ [Call.decreaseKey 0 31 0, Call.newHeap]) w ∧
      w.heaps[1]? = some A ∧ w.heaps[0]? = some B ∧
      Merge w.mem A B = .ok (m', A', FHeap.empty) () ∧
      drain 16 m' A' = .fault .outOfRange ∧
      insertAll w.mem A (keyList w.mem B) = .ok (m2, A2) () ∧
      drain 16 m2 A2 = .ok s [0, 1, 2, 3, 5, 6, 9, 10, 11, 17, 18, 19, 21, 22, 32] := by
  refine ⟨fun _ _ _ _ _ _ hR hij hi hj => Merge_reach hR hij hi hj, ?_⟩
  have hc : check (thinTree ++ [Call.decreaseKey 0 31 0, Call.newHeap]) (fun w =>
      match w.heaps[1]?, w.heaps[0]? with
      | some A, some B =>
        match Merge w.mem A B, insertAll w.mem A (keyList w.mem B) with
        | .ok (m', A', B') _, .ok (m2, A2) _ =>
          match drain 16 m2 A2 with
          | .ok _ l => decide (B' = FHeap.empty ∧ drain 16 m' A' = .fault .outOfRange ∧
              l = [0, 1, 2, 3, 5, 6, 9, 10, 11, 17, 18, 19, 21, 22, 32])
          | _ => false
        | _, _ => false
      | _, _ => false) = true := by
    set_option maxRecDepth 100000 in decide!
  obtain ⟨w, hR, hf⟩ := check_sound hc
  split at hf
  · rename_i A B hA hB
    split at hf
    · rename_i m' A' B' u1 m2 A2 u2 e1 e2
      split at hf
      · rename_i s l e3
        have := of_decide_eq_true hf
        obtain ⟨rfl, h2, rfl⟩ := this
        exact ⟨w, A, B, m', A', m2, A2, s, hR, hA, hB, e1, h2, e2, e3⟩
      · cases hf
    · cases hf
  · cases hf

/-- C10 as stated fails once `Merge` is among the calls: after `mergeCalls` heap 0 has
size 1 although no `Insert` was called on it. -/
theorem size_count_fails_after_merge :
    ∃ w h, Reach mergeCalls w ∧ w.heaps[0]? = some h ∧
      GetSize h ≠ inserts 0 mergeCalls - removals 0 mergeCalls := by
  have hc : check mergeCalls (fun w =>
      match w.heaps[0]? with
      | some h => decide (GetSize h ≠ inserts 0 mergeCalls - removals 0 mergeCalls)
      | none => false) = true := by decide
  obtain ⟨w, hR, hf⟩ := check_sound hc
  split at hf
  · rename_i h hi
    exact ⟨w, h, hR, hi, of_decide_eq_true hf⟩
  · cases hf

/-- C10 amended: for every history of calls that returned normally, `GetSize` of a heap
is the number of nodes in its forest and is 0 exactly when `min_` is null, which is
exactly when `GetMin` and `ExtractMin` throw `EmptyHeap`; and when the history contains
no `Merge`, `GetSize` plus the number of `ExtractMin` and `Erase` calls on the heap equals
the number of `Insert` calls on it. -/
theorem size_accounting (cs : List Call) (w : World) (i : Nat) (h : FHeap) (hR : Reach cs w)
    (hi : w.heaps[i]? = some h) :
    (mergeFree cs = true → GetSize h + removals i cs = inserts i cs) ∧
    (∃ S, Owns w.mem h S ∧ GetSize h = S.length) ∧
    (GetSize h = 0 ↔ h.min_ = none) ∧
    (GetSize h = 0 ↔ GetMin w.mem h = .throw (w.mem, h) .EmptyHeap) ∧
    (GetSize h = 0 ↔ ExtractMin w.mem h = .throw (w.mem, h) .EmptyHeap) := by
  obtain ⟨own, hW, hT⟩ := hR.sound
  obtain ⟨g, hF, hH⟩ := hW.inv i h hi
  have hz := hH.size_zero_iff hF
  refine ⟨fun hmf => hT.2 hmf i h hi, ⟨own i, Inv.owns hF hH, hH.size⟩, hz, ?_, ?_⟩
  · rw [show GetSize h = h.size_ from rfl, hz]
    constructor
    · intro hm; exact (empty_throws w.mem h hm).1
    · intro e
      cases hm : h.min_ with
      | none => rfl
      | some z =>
        rw [(GetMin_spec hF hH hm).1] at e
        cases e
  · rw [show GetSize h = h.size_ from rfl, hz]
    constructor
    · intro hm; exact (empty_throws w.mem h hm).2
    · intro e
      cases hm : h.min_ with
      | none => rfl
      | some z => exact absurd e (ExtractMin_no_throw w.mem h (by rw [hm]; simp) _ _)

theorem size_accounting_witness :
    Reach sampleCalls sampleWorld ∧ sampleWorld.heaps[0]? = some sampleHeap ∧
    (mergeFree sampleCalls = true →
      GetSize sampleHeap + removals 0 sampleCalls = inserts 0 sampleCalls) ∧
    (∃ S, Owns sampleWorld.mem sampleHeap S ∧ GetSize sampleHeap = S.length) ∧
    (GetSize sampleHeap = 0 ↔ sampleHeap.min_ = none) ∧
    (GetSize sampleHeap = 0 ↔
      GetMin sampleWorld.mem sampleHeap = .throw (sampleWorld.mem, sampleHeap) .EmptyHeap) ∧
    (GetSize sampleHeap = 0 ↔
      ExtractMin sampleWorld.mem sampleHeap =
        .throw (sampleWorld.mem, sampleHeap) .EmptyHeap) :=
  ⟨sample_reach, sample_heap,
    size_accounting sampleCalls sampleWorld 0 sampleHeap sample_reach sample_heap⟩

theorem linked_reach : Reach linkedCalls linkedWorld := by
  have h : run World.init linkedCalls = some linkedWorld := by
    set_option maxRecDepth 100000 in decide!
  simpa using run_sound linkedCalls [] World.init linkedWorld Reach.init h

theorem linked_heap : linkedWorld.heaps[0]? = some linkedHeap := by decide

theorem linked_root : InForest linkedWorld.mem linkedHeap 1 :=
  nodesOf_sound (by decide)

theorem linked_child : InForest linkedWorld.mem linkedHeap 2 :=
  nodesOf_sound (by decide)

theorem thin_reach : Reach thinTree thinWorld := by
  have h : run World.init thinTree = some thinWorld := by
    set_option maxRecDepth 100000 in decide!
  simpa using run_sound thinTree [] World.init thinWorld Reach.init h

theorem thin_heap : thinWorld.heaps[0]? = some thinHeap := by decide

theorem thin_min_reach : Reach (thinTree ++ [Call.decreaseKey 0 31 0]) thinWorldMin := by
  have h : run thinWorld [Call.decreaseKey 0 31 0] = some thinWorldMin := by
    set_option maxRecDepth 100000 in decide!
  exact run_sound [Call.decreaseKey 0 31 0] thinTree thinWorld thinWorldMin thin_reach h

theorem thin_min_heap : thinWorldMin.heaps[0]? = some thinHeapMin := by decide

theorem collision_reach : Reach collisionCalls collisionWorld := by
  have h : run World.init collisionCalls = some collisionWorld := by decide
  simpa using run_sound collisionCalls [] World.init collisionWorld Reach.init h

theorem collision_heap : collisionWorld.heaps[0]? = some collisionHeap := by decide

/-- The nodes of the forest of a reachable heap, with the representation invariant, seen
through `InForest`. -/
theorem Reach.forest {cs : List Call} {w : World} {i : Nat} {h : FHeap} (hR : Reach cs w)
    (hi : w.heaps[i]? = some h) :
    ∃ g S, Forest g w.mem S ∧ Hdr g w.mem h S ∧ ∀ x, x ∈ S ↔ InForest w.mem h x := by
  obtain ⟨g, S, hF, hH, hO, -⟩ := hR.inv hi
  exact ⟨g, S, hF, hH, hO.2⟩

/-- C11: on every reachable heap and for every key `k`, `Insert` returns normally with a
handle that is not the default handle and refers to a new node holding `k`; the forest
gains exactly this node, the key multiset gains one occurrence of `k`, `GetSize` grows by
one, `GetMin` returns `k` if the heap was empty and the minimum of its previous value and
`k` otherwise; every node already in the forest keeps its key, parent, child pointer,
degree and mark, and the set of its children. -/
theorem Insert_adds_key (cs : List Call) (w : World) (i : Nat) (h : FHeap) (k : Int)
    (hR : Reach cs w) (hi : w.heaps[i]? = some h) :
    ∃ m' h' p S, Insert w.mem h k = .ok (m', h') { ptr_ := some p } ∧
      ({ ptr_ := some p } : Handle) ≠ Handle.default ∧ (m'.get p).key = k ∧
      InForest m' h' p ∧ ¬ InForest w.mem h p ∧
      Owns w.mem h S ∧ Owns m' h' (p :: S) ∧
      keysOf m' (p :: S) = k ::ₘ keysOf w.mem S ∧
      GetSize h' = GetSize h + 1 ∧
      (GetSize h = 0 → GetMin m' h' = .ok (m', h') k) ∧
      (∀ a, GetMin w.mem h = .ok (w.mem, h) a → GetMin m' h' = .ok (m', h') (min a k)) ∧
      (∀ x, InForest w.mem h x → sameData (w.mem.get x) (m'.get x)) ∧
      (∀ x c, InForest m' h' c →
        ((m'.get c).parent = some x ↔ InForest w.mem h c ∧ (w.mem.get c).parent = some x)) := by
  obtain ⟨g, S, hF, hH, hO, -⟩ := hR.inv hi
  obtain ⟨m', h', g', e, hF', hH', -, -, hkey, hsd, -, ⟨r', hr', hrk⟩, ⟨hpar, -⟩, hsz⟩ :=
    Insert_full hF hH k
  have hO' : Owns m' h' (w.mem.length :: S) := Inv.owns hF' hH'
  have hpS : w.mem.length ∉ S := (List.nodup_cons.mp hO'.1).1
  have hg' := GetMin_spec hF' hH' hr'
  refine ⟨m', h', w.mem.length, S, e, (fun e => by cases e), hkey,
    (hO'.2 _).mp (List.mem_cons_self _ _), fun hp => hpS ((hO.2 _).mpr hp), hO, hO', ?_, hsz,
    ?_, ?_, fun x hx => hsd x ((hO.2 x).mpr hx), ?_⟩
  · rw [keysOf_cons, hkey]
    congr 1
    exact keysOf_congr (fun x hx => (hsd x hx).1)
  · intro h0
    have hm : h.min_ = none := (hH.size_zero_iff hF).mp h0
    rw [hm] at hrk
    rw [hg'.1, hrk]
  · intro a ha
    cases hm : h.min_ with
    | none => rw [(empty_throws w.mem h hm).1] at ha; cases ha
    | some r =>
      have hg := (GetMin_spec hF hH hm).1
      rw [hg] at ha
      have hra : (w.mem.get r).key = a := by
        injection ha with _ h2
      rw [hm] at hrk
      simp only [hra] at hrk
      rw [hg'.1, hrk]
      congr 1
      simp only [min_def]
      split_ifs <;> omega
  · intro x c hc
    rcases List.mem_cons.mp ((hO'.2 c).mpr hc) with hcp | hcS
    · rw [hcp, hpar]
      constructor
      · intro h; cases h
      · rintro ⟨h1, -⟩
        exact absurd ((hO.2 _).mpr h1) hpS
    · rw [(hsd c hcS).2.1]
      exact ⟨fun h => ⟨(hO.2 c).mp hcS, h⟩, fun h => h.2⟩

theorem Insert_adds_key_witness :
    Reach sampleCalls sampleWorld ∧ sampleWorld.heaps[0]? = some sampleHeap ∧
    ∃ m' h' p S, Insert sampleWorld.mem sampleHeap 1 = .ok (m', h') { ptr_ := some p } ∧
      ({ ptr_ := some p } : Handle) ≠ Handle.default ∧ (m'.get p).key = 1 ∧
      InForest m' h' p ∧ ¬ InForest sampleWorld.mem sampleHeap p ∧
      Owns sampleWorld.mem sampleHeap S ∧ Owns m' h' (p :: S) ∧
      keysOf m' (p :: S) = 1 ::ₘ keysOf sampleWorld.mem S ∧
      GetSize h' = GetSize sampleHeap + 1 ∧
      (GetSize sampleHeap = 0 → GetMin m' h' = .ok (m', h') 1) ∧
      (∀ a, GetMin sampleWorld.mem sampleHeap = .ok (sampleWorld.mem, sampleHeap) a →
        GetMin m' h' = .ok (m', h') (min a 1)) ∧
      (∀ x, InForest sampleWorld.mem sampleHeap x →
        sameData (sampleWorld.mem.get x) (m'.get x)) ∧
      (∀ x c, InForest m' h' c →
        ((m'.get c).parent = some x ↔
          InForest sampleWorld.mem sampleHeap c ∧ (sampleWorld.mem.get c).parent = some x)) :=
  ⟨sample_reach, sample_heap,
    Insert_adds_key sampleCalls sampleWorld 0 sampleHeap 1 sample_reach sample_heap⟩

/-- C12: in every heap of a world reached by public calls with valid handles, every node
of the forest that has a parent has a key at least the key of its parent, and the parent
is a node of the same forest. -/
theorem heap_order (cs : List Call) (w : World) (i : Nat) (h : FHeap) (x p : Nat)
    (hR : Reach cs w) (hi : w.heaps[i]? = some h) (hx : InForest w.mem h x)
    (hp : (w.mem.get x).parent = some p) :
    InForest w.mem h p ∧ (w.mem.get p).key ≤ (w.mem.get x).key := by
  obtain ⟨g, S, hF, -, hS⟩ := hR.forest hi
  have hxS := (hS x).mpr hx
  exact ⟨(hS p).mp (hF.trees.shape.parent_mem x hxS p hp), hF.trees.order x hxS p hp⟩

theorem heap_order_witness :
    Reach linkedCalls linkedWorld ∧ linkedWorld.heaps[0]? = some linkedHeap ∧
    InForest linkedWorld.mem linkedHeap 2 ∧ (linkedWorld.mem.get 2).parent = some 1 ∧
    InForest linkedWorld.mem linkedHeap 1 ∧
    (linkedWorld.mem.get 1).key ≤ (linkedWorld.mem.get 2).key :=
  ⟨linked_reach, linked_heap, linked_child, by decide,
    heap_order linkedCalls linkedWorld 0 linkedHeap 2 1 linked_reach linked_heap linked_child
      (by decide)⟩

/-- C16: in every heap of a reachable world (the state between two public calls), every
node of the forest without a parent is unmarked, and these nodes are exactly the nodes of
the root list through `min_`. -/
theorem roots_unmarked (cs : List Call) (w : World) (i : Nat) (h : FHeap) (x : Nat)
    (hR : Reach cs w) (hi : w.heaps[i]? = some h) (hx : InForest w.mem h x)
    (hp : (w.mem.get x).parent = none) :
    (w.mem.get x).mark = false ∧
    ∃ roots, Ring w.mem roots ∧ x ∈ roots ∧ (∀ r, h.min_ = some r → r ∈ roots) ∧
      ∀ y, y ∈ roots ↔ InForest w.mem h y ∧ (w.mem.get y).parent = none := by
  obtain ⟨g, S, hF, hH, hS⟩ := hR.forest hi
  have hs := hF.trees.shape
  have hxR : x ∈ g.roots := (hs.roots_iff x).mpr ⟨(hS x).mpr hx, hp⟩
  refine ⟨hF.unmarked x hxR, g.roots, hF.ring, hxR, fun r hr => (hH.min_some r hr).1, ?_⟩
  intro y
  rw [hs.roots_iff, hS]

theorem roots_unmarked_witness :
    Reach linkedCalls linkedWorld ∧ linkedWorld.heaps[0]? = some linkedHeap ∧
    InForest linkedWorld.mem linkedHeap 1 ∧ (linkedWorld.mem.get 1).parent = none ∧
    (linkedWorld.mem.get 1).mark = false ∧
    ∃ roots, Ring linkedWorld.mem roots ∧ 1 ∈ roots ∧
      (∀ r, linkedHeap.min_ = some r → r ∈ roots) ∧
      ∀ y, y ∈ roots ↔ InForest linkedWorld.mem linkedHeap y ∧
        (linkedWorld.mem.get y).parent = none :=
  ⟨linked_reach, linked_heap, linked_root, by decide,
    roots_unmarked linkedCalls linkedWorld 0 linkedHeap 1 linked_reach linked_heap linked_root
      (by decide)⟩

/-- C17: in every heap of a reachable world and for every node `x` of its forest, the
field `degree` is the number of nodes of the forest whose parent is `x`: these nodes form
the circular sibling list entered through the `child` pointer of `x`, the length of that
list is `degree`, and `degree` is 0 exactly when `child` is null. -/
theorem degree_exact (cs : List Call) (w : World) (i : Nat) (h : FHeap) (x : Nat)
    (hR : Reach cs w) (hi : w.heaps[i]? = some h) (hx : InForest w.mem h x) :
    ∃ kids : List Nat, Ring w.mem kids ∧
      (∀ c, c ∈ kids ↔ InForest w.mem h c ∧ (w.mem.get c).parent = some x) ∧
      (w.mem.get x).degree = (kids.length : Int) ∧
      (∀ c, (w.mem.get x).child = some c → c ∈ kids) ∧
      ((w.mem.get x).degree = 0 ↔ (w.mem.get x).child = none) := by
  obtain ⟨g, S, hF, -, hS⟩ := hR.forest hi
  have hs := hF.trees.shape
  have hxS := (hS x).mpr hx
  refine ⟨g.kids x, hs.kids_ring x hxS, ?_, hs.degree x hxS, hs.child_some x hxS, ?_⟩
  · intro c
    rw [hs.kids_iff x hxS, hS]
  · rw [hs.degree x hxS]
    constructor
    · intro h0
      cases hc : (w.mem.get x).child with
      | none => rfl
      | some c =>
        have := hs.child_some x hxS c hc
        have h1 : (g.kids x).length = 0 := by exact_mod_cast h0
        rw [List.length_eq_zero.mp h1] at this
        cases this
    · intro hc
      rw [hs.child_none x hxS hc]
      rfl

theorem degree_exact_witness :
    Reach linkedCalls linkedWorld ∧ linkedWorld.heaps[0]? = some linkedHeap ∧
    InForest linkedWorld.mem linkedHeap 1 ∧
    ∃ kids : List Nat, Ring linkedWorld.mem kids ∧
      (∀ c, c ∈ kids ↔ InForest linkedWorld.mem linkedHeap c ∧
        (linkedWorld.mem.get c).parent = some 1) ∧
      (linkedWorld.mem.get 1).degree = (kids.length : Int) ∧
      (∀ c, (linkedWorld.mem.get 1).child = some c → c ∈ kids) ∧
      ((linkedWorld.mem.get 1).degree = 0 ↔ (linkedWorld.mem.get 1).child = none) :=
  ⟨linked_reach, linked_heap, linked_root,
    degree_exact linkedCalls linkedWorld 0 linkedHeap 1 linked_reach linked_heap linked_root⟩

theorem Below.rk_le {g : Ghost} {m : Mem} {S : List Nat} (hs : Shape g m S) {x y : Nat}
    (hb : Below m x y) (hy : y ∈ S) : g.rk y ≤ g.rk x := by
  induction hb with
  | refl => exact le_refl _
  | step _ hp ih =>
    have h1 := hs.rk_lt _ hy _ hp
    have h2 := ih (hs.parent_mem _ hy _ hp)
    omega

theorem Below.below_trans {m : Mem} {x c y : Nat} (h1 : Below m x c) (h2 : Below m c y) :
    Below m x y := by
  induction h2 with
  | refl => exact h1
  | step _ hp ih => exact Below.step ih hp

theorem Below.linear {m : Mem} {a b y : Nat} (ha : Below m a y) (hb : Below m b y) :
    Below m a b ∨ Below m b a := by
  induction ha with
  | refl => exact Or.inr hb
  | step hap hp ih =>
    cases hb with
    | refl => exact Or.inl (Below.step hap hp)
    | step hbp hp' =>
      rw [hp] at hp'
      cases hp'
      exact ih hbp

/-- A node does not lie in the subtree of one of its siblings. -/
theorem Below.not_sibling {g : Ghost} {m : Mem} {S : List Nat} (hs : Shape g m S)
    {x c c' : Nat} (hc : c ∈ S) (hx : x ∈ S) (hp : (m.get c).parent = some x)
    (hp' : (m.get c').parent = some x) (hne : c ≠ c') : ¬ Below m c c' := by
  intro hb
  cases hb with
  | refl => exact hne rfl
  | step hb hq =>
    rw [hp'] at hq
    cases hq
    have h1 := hb.rk_le hs hx
    have h2 := hs.rk_lt c hc x hp
    omega

/-- Disjoint lists attached to the members of a list can be collected into one list
without repetition. -/
theorem collect_lists (Q : Nat → Nat → Prop) (wt : Nat → Nat) : ∀ l : List Nat, l.Nodup →
    (∀ c, c ∈ l → ∃ D : List Nat, D.Nodup ∧ (∀ y, y ∈ D → Q c y) ∧ wt c ≤ D.length) →
    (∀ c, c ∈ l → ∀ c', c' ∈ l → c ≠ c' → ∀ y, Q c y → Q c' y → False) →
    ∃ D : List Nat, D.Nodup ∧ (∀ y, y ∈ D → ∃ c, c ∈ l ∧ Q c y) ∧
      (l.map wt).sum ≤ D.length := by
  intro l
  induction l with
  | nil =>
    intro _ _ _
    exact ⟨[], List.nodup_nil, fun y hy => absurd hy (List.not_mem_nil _), by simp⟩
  | cons a l ih =>
    intro hn hD hdis
    obtain ⟨hal, hnl⟩ := List.nodup_cons.mp hn
    obtain ⟨Da, hDa1, hDa2, hDa3⟩ := hD a (List.mem_cons_self _ _)
    obtain ⟨D, hD1, hD2, hD3⟩ := ih hnl (fun c hc => hD c (List.mem_cons_of_mem _ hc))
      (fun c hc c' hc' => hdis c (List.mem_cons_of_mem _ hc) c' (List.mem_cons_of_mem _ hc'))
    refine ⟨Da ++ D, ?_, ?_, ?_⟩
    · refine List.nodup_append.mpr ⟨hDa1, hD1, ?_⟩
      intro y hy1 hy2
      obtain ⟨c, hc, hQ⟩ := hD2 y hy2
      exact hdis a (List.mem_cons_self _ _) c (List.mem_cons_of_mem _ hc)
        (fun e => hal (e ▸ hc)) y (hDa2 y hy1) hQ
    · intro y hy
      rcases List.mem_append.mp hy with h | h
      · exact ⟨a, List.mem_cons_self _ _, hDa2 y h⟩
      · obtain ⟨c, hc, hQ⟩ := hD2 y h
        exact ⟨c, List.mem_cons_of_mem _ hc, hQ⟩
    · simp only [List.map_cons, List.sum_cons, List.length_append]
      omega

/-- If the member at position `j` of a list weighs at least `fib (o + j + 1)`, the weights
add up to at least `fib (o + length + 2) - fib (o + 2)`. -/
theorem fib_sum_bound (wt : Nat → Nat) : ∀ (l : List Nat) (o : Nat),
    (∀ (j c : Nat), l[j]? = some c → Nat.fib (o + j + 1) ≤ wt c) →
    Nat.fib (o + l.length + 2) ≤ Nat.fib (o + 2) + (l.map wt).sum := by
  intro l
  induction l with
  | nil => intro o _; simp
  | cons a l ih =>
    intro o h
    have h0 := h 0 a (by simp)
    have h1 := ih (o + 1) (fun j c hj => by
      have := h (j + 1) c (by simpa using hj)
      have e : o + (j + 1) + 1 = o + 1 + j + 1 := by omega
      rw [e] at this; exact this)
    have e1 : o + (a :: l).length + 2 = o + 1 + l.length + 2 := by simp; omega
    have e2 : Nat.fib (o + 1 + 2) = Nat.fib (o + 1) + Nat.fib (o + 2) := by
      have := @Nat.fib_add_two (o + 1)
      have e3 : o + 1 + 1 = o + 2 := by omega
      rw [e3] at this
      exact this
    rw [e1]
    simp only [List.map_cons, List.sum_cons]
    simp only [Nat.add_zero] at h0
    omega

/-- The subtree of a node with `d` children has at least `fib (d + 2)` nodes. -/
theorem subtree_fib {g : Ghost} {m : Mem} {S : List Nat} (hs : Shape g m S)
    (hT : Thin m S none) : ∀ (n x : Nat), x ∈ S → g.rk x < n →
    ∃ D : List Nat, D.Nodup ∧ x ∈ D ∧ (∀ y, y ∈ D → y ∈ S ∧ Below m x y) ∧
      Nat.fib ((g.kids x).length + 2) ≤ D.length := by
  intro n
  induction n with
  | zero => intro x _ h; omega
  | succ n ih =>
    intro x hxS hrk
    obtain ⟨ord, hnd, hmem, hval⟩ := hT x hxS
    have hlen : ord.length = (g.kids x).length := by
      have h1 := hs.ord_length hxS hnd hmem
      rw [hs.degree x hxS] at h1
      exact_mod_cast h1
    have hchild : ∀ c, c ∈ ord → c ∈ S ∧ (m.get c).parent = some x := fun c hc => (hmem c).mp hc
    obtain ⟨D, hD1, hD2, hD3⟩ := collect_lists (fun c y => y ∈ S ∧ Below m c y)
      (fun c => Nat.fib ((g.kids c).length + 2)) ord hnd
      (fun c hc => by
        obtain ⟨hcS, hcp⟩ := hchild c hc
        have := hs.rk_lt c hcS x hcp
        obtain ⟨Dc, h1, -, h3, h4⟩ := ih c hcS (by omega)
        exact ⟨Dc, h1, h3, h4⟩)
      (fun c hc c' hc' hne y hy hy' => by
        obtain ⟨hcS, hcp⟩ := hchild c hc
        obtain ⟨hcS', hcp'⟩ := hchild c' hc'
        rcases hy.2.linear hy'.2 with h | h
        · exact Below.not_sibling hs hcS hxS hcp hcp' hne h
        · exact Below.not_sibling hs hcS' hxS hcp' hcp (Ne.symm hne) h)
    refine ⟨x :: D, List.nodup_cons.mpr ⟨?_, hD1⟩, List.mem_cons_self _ _, ?_, ?_⟩
    · intro hxD
      obtain ⟨c, hc, -, hb⟩ := hD2 x hxD
      obtain ⟨hcS, hcp⟩ := hchild c hc
      have h1 := hb.rk_le hs hxS
      have h2 := hs.rk_lt c hcS x hcp
      omega
    · intro y hy
      rcases List.mem_cons.mp hy with rfl | hy
      · exact ⟨hxS, Below.refl⟩
      · obtain ⟨c, hc, hyS, hb⟩ := hD2 y hy
        exact ⟨hyS, (Below.step Below.refl (hchild c hc).2).below_trans hb⟩
    · have hb := fib_sum_bound (fun c => Nat.fib ((g.kids c).length + 2)) ord 0 (fun j c hj => by
        have hcS := (hchild c (List.getElem?_mem hj)).1
        have h1 := hval j c hj
        rw [hs.degree c hcS] at h1
        apply Nat.fib_mono
        have h2 : (j : Int) ≤ ((g.kids c).length : Int) + 1 := by
          simp only [reduceCtorEq, if_false, add_zero] at h1
          split_ifs at h1 <;> omega
        show 0 + j + 1 ≤ (g.kids c).length + 2
        omega)
      rw [← hlen]
      simp only [Nat.zero_add, List.length_cons] at hb ⊢
      have : Nat.fib 2 = 1 := rfl
      omega

/-- The power `d` of the golden ratio is at most the Fibonacci number `fib (d + 2)`. -/
theorem gold_pow_le_fib : ∀ d : Nat,
    goldenRatio ^ d ≤ (Nat.fib (d + 2) : ℝ) ∧
    goldenRatio ^ (d + 1) ≤ (Nat.fib (d + 3) : ℝ) := by
  intro d
  induction d with
  | zero =>
    refine ⟨by simp, ?_⟩
    have h1 : goldenRatio ^ 2 = goldenRatio + 1 := gold_sq
    have h2 := gold_pos
    have h3 : Nat.fib 3 = 2 := rfl
    rw [h3]
    simp only [zero_add, pow_one, Nat.cast_ofNat]
    nlinarith
  | succ d ih =>
    refine ⟨ih.2, ?_⟩
    have h1 : goldenRatio ^ 2 = goldenRatio + 1 := gold_sq
    have e : goldenRatio ^ (d + 1 + 1) =
        goldenRatio ^ (d + 1) + goldenRatio ^ d := by
      rw [pow_succ, pow_succ, mul_assoc, ← sq, h1]
      ring
    have f : Nat.fib (d + 1 + 3) = Nat.fib (d + 2) + Nat.fib (d + 3) := by
      have := @Nat.fib_add_two (d + 2)
      exact this
    rw [e, f, Nat.cast_add]
    linarith [ih.1, ih.2]

/-- C13: in every heap of a reachable world with `n = GetSize` nodes, every node `x` of
the forest has degree at most the floor of the logarithm of `n` to the base of the golden
ratio; the subtree rooted at `x` (the nodes from which `x` is reached along parent
pointers) holds at least `fib (degree + 2)` different nodes of the forest, hence
`fib (degree + 2)` is at most `n`. -/
theorem degree_log_bound (cs : List Call) (w : World) (i : Nat) (h : FHeap) (x : Nat)
    (hR : Reach cs w) (hi : w.heaps[i]? = some h) (hx : InForest w.mem h x) :
    (w.mem.get x).degree ≤ ⌊Real.logb goldenRatio (GetSize h : ℝ)⌋ ∧
    ∃ D : List Nat, D.Nodup ∧ x ∈ D ∧ (∀ y, y ∈ D → InForest w.mem h y ∧ Below w.mem x y) ∧
      Nat.fib ((w.mem.get x).degree.toNat + 2) ≤ D.length ∧ D.length ≤ GetSize h := by
  obtain ⟨g, S, hF, hH, hS⟩ := hR.forest hi
  have hs := hF.trees.shape
  have hxS := (hS x).mpr hx
  obtain ⟨D, hD1, hD2, hD3, hD4⟩ :=
    subtree_fib hs hF.trees.thin (g.rk x + 1) x hxS (Nat.lt_succ_self _)
  have hDS : D.length ≤ GetSize h := by
    have : D.length ≤ S.length :=
      (List.subperm_of_subset hD1 (fun y hy => (hD3 y hy).1)).length_le
    unfold GetSize
    rw [hH.size]
    exact this
  have hdeg := hs.degree x hxS
  refine ⟨?_, D, hD1, hD2, fun y hy => ⟨(hS y).mp (hD3 y hy).1, (hD3 y hy).2⟩, ?_, hDS⟩
  · rw [Int.le_floor, hdeg, Int.cast_natCast]
    have hpos : (0 : ℝ) < (GetSize h : ℝ) := by
      have : 0 < D.length := List.length_pos_of_mem hD2
      exact_mod_cast lt_of_lt_of_le this hDS
    rw [Real.le_logb_iff_rpow_le one_lt_gold hpos, Real.rpow_natCast]
    have h1 := (gold_pow_le_fib (g.kids x).length).1
    have h2 : (Nat.fib ((g.kids x).length + 2) : ℝ) ≤ (GetSize h : ℝ) := by
      exact_mod_cast le_trans hD4 hDS
    linarith
  · rw [hdeg, Int.toNat_ofNat]
    exact hD4

theorem degree_log_bound_witness :
    Reach thinTree thinWorld ∧ thinWorld.heaps[0]? = some thinHeap ∧
    InForest thinWorld.mem thinHeap 1 ∧
    (thinWorld.mem.get 1).degree ≤ ⌊Real.logb goldenRatio (GetSize thinHeap : ℝ)⌋ ∧
    ∃ D : List Nat, D.Nodup ∧ 1 ∈ D ∧
      (∀ y, y ∈ D → InForest thinWorld.mem thinHeap y ∧ Below thinWorld.mem 1 y) ∧
      Nat.fib ((thinWorld.mem.get 1).degree.toNat + 2) ≤ D.length ∧
      D.length ≤ GetSize thinHeap :=
  ⟨thin_reach, thin_heap, InForest.min rfl,
    degree_log_bound thinTree thinWorld 0 thinHeap 1 thin_reach thin_heap (InForest.min rfl)⟩

theorem thin_leaf : InForest thinWorld.mem thinHeap 22 :=
  nodesOf_sound (by set_option maxRecDepth 100000 in decide!)

/-- C19: on a reachable heap, `DecreaseKey` through a valid handle to a node `x` with a
new key that is not greater returns normally (the cascading cut terminates).  If `x` has a
parent `y` and the new key is below the key of `y`, then `x` and the consecutively marked
non-root nodes met when walking up from `y` (the list `markedRun`) become unmarked nodes
without parent that are still in the forest, every former parent of one of them loses one
from its degree, the node at which the walk stops (`runStop`) is a root or was unmarked,
and in the second case it becomes marked; no other parent, mark or degree changes.  If `x`
is a root or the new key is at least the key of its parent, only the key of `x` changes. -/
theorem DecreaseKey_cascade (cs : List Call) (w : World) (i : Nat) (h : FHeap) (x : Nat)
    (newKey : Int) (hR : Reach cs w) (hi : w.heaps[i]? = some h)
    (hx : InForest w.mem h x) (hle : newKey ≤ (w.mem.get x).key) :
    ∃ m' h', DecreaseKey w.mem h { ptr_ := some x } newKey = .ok (m', h') () ∧
      (∀ y, (w.mem.get x).parent = some y → newKey < (w.mem.get y).key →
        (∀ c, c ∈ markedRun w.mem w.mem.length y →
          (w.mem.get c).mark = true ∧ (w.mem.get c).parent ≠ none) ∧
        (∀ c, c ∈ x :: markedRun w.mem w.mem.length y →
          InForest m' h' c ∧ (m'.get c).parent = none ∧ (m'.get c).mark = false) ∧
        (∀ c z, c ∈ x :: markedRun w.mem w.mem.length y → (w.mem.get c).parent = some z →
          (m'.get z).degree = (w.mem.get z).degree - 1) ∧
        ((w.mem.get (runStop w.mem w.mem.length y)).parent ≠ none →
          (w.mem.get (runStop w.mem w.mem.length y)).mark = false ∧
          (m'.get (runStop w.mem w.mem.length y)).mark = true ∧
          (m'.get (runStop w.mem w.mem.length y)).parent =
            (w.mem.get (runStop w.mem w.mem.length y)).parent) ∧
        (∀ z, z ∉ x :: markedRun w.mem w.mem.length y →
          (m'.get z).parent = (w.mem.get z).parent) ∧
        (∀ z, z ∉ x :: markedRun w.mem w.mem.length y →
          (z ≠ runStop w.mem w.mem.length y ∨ (w.mem.get z).parent = none) →
          (m'.get z).mark = (w.mem.get z).mark) ∧
        (∀ z, (∀ c, c ∈ x :: markedRun w.mem w.mem.length y →
            (w.mem.get c).parent ≠ some z) → (m'.get z).degree = (w.mem.get z).degree)) ∧
      (((w.mem.get x).parent = none ∨
          ∃ y, (w.mem.get x).parent = some y ∧ (w.mem.get y).key ≤ newKey) →
        ∀ z, m'.get z = if z = x then { w.mem.get x with key := newKey } else w.mem.get z) := by
  obtain ⟨g, S, hF, hH, hS⟩ := hR.forest hi
  have hs := hF.trees.shape
  have hxS := (hS x).mpr hx
  obtain ⟨m', h', g', e, hF', hH', -, -, -, -, -, -, hA, hB⟩ := DecreaseKey_full hF hH hxS hle
  have hS' : ∀ z, z ∈ S ↔ InForest m' h' z := (Inv.owns hF' hH').2
  refine ⟨m', h', e, ?_, hB⟩
  intro y hy hlt
  obtain ⟨hp, hm, hd1, hd2, hstop⟩ := hA y hy hlt
  have hyS : y ∈ S := hs.parent_mem x hxS y hy
  have hrun := (markedRun_facts hs w.mem.length y hyS).1
  have hCS : ∀ c, c ∈ x :: markedRun w.mem w.mem.length y → c ∈ S := by
    intro c hc
    rcases List.mem_cons.mp hc with h | h
    · rw [h]; exact hxS
    · exact (hrun c h).1
  refine ⟨fun c hc => ⟨(hrun c hc).2.2.1, (hrun c hc).2.2.2⟩, ?_, fun c z hc hz => hd1 z c hc hz,
    ?_, ?_, ?_, hd2⟩
  · intro c hc
    exact ⟨(hS' c).mp (hCS c hc), by rw [hp, if_pos hc], by rw [hm, if_pos hc]⟩
  · intro hne
    have hnot : runStop w.mem w.mem.length y ∉ x :: markedRun w.mem w.mem.length y := by
      intro hmem
      rcases List.mem_cons.mp hmem with h1 | h1
      · have h2 := (markedRun_facts hs w.mem.length y hyS).2.2
        have h3 := hs.rk_lt x hxS y hy
        rw [h1] at h2
        omega
      · have := (hrun _ h1).2.2.1
        rw [hstop hne] at this
        cases this
    refine ⟨hstop hne, ?_, ?_⟩
    · rw [hm, if_neg hnot, if_pos ⟨rfl, hne⟩]
    · rw [hp, if_neg hnot]
  · intro z hz
    rw [hp, if_neg hz]
  · intro z hz hz'
    rw [hm, if_neg hz, if_neg]
    rintro ⟨h1, h2⟩
    rcases hz' with h | h
    · exact h h1
    · exact h2 h

theorem DecreaseKey_cascade_witness :
    Reach thinTree thinWorld ∧ thinWorld.heaps[0]? = some thinHeap ∧
    InForest thinWorld.mem thinHeap 22 ∧ (0 : Int) ≤ (thinWorld.mem.get 22).key ∧
    ∃ m' h', DecreaseKey thinWorld.mem thinHeap { ptr_ := some 22 } 0 = .ok (m', h') () ∧
      (∀ y, (thinWorld.mem.get 22).parent = some y → 0 < (thinWorld.mem.get y).key →
        (∀ c, c ∈ markedRun thinWorld.mem thinWorld.mem.length y →
          (thinWorld.mem.get c).mark = true ∧ (thinWorld.mem.get c).parent ≠ none) ∧
        (∀ c, c ∈ 22 :: markedRun thinWorld.mem thinWorld.mem.length y →
          InForest m' h' c ∧ (m'.get c).parent = none ∧ (m'.get c).mark = false) ∧
        (∀ c z, c ∈ 22 :: markedRun thinWorld.mem thinWorld.mem.length y →
          (thinWorld.mem.get c).parent = some z →
          (m'.get z).degree = (thinWorld.mem.get z).degree - 1) ∧
        ((thinWorld.mem.get (runStop thinWorld.mem thinWorld.mem.length y)).parent ≠ none →
          (thinWorld.mem.get (runStop thinWorld.mem thinWorld.mem.length y)).mark = false ∧
          (m'.get (runStop thinWorld.mem thinWorld.mem.length y)).mark = true ∧
          (m'.get (runStop thinWorld.mem thinWorld.mem.length y)).parent =
            (thinWorld.mem.get (runStop thinWorld.mem thinWorld.mem.length y)).parent) ∧
        (∀ z, z ∉ 22 :: markedRun thinWorld.mem thinWorld.mem.length y →
          (m'.get z).parent = (thinWorld.mem.get z).parent) ∧
        (∀ z, z ∉ 22 :: markedRun thinWorld.mem thinWorld.mem.length y →
          (z ≠ runStop thinWorld.mem thinWorld.mem.length y ∨
            (thinWorld.mem.get z).parent = none) →
          (m'.get z).mark = (thinWorld.mem.get z).mark) ∧
        (∀ z, (∀ c, c ∈ 22 :: markedRun thinWorld.mem thinWorld.mem.length y →
            (thinWorld.mem.get c).parent ≠ some z) →
          (m'.get z).degree = (thinWorld.mem.get z).degree)) ∧
      (((thinWorld.mem.get 22).parent = none ∨
          ∃ y, (thinWorld.mem.get 22).parent = some y ∧ (thinWorld.mem.get y).key ≤ 0) →
        ∀ z, m'.get z =
          if z = 22 then { thinWorld.mem.get 22 with key := 0 } else thinWorld.mem.get z) :=
  ⟨thin_reach, thin_heap, thin_leaf, by decide,
    DecreaseKey_cascade thinTree thinWorld 0 thinHeap 22 0 thin_reach thin_heap thin_leaf
      (by decide)⟩

/-- The marked run above the node at address 22 of `thinWorld` consists of the nodes at
addresses 21 and 17, and the walk stops at the root at address 1. -/
theorem thin_run : markedRun thinWorld.mem thinWorld.mem.length 21 = [21, 17] ∧
    runStop thinWorld.mem thinWorld.mem.length 21 = 1 := by
  decide

theorem sample_extract :
    ExtractMin sampleWorld.mem sampleHeap = .ok (sampleAfter.1, sampleAfter.2) 3 := by
  set_option maxRecDepth 100000 in decide!

/-- C18: when `ExtractMin` on a reachable heap returns and leaves the heap non-empty, the
forest is the old forest without the old minimum node `z`, whose key is returned; the
nodes without parent form the root ring, no two of them have the same degree (each came
from its own bucket of the degree table), all are unmarked, and `min_` refers to one of
them whose key is smallest among them. -/
theorem ExtractMin_roots (cs : List Call) (w : World) (i : Nat) (h : FHeap) (m' : Mem)
    (h' : FHeap) (k : Int) (hR : Reach cs w) (hi : w.heaps[i]? = some h)
    (he : ExtractMin w.mem h = .ok (m', h') k) (hne : 0 < GetSize h') :
    ∃ z roots, h.min_ = some z ∧ k = (w.mem.get z).key ∧
      (∀ x, InForest m' h' x ↔ InForest w.mem h x ∧ x ≠ z) ∧
      Ring m' roots ∧
      (∀ x, x ∈ roots ↔ InForest m' h' x ∧ (m'.get x).parent = none) ∧
      (∀ x, x ∈ roots → ∀ y, y ∈ roots → (m'.get x).degree = (m'.get y).degree → x = y) ∧
      (∀ x, x ∈ roots → (m'.get x).mark = false) ∧
      ∃ r, h'.min_ = some r ∧ r ∈ roots ∧ ∀ x, x ∈ roots → (m'.get r).key ≤ (m'.get x).key := by
  obtain ⟨g, S, hF, hH, hS⟩ := hR.forest hi
  have hs := hF.trees.shape
  cases hm : h.min_ with
  | none =>
    rw [(empty_throws w.mem h hm).2] at he
    cases he
  | some z =>
    rcases ExtractMin_full hF hH hm with ⟨m1, h1, g', e, hF', hH', -, -, -, -, -, hdist⟩ | ⟨e, -⟩
    · rw [e] at he
      injection he with he1 he2
      injection he1 with hm1 hh1
      subst hm1
      subst hh1
      have hS' : ∀ x, x ∈ S.erase z ↔ InForest m1 h1 x := (Inv.owns hF' hH').2
      have hs' := hF'.trees.shape
      refine ⟨z, g'.roots, rfl, he2.symm, ?_, hF'.ring, ?_, hdist, hF'.unmarked, ?_⟩
      · intro x
        rw [← hS', ← hS, hs.nodup.mem_erase_iff]
        exact And.comm
      · intro x
        rw [hs'.roots_iff, hS']
      · cases hm' : h1.min_ with
        | none =>
          have := (hH'.size_zero_iff hF').mpr hm'
          unfold GetSize at hne
          omega
        | some r =>
          exact ⟨r, rfl, hH'.min_some r hm'⟩
    · rw [e] at he
      cases he

theorem ExtractMin_roots_witness :
    Reach sampleCalls sampleWorld ∧ sampleWorld.heaps[0]? = some sampleHeap ∧
    ExtractMin sampleWorld.mem sampleHeap = .ok (sampleAfter.1, sampleAfter.2) 3 ∧
    0 < GetSize sampleAfter.2 ∧
    ∃ z roots, sampleHeap.min_ = some z ∧ 3 = (sampleWorld.mem.get z).key ∧
      (∀ x, InForest sampleAfter.1 sampleAfter.2 x ↔
        InForest sampleWorld.mem sampleHeap x ∧ x ≠ z) ∧
      Ring sampleAfter.1 roots ∧
      (∀ x, x ∈ roots ↔
        InForest sampleAfter.1 sampleAfter.2 x ∧ (sampleAfter.1.get x).parent = none) ∧
      (∀ x, x ∈ roots → ∀ y, y ∈ roots →
        (sampleAfter.1.get x).degree = (sampleAfter.1.get y).degree → x = y) ∧
      (∀ x, x ∈ roots → (sampleAfter.1.get x).mark = false) ∧
      ∃ r, sampleAfter.2.min_ = some r ∧ r ∈ roots ∧
        ∀ x, x ∈ roots → (sampleAfter.1.get r).key ≤ (sampleAfter.1.get x).key :=
  ⟨sample_reach, sample_heap, sample_extract, by decide,
    ExtractMin_roots sampleCalls sampleWorld 0 sampleHeap sampleAfter.1 sampleAfter.2 3
      sample_reach sample_heap sample_extract (by decide)⟩

/-- The call `ExtractMin` on a non-empty reachable heap returns, or the first access to the
degree table for some snapshot root is out of range. -/
theorem ExtractMin_table {cs : List Call} {w : World} {i : Nat} {h : FHeap} (hR : Reach cs w)
    (hi : w.heaps[i]? = some h) (hne : 0 < GetSize h) :
    (∃ m' h' k, ExtractMin w.mem h = .ok (m', h') k) ∨
    (ExtractMin w.mem h = .fault .outOfRange ∧
      ∃ x z, h.min_ = some z ∧ InForest w.mem h x ∧ x ≠ z ∧
        ((w.mem.get x).parent = none ∨ (w.mem.get x).parent = some z) ∧
        tget (List.replicate (Nat.log2 (GetSize h) + 2) none) (w.mem.get x).degree =
          .error .outOfRange) := by
  obtain ⟨g, S, hF, hH, hS⟩ := hR.forest hi
  cases hm : h.min_ with
  | none =>
    have := (hH.size_zero_iff hF).mpr hm
    unfold GetSize at hne
    omega
  | some z =>
    rcases ExtractMin_spec hF hH hm with ⟨m', h', g', e, -⟩ | ⟨e, x, hx, hxz, hxp, hxd⟩
    · exact Or.inl ⟨m', h', _, e⟩
    · refine Or.inr ⟨e, x, z, rfl, (hS x).mp hx, hxz, hxp, ?_⟩
      unfold tget GetSize
      rw [if_neg]
      rw [List.length_replicate]
      intro hlt
      have := hlt.2
      omega

/-- C14: on a non-empty reachable heap `ExtractMin` either returns, or the first access
`tree_ptrs[d]` with `d = degree(x)` of a snapshot root `x` (a root other than the minimum,
or a child of the minimum) is outside the table of `floor(log2(size)) + 2` entries.  The
second case occurs: in the world reached by `thinTree` and `DecreaseKey(31, 0)` the heap
has 15 nodes, the table has 5 entries, and the root at address 1 has degree 5. -/
theorem degree_table_overrun :
    (∀ (cs : List Call) (w : World) (i : Nat) (h : FHeap), Reach cs w →
      w.heaps[i]? = some h → 0 < GetSize h →
      (∃ m' h' k, ExtractMin w.mem h = .ok (m', h') k) ∨
      (ExtractMin w.mem h = .fault .outOfRange ∧
        ∃ x z, h.min_ = some z ∧ InForest w.mem h x ∧ x ≠ z ∧
          ((w.mem.get x).parent = none ∨ (w.mem.get x).parent = some z) ∧
          tget (List.replicate (Nat.log2 (GetSize h) + 2) none) (w.mem.get x).degree =
            .error .outOfRange)) ∧
    (Reach (thinTree ++ [Call.decreaseKey 0 31 0]) thinWorldMin ∧
      thinWorldMin.heaps[0]? = some thinHeapMin ∧ GetSize thinHeapMin = 15 ∧
      InForest thinWorldMin.mem thinHeapMin 1 ∧ thinHeapMin.min_ = some 31 ∧
      (thinWorldMin.mem.get 1).parent = none ∧ (thinWorldMin.mem.get 1).degree = 5 ∧
      (List.replicate (Nat.log2 (GetSize thinHeapMin) + 2) (none : Option Nat)).length = 5 ∧
      tget (List.replicate (Nat.log2 (GetSize thinHeapMin) + 2) none)
        (thinWorldMin.mem.get 1).degree = .error .outOfRange ∧
      ExtractMin thinWorldMin.mem thinHeapMin = .fault .outOfRange) := by
  refine ⟨fun _ _ _ _ hR hi hne => ExtractMin_table hR hi hne, thin_min_reach, thin_min_heap,
    rfl, nodesOf_sound (by set_option maxRecDepth 100000 in decide!), rfl, by decide, by decide,
    ?_, ?_, ?_⟩
  · set_option maxRecDepth 100000 in decide!
  · have hd : (thinWorldMin.mem.get 1).degree = ((5 : Nat) : Int) := by decide
    rw [hd]
    exact tget_oor (by set_option maxRecDepth 100000 in decide!)
  · set_option maxRecDepth 100000 in decide!

/-- The call `Erase` through a valid handle on a reachable heap: a node `z` is removed,
which is the node of the handle or a node that held `INT_MIN` before the call. -/
theorem Erase_nodes {cs : List Call} {w : World} {i : Nat} {h : FHeap} {p : Nat}
    (hR : Reach cs w) (hi : w.heaps[i]? = some h) (hp : InForest w.mem h p) :
    (∃ m' h' z, Erase w.mem h { ptr_ := some p } = .ok (m', h') () ∧ InForest w.mem h z ∧
      (∀ x, InForest m' h' x ↔ InForest w.mem h x ∧ x ≠ z) ∧
      (∀ y, y ≠ p → y ≠ z → (m'.get y).key = (w.mem.get y).key) ∧
      (z ≠ p → (m'.get p).key = INT_MIN ∧ (w.mem.get z).key = INT_MIN)) ∨
    Erase w.mem h { ptr_ := some p } = .fault .outOfRange := by
  obtain ⟨g, S, hF, hH, hO, hk⟩ := hR.inv hi
  have hpS := (hO.2 p).mpr hp
  rcases Erase_spec hF hH hpS (fun y hy => (hk y hy).1) with
    ⟨m', h', g', z, e, hzS, hF', hH', -, hkeys, hcol, -⟩ | e
  · left
    have hS' : ∀ x, x ∈ S.erase z ↔ InForest m' h' x := (Inv.owns hF' hH').2
    refine ⟨m', h', z, e, (hO.2 z).mp hzS, ?_, hkeys, hcol⟩
    intro x
    rw [← hS', ← hO.2, hF.trees.shape.nodup.mem_erase_iff]
    exact And.comm
  · exact Or.inr e

theorem collision_after_nodes (x : Nat) (hx : InForest collisionAfter.1 collisionAfter.2 x) :
    x = 1 := by
  induction hx with
  | min h => exact (Option.some.inj h).symm
  | right _ h ih =>
    rw [ih] at h
    exact (Option.some.inj h).symm
  | child _ h ih =>
    rw [ih] at h
    cases h

/-- C15: on a reachable heap `Erase` through a valid handle to the node `p` either removes
one node `z` from the forest and keeps every other node, with unchanged key except for
`p`, or reads the degree table out of range.  The removed node `z` need not be `p`: it can
be another node that already held `INT_MIN`, and then `p` stays in the heap with the key
`INT_MIN`.  This occurs: in a heap with the keys `INT_MIN` (address 0) and 5 (address 1),
`Erase` through the handle of address 1 deletes the node at address 0 and leaves the node
at address 1 in the heap with the key `INT_MIN`. -/
theorem Erase_removes_other_node :
    (∀ (cs : List Call) (w : World) (i : Nat) (h : FHeap) (p : Nat), Reach cs w →
      w.heaps[i]? = some h → InForest w.mem h p →
      (∃ m' h' z, Erase w.mem h { ptr_ := some p } = .ok (m', h') () ∧ InForest w.mem h z ∧
        (∀ x, InForest m' h' x ↔ InForest w.mem h x ∧ x ≠ z) ∧
        (∀ y, y ≠ p → y ≠ z → (m'.get y).key = (w.mem.get y).key) ∧
        (z ≠ p → (m'.get p).key = INT_MIN ∧ (w.mem.get z).key = INT_MIN)) ∨
      Erase w.mem h { ptr_ := some p } = .fault .outOfRange) ∧
    (Reach collisionCalls collisionWorld ∧ collisionWorld.heaps[0]? = some collisionHeap ∧
      InForest collisionWorld.mem collisionHeap 0 ∧
      InForest collisionWorld.mem collisionHeap 1 ∧
      (collisionWorld.mem.get 0).key = INT_MIN ∧ (collisionWorld.mem.get 1).key = 5 ∧
      Erase collisionWorld.mem collisionHeap { ptr_ := some 1 } = .ok collisionAfter () ∧
      InForest collisionAfter.1 collisionAfter.2 1 ∧
      ¬ InForest collisionAfter.1 collisionAfter.2 0 ∧
      isLive collisionAfter.1 (some 0) = false ∧
      (collisionAfter.1.get 1).key = INT_MIN) := by
  refine ⟨fun _ _ _ _ _ hR hi hp => Erase_nodes hR hi hp, collision_reach, collision_heap,
    InForest.min rfl, nodesOf_sound (by decide), by decide, by decide, ?_, InForest.min rfl,
    ?_, by decide, by decide⟩
  · set_option maxRecDepth 100000 in decide!
  · intro h0
    have := collision_after_nodes 0 h0
    omega

/-- The state `tieMem` with the table `[some 1, none]` is a state of the bucket loop of
`consolidate`: the root at address 0 is being processed and bucket 0 holds the root at
address 1. -/
theorem tie_inv : TabInv tieGhost tieMem [0, 1] [some 1, none] [0] := by
  have hpar : ∀ c, c ∈ [0, 1] → (tieMem.get c).parent = none := by decide
  have hno : ∀ c : Nat, ∀ p : Nat, c ∈ [0, 1] → (tieMem.get c).parent ≠ some p := by
    intro c p hc h
    rw [hpar c hc] at h
    cases h
  have hshape : Shape tieGhost tieMem [0, 1] := {
    nodup := by decide
    live := by
      have h : ∀ x, x ∈ [0, 1] → (tieMem.getD x none).isSome = true := by decide
      exact h
    roots_nodup := by decide
    roots_iff := fun x => ⟨fun hx => ⟨hx, hpar x hx⟩, fun hx => hx.1⟩
    kids_ring := fun _ _ => ring_nil _
    kids_iff := fun x _ c =>
      ⟨fun hc => absurd hc (List.not_mem_nil _), fun hc => absurd hc.2 (hno c x hc.1)⟩
    parent_mem := fun c hc p hp => absurd hp (hno c p hc)
    child_none := fun _ _ _ => rfl
    child_some := by decide
    degree := by decide
    rk_lt := fun c hc p hp => absurd hp (hno c p hc)
    rk_le := fun _ _ => le_refl _ }
  have horder : Ordered tieMem [0, 1] := fun c hc p hp => absurd hp (hno c p hc)
  have hbinom : tieGhost.cutFree = true → Binom tieGhost [0, 1] := fun h => by cases h
  have hthin : Thin tieMem [0, 1] none := by
    intro x _
    refine ⟨[], List.nodup_nil, ?_, ?_⟩
    · intro c
      exact ⟨fun hc => absurd hc (List.not_mem_nil _), fun hc => absurd hc.2 (hno c x hc.1)⟩
    · intro j c hj
      simp at hj
  have htab : ∀ d y, [some 1, (none : Option Nat)].getD d none = some y →
      y ∈ tieGhost.roots ∧ y ∉ [0] ∧ (tieGhost.kids y).length = d := by
    intro d y hy
    match d with
    | 0 =>
      have : y = 1 := by simpa using hy.symm
      subst this
      exact ⟨by decide, by decide, rfl⟩
    | 1 => simp at hy
    | d + 2 => simp at hy
  have hcov : ∀ x, x ∈ tieGhost.roots →
      x ∈ [0] ∨ ∃ d, [some 1, (none : Option Nat)].getD d none = some x := by
    intro x hx
    simp only [tieGhost, List.mem_cons, List.mem_singleton, List.not_mem_nil, or_false] at hx
    rcases hx with h | h
    · exact Or.inl (by rw [h]; exact List.mem_singleton.mpr rfl)
    · exact Or.inr ⟨0, by rw [h]; rfl⟩
  have hsub : ∀ x, x ∈ [0] → x ∈ tieGhost.roots := by
    intro x hx
    rw [List.mem_singleton.mp hx]
    decide
  exact ⟨⟨hshape, horder, hbinom, hthin⟩, by decide, htab, hcov, hsub, by decide⟩

/-- C20: a link step of the bucket loop of `consolidate`.  In a state of the loop (table
invariant `TabInv`) in which the root `x` of degree `n` is being processed and bucket `n`
holds the root `y`, the loop runs the link statements with parent `p` and child `c`,
where `p` is `y` and `c` is `x` if the key of `y` is strictly smaller than the key of `x`,
and `p` is `x` and `c` is `y` otherwise (so on equal keys `x` is kept as the parent), and
continues with `p`.  After the link statements `c` has `parent = p` and `mark = false`,
the degree of `p` has grown by one, and the child ring of `p` consists of `c` and the former
children of `p`; no key changes, and no other parent, mark, degree or child pointer
changes.  The loop then returns, and at its exit `c` still has `parent = p`, `mark = false`
and a key not below the key of `p`, and lies in the child ring of `p`, whose length is the
degree of `p`. -/
theorem link_step_parent (fuel : Nat) (g : Ghost) (m : Mem) (S : List Nat)
    (t : List (Option Nat)) (x y n : Nat) (rest : List Nat)
    (hT : TabInv g m S t (x :: rest)) (hx : (g.kids x).length = n) (hn : n < t.length)
    (hy : t.getD n none = some y) (hfuel : t.countP (fun o => o.isSome) < fuel + 1) :
    ∃ p c m1 mf tf xf nf,
      ((m.get x).key ≤ (m.get y).key → p = x ∧ c = y) ∧
      ((m.get y).key < (m.get x).key → p = y ∧ c = x) ∧
      (m.get p).key ≤ (m.get c).key ∧
      link m (some p) (some c) = .ok m1 ∧
      linkLoop (fuel + 1) m t (some x) (n : Int) =
        linkLoop fuel m1 (regrow (t.set n none) ((n : Int) + 1)) (some p) ((n : Int) + 1) ∧
      (m1.get c).parent = some p ∧ (m1.get c).mark = false ∧
      (m1.get p).degree = (m.get p).degree + 1 ∧
      (∃ ka, Ring m1 ka ∧ (∀ z, z ∈ ka ↔ z = c ∨ (z ∈ S ∧ (m.get z).parent = some p)) ∧
        ∃ ch, (m1.get p).child = some ch ∧ ch ∈ ka) ∧
      (∀ z, (m1.get z).key = (m.get z).key) ∧
      (∀ z, z ≠ c → (m1.get z).parent = (m.get z).parent ∧ (m1.get z).mark = (m.get z).mark) ∧
      (∀ z, z ≠ p → (m1.get z).degree = (m.get z).degree ∧
        (m1.get z).child = (m.get z).child) ∧
      linkLoop (fuel + 1) m t (some x) (n : Int) = .ok (mf, tf, some xf, nf) ∧
      (mf.get c).parent = some p ∧ (mf.get c).mark = false ∧
      (mf.get p).key ≤ (mf.get c).key ∧
      (∃ kf, Ring mf kf ∧ c ∈ kf ∧ (∀ z, z ∈ kf ↔ z ∈ S ∧ (mf.get z).parent = some p) ∧
        (mf.get p).degree = (kf.length : Int) ∧ ∃ ch, (mf.get p).child = some ch ∧ ch ∈ kf) := by
  have hs := hT.trees.shape
  obtain ⟨hyR, hyr, -⟩ := hT.tab n y hy
  have hxR : x ∈ g.roots := hT.rest_sub x (List.mem_cons_self _ _)
  have hxy : x ≠ y := fun e => hyr (e ▸ List.mem_cons_self _ _)
  have lx := hs.live x (hs.root_mem hxR)
  have ly := hs.live y (hs.root_mem hyR)
  obtain ⟨t', et, ht1, ht2, -, ht4⟩ := resize_spec hn hy
  have main : ∀ p c, ((p = x ∧ c = y) ∨ (p = y ∧ c = x)) → (m.get p).key ≤ (m.get c).key →
      (if (m.get x).key > (m.get y).key then (some y, some x) else (some x, some y)) =
        (some p, some c) →
      ∃ m1 mf tf xf nf,
      link m (some p) (some c) = .ok m1 ∧
      linkLoop (fuel + 1) m t (some x) (n : Int) =
        linkLoop fuel m1 (regrow (t.set n none) ((n : Int) + 1)) (some p) ((n : Int) + 1) ∧
      (m1.get c).parent = some p ∧ (m1.get c).mark = false ∧
      (m1.get p).degree = (m.get p).degree + 1 ∧
      (∃ ka, Ring m1 ka ∧ (∀ z, z ∈ ka ↔ z = c ∨ (z ∈ S ∧ (m.get z).parent = some p)) ∧
        ∃ ch, (m1.get p).child = some ch ∧ ch ∈ ka) ∧
      (∀ z, (m1.get z).key = (m.get z).key) ∧
      (∀ z, z ≠ c → (m1.get z).parent = (m.get z).parent ∧ (m1.get z).mark = (m.get z).mark) ∧
      (∀ z, z ≠ p → (m1.get z).degree = (m.get z).degree ∧
        (m1.get z).child = (m.get z).child) ∧
      linkLoop (fuel + 1) m t (some x) (n : Int) = .ok (mf, tf, some xf, nf) ∧
      (mf.get c).parent = some p ∧ (mf.get c).mark = false ∧
      (mf.get p).key ≤ (mf.get c).key ∧
      (∃ kf, Ring mf kf ∧ c ∈ kf ∧ (∀ z, z ∈ kf ↔ z ∈ S ∧ (mf.get z).parent = some p) ∧
        (mf.get p).degree = (kf.length : Int) ∧
        ∃ ch, (mf.get p).child = some ch ∧ ch ∈ kf) := by
    intro p c hpc hk hsw
    have hpR : p ∈ g.roots := by rcases hpc with ⟨h, -⟩ | ⟨h, -⟩ <;> rw [h] <;> assumption
    have hcR : c ∈ g.roots := by rcases hpc with ⟨-, h⟩ | ⟨-, h⟩ <;> rw [h] <;> assumption
    have hne : p ≠ c := by
      rcases hpc with ⟨h1, h2⟩ | ⟨h1, h2⟩ <;> rw [h1, h2]
      · exact hxy
      · exact hxy.symm
    have hpS := hs.root_mem hpR
    have hcS := hs.root_mem hcR
    obtain ⟨m1, g1, e1, hT1, hk1, -, -, -, hkey1, -, -, -⟩ := hT.link_step hx hy hpc hk ht1
    obtain ⟨m1', ka, e1', -, -, -, fp, fm, fc, fco, fd, hRk, hkm, -, -⟩ :=
      link_spec hs hpR hcR hne (hT.detached c hcR)
    have hmm : m1' = m1 := by
      rw [e1] at e1'
      injection e1' with h
      exact h.symm
    subst hmm
    obtain ⟨mf, tf, xf, nf, gf, e2, hT2, -, -, -, -, -, -, -, hkey2, -, -, hpm2⟩ :=
      linkLoop_spec fuel hT1 hk1 ht2 (by omega)
    have hstep : linkLoop (fuel + 1) m t (some x) (n : Int) =
        linkLoop fuel m1' (regrow (t.set n none) ((n : Int) + 1)) (some p) ((n : Int) + 1) := by
      simp only [linkLoop, tget_ok hn, hy, ok_bind, reduceCtorEq, if_false, rd_live lx,
        rd_live ly, hsw, e1, tset_ok none hn, regrow]
    have hcp1 : (m1'.get c).parent = some p := by rw [fp, if_pos rfl]
    have hcpf := hpm2 c (by rw [hcp1]; exact Option.some_ne_none p)
    have hsf := hT2.trees.shape
    have hcK : c ∈ gf.kids p := (hsf.kids_iff p hpS c).mpr ⟨hcS, by rw [hcpf.1, hcp1]⟩
    refine ⟨m1', mf, tf, xf, nf, e1, hstep, hcp1, by rw [fm, if_pos rfl],
      by rw [fd, if_pos rfl], ⟨ka, hRk, ?_, fc⟩, hkey1, ?_, ?_, ?_, by rw [hcpf.1, hcp1],
      by rw [hcpf.2, fm, if_pos rfl], by rw [hkey2, hkey2, hkey1, hkey1]; exact hk,
      ⟨gf.kids p, hsf.kids_ring p hpS, hcK, hsf.kids_iff p hpS, hsf.degree p hpS, ?_⟩⟩
    · intro z
      rw [hkm, hs.kids_iff p hpS]
    · intro z hz
      exact ⟨by rw [fp, if_neg hz], by rw [fm, if_neg hz]⟩
    · intro z hz
      exact ⟨by rw [fd, if_neg hz], fco z hz⟩
    · rw [hstep]
      have e3 : regrow (t.set n none) ((n : Int) + 1) = t' := et
      rw [e3]
      simpa using e2
    · cases hch : (mf.get p).child with
      | none =>
        have := hsf.child_none p hpS hch
        rw [this] at hcK
        cases hcK
      | some ch => exact ⟨ch, rfl, hsf.child_some p hpS ch hch⟩
  by_cases hgt : (m.get x).key > (m.get y).key
  · obtain ⟨m1, mf, tf, xf, nf, h⟩ := main y x (Or.inr ⟨rfl, rfl⟩) (le_of_lt hgt)
      (by rw [if_pos hgt])
    exact ⟨y, x, m1, mf, tf, xf, nf, fun hle => absurd hgt (not_lt.mpr hle),
      fun _ => ⟨rfl, rfl⟩, le_of_lt hgt, h⟩
  · obtain ⟨m1, mf, tf, xf, nf, h⟩ := main x y (Or.inl ⟨rfl, rfl⟩) (not_lt.mp hgt)
      (by rw [if_neg hgt])
    exact ⟨x, y, m1, mf, tf, xf, nf, fun _ => ⟨rfl, rfl⟩, fun hlt => absurd hlt hgt,
      not_lt.mp hgt, h⟩

theorem link_step_parent_witness :
    TabInv tieGhost tieMem [0, 1] [some 1, none] [0] ∧ (tieGhost.kids 0).length = 0 ∧
    0 < [some 1, (none : Option Nat)].length ∧
    [some 1, (none : Option Nat)].getD 0 none = some 1 ∧
    [some 1, (none : Option Nat)].countP (fun o => o.isSome) < 1 + 1 ∧
    ∃ p c m1 mf tf xf nf,
      ((tieMem.get 0).key ≤ (tieMem.get 1).key → p = 0 ∧ c = 1) ∧
      ((tieMem.get 1).key < (tieMem.get 0).key → p = 1 ∧ c = 0) ∧
      (tieMem.get p).key ≤ (tieMem.get c).key ∧
      link tieMem (some p) (some c) = .ok m1 ∧
      linkLoop (1 + 1) tieMem [some 1, none] (some 0) ((0 : Nat) : Int) =
        linkLoop 1 m1 (regrow ([some 1, none].set 0 none) (((0 : Nat) : Int) + 1)) (some p)
          (((0 : Nat) : Int) + 1) ∧
      (m1.get c).parent = some p ∧ (m1.get c).mark = false ∧
      (m1.get p).degree = (tieMem.get p).degree + 1 ∧
      (∃ ka, Ring m1 ka ∧
        (∀ z, z ∈ ka ↔ z = c ∨ (z ∈ [0, 1] ∧ (tieMem.get z).parent = some p)) ∧
        ∃ ch, (m1.get p).child = some ch ∧ ch ∈ ka) ∧
      (∀ z, (m1.get z).key = (tieMem.get z).key) ∧
      (∀ z, z ≠ c → (m1.get z).parent = (tieMem.get z).parent ∧
        (m1.get z).mark = (tieMem.get z).mark) ∧
      (∀ z, z ≠ p → (m1.get z).degree = (tieMem.get z).degree ∧
        (m1.get z).child = (tieMem.get z).child) ∧
      linkLoop (1 + 1) tieMem [some 1, none] (some 0) ((0 : Nat) : Int) =
        .ok (mf, tf, some xf, nf) ∧
      (mf.get c).parent = some p ∧ (mf.get c).mark = false ∧
      (mf.get p).key ≤ (mf.get c).key ∧
      (∃ kf, Ring mf kf ∧ c ∈ kf ∧
        (∀ z, z ∈ kf ↔ z ∈ [0, 1] ∧ (mf.get z).parent = some p) ∧
        (mf.get p).degree = (kf.length : Int) ∧
        ∃ ch, (mf.get p).child = some ch ∧ ch ∈ kf) :=
  ⟨tie_inv, rfl, by decide, rfl, by decide,
    link_step_parent 1 tieGhost tieMem [0, 1] [some 1, none] 0 1 0 [] tie_inv rfl (by decide)
      rfl (by decide)⟩

end fhp
